import Mathlib

/-!
# Broadcasting element-wise operators of `dynet/nodes-arith-cwise.cc`

A shallow embedding of the shape inference (`dim_forward`) and of the forward
evaluation (`forward_dev_impl`) of the nodes `CwiseSum`, `CwiseMultiply`,
`CwiseQuotient` and `Pow`, followed by theorems about them.

Conventions.
* Extents, ranks and loop counters are `unsigned int` in the source; the shape
  code only compares them and takes `min` and `max`, so they are `Nat` here.
* `DYNET_ARG_CHECK` throws `std::invalid_argument`; a function that may throw
  returns `Except DynetError _`.
* Tensor elements are `float` in the source; the element type is a parameter
  `α` with the element operation passed explicitly, so element arithmetic is
  exact.
-/

namespace Dynet

/-! ## Shapes -/

/-- Modelled from the spec: the shape descriptor `Dim` (declared in
`dynet/dim.h`, which is not among the sources): an ordered sequence of
feature-axis extents `d[0..nd-1]` plus a separate batch extent `bd`. It is a
pure value type; the rank `nd` is the length of `d`. -/
structure Dim where
  d : List Nat
  bd : Nat
  deriving DecidableEq, Repr, Inhabited

/-- Modelled from the spec: the rank accessor `nd` of the shape descriptor. -/
def Dim.nd (x : Dim) : Nat := x.d.length

/-- Modelled from the spec: the per-axis extent accessor `Dim::operator[]`
(used in the source as `xs[0]->d[i]`): the extent of axis `i`, an axis the
shape does not have being read as extent 1 (the rank-extension case). -/
def Dim.get (x : Dim) (i : Nat) : Nat := x.d.getD i 1

/-- Modelled from the spec: the size query `Dim::batch_size()`, the number of
elements of one batch slice, `Π d[i]`. -/
def Dim.batch_size (x : Dim) : Nat := x.d.prod

/-- Modelled from the spec: the size query `Dim::size()`, the number of
elements the tensor holds, `bd × Π d[i]`. -/
def Dim.size (x : Dim) : Nat := x.batch_size * x.bd

/-- Modelled from the spec: the constructor `Dim(const std::vector<long>&,
unsigned)` used at the end of `dim_forward`: the shape with the given feature
extents and batch extent. -/
def Dim.ofVector (dims : List Nat) (b : Nat) : Dim := ⟨dims, b⟩

/-- Modelled from the spec: `Dim::truncate()` (declared in `dynet/dim.h`, not
among the sources, and not described by the specification beyond its use in
`Pow`): modelled by its name, the shape with its trailing feature axes of
extent 1 dropped, at least one axis being kept (a shape of rank 0 becomes
rank 1 with extent 1). The batch extent is untouched. -/
def Dim.truncate (x : Dim) : Dim :=
  let r := (x.d.reverse.dropWhile (fun e => e == 1)).reverse
  ⟨if r.isEmpty then [x.get 0] else r, x.bd⟩

/-- Modelled from the spec: `Dim::single_batch()` (declared in `dynet/dim.h`,
not among the sources): modelled by its name, the same feature extents with
the batch extent set to 1. -/
def Dim.single_batch (x : Dim) : Dim := ⟨x.d, 1⟩

/-! ## Errors -/

/-- The exception raised by a failed `DYNET_ARG_CHECK`: `std::invalid_argument`
carrying the (static part of the) message of the check. -/
inductive DynetError where
  | invalid_argument (msg : String)
  deriving DecidableEq, Repr

/-- Modelled from the spec: the macro `DYNET_ARG_CHECK(cond, msg)` (from
`dynet/except.h`, not among the sources): a violated check is a fatal error
raised immediately. -/
def DYNET_ARG_CHECK (cond : Bool) (msg : String) : Except DynetError Unit :=
  if cond then .ok () else .error (.invalid_argument msg)

/-- An `Except` value is an acceptance when it is `.ok _`. -/
def Accepted {ε β : Type} : Except ε β → Prop
  | .ok _ => True
  | .error _ => False

instance {ε β : Type} (r : Except ε β) : Decidable (Accepted r) := by
  cases r <;> simp only [Accepted] <;> infer_instance

/-- An `Except` value is an argument error when it is
`.error (invalid_argument _)`. -/
def Rejected {β : Type} : Except DynetError β → Prop
  | .ok _ => False
  | .error (.invalid_argument _) => True

instance {β : Type} (r : Except DynetError β) : Decidable (Rejected r) := by
  rcases r with ⟨_⟩ | _ <;> simp only [Rejected] <;> infer_instance

/-! ## Shape inference -/

/-- The output feature extents built by the second loop of the three
broadcasting `dim_forward`s (lines 27-31, 174-178, 325-329):
`for i < max(nd0, nd1)`, push `max(d0[i], d1[i])` on a shared axis, else the
extent of the operand that has the axis. The raw array reads `xs[k].d[i]` are
in bounds in every branch. -/
def outDims (x0 x1 : Dim) : List Nat :=
  (List.range (max x0.nd x1.nd)).map fun i =>
    if i < min x0.nd x1.nd then max (x0.d.getD i 0) (x1.d.getD i 0)
    else if i < x0.nd then x0.d.getD i 0
    else x1.d.getD i 0

/-- `CwiseSum::dim_forward` (lines 20-34). -/
def CwiseSum.dim_forward (xs : List Dim) : Except DynetError Dim :=
  match xs with
  | [x0, x1] => do
    DYNET_ARG_CHECK
      ((List.range (min x0.nd x1.nd)).all fun i =>
        x0.d.getD i 0 == x1.d.getD i 0 || min (x0.d.getD i 0) (x1.d.getD i 0) == 1)
      "CwiseSum: For each dimension, the dim size needs to match or equal 1."
    DYNET_ARG_CHECK (x0.bd == x1.bd || min x0.bd x1.bd == 1)
      "CwiseSum: batch size must match or equal 1"
    pure (Dim.ofVector (outDims x0 x1) (max x0.bd x1.bd))
  | _ => .error (.invalid_argument "Failed input count check in CwiseSum")

/-- `CwiseMultiply::dim_forward` (lines 167-181). -/
def CwiseMultiply.dim_forward (xs : List Dim) : Except DynetError Dim :=
  match xs with
  | [x0, x1] => do
    DYNET_ARG_CHECK
      ((List.range (min x0.nd x1.nd)).all fun i =>
        x0.d.getD i 0 == x1.d.getD i 0 || min (x0.d.getD i 0) (x1.d.getD i 0) == 1)
      "CwiseMultiply: For each dimension, the dim size needs to match or equal 1."
    DYNET_ARG_CHECK (x0.bd == x1.bd || min x0.bd x1.bd == 1)
      "CwiseMultiply: batch size must match or equal 1"
    pure (Dim.ofVector (outDims x0 x1) (max x0.bd x1.bd))
  | _ => .error (.invalid_argument "Failed input count check in CwiseMultiply")

/-- `CwiseQuotient::dim_forward` (lines 318-332). The message of the per-axis
check is followed in the source by the two printed shapes; only its static
part is kept. -/
def CwiseQuotient.dim_forward (xs : List Dim) : Except DynetError Dim :=
  match xs with
  | [x0, x1] => do
    DYNET_ARG_CHECK
      ((List.range (min x0.nd x1.nd)).all fun i =>
        x0.d.getD i 0 == x1.d.getD i 0 || x1.d.getD i 0 == 1)
      "CwiseQuotient: For each dimension, the dim size needs to match or the right side needs to equal 1, but got dimensions: "
    DYNET_ARG_CHECK (x0.bd == x1.bd || x1.bd == 1)
      "CwiseQuotient: batch size must match or right side must equal 1"
    pure (Dim.ofVector (outDims x0 x1) (max x0.bd x1.bd))
  | _ => .error (.invalid_argument "Failed input count check in CwiseQuotient")

/-- `Pow::dim_forward` (lines 432-437). The message of the second check is
followed in the source by the printed operand shapes; only its static part is
kept. -/
def Pow.dim_forward (xs : List Dim) : Except DynetError Dim :=
  match xs with
  | [x0, x1] => do
    let d := x0.truncate
    DYNET_ARG_CHECK (x1.truncate.single_batch.size == 1)
      "Bad input dimensions in Pow: "
    pure d
  | _ => .error (.invalid_argument "Failed input count check in Pow")

/-! ## The legality rules as propositions -/

/-- The broadcast-legality rule of `CwiseSum` and `CwiseMultiply` on a pair of
shapes, as a proposition. -/
def SumLegal (x0 x1 : Dim) : Prop :=
  (∀ i, i < min x0.nd x1.nd →
      x0.d.getD i 0 = x1.d.getD i 0 ∨ min (x0.d.getD i 0) (x1.d.getD i 0) = 1) ∧
    (x0.bd = x1.bd ∨ min x0.bd x1.bd = 1)

/-- The broadcast-legality rule of `CwiseQuotient` on a pair of shapes, as a
proposition. -/
def QuotientLegal (x0 x1 : Dim) : Prop :=
  (∀ i, i < min x0.nd x1.nd → x0.d.getD i 0 = x1.d.getD i 0 ∨ x1.d.getD i 0 = 1) ∧
    (x0.bd = x1.bd ∨ x1.bd = 1)

/-! ## Tensors and the device execution surface -/

/-- Modelled from the spec: the tensor value `Tensor` (declared in
`dynet/tensor.h`, not among the sources): a shape descriptor bound to a
contiguous buffer. The buffer `v` is a map from element offsets to elements;
only the offsets below `d.size` belong to the tensor. -/
structure Tensor (α : Type) where
  d : Dim
  v : Nat → α

/-- Modelled from the spec: an element-wise expression handed to the device
execution surface (an Eigen tensor expression): its extents, first axis
first, and its coefficient at each linear index. -/
structure Expr (α : Type) where
  dims : List Nat
  coeff : Nat → α

/-- Modelled from the spec: the linear index of a multi-index in a view with
the given extents. The last axis (the batch axis of a batched view) is the
outermost one; among the feature axes the first varies fastest, which is the
default layout of the expression library. The theorems on the fixed-rank view
are stated on multi-indices and do not depend on the order chosen for the
feature axes. -/
def lin : List Nat → List Nat → Nat
  | D :: Ds, j :: js => j + D * lin Ds js
  | _, _ => 0

/-- Modelled from the spec: the multi-index of a linear index in a view with
the given extents (the inverse of `lin`); the coordinate on the last axis is
the remaining quotient. -/
def delin : List Nat → Nat → List Nat
  | [], _ => []
  | [_], k => [k]
  | D :: D' :: Ds, k => (k % D) :: delin (D' :: Ds) (k / D)

/-- Modelled from the spec: the flattened view `tvec()` of a tensor, one axis
of `d.size()` elements. -/
def Tensor.tvec {α : Type} (x : Tensor α) : Expr α := ⟨[x.d.size], x.v⟩

/-- Modelled from the spec: the batch-chunked view `tbvec()` of a tensor, a
matrix with one column of `d.batch_size()` elements per batch slice. -/
def Tensor.tbvec {α : Type} (x : Tensor α) : Expr α := ⟨[x.d.batch_size, x.d.bd], x.v⟩

/-- The extents of the fixed-rank view `tb<4>()`: four feature axes, an axis
the shape does not have being given extent 1, then the batch axis. -/
def Dim.tb4 (x : Dim) : List Nat := [x.get 0, x.get 1, x.get 2, x.get 3, x.bd]

/-- Modelled from the spec: the fixed-rank broadcastable view `tb<4>()` of a
tensor (four feature axes plus batch). -/
def Tensor.tb4 {α : Type} (x : Tensor α) : Expr α := ⟨x.d.tb4, x.v⟩

/-- The element of a tensor at a multi-index `[j0, j1, j2, j3, b]` of its
`tb<4>()` view. -/
def Tensor.at4 {α : Type} (x : Tensor α) (j : List Nat) : α := x.v (lin x.d.tb4 j)

/-- Modelled from the spec: the expression `e.broadcast(bcast)`, which
replicates `e` `bcast[i]` times along each axis `i`: its extent on axis `i` is
`e.dims[i] * bcast[i]`, and its coefficient at a multi-index is the
coefficient of `e` at that multi-index reduced modulo the extents of `e`. -/
def Expr.broadcast {α : Type} (e : Expr α) (bcast : List Nat) : Expr α :=
  let out := List.zipWith (fun a b => a * b) e.dims bcast
  ⟨out, fun k => e.coeff (lin e.dims (List.zipWith (fun j a => j % a) (delin out k) e.dims))⟩

/-- Modelled from the spec: the element-wise binary expression `a op b`; it
has the extents of its left operand and combines the coefficients of equal
linear index. -/
def Expr.cwise {α : Type} (op : α → α → α) (a b : Expr α) : Expr α :=
  ⟨a.dims, fun k => op (a.coeff k) (b.coeff k)⟩

/-- Modelled from the spec: the column `chip<1>(b)` of a two-axis expression,
the batch slice `b` of a batch-chunked view. -/
def Expr.chip1 {α : Type} (e : Expr α) (b : Nat) : Expr α :=
  ⟨[e.dims.getD 0 1], fun k => e.coeff (k + e.dims.getD 0 1 * b)⟩

/-- Modelled from the spec: "compute the element-wise expression `e` into the
buffer" of `fx`, starting at element offset `off` (offset 0 for a whole view,
`batch_size * b` for the batch slice `b`): the `e.dims.prod` elements from
`off` on receive the coefficients of `e`; every other element is unchanged. -/
def Tensor.assign {α : Type} (fx : Tensor α) (off : Nat) (e : Expr α) : Tensor α :=
  ⟨fx.d, fun k => if off ≤ k ∧ k < off + e.dims.prod then e.coeff (k - off) else fx.v k⟩

/-! ## Forward evaluation of `CwiseSum` and `CwiseMultiply` -/

/-- The scan `for(i = 0; i < fx.d.nd && xs[0]->d[i] == xs[1]->d[i]; ++i);`
(lines 53, 199), started at `i` with `n` axes left below `fx.d.nd`: the index
at which it stops. -/
def scanEqual (x0 x1 : Dim) : Nat → Nat → Nat
  | 0, i => i
  | n + 1, i => if x0.get i == x1.get i then scanEqual x0 x1 n (i + 1) else i

/-- The local state of the broadcasting branch (lines 70-71, 216-217): the
two replication-factor arrays and the two flags. -/
structure BcastState where
  bcast_left : List Nat
  bcast_right : List Nat
  has_left : Bool
  has_right : Bool
  deriving DecidableEq, Repr

/-- The initial state `bcast_left = bcast_right = {1,1,1,1,1}`,
`has_left = has_right = false`. -/
def BcastState.init : BcastState := ⟨[1, 1, 1, 1, 1], [1, 1, 1, 1, 1], false, false⟩

/-- One iteration of the loop of lines 72-80 (218-226) at feature axis `i`. -/
def bcastStep (x0 x1 : Dim) (s : BcastState) (i : Nat) : BcastState :=
  if x0.get i > x1.get i then
    { s with has_right := true, bcast_right := s.bcast_right.set i (x0.get i) }
  else if x0.get i < x1.get i then
    { s with has_left := true, bcast_left := s.bcast_left.set i (x1.get i) }
  else s

/-- The batch step of lines 81-87 (227-233), writing entry 4. -/
def bcastBatch (x0 x1 : Dim) (s : BcastState) : BcastState :=
  if x0.bd > x1.bd then
    { s with has_right := true, bcast_right := s.bcast_right.set 4 x0.bd }
  else if x0.bd < x1.bd then
    { s with has_left := true, bcast_left := s.bcast_left.set 4 x1.bd }
  else s

/-- The state after the loop `for(; i < fx.d.nd; ++i)` started at `i` and the
batch step. -/
def bcastFactors (x0 x1 : Dim) (i nd : Nat) : BcastState :=
  bcastBatch x0 x1 ((List.range' i (nd - i)).foldl (bcastStep x0 x1) BcastState.init)

/-- The common body of `CwiseSum::forward_dev_impl` (lines 49-96) and
`CwiseMultiply::forward_dev_impl` (lines 195-242), which differ only in the
element operation `op` (`+` or `*`). `xs[0]`, `xs[1]` are `x0`, `x1` (the
assertion `xs.size() == 2` fixes the arity); `cuda` tells whether the
`__CUDACC__` variant of the batch-only branch is compiled. The result is `fx`
after the call. -/
def cwise_forward_dev_impl {α : Type} (op : α → α → α) (cuda : Bool)
    (x0 x1 fx : Tensor α) : Tensor α :=
  let i := scanEqual x0.d x1.d fx.d.nd 0
  if i == fx.d.nd then
    if x0.d.bd == x1.d.bd then
      fx.assign 0 (Expr.cwise op x0.tvec x1.tvec)
    else
      let greater := if x0.d.bd > x1.d.bd then x0 else x1
      let other := if x0.d.bd > x1.d.bd then x1 else x0
      if cuda then
        fx.assign 0 (Expr.cwise op (other.tbvec.broadcast [1, greater.d.bd]) greater.tbvec)
      else
        (List.range fx.d.bd).foldl
          (fun fx b =>
            fx.assign (fx.d.batch_size * b)
              (Expr.cwise op other.tvec (greater.tbvec.chip1 b)))
          fx
  else
    let s := bcastFactors x0.d x1.d i fx.d.nd
    if s.has_right && s.has_left then
      fx.assign 0
        (Expr.cwise op (x0.tb4.broadcast s.bcast_left) (x1.tb4.broadcast s.bcast_right))
    else if s.has_right then
      fx.assign 0 (Expr.cwise op x0.tb4 (x1.tb4.broadcast s.bcast_right))
    else
      fx.assign 0 (Expr.cwise op (x0.tb4.broadcast s.bcast_left) x1.tb4)

/-- `CwiseSum::forward_dev_impl` (lines 49-96). -/
def CwiseSum.forward_dev_impl {α : Type} [Add α] (cuda : Bool) (x0 x1 fx : Tensor α) :
    Tensor α :=
  cwise_forward_dev_impl (fun a b => a + b) cuda x0 x1 fx

/-- `CwiseMultiply::forward_dev_impl` (lines 195-242). -/
def CwiseMultiply.forward_dev_impl {α : Type} [Mul α] (cuda : Bool) (x0 x1 fx : Tensor α) :
    Tensor α :=
  cwise_forward_dev_impl (fun a b => a * b) cuda x0 x1 fx

/-- The coordinate at which an operand of extent `a` is read on an axis where
the output has extent `f` and the output coordinate is `j`: 0 where the
operand has extent 1 and the output a larger extent, else `j`. -/
def bcoord (a f j : Nat) : Nat := if a = 1 ∧ 1 < f then 0 else j

/-- The multi-index at which an operand of shape `x` is read for the output
multi-index `[j0, j1, j2, j3, b]` of an output of shape `out`. -/
def bindex (x out : Dim) (j0 j1 j2 j3 b : Nat) : List Nat :=
  [bcoord (x.get 0) (out.get 0) j0, bcoord (x.get 1) (out.get 1) j1,
    bcoord (x.get 2) (out.get 2) j2, bcoord (x.get 3) (out.get 3) j3,
    bcoord x.bd out.bd b]


/-! ## Concrete tensors used as test inputs -/

/-- A tensor of shape `[3]`, batch 1, with elements 10, 20, 30. -/
def exVec3 : Tensor Int := ⟨⟨[3], 1⟩, fun k => 10 * (k + 1)⟩

/-- A tensor of shape `[3]`, batch 4, with elements 1, 2, ..., 12. -/
def exVec3Batch4 : Tensor Int := ⟨⟨[3], 4⟩, fun k => k + 1⟩

/-- An output buffer of shape `[3]`, batch 4, holding zeros. -/
def exOut3Batch4 : Tensor Int := ⟨⟨[3], 4⟩, fun _ => 0⟩

/-- A tensor of shape `[3,1]`, batch 2, with elements 10, 20, ..., 60. -/
def exCol : Tensor Int := ⟨⟨[3, 1], 2⟩, fun k => 10 * (k + 1)⟩

/-- A tensor of shape `[1,4]`, batch 1, with elements 1, 2, 3, 4. -/
def exRow : Tensor Int := ⟨⟨[1, 4], 1⟩, fun k => k + 1⟩

/-- An output buffer of shape `[3,4]`, batch 2, holding zeros. -/
def exOutMat : Tensor Int := ⟨⟨[3, 4], 2⟩, fun _ => 0⟩

/-! ## Reductions, reshaping and accumulation -/

/-- Modelled from the spec: the unary element-wise expression `e.unaryExpr(f)`
(`square()`, `pow(c)`, `log()`): same extents, `f` applied to every
coefficient. -/
def Expr.map {α : Type} (f : α → α) (e : Expr α) : Expr α := ⟨e.dims, fun k => f (e.coeff k)⟩

/-- Modelled from the spec: the reshaped expression `e.reshape(morph)`: the
given extents over the same coefficients in the same linear order. -/
def Expr.reshape {α : Type} (e : Expr α) (morph : List Nat) : Expr α := ⟨morph, e.coeff⟩

/-- The reduction flags of an axis-reduction over `n` axes: axis `i` is
reduced when it occurs in `red_axis`. -/
def redMask (n : Nat) (red_axis : List Nat) : List Bool :=
  (List.range n).map fun i => red_axis.contains i

/-- The entries of a list at the axes that are not reduced, in order. -/
def keepAxes : List Bool → List Nat → List Nat
  | m :: ms, x :: xs => if m then keepAxes ms xs else x :: keepAxes ms xs
  | _, _ => []

/-- The sum of `f` over all coordinates of the reduced axes (axis `i` ranging
over its extent `D[i]`), the coordinates of the other axes being taken, in
order, from `kept`. -/
def sumOver {α : Type} [Add α] [Zero α] :
    List Nat → List Bool → (List Nat → α) → List Nat → α
  | d :: D, m :: ms, f, kept =>
    if m then ((List.range d).map fun j => sumOver D ms (fun js => f (j :: js)) kept).sum
    else sumOver D ms (fun js => f (kept.headD 0 :: js)) kept.tail
  | _, _, f, _ => f []

/-- Modelled from the spec: the axis-reduction `e.sum(red_axis)`: the reduced
axes disappear from the extents, and the coefficient at a multi-index of the
remaining axes is the sum of the coefficients of `e` over all coordinates of
the reduced axes. -/
def Expr.sum {α : Type} [Add α] [Zero α] (e : Expr α) (red_axis : List Nat) : Expr α :=
  let m := redMask e.dims.length red_axis
  let out := keepAxes m e.dims
  ⟨out, fun k => sumOver e.dims m (fun js => e.coeff (lin e.dims js)) (delin out k)⟩

/-- Modelled from the spec: the full reduction `e.sum()` to a single scalar,
the sum of all coefficients of `e`. -/
def Expr.sumAll {α : Type} [Add α] [Zero α] (e : Expr α) : Expr α :=
  ⟨[], fun _ => ((List.range e.dims.prod).map e.coeff).sum⟩

/-- Modelled from the spec: "accumulate the expression `e` into the buffer"
through a view of `dEdxi` with extents `view` (`view op= e`): each of the
`view.prod` elements of the view is combined with the coefficient of `e` of
the same linear index; every other element is unchanged. -/
def Tensor.accum {α : Type} (op : α → α → α) (dEdxi : Tensor α) (view : List Nat)
    (e : Expr α) : Tensor α :=
  ⟨dEdxi.d, fun k => if k < view.prod then op (dEdxi.v k) (e.coeff k) else dEdxi.v k⟩

/-! ## Assertions and device errors -/

/-- The failures a device implementation may end in: a failed `DYNET_ASSERT`,
a failed `DYNET_ARG_CHECK`, or `DYNET_RUNTIME_ERR`. -/
inductive DevError where
  | assertion_failed (msg : String)
  | arg_check (e : DynetError)
  | runtime_error (msg : String)
  deriving DecidableEq, Repr

/-- Modelled from the spec: the macro `DYNET_ASSERT(cond, msg)` (from
`dynet/except.h`, not among the sources): an internal-consistency assertion.
It is fatal when assertions are compiled in (`asserts`) and a no-op
otherwise. -/
def DYNET_ASSERT (asserts : Bool) (cond : Bool) (msg : String) : Except DevError Unit :=
  if asserts && !cond then .error (.assertion_failed msg) else .ok ()

/-- The operand `xs[i]` of a binary node (`i < 2`). -/
def operand {α : Type} (x0 x1 : Tensor α) (i : Nat) : Tensor α := if i = 0 then x0 else x1

/-! ## The reduction axes of `backward_helper` -/

/-- The array `red_axis` of a `backward_helper<ReductionOrder>` as declared
and initialised: `ReductionOrder` entries, uninitialised (`junk`), the last
one set to 4 when `ReductionOrder > 0`. -/
def redAxisInit (ReductionOrder junk : Nat) : List Nat :=
  if ReductionOrder > 0 then (List.replicate ReductionOrder junk).set (ReductionOrder - 1) 4
  else []

/-- The part of a helper loop `for(di = 0; di < n; di++)` that fills
`red_axis`: `if (cond di) { red_axis[curr_red_axis] = di; curr_red_axis++; }`,
from `curr_red_axis = 0`. The result is the array and the counter. -/
def redAxisLoop (cond : Nat → Bool) (n : Nat) (red_axis : List Nat) : List Nat × Nat :=
  (List.range n).foldl
    (fun s di => if cond di then (s.1.set s.2 di, s.2 + 1) else s) (red_axis, 0)

/-- The part of a helper loop `for(di = 0; di < n; di++)` that fills an array
of five extents: `if (cond di) a[di] = val di;`. -/
def setLoop (n : Nat) (cond : Nat → Bool) (val : Nat → Nat) (a : List Nat) : List Nat :=
  (List.range n).foldl (fun a di => if cond di then a.set di (val di) else a) a

/-! ## Backward of `CwiseSum` -/

/-- `CwiseSum::backward_helper<ReductionOrder>` (lines 135-155). The loop body
updates `red_axis` and `morph` independently, so the loop is written as the
two loops `redAxisLoop` and `setLoop` over the same range. `junk` is the
content of the uninitialised entries of `red_axis`. -/
def CwiseSum.backward_helper {α : Type} [Add α] [Zero α] (ReductionOrder junk : Nat)
    (x0 x1 fx dEdf : Tensor α) (i : Nat) (dEdxi : Tensor α) : Tensor α :=
  let xi := operand x0 x1 i
  let red_axis := (redAxisLoop
    (fun di => (decide (di ≥ xi.d.nd) && decide (fx.d.get di > 1)) || xi.d.get di != fx.d.get di)
    fx.d.nd (redAxisInit ReductionOrder junk)).1
  let morph := setLoop fx.d.nd (fun _ => true) (fun di => xi.d.get di) [1, 1, 1, 1, xi.d.bd]
  dEdxi.accum (fun a b => a + b) dEdxi.d.tb4 ((dEdf.tb4.sum red_axis).reshape morph)

/-- `CwiseSum::backward_dev_impl` (lines 98-132). `asserts` tells whether
`DYNET_ASSERT` is compiled in, `cuda` whether the `__CUDACC__` variant of the
batch-only branch is compiled. The result is `dEdxi` after the call. -/
def CwiseSum.backward_dev_impl {α : Type} [Add α] [Zero α] (asserts cuda : Bool) (junk : Nat)
    (x0 x1 fx dEdf : Tensor α) (i : Nat) (dEdxi : Tensor α) : Except DevError (Tensor α) := do
  DYNET_ASSERT asserts (decide (i < 2)) "Failed dimension check in CwiseSum::backward (+)"
  let xi := operand x0 x1 i
  let n_red := (List.range fx.d.nd).countP fun j => xi.d.get j != fx.d.get j
  if n_red == 0 then
    if dEdxi.d.bd == dEdf.d.bd then
      pure (dEdxi.accum (fun a b => a + b) dEdxi.tvec.dims dEdf.tvec)
    else if cuda then
      pure (dEdxi.accum (fun a b => a + b) dEdxi.tvec.dims (dEdf.tbvec.sum [1]))
    else
      pure ((List.range dEdf.d.bd).foldl
        (fun dEdxi b => dEdxi.accum (fun a b => a + b) dEdxi.tvec.dims (dEdf.tbvec.chip1 b))
        dEdxi)
  else
    let n_red := n_red + (if xi.d.bd != fx.d.bd then 1 else 0)
    DYNET_ASSERT asserts (decide (n_red < 5) && decide (n_red > 0))
      "Unsupported number of reductions check in CwiseSum::backward (+)"
    if n_red == 1 then pure (CwiseSum.backward_helper 1 junk x0 x1 fx dEdf i dEdxi)
    else if n_red == 2 then pure (CwiseSum.backward_helper 2 junk x0 x1 fx dEdf i dEdxi)
    else if n_red == 3 then pure (CwiseSum.backward_helper 3 junk x0 x1 fx dEdf i dEdxi)
    else if n_red == 4 then pure (CwiseSum.backward_helper 4 junk x0 x1 fx dEdf i dEdxi)
    else pure dEdxi

/-- The values a backward call leaves in the first `n` elements of the
destination buffer, or `none` when the call fails. -/
def resultValues {α : Type} (r : Except DevError (Tensor α)) (n : Nat) : Option (List α) :=
  match r with
  | .ok t => some ((List.range n).map t.v)
  | .error _ => none

/-- The scenario-1 operand `A` of shape `[3,1]`. -/
def exA : Tensor Int := ⟨⟨[3, 1], 1⟩, fun k => k + 1⟩

/-- The scenario-1 operand `B` of shape `[1,4]`. -/
def exB : Tensor Int := ⟨⟨[1, 4], 1⟩, fun k => 10 * (k + 1)⟩

/-- The scenario-1 output of shape `[3,4]` (its values are not read by
backward). -/
def exAB : Tensor Int := ⟨⟨[3, 4], 1⟩, fun _ => 0⟩

/-- The scenario-1 downstream gradient: ones over `[3,4]`. -/
def exOnes : Tensor Int := ⟨⟨[3, 4], 1⟩, fun _ => 1⟩

/-- A zero gradient buffer of the given shape. -/
def zeroGrad (d : Dim) : Tensor Int := ⟨d, fun _ => 0⟩

/-! ## Sums over the broadcast axes, as the gradient laws state them -/

/-- The coordinates an output axis contributes to the gradient of an operand
element with coordinate `p` on that axis: all `f` coordinates of the output
when the operand has extent `a = 1` and the output a larger extent `f` (the
axis was broadcast, so it is summed over), else the coordinate `p` alone. -/
def axisRange (a f p : Nat) : List Nat := if a = 1 ∧ 1 < f then List.range f else [p]

/-- The coordinate lists of `axisRange`, axis by axis, for operand extents
`A`, output extents `F` and an operand multi-index `p`. -/
def axisRanges : List Nat → List Nat → List Nat → List (List Nat)
  | a :: A, f :: F, p :: ps => axisRange a f p :: axisRanges A F ps
  | _, _, _ => []

/-- The sum of `g` over all multi-indices whose coordinate on each axis is
taken from the list given for that axis. -/
def boxSum {α : Type} [Add α] [Zero α] : List (List Nat) → (List Nat → α) → α
  | [], g => g []
  | r :: rs, g => (r.map fun j => boxSum rs (fun js => g (j :: js))).sum

/-- The number of the five axes (four feature axes and batch) on which a shape
`x` has extent 1 and the output shape `out` a larger extent. -/
def nBroadcast (x out : Dim) : Nat :=
  (List.zipWith (fun a f => decide (a = 1 ∧ 1 < f)) x.tb4 out.tb4).count true

/-- Relates, axis by axis, operand extents, output extents, reduction flags
and an operand multi-index: a reduced axis has operand extent 1, an output
extent greater than 1 and coordinate 0; a kept axis has equal extents and a
coordinate below the extent. -/
inductive AxisRel : List Nat → List Nat → List Bool → List Nat → Prop where
  | nil : AxisRel [] [] [] []
  | red {A F : List Nat} {m : List Bool} {p : List Nat} (f : Nat) :
      1 < f → AxisRel A F m p → AxisRel (1 :: A) (f :: F) (true :: m) (0 :: p)
  | keep {A F : List Nat} {m : List Bool} {p : List Nat} (f pj : Nat) :
      pj < f → AxisRel A F m p → AxisRel (f :: A) (f :: F) (false :: m) (pj :: p)

/-! ## Backward of `CwiseMultiply` -/

/-- `CwiseMultiply::backward_helper<ReductionOrder>` (lines 283-306). The loop
body updates `red_axis`, `morph` and `bcast_other` independently, so the loop
is written as three loops over the same range. The member `dim` of the node is
the output shape `fx.d`. -/
def CwiseMultiply.backward_helper {α : Type} [Add α] [Zero α] [Mul α]
    (ReductionOrder junk : Nat) (x0 x1 fx dEdf : Tensor α) (i : Nat) (dEdxi : Tensor α) :
    Tensor α :=
  let xi := operand x0 x1 i
  let xo := operand x0 x1 (1 - i)
  let red_axis := (redAxisLoop (fun di => xi.d.get di != fx.d.get di) fx.d.nd
    (redAxisInit ReductionOrder junk)).1
  let morph := setLoop fx.d.nd (fun _ => true) (fun di => xi.d.get di) [1, 1, 1, 1, xi.d.bd]
  let bcast_feat := setLoop fx.d.nd (fun di => xo.d.get di == 1) (fun di => fx.d.get di)
    [1, 1, 1, 1, 1]
  let bcast_other := if xo.d.bd == 1 then bcast_feat.set 4 fx.d.bd else bcast_feat
  dEdxi.accum (fun a b => a + b) dEdxi.d.tb4
    (((Expr.cwise (fun a b => a * b) dEdf.tb4 (xo.tb4.broadcast bcast_other)).sum
      red_axis).reshape morph)

/-- `CwiseMultiply::backward_dev_impl` (lines 244-280). -/
def CwiseMultiply.backward_dev_impl {α : Type} [Add α] [Zero α] [Mul α] (asserts : Bool)
    (junk : Nat) (x0 x1 fx dEdf : Tensor α) (i : Nat) (dEdxi : Tensor α) :
    Except DevError (Tensor α) := do
  DYNET_ASSERT asserts (decide (i < 2))
    "Failed dimension check in CwiseMultiply::backward (cmult)"
  let xi := operand x0 x1 i
  let xo := operand x0 x1 (1 - i)
  let n_red := (if xi.d.bd != fx.d.bd then 1 else 0) +
    (List.range fx.d.nd).countP fun j => xi.d.get j != fx.d.get j
  let must_red := (List.range fx.d.nd).any fun j => x0.d.get j != x1.d.get j
  if !must_red then
    if x0.d.bd == x1.d.bd then
      pure (dEdxi.accum (fun a b => a + b) dEdxi.tvec.dims
        (Expr.cwise (fun a b => a * b) dEdf.tvec xo.tvec))
    else if xo.d.bd == 1 then
      pure (dEdxi.accum (fun a b => a + b) dEdxi.tbvec.dims
        (Expr.cwise (fun a b => a * b) dEdf.tbvec (xo.tbvec.broadcast [1, fx.d.bd])))
    else
      pure (dEdxi.accum (fun a b => a + b) dEdxi.tvec.dims
        ((Expr.cwise (fun a b => a * b) dEdf.tbvec xo.tbvec).sum [1]))
  else
    DYNET_ASSERT asserts (decide (n_red < 5) && decide (n_red > 0))
      "Unsupported number of reductions check in CwiseMultiply::backward (cmult)"
    if n_red == 0 then pure (CwiseMultiply.backward_helper 0 junk x0 x1 fx dEdf i dEdxi)
    else if n_red == 1 then pure (CwiseMultiply.backward_helper 1 junk x0 x1 fx dEdf i dEdxi)
    else if n_red == 2 then pure (CwiseMultiply.backward_helper 2 junk x0 x1 fx dEdf i dEdxi)
    else if n_red == 3 then pure (CwiseMultiply.backward_helper 3 junk x0 x1 fx dEdf i dEdxi)
    else if n_red == 4 then pure (CwiseMultiply.backward_helper 4 junk x0 x1 fx dEdf i dEdxi)
    else pure dEdxi

/-- The multi-index at which an operand of shape `x` is read for the output
multi-index `js` (a list of five coordinates). -/
def bindexOf (x out : Dim) (js : List Nat) : List Nat :=
  bindex x out (js.getD 0 0) (js.getD 1 0) (js.getD 2 0) (js.getD 3 0) (js.getD 4 0)

/-- A scalar operand: shape `[1,1,1,1]`, batch 1, holding 3. -/
def exScalar : Tensor Int := ⟨⟨[1, 1, 1, 1], 1⟩, fun _ => 3⟩

/-- A full operand: shape `[2,2,2,2]`, batch 2, holding ones. -/
def exFull : Tensor Int := ⟨⟨[2, 2, 2, 2], 2⟩, fun _ => 1⟩

/-! ## `CwiseQuotient`: forward, backward and the scratch pool -/

/-- `CwiseQuotient::forward_dev_impl` (lines 337-350) on a numerator `x0`, a
denominator `x1` and the output tensor `fx`; the operand list of the source
has exactly these two entries, so its assertion on the operand count holds.
When the element counts `d.size()` agree the quotient is taken on the plain
`tb<4>()` views; otherwise the denominator is replicated by `bcast`, which
holds the numerator's extent on every axis where the denominator has extent
1. -/
def CwiseQuotient.forward_dev_impl {α : Type} [Div α] (x0 x1 fx : Tensor α) : Tensor α :=
  if x0.d.size == x1.d.size then
    fx.assign 0 (Expr.cwise (fun a b => a / b) x0.tb4 x1.tb4)
  else
    let bcast := setLoop x0.d.nd (fun di => x1.d.get di == 1) (fun di => x0.d.get di)
      [1, 1, 1, 1, 1]
    let bcast := if x1.d.bd == 1 then bcast.set 4 x0.d.bd else bcast
    fx.assign 0 (Expr.cwise (fun a b => a / b) x0.tb4 (x1.tb4.broadcast bcast))

/-- Modelled from the spec: the scratch pool `AlignedMemoryPool` (declared in
`dynet/aligned-mem-pool.h`, not among the sources), "a scratch memory pool
with `allocate(bytes) -> buffer` and `release-all()` operations". Only the
number of bytes in use is kept; the content of a buffer it hands out is
whatever the memory held before. -/
structure AlignedMemoryPool where
  used : Nat
  deriving DecidableEq, Repr

/-- Modelled from the spec: `allocate(bytes)`, which takes `bytes` more bytes
of the pool into use. -/
def AlignedMemoryPool.allocate (p : AlignedMemoryPool) (bytes : Nat) : AlignedMemoryPool :=
  ⟨p.used + bytes⟩

/-- Modelled from the spec: `free()`, which releases the entire pool. -/
def AlignedMemoryPool.free (_p : AlignedMemoryPool) : AlignedMemoryPool := ⟨0⟩

/-- The value of `sizeof(float)`. -/
def sizeof_float : Nat := 4

/-- Lines 414-417 of `CwiseQuotient::backward_helper`, the step that obtains
the square of the denominator: the pool hands out a block by
`allocate(xs1_squared.d.size() * sizeof(float))`, of prior content `buf`; the
tensor `xs1_squared` of the denominator's shape is placed in it and the
square of the denominator is written into it. The result is that tensor and
the pool after the allocation, before `free()` (line 419). -/
def CwiseQuotient.backward_helper_squared {α : Type} [Mul α] (buf : Nat → α) (x1 : Tensor α)
    (scratch_allocator : AlignedMemoryPool) : Tensor α × AlignedMemoryPool :=
  let scratch_allocator := scratch_allocator.allocate (x1.d.size * sizeof_float)
  let xs1_squared : Tensor α := (Tensor.mk x1.d buf).assign 0 (x1.tb4.map fun a => a * a)
  (xs1_squared, scratch_allocator)

/-- `CwiseQuotient::backward_helper<ReductionOrder>` (lines 388-420). The
tensor `fx` of the source is used only to reach the scratch pool of its
device, which is passed here as `scratch_allocator` and returned with the
updated gradient; `buf` is the content of the block the pool hands out before
the square of the denominator is written into it. The three loops of the
source, which run over the same range and write different arrays, are the
folds `redAxisLoop` and `setLoop`; lines 414-417 are the step
`CwiseQuotient.backward_helper_squared`, whose tensor is read by the
expression of line 418 and whose pool is released by line 419. -/
def CwiseQuotient.backward_helper {α : Type} [Add α] [Zero α] [Sub α] [Mul α] [Div α]
    (ReductionOrder junk : Nat) (buf : Nat → α) (x0 x1 dEdf : Tensor α) (i : Nat)
    (dEdxi : Tensor α) (scratch_allocator : AlignedMemoryPool) :
    Tensor α × AlignedMemoryPool :=
  let xi := operand x0 x1 i
  let red_axis := (redAxisLoop (fun di => x0.d.get di != x1.d.get di) x0.d.nd
    (redAxisInit ReductionOrder junk)).1
  let morph := (setLoop x0.d.nd (fun _ => true) (fun di => xi.d.get di) [1, 1, 1, 1, 1]).set 4
    xi.d.bd
  let bcast := setLoop x0.d.nd (fun di => x0.d.get di != x1.d.get di) (fun di => x0.d.get di)
    [1, 1, 1, 1, 1]
  let bcast := if x0.d.bd != x1.d.bd then bcast.set 4 x0.d.bd else bcast
  let squared := CwiseQuotient.backward_helper_squared buf x1 scratch_allocator
  let xs1_squared := squared.1
  let scratch_allocator := squared.2
  let dEdxi := dEdxi.accum (fun a b => a - b) dEdxi.d.tb4
    (((Expr.cwise (fun a b => a * b)
      (Expr.cwise (fun a b => a / b) dEdf.tb4 (xs1_squared.tb4.broadcast bcast))
      x0.tb4).sum red_axis).reshape morph)
  (dEdxi, scratch_allocator.free)

/-- `CwiseQuotient::backward_dev_impl` (lines 352-385). `asserts` tells whether
`DYNET_ASSERT` is compiled in; `scratch_allocator` is the scratch pool of the
device and is returned with the updated gradient. When `n_red` is 5 or more
and the assertion is compiled out, no branch of the dispatch is taken and
`dEdxi` is returned unchanged. -/
def CwiseQuotient.backward_dev_impl {α : Type} [Add α] [Zero α] [Sub α] [Mul α] [Div α]
    (asserts : Bool) (junk : Nat) (buf : Nat → α) (x0 x1 dEdf : Tensor α) (i : Nat)
    (dEdxi : Tensor α) (scratch_allocator : AlignedMemoryPool) :
    Except DevError (Tensor α × AlignedMemoryPool) := do
  DYNET_ASSERT asserts (decide (i < 2)) "Failed dimension check in CwiseQuotient::backward (cdiv)"
  if i == 0 then
    if x0.d.size == x1.d.size then
      pure (dEdxi.accum (fun a b => a + b) dEdxi.d.tb4
        (Expr.cwise (fun a b => a / b) dEdf.tb4 x1.tb4), scratch_allocator)
    else
      let bcast := setLoop x0.d.nd (fun di => x0.d.get di != x1.d.get di)
        (fun di => x0.d.get di) [1, 1, 1, 1, 1]
      let bcast := if x0.d.bd != x1.d.bd then bcast.set 4 x0.d.bd else bcast
      pure (dEdxi.accum (fun a b => a + b) dEdxi.d.tb4
        (Expr.cwise (fun a b => a / b) dEdf.tb4 (x1.tb4.broadcast bcast)), scratch_allocator)
  else
    if x0.d.size == x1.d.size then
      pure (dEdxi.accum (fun a b => a - b) dEdxi.d.tb4
        (Expr.cwise (fun a b => a * b)
          (Expr.cwise (fun a b => a / b) dEdf.tb4 (x1.tb4.map fun a => a * a)) x0.tb4),
        scratch_allocator)
    else
      let n_red := (if x0.d.bd != x1.d.bd then 1 else 0) +
        (List.range x0.d.nd).countP fun di => x0.d.get di != x1.d.get di
      DYNET_ASSERT asserts (decide (n_red < 5))
        "Unsupported number of reductions check in CwiseQuotient::backward (cdiv)"
      if n_red == 0 then
        pure (CwiseQuotient.backward_helper 0 junk buf x0 x1 dEdf i dEdxi scratch_allocator)
      else if n_red == 1 then
        pure (CwiseQuotient.backward_helper 1 junk buf x0 x1 dEdf i dEdxi scratch_allocator)
      else if n_red == 2 then
        pure (CwiseQuotient.backward_helper 2 junk buf x0 x1 dEdf i dEdxi scratch_allocator)
      else if n_red == 3 then
        pure (CwiseQuotient.backward_helper 3 junk buf x0 x1 dEdf i dEdxi scratch_allocator)
      else if n_red == 4 then
        pure (CwiseQuotient.backward_helper 4 junk buf x0 x1 dEdf i dEdxi scratch_allocator)
      else pure (dEdxi, scratch_allocator)

/-- The multi-index at which a denominator of shape `x` is read for the
multi-index `js` of the numerator: the coordinate is 0 on every axis (feature
or batch) where the denominator has extent 1. -/
def zeroWhereOne (x : Dim) (js : List Nat) : List Nat :=
  List.zipWith (fun a j => if a = 1 then 0 else j) x.tb4 js

/-- The first `n` elements of the gradient a backward call returns, or `none`
when the call fails. -/
def gradValues {α β : Type} (r : Except DevError (Tensor α × β)) (n : Nat) : Option (List α) :=
  match r with
  | .ok t => some ((List.range n).map t.1.v)
  | .error _ => none

/-- The numerator `[4, 9]` of the spec's quotient scenario, of shape `[2]`. -/
def exNum : Tensor Rat := ⟨⟨[2], 1⟩, fun k => if k = 0 then 4 else 9⟩

/-- The denominator `[2]` of the spec's quotient scenario, of shape `[1]`. -/
def exDen : Tensor Rat := ⟨⟨[1], 1⟩, fun _ => 2⟩

/-- The gradient `[1, 1]` over shape `[2]`. -/
def exGrad2 : Tensor Rat := ⟨⟨[2], 1⟩, fun _ => 1⟩

/-- A tensor of zeros over the rationals. -/
def zeroRat (d : Dim) : Tensor Rat := ⟨d, fun _ => 0⟩

/-! ## `Pow`: forward and backward -/

/-- Modelled from the spec: `as_scalar` (declared in `dynet/tensor.h`, not
among the sources), which reads the value of a tensor holding a single
element: the exponent is "a true scalar, read once and applied uniformly". -/
def as_scalar {α : Type} (t : Tensor α) : α := t.v 0

/-- Modelled from the spec: the rank-0 view `t<0>()` of a tensor, the single
element at offset 0. -/
def Tensor.t0 {α : Type} (x : Tensor α) : Expr α := ⟨[], x.v⟩

/-- `Pow::forward_dev_impl` (lines 441-445). `pow` is the element-wise power
of the expression library; the check on the operand count is the pattern on
`xs`. -/
def Pow.forward_dev_impl {α : Type} (pow : α → α → α) (xs : List (Tensor α)) (fx : Tensor α) :
    Except DevError (Tensor α) :=
  match xs with
  | [x0, x1] => pure (fx.assign 0 (x0.tvec.map fun a => pow a (as_scalar x1)))
  | _ => .error (.arg_check (.invalid_argument "Failed dimension check in Pow::forward"))

/-- `Pow::backward_dev_impl` (lines 447-466). `pow` and `log` are the
element-wise power and natural logarithm of the expression library; `cuda` and
`eigen_no_malloc` tell whether `__CUDACC__` and `EIGEN_NO_MALLOC` are defined
in the build, in which case the branch for the exponent raises a runtime error
before anything is computed. -/
def Pow.backward_dev_impl {α : Type} [Add α] [Zero α] [Sub α] [Mul α] [One α]
    (pow : α → α → α) (log : α → α) (cuda eigen_no_malloc : Bool)
    (xs : List (Tensor α)) (fx dEdf : Tensor α) (i : Nat) (dEdxi : Tensor α) :
    Except DevError (Tensor α) :=
  match xs with
  | [x0, x1] =>
    let x2 := as_scalar x1
    if i == 0 then
      pure (dEdxi.accum (fun a b => a + b) dEdxi.tvec.dims
        ((Expr.cwise (fun a b => a * b) (x0.tvec.map fun a => pow a (x2 - 1)) dEdf.tvec).map
          fun a => a * x2))
    else if cuda && eigen_no_malloc then
      .error (.runtime_error "CUDA memory allocation in Pow")
    else
      pure (dEdxi.accum (fun a b => a + b) dEdxi.t0.dims
        (Expr.cwise (fun a b => a * b) (Expr.cwise (fun a b => a * b) fx.tvec (x0.tvec.map log))
          dEdf.tvec).sumAll)
  | _ => .error (.arg_check (.invalid_argument "Failed dimension check in Pow::backward"))

/-- The base `[1, 2, 3]` of the spec's power scenario, of shape `[3]`. -/
def exBase {α : Type} [NatCast α] : Tensor α := ⟨⟨[3], 1⟩, fun k => ((k + 1 : Nat) : α)⟩

/-- The exponent 2 of the spec's power scenario, of shape `[1]`. -/
def exTwo {α : Type} [NatCast α] : Tensor α := ⟨⟨[1], 1⟩, fun _ => ((2 : Nat) : α)⟩

/-- The forward output `[1, 4, 9]` of the spec's power scenario. -/
def exSquares {α : Type} [NatCast α] : Tensor α :=
  ⟨⟨[3], 1⟩, fun k => (((k + 1) * (k + 1) : Nat) : α)⟩

/-- A tensor of the given shape holding the natural number `n` everywhere. -/
def constTensor {α : Type} [NatCast α] (d : Dim) (n : Nat) : Tensor α := ⟨d, fun _ => (n : α)⟩

/-! ## Textual rendering -/

/-- `CwiseSum::as_string` (lines 12-18): the first name, then every further
name preceded by `" + "`. Reading `arg_names[0]` of an empty vector is
undefined in the source; the result is `none` then. -/
def CwiseSum.as_string (arg_names : List String) : Option String :=
  match arg_names with
  | [] => none
  | a :: rest => some (rest.foldl (fun s n => s ++ " + " ++ n) a)

/-- `CwiseMultiply::as_string` (lines 161-165); `none` when `arg_names[0]` or
`arg_names[1]` does not exist. -/
def CwiseMultiply.as_string (arg_names : List String) : Option String := do
  let a ← arg_names[0]?
  let b ← arg_names[1]?
  pure (a ++ " \\cdot " ++ b)

/-- `CwiseQuotient::as_string` (lines 312-316); `none` when `arg_names[0]` or
`arg_names[1]` does not exist. -/
def CwiseQuotient.as_string (arg_names : List String) : Option String := do
  let a ← arg_names[0]?
  let b ← arg_names[1]?
  pure (a ++ " / " ++ b)

/-- `Pow::as_string` (lines 426-430); `none` when `arg_names[0]` or
`arg_names[1]` does not exist. -/
def Pow.as_string (arg_names : List String) : Option String := do
  let a ← arg_names[0]?
  let b ← arg_names[1]?
  pure (a ++ " ** " ++ b)

/-! ## Batching signatures -/

/-- Modelled from the spec: the op kinds of the nodes that have a batching
signature here (the enumeration `nt` of `dynet/sig.h`, not among the sources;
only the two kinds these sources name are listed). -/
inductive nt where
  | csum
  | cmult
  deriving DecidableEq, Repr

/-- Modelled from the spec: the batching signature `Sig` of a node (declared
in `dynet/sig.h`, not among the sources), built here from the op kind
alone. -/
structure Sig where
  which : nt
  deriving DecidableEq, Repr

/-- Modelled from the spec: a node of the computation graph, of which only the
cached output shape `dim` is read here. -/
structure Node where
  dim : Dim
  deriving DecidableEq, Repr

/-- Modelled from the spec: the graph container `ComputationGraph` (not among
the sources), of which only the node table `nodes` is read here. -/
structure ComputationGraph where
  nodes : List Node

/-- `CwiseSum::autobatch_sig` (lines 36-40). `args` are the node's operand
indices; the signature map `sm` of type `σ` and its lookup `get_idx`
(declared in `dynet/sig.h`, not among the sources) are parameters: `get_idx`
returns the index assigned to a signature and the map after the lookup. The
comparison of the two shapes is `Dim::operator==`, modelled from the spec as
identity of rank, feature extents and batch extent. The result is `none` when
an operand index does not exist. -/
def CwiseSum.autobatch_sig {σ : Type} (args : List Nat) (cg : ComputationGraph)
    (get_idx : σ → Sig → Nat × σ) (sm : σ) : Option (Nat × σ) := do
  let a0 ← args[0]?
  let a1 ← args[1]?
  let n0 ← cg.nodes[a0]?
  let n1 ← cg.nodes[a1]?
  let s : Sig := ⟨nt.csum⟩
  if n0.dim == n1.dim then pure (get_idx sm s) else pure (0, sm)

/-- `CwiseMultiply::autobatch_sig` (lines 183-187), with the parameters of
`CwiseSum.autobatch_sig`. -/
def CwiseMultiply.autobatch_sig {σ : Type} (args : List Nat) (cg : ComputationGraph)
    (get_idx : σ → Sig → Nat × σ) (sm : σ) : Option (Nat × σ) := do
  let a0 ← args[0]?
  let a1 ← args[1]?
  let n0 ← cg.nodes[a0]?
  let n1 ← cg.nodes[a1]?
  let s : Sig := ⟨nt.cmult⟩
  if n0.dim == n1.dim then pure (get_idx sm s) else pure (0, sm)

/-- A signature map for tests: the list of the signatures seen so far, index 0
being reserved; a signature not yet in the list is appended. -/
def exSigMap (sm : List Sig) (s : Sig) : Nat × List Sig :=
  if sm.contains s then (sm.indexOf s + 1, sm) else (sm.length + 1, sm ++ [s])

/-- A graph for tests with four nodes, of shapes `[3]`, `[3]`, `[3,1]` and
`[5]` with batch 2. -/
def exGraph : ComputationGraph := ⟨[⟨⟨[3], 1⟩⟩, ⟨⟨[3], 1⟩⟩, ⟨⟨[3, 1], 1⟩⟩, ⟨⟨[5], 2⟩⟩]⟩

/-! ## The scratch block of the quotient's backward -/

/-! ## The reduction axes of the helpers, as arrays -/

/-- The reduced axes of an operand of shape `x` against an output of shape
`out`, in increasing order: every feature axis of the output on which the
operand's extent differs from the output's, followed by 4 (the batch axis)
if and only if the batch extents differ. -/
def reducedAxes (x out : Dim) : List Nat :=
  (List.range out.nd).filter (fun j => x.get j != out.get j) ++
    (if x.bd != out.bd then [4] else [])

/-! ## Backward calls on a shared gradient buffer -/

/-- A call of `backward_dev_impl` of one of the four operators with every
argument but the destination buffer `dEdxi` fixed. -/
inductive BackwardCall (α : Type) where
  | ofSum (asserts cuda : Bool) (junk : Nat) (x0 x1 fx dEdf : Tensor α) (i : Nat)
  | ofMultiply (asserts : Bool) (junk : Nat) (x0 x1 fx dEdf : Tensor α) (i : Nat)
  | ofQuotient (asserts : Bool) (junk : Nat) (buf : Nat → α) (x0 x1 dEdf : Tensor α) (i : Nat)
      (scratch_allocator : AlignedMemoryPool)
  | ofPow (pow : α → α → α) (log : α → α) (cuda eigen_no_malloc : Bool) (xs : List (Tensor α))
      (fx dEdf : Tensor α) (i : Nat)

/-- The destination buffer a backward call leaves when run on `dEdxi`, or the
error it ends in. For the quotient the scratch pool returned with the buffer
is dropped. -/
def BackwardCall.run {α : Type} [Add α] [Zero α] [Sub α] [Mul α] [Div α] [One α]
    (c : BackwardCall α) (dEdxi : Tensor α) : Except DevError (Tensor α) :=
  match c with
  | .ofSum asserts cuda junk x0 x1 fx dEdf i =>
    CwiseSum.backward_dev_impl asserts cuda junk x0 x1 fx dEdf i dEdxi
  | .ofMultiply asserts junk x0 x1 fx dEdf i =>
    CwiseMultiply.backward_dev_impl asserts junk x0 x1 fx dEdf i dEdxi
  | .ofQuotient asserts junk buf x0 x1 dEdf i scratch_allocator =>
    (CwiseQuotient.backward_dev_impl asserts junk buf x0 x1 dEdf i dEdxi scratch_allocator).map
      Prod.fst
  | .ofPow pow log cuda eigen_no_malloc xs fx dEdf i =>
    Pow.backward_dev_impl pow log cuda eigen_no_malloc xs fx dEdf i dEdxi

/-- The buffer of the same shape as `t` holding zeros: a gradient buffer
"zero-initialized before any accumulation". -/
def zeroLike {α : Type} [Zero α] (t : Tensor α) : Tensor α := ⟨t.d, fun _ => 0⟩

/-- A gradient buffer of shape `[1]` holding 10. -/
def exBuffer : Tensor Rat := ⟨⟨[1], 1⟩, fun _ => 10⟩

/-- The backward call of the quotient `[4, 9] / [2]` for the denominator, with
the gradient `[1, 1]`. -/
def exQuotientCall : BackwardCall Rat :=
  .ofQuotient true 0 (fun _ => 0) exNum exDen exGrad2 1 ⟨0⟩

/-- The backward call of the sum `[4, 9] + [2]` for the second operand, with
the gradient `[1, 1]`. -/
def exSumCall : BackwardCall Rat := .ofSum true false 0 exNum exDen exNum exGrad2 1

/-! ## The extents of the reduced axes -/

/-- The extents, in the output shape `out`, of the axes on which an operand of
shape `x` is reduced: the output's extent on every feature axis of the output
where the operand's extent differs from it, followed by the output's batch
extent when the batch extents differ. -/
def reducedExtents (x out : Dim) : List Nat :=
  ((List.range out.nd).filter fun j => x.get j != out.get j).map out.get ++
    (if x.bd != out.bd then [out.bd] else [])

/-! # Theorems -/

/-! ## Unfolding lemmas for shape inference -/

theorem sum_dim_forward_pair (x0 x1 : Dim) :
    CwiseSum.dim_forward [x0, x1] =
      if (List.range (min x0.nd x1.nd)).all (fun i =>
          x0.d.getD i 0 == x1.d.getD i 0 || min (x0.d.getD i 0) (x1.d.getD i 0) == 1) = true then
        if (x0.bd == x1.bd || min x0.bd x1.bd == 1) = true then
          .ok (Dim.ofVector (outDims x0 x1) (max x0.bd x1.bd))
        else .error (.invalid_argument "CwiseSum: batch size must match or equal 1")
      else .error (.invalid_argument
        "CwiseSum: For each dimension, the dim size needs to match or equal 1.") := by
  simp only [CwiseSum.dim_forward, DYNET_ARG_CHECK]
  split_ifs <;> rfl

theorem multiply_dim_forward_pair (x0 x1 : Dim) :
    CwiseMultiply.dim_forward [x0, x1] =
      if (List.range (min x0.nd x1.nd)).all (fun i =>
          x0.d.getD i 0 == x1.d.getD i 0 || min (x0.d.getD i 0) (x1.d.getD i 0) == 1) = true then
        if (x0.bd == x1.bd || min x0.bd x1.bd == 1) = true then
          .ok (Dim.ofVector (outDims x0 x1) (max x0.bd x1.bd))
        else .error (.invalid_argument "CwiseMultiply: batch size must match or equal 1")
      else .error (.invalid_argument
        "CwiseMultiply: For each dimension, the dim size needs to match or equal 1.") := by
  simp only [CwiseMultiply.dim_forward, DYNET_ARG_CHECK]
  split_ifs <;> rfl

theorem quotient_dim_forward_pair (x0 x1 : Dim) :
    CwiseQuotient.dim_forward [x0, x1] =
      if (List.range (min x0.nd x1.nd)).all (fun i =>
          x0.d.getD i 0 == x1.d.getD i 0 || x1.d.getD i 0 == 1) = true then
        if (x0.bd == x1.bd || x1.bd == 1) = true then
          .ok (Dim.ofVector (outDims x0 x1) (max x0.bd x1.bd))
        else .error (.invalid_argument
          "CwiseQuotient: batch size must match or right side must equal 1")
      else .error (.invalid_argument
        "CwiseQuotient: For each dimension, the dim size needs to match or the right side needs to equal 1, but got dimensions: ") := by
  simp only [CwiseQuotient.dim_forward, DYNET_ARG_CHECK]
  split_ifs <;> rfl

theorem sumCheck_iff (x0 x1 : Dim) :
    ((List.range (min x0.nd x1.nd)).all (fun i =>
        x0.d.getD i 0 == x1.d.getD i 0 || min (x0.d.getD i 0) (x1.d.getD i 0) == 1) = true ∧
      (x0.bd == x1.bd || min x0.bd x1.bd == 1) = true) ↔ SumLegal x0 x1 := by
  simp [SumLegal, List.all_eq_true]

theorem quotientCheck_iff (x0 x1 : Dim) :
    ((List.range (min x0.nd x1.nd)).all (fun i =>
        x0.d.getD i 0 == x1.d.getD i 0 || x1.d.getD i 0 == 1) = true ∧
      (x0.bd == x1.bd || x1.bd == 1) = true) ↔ QuotientLegal x0 x1 := by
  simp [QuotientLegal, List.all_eq_true]

theorem sum_dim_forward_eq_ok (x0 x1 out : Dim) :
    CwiseSum.dim_forward [x0, x1] = .ok out ↔
      SumLegal x0 x1 ∧ out = Dim.ofVector (outDims x0 x1) (max x0.bd x1.bd) := by
  rw [sum_dim_forward_pair, ← sumCheck_iff]
  split_ifs with h1 h2
  · exact ⟨fun h => ⟨⟨h1, h2⟩, (Except.ok.inj h).symm⟩, fun h => by rw [h.2]⟩
  · exact ⟨fun h => h.elim, fun h => absurd h.1.2 h2⟩
  · exact ⟨fun h => h.elim, fun h => absurd h.1.1 h1⟩

theorem multiply_dim_forward_eq_ok (x0 x1 out : Dim) :
    CwiseMultiply.dim_forward [x0, x1] = .ok out ↔
      SumLegal x0 x1 ∧ out = Dim.ofVector (outDims x0 x1) (max x0.bd x1.bd) := by
  rw [multiply_dim_forward_pair, ← sumCheck_iff]
  split_ifs with h1 h2
  · exact ⟨fun h => ⟨⟨h1, h2⟩, (Except.ok.inj h).symm⟩, fun h => by rw [h.2]⟩
  · exact ⟨fun h => h.elim, fun h => absurd h.1.2 h2⟩
  · exact ⟨fun h => h.elim, fun h => absurd h.1.1 h1⟩

theorem quotient_dim_forward_eq_ok (x0 x1 out : Dim) :
    CwiseQuotient.dim_forward [x0, x1] = .ok out ↔
      QuotientLegal x0 x1 ∧ out = Dim.ofVector (outDims x0 x1) (max x0.bd x1.bd) := by
  rw [quotient_dim_forward_pair, ← quotientCheck_iff]
  split_ifs with h1 h2
  · exact ⟨fun h => ⟨⟨h1, h2⟩, (Except.ok.inj h).symm⟩, fun h => by rw [h.2]⟩
  · exact ⟨fun h => h.elim, fun h => absurd h.1.2 h2⟩
  · exact ⟨fun h => h.elim, fun h => absurd h.1.1 h1⟩

theorem accepted_iff_exists_ok {ε β : Type} (r : Except ε β) :
    Accepted r ↔ ∃ b, r = .ok b := by
  cases r <;> simp [Accepted]

theorem rejected_iff_not_accepted {β : Type} (r : Except DynetError β) :
    Rejected r ↔ ¬ Accepted r := by
  rcases r with ⟨_⟩ | _ <;> simp [Accepted, Rejected]

theorem outDims_length (x0 x1 : Dim) : (outDims x0 x1).length = max x0.nd x1.nd := by
  simp [outDims]

theorem outDims_getD (x0 x1 : Dim) (i : Nat) (h : i < max x0.nd x1.nd) :
    (outDims x0 x1).getD i 0 =
      if i < min x0.nd x1.nd then max (x0.d.getD i 0) (x1.d.getD i 0)
      else if i < x0.nd then x0.d.getD i 0 else x1.d.getD i 0 := by
  simp [outDims, List.getD_eq_getElem?_getD, List.getElem?_map, List.getElem?_range h]

/-! ## Shapes read with `Dim::operator[]` -/

theorem Dim.getD_eq_get (x : Dim) (i : Nat) (h : i < x.nd) : x.d.getD i 0 = x.get i := by
  simp only [Dim.nd] at h
  simp [Dim.get, List.getD_eq_getElem?_getD, List.getElem?_eq_getElem h]

theorem Dim.get_of_le (x : Dim) (i : Nat) (h : x.nd ≤ i) : x.get i = 1 := by
  simp only [Dim.nd] at h
  simp [Dim.get, List.getD_eq_getElem?_getD, List.getElem?_eq_none h]

theorem outDims_get (x0 x1 : Dim) (b i : Nat) :
    (Dim.ofVector (outDims x0 x1) b).get i =
      if i < min x0.nd x1.nd then max (x0.get i) (x1.get i)
      else if i < x0.nd then x0.get i else x1.get i := by
  by_cases hi : i < max x0.nd x1.nd
  · have h1 : (Dim.ofVector (outDims x0 x1) b).get i = (outDims x0 x1).getD i 0 :=
      (Dim.getD_eq_get (Dim.ofVector (outDims x0 x1) b) i
        (by simpa [Dim.nd, Dim.ofVector, outDims_length] using hi)).symm
    rw [h1, outDims_getD x0 x1 i hi]
    by_cases hm : i < min x0.nd x1.nd
    · rw [if_pos hm, if_pos hm, Dim.getD_eq_get x0 i (lt_of_lt_of_le hm (min_le_left _ _)),
        Dim.getD_eq_get x1 i (lt_of_lt_of_le hm (min_le_right _ _))]
    · rw [if_neg hm, if_neg hm]
      by_cases h0 : i < x0.nd
      · rw [if_pos h0, if_pos h0, Dim.getD_eq_get x0 i h0]
      · rw [if_neg h0, if_neg h0]
        have : i < x1.nd := by
          rcases lt_max_iff.mp hi with h | h
          · exact absurd h h0
          · exact h
        rw [Dim.getD_eq_get x1 i this]
  · have hi2 : max x0.nd x1.nd ≤ i := not_lt.mp hi
    have h0 : x0.nd ≤ i := le_trans (le_max_left _ _) hi2
    have h1 : x1.nd ≤ i := le_trans (le_max_right _ _) hi2
    rw [Dim.get_of_le _ i (by simpa [Dim.nd, Dim.ofVector, outDims_length] using hi2),
      if_neg (by omega), if_neg (by omega), Dim.get_of_le x1 i h1]

theorem prod_eq_of_getD_eq (l1 l2 : List Nat) (h : ∀ i, l1.getD i 1 = l2.getD i 1) :
    l1.prod = l2.prod := by
  induction l1 generalizing l2 with
  | nil =>
    induction l2 with
    | nil => rfl
    | cons b t ih =>
      have h0 := h 0
      simp at h0
      have ht : ∀ i, ([] : List Nat).getD i 1 = t.getD i 1 := by
        intro i
        have := h (i + 1)
        simpa using this
      rw [List.prod_cons, ← ih ht, ← h0]; simp
  | cons a t ih =>
    cases l2 with
    | nil =>
      have h0 := h 0
      simp at h0
      have ht : ∀ i, t.getD i 1 = ([] : List Nat).getD i 1 := by
        intro i
        have := h (i + 1)
        simpa using this
      rw [List.prod_cons, ih [] ht, h0]; simp
    | cons b t2 =>
      have h0 := h 0
      simp at h0
      have ht : ∀ i, t.getD i 1 = t2.getD i 1 := by
        intro i
        have := h (i + 1)
        simpa using this
      rw [List.prod_cons, List.prod_cons, ih t2 ht, h0]

theorem Dim.batch_size_eq_of_get_eq (x y : Dim) (h : ∀ i, x.get i = y.get i) :
    x.batch_size = y.batch_size :=
  prod_eq_of_getD_eq x.d y.d h

/-! ## The scan over equal axes -/

theorem scanEqual_all (x0 x1 : Dim) (n i : Nat)
    (h : ∀ t, i ≤ t → t < i + n → x0.get t = x1.get t) : scanEqual x0 x1 n i = i + n := by
  induction n generalizing i with
  | zero => rfl
  | succ n ih =>
    simp only [scanEqual]
    rw [if_pos (by simpa using h i (le_refl i) (by omega)),
      ih (i + 1) (fun t h1 h2 => h t (by omega) (by omega))]
    omega

theorem scanEqual_spec (x0 x1 : Dim) (n i : Nat) :
    i ≤ scanEqual x0 x1 n i ∧ scanEqual x0 x1 n i ≤ i + n ∧
      (∀ t, i ≤ t → t < scanEqual x0 x1 n i → x0.get t = x1.get t) ∧
      (scanEqual x0 x1 n i < i + n →
        x0.get (scanEqual x0 x1 n i) ≠ x1.get (scanEqual x0 x1 n i)) := by
  induction n generalizing i with
  | zero => exact ⟨le_refl _, le_refl _, fun t h1 h2 => by simp [scanEqual] at h2; omega,
      fun h => by simp [scanEqual] at h⟩
  | succ n ih =>
    simp only [scanEqual]
    by_cases he : x0.get i = x1.get i
    · rw [if_pos (by simpa using he)]
      obtain ⟨h1, h2, h3, h4⟩ := ih (i + 1)
      refine ⟨by omega, by omega, ?_, fun h => h4 (by omega)⟩
      intro t ht1 ht2
      rcases Nat.eq_or_lt_of_le ht1 with h | h
      · rw [← h]; exact he
      · exact h3 t h ht2
    · rw [if_neg (by simpa using he)]
      exact ⟨le_refl _, by omega, fun t h1 h2 => by omega, fun _ => he⟩

/-! ## `Dim::truncate` -/

theorem strip_concat (l : List Nat) (a : Nat) :
    ((l ++ [a]).reverse.dropWhile (fun e => e == 1)).reverse =
      if a = 1 then (l.reverse.dropWhile (fun e => e == 1)).reverse else l ++ [a] := by
  by_cases h : a = 1
  · simp [h, List.dropWhile_cons]
  · simp [h, List.dropWhile_cons]

theorem strip_prod (l : List Nat) :
    ((l.reverse.dropWhile (fun e => e == 1)).reverse).prod = l.prod := by
  induction l using List.reverseRecOn with
  | nil => rfl
  | append_singleton l a ih =>
    rw [strip_concat]
    by_cases h : a = 1
    · rw [if_pos h, ih, h]; simp
    · rw [if_neg h]

theorem getD_concat_one (l : List Nat) (i : Nat) : (l ++ [1]).getD i 1 = l.getD i 1 := by
  rcases lt_trichotomy i l.length with h | h | h
  · simp [List.getD_eq_getElem?_getD, List.getElem?_append_left h]
  · subst h; simp [List.getD_eq_getElem?_getD]
  · have h1 : l.length ≤ i := le_of_lt h
    have h2 : (l ++ [1]).length ≤ i := by simp; omega
    simp [List.getD_eq_getElem?_getD, List.getElem?_eq_none h1, List.getElem?_eq_none h2]

theorem strip_getD (l : List Nat) (i : Nat) :
    ((l.reverse.dropWhile (fun e => e == 1)).reverse).getD i 1 = l.getD i 1 := by
  induction l using List.reverseRecOn with
  | nil => rfl
  | append_singleton l a ih =>
    rw [strip_concat]
    by_cases h : a = 1
    · rw [if_pos h, ih, h, getD_concat_one]
    · rw [if_neg h]

theorem strip_length_le (l : List Nat) :
    ((l.reverse.dropWhile (fun e => e == 1)).reverse).length ≤ l.length := by
  induction l using List.reverseRecOn with
  | nil => simp
  | append_singleton l a ih =>
    rw [strip_concat]
    by_cases h : a = 1
    · rw [if_pos h]; exact le_trans ih (by simp)
    · rw [if_neg h]

theorem strip_last_ne_one (l : List Nat) :
    ((l.reverse.dropWhile (fun e => e == 1)).reverse).getD
      (((l.reverse.dropWhile (fun e => e == 1)).reverse).length - 1) 1 ≠ 1 ∨
    (l.reverse.dropWhile (fun e => e == 1)).reverse = [] := by
  induction l using List.reverseRecOn with
  | nil => right; rfl
  | append_singleton l a ih =>
    rw [strip_concat]
    by_cases h : a = 1
    · rw [if_pos h]; exact ih
    · rw [if_neg h]; left
      simp [List.getD_eq_getElem?_getD, h]

theorem Dim.truncate_bd (x : Dim) : x.truncate.bd = x.bd := rfl

theorem Dim.truncate_get (x : Dim) (i : Nat) : x.truncate.get i = x.get i := by
  have hg := strip_getD x.d
  simp only [Dim.truncate, Dim.get]
  split_ifs with he
  · have he2 : (x.d.reverse.dropWhile (fun e => e == 1)).reverse = [] := by
      simpa using he
    rw [he2] at hg
    cases i with
    | zero => rfl
    | succ n =>
      have := hg (n + 1)
      simpa using this
  · exact hg i

theorem Dim.truncate_batch_size (x : Dim) : x.truncate.batch_size = x.batch_size := by
  have hp := strip_prod x.d
  have hg := strip_getD x.d 0
  simp only [Dim.truncate, Dim.batch_size, Dim.get]
  split_ifs with he
  · have he2 : (x.d.reverse.dropWhile (fun e => e == 1)).reverse = [] := by
      simpa using he
    rw [he2] at hp hg
    simp at hp hg
    simp [← hp, ← hg]
  · exact hp

theorem Dim.truncate_nd (x : Dim) : 1 ≤ x.truncate.nd ∧ x.truncate.nd ≤ max 1 x.nd := by
  have hl := strip_length_le x.d
  simp only [Dim.truncate, Dim.nd]
  split_ifs with he
  · simp
  · constructor
    · have : (x.d.reverse.dropWhile (fun e => e == 1)).reverse ≠ [] := by
        simpa using he
      exact List.length_pos.mpr this
    · exact le_trans hl (le_max_right _ _)

theorem Dim.truncate_last (x : Dim) (h : 1 < x.truncate.nd) :
    x.truncate.get (x.truncate.nd - 1) ≠ 1 := by
  have hl := strip_last_ne_one x.d
  revert h
  simp only [Dim.truncate, Dim.nd, Dim.get]
  split_ifs with he
  · simp
  · intro _
    rcases hl with hl | hl
    · exact hl
    · exact absurd (by simpa using hl) he

theorem Dim.truncate_eq_self (x : Dim) (h1 : 1 ≤ x.nd)
    (h : x.nd = 1 ∨ x.get (x.nd - 1) ≠ 1) : x.truncate = x := by
  obtain ⟨d, bd⟩ := x
  simp only [Dim.nd, Dim.get] at h1 h
  induction d using List.reverseRecOn with
  | nil => simp at h1
  | append_singleton l a _ =>
    simp only [Dim.truncate, Dim.get]
    rw [strip_concat]
    by_cases ha : a = 1
    · subst ha
      rcases h with h | h
      · have hl : l = [] := by
          simp at h; exact h
        subst hl; rfl
      · simp [List.getD_eq_getElem?_getD] at h
    · rw [if_neg ha]; simp

/-- The restricted form of C4 that the code does satisfy: when the
denominator's rank does not exceed the numerator's and the numerator's extents
are all at least 1, an accepted quotient has the numerator's shape. -/
theorem quotient_dim_forward_eq_left (x0 x1 out : Dim)
    (h : CwiseQuotient.dim_forward [x0, x1] = .ok out) (hnd : x1.nd ≤ x0.nd)
    (hpos : ∀ i, i < x0.nd → 1 ≤ x0.d.getD i 0) (hb : 1 ≤ x0.bd) : out = x0 := by
  obtain ⟨⟨hax, hbd⟩, rfl⟩ := (quotient_dim_forward_eq_ok x0 x1 out).1 h
  obtain ⟨d0, bd0⟩ := x0
  simp only [Dim.ofVector, Dim.mk.injEq]
  simp only [Dim.nd] at hnd hpos hax
  constructor
  · apply List.ext_getElem
    · simp [outDims, Dim.nd, hnd]
    · intro i h1 h2
      have hD : d0.getD i 0 = d0[i] := by
        simp [List.getD_eq_getElem?_getD, List.getElem?_eq_getElem h2]
      have hp := hpos i h2
      simp only [outDims, Dim.nd, List.getElem_map, List.getElem_range, min_eq_right hnd]
      by_cases hi : i < x1.d.length
      · rw [if_pos hi, ← hD]
        have := hax i (by rw [min_eq_right hnd]; exact hi)
        rcases this with e | e <;> omega
      · rw [if_neg hi, if_pos h2, hD]
  · rcases hbd with e | e
    · simp only at e; rw [← e, max_self]
    · simp only at e hb; rw [e]; exact max_eq_left hb

/-! ## The batch-only branch of forward -/

theorem Tensor.assign_d {α : Type} (fx : Tensor α) (off : Nat) (e : Expr α) :
    (fx.assign off e).d = fx.d := rfl

theorem Tensor.assign_v_in {α : Type} (fx : Tensor α) (off : Nat) (e : Expr α) (k : Nat)
    (h1 : off ≤ k) (h2 : k < off + e.dims.prod) :
    (fx.assign off e).v k = e.coeff (k - off) := by
  simp only [Tensor.assign]
  rw [if_pos ⟨h1, h2⟩]

theorem Tensor.assign_v_out {α : Type} (fx : Tensor α) (off : Nat) (e : Expr α) (k : Nat)
    (h : k < off ∨ off + e.dims.prod ≤ k) :
    (fx.assign off e).v k = fx.v k := by
  simp only [Tensor.assign]
  rw [if_neg (by omega)]

theorem slice_lt (bs r b n : Nat) (hr : r < bs) (hb : b < n) : r + bs * b < bs * n := by
  calc r + bs * b < bs + bs * b := by omega
    _ = bs * (b + 1) := by ring
    _ ≤ bs * n := Nat.mul_le_mul_left bs hb

theorem batch_broadcast_cuda {α : Type} (op : α → α → α) (fx other greater : Tensor α)
    (bs G : Nat) (ho : other.d.batch_size = bs) (hob : other.d.bd = 1)
    (hg : greater.d.bd = G) (b r : Nat) (hb : b < G) (hr : r < bs) :
    (fx.assign 0
        (Expr.cwise op (other.tbvec.broadcast [1, greater.d.bd]) greater.tbvec)).v
      (r + bs * b) = op (other.v r) (greater.v (r + bs * b)) := by
  have hlt : r + bs * b < bs * G := slice_lt bs r b G hr hb
  rw [Tensor.assign_v_in _ _ _ _ (Nat.zero_le _)
    (by simpa [Expr.cwise, Expr.broadcast, Tensor.tbvec, ho, hob, hg] using hlt)]
  simp only [Expr.cwise, Expr.broadcast, Tensor.tbvec, ho, hob, hg, Nat.sub_zero,
    List.zipWith_cons_cons, List.zipWith_nil_right, delin, lin, Nat.mod_one, Nat.mul_one,
    Nat.mul_zero, Nat.add_zero, Nat.mod_mod]
  rw [Nat.add_mul_mod_self_left, Nat.mod_eq_of_lt hr]

theorem batch_broadcast_cpu_aux {α : Type} (op : α → α → α) (fx other greater : Tensor α)
    (bs : Nat) (hf : fx.d.batch_size = bs) (ho : other.d.size = bs)
    (hg : greater.d.batch_size = bs) (n : Nat) :
    ((List.range n).foldl
        (fun fx b =>
          fx.assign (fx.d.batch_size * b) (Expr.cwise op other.tvec (greater.tbvec.chip1 b)))
        fx).d = fx.d ∧
      ∀ b r, b < n → r < bs →
        ((List.range n).foldl
            (fun fx b =>
              fx.assign (fx.d.batch_size * b)
                (Expr.cwise op other.tvec (greater.tbvec.chip1 b)))
            fx).v (r + bs * b) = op (other.v r) (greater.v (r + bs * b)) := by
  induction n with
  | zero => exact ⟨rfl, fun b r hb _ => absurd hb (Nat.not_lt_zero b)⟩
  | succ n ih =>
    obtain ⟨ihd, ihv⟩ := ih
    rw [List.range_succ, List.foldl_append]
    simp only [List.foldl_cons, List.foldl_nil]
    refine ⟨by rw [Tensor.assign_d, ihd], ?_⟩
    intro b r hb hr
    rw [ihd, hf]
    rcases Nat.lt_succ_iff_lt_or_eq.mp hb with hlt | heq
    · rw [Tensor.assign_v_out _ _ _ _ (Or.inl (slice_lt bs r b n hr hlt))]
      exact ihv b r hlt hr
    · subst heq
      rw [Tensor.assign_v_in _ _ _ _ (by omega)
        (by simp [Expr.cwise, Tensor.tvec, ho]; omega)]
      simp only [Expr.cwise, Expr.chip1, Tensor.tvec, Tensor.tbvec, hg, List.getD_cons_zero]
      have e1 : r + bs * b - bs * b = r := by omega
      rw [e1]

theorem getD_eq_of_dims {x0 x1 fx : Dim}
    (hfx : fx = Dim.ofVector (outDims x0 x1) (max x0.bd x1.bd))
    (hfeat : ∀ i, i < fx.nd → x0.get i = x1.get i) :
    (∀ i, x0.get i = x1.get i) ∧ (∀ i, fx.get i = x0.get i) := by
  have hnd : fx.nd = max x0.nd x1.nd := by rw [hfx]; exact outDims_length x0 x1
  have hall : ∀ i, x0.get i = x1.get i := by
    intro i
    by_cases hi : i < fx.nd
    · exact hfeat i hi
    · rw [hnd] at hi
      have hi2 : max x0.nd x1.nd ≤ i := not_lt.mp hi
      rw [Dim.get_of_le x0 i (le_trans (le_max_left _ _) hi2),
        Dim.get_of_le x1 i (le_trans (le_max_right _ _) hi2)]
  refine ⟨hall, fun i => ?_⟩
  rw [hfx, outDims_get]
  split_ifs
  · rw [hall i, max_self]
  · rfl
  · exact (hall i).symm

/-- The batch-only branch of the common forward body, for any element
operation. -/
theorem cwise_forward_batch_only {α : Type} (op : α → α → α) (cuda : Bool)
    (x0 x1 fx : Tensor α)
    (hfx : fx.d = Dim.ofVector (outDims x0.d x1.d) (max x0.d.bd x1.d.bd))
    (hfeat : ∀ i, i < fx.d.nd → x0.d.get i = x1.d.get i) :
    (x0.d.bd = x1.d.bd → ∀ k, k < fx.d.size →
        (cwise_forward_dev_impl op cuda x0 x1 fx).v k = op (x0.v k) (x1.v k)) ∧
      (x0.d.bd = 1 → 1 < x1.d.bd → ∀ b r, b < x1.d.bd → r < fx.d.batch_size →
        (cwise_forward_dev_impl op cuda x0 x1 fx).v (r + fx.d.batch_size * b) =
          op (x0.v r) (x1.v (r + fx.d.batch_size * b))) ∧
      (x1.d.bd = 1 → 1 < x0.d.bd → ∀ b r, b < x0.d.bd → r < fx.d.batch_size →
        (cwise_forward_dev_impl op cuda x0 x1 fx).v (r + fx.d.batch_size * b) =
          op (x1.v r) (x0.v (r + fx.d.batch_size * b))) := by
  obtain ⟨hall, hfget⟩ := getD_eq_of_dims hfx hfeat
  have hb0 : fx.d.batch_size = x0.d.batch_size := Dim.batch_size_eq_of_get_eq _ _ hfget
  have hb1 : fx.d.batch_size = x1.d.batch_size :=
    Dim.batch_size_eq_of_get_eq _ _ (fun i => (hfget i).trans (hall i))
  have hbd : fx.d.bd = max x0.d.bd x1.d.bd := by rw [hfx]; rfl
  have hscan : scanEqual x0.d x1.d fx.d.nd 0 = fx.d.nd := by
    rw [scanEqual_all x0.d x1.d fx.d.nd 0 (fun t _ h => hfeat t (by omega))]; omega
  refine ⟨?_, ?_, ?_⟩
  · intro hbeq k hk
    simp only [cwise_forward_dev_impl, hscan, beq_self_eq_true, if_true, hbeq]
    have hsz : fx.d.size = x0.d.size := by
      simp only [Dim.size, hb0, hbd, hbeq, max_self]
    rw [Tensor.assign_v_in _ _ _ _ (Nat.zero_le _)
      (by simpa [Expr.cwise, Tensor.tvec, ← hsz] using hk)]
    rfl
  · intro h0 h1 b r hb hr
    have hne : ¬ (x0.d.bd = x1.d.bd) := by omega
    have hgt : ¬ (x0.d.bd > x1.d.bd) := by omega
    have hfb : fx.d.bd = x1.d.bd := by rw [hbd]; exact max_eq_right (by omega)
    simp only [cwise_forward_dev_impl, hscan, beq_self_eq_true, if_true, beq_iff_eq, hne,
      hgt, if_false]
    cases cuda with
    | true =>
      simp only [if_true]
      exact batch_broadcast_cuda op fx x0 x1 fx.d.batch_size x1.d.bd hb0.symm h0 rfl b r hb hr
    | false =>
      simp only [Bool.false_eq_true, if_false, hfb]
      exact (batch_broadcast_cpu_aux op fx x0 x1 fx.d.batch_size rfl
        (by simp [Dim.size, h0, hb0]) hb1.symm x1.d.bd).2 b r hb hr
  · intro h1 h0 b r hb hr
    have hne : ¬ (x0.d.bd = x1.d.bd) := by omega
    have hgt : x0.d.bd > x1.d.bd := by omega
    have hfb : fx.d.bd = x0.d.bd := by rw [hbd]; exact max_eq_left (by omega)
    simp only [cwise_forward_dev_impl, hscan, beq_self_eq_true, if_true, beq_iff_eq, hne,
      hgt, if_false]
    cases cuda with
    | true =>
      simp only [if_true]
      exact batch_broadcast_cuda op fx x1 x0 fx.d.batch_size x0.d.bd hb1.symm h1 rfl b r hb hr
    | false =>
      simp only [Bool.false_eq_true, if_false, hfb]
      exact (batch_broadcast_cpu_aux op fx x1 x0 fx.d.batch_size rfl
        (by simp [Dim.size, h1, hb1]) hb0.symm x0.d.bd).2 b r hb hr

/-! ## Linear indices -/

theorem lin_lt (Ds js : List Nat) (h : List.Forall₂ (fun j D => j < D) js Ds) :
    lin Ds js < Ds.prod := by
  induction h with
  | nil => simp [lin]
  | @cons j D js Ds hj _ ih =>
    simp only [lin, List.prod_cons]
    calc j + D * lin Ds js < D + D * lin Ds js := by omega
      _ = D * (lin Ds js + 1) := by ring
      _ ≤ D * Ds.prod := Nat.mul_le_mul_left D ih

theorem delin_lin (Ds js : List Nat) (h : List.Forall₂ (fun j D => j < D) js Ds) :
    delin Ds (lin Ds js) = js := by
  induction h with
  | nil => rfl
  | @cons j D js Ds hj hrest ih =>
    cases hrest with
    | nil => simp [lin, delin]
    | @cons j' D' js' Ds' hj' hrest' =>
      have hD : 0 < D := by omega
      have e1 : (j + D * lin (D' :: Ds') (j' :: js')) % D = j := by
        rw [Nat.add_mul_mod_self_left, Nat.mod_eq_of_lt hj]
      have e2 : (j + D * lin (D' :: Ds') (j' :: js')) / D = lin (D' :: Ds') (j' :: js') := by
        rw [Nat.add_mul_div_left _ _ hD, Nat.div_eq_of_lt hj, Nat.zero_add]
      show delin (D :: D' :: Ds') (j + D * lin (D' :: Ds') (j' :: js')) = j :: j' :: js'
      simp only [delin]
      rw [e1, e2]
      have := ih
      simp only [delin] at this ⊢
      rw [this]

/-! ## The replication factors -/

theorem getD_set (l : List Nat) (a v i : Nat) :
    (l.set a v).getD i 1 = if a = i ∧ i < l.length then v else l.getD i 1 := by
  simp only [List.getD_eq_getElem?_getD, List.getElem?_set]
  by_cases h : a = i
  · subst h
    by_cases h2 : a < l.length
    · simp [h2]
    · simp [h2, List.getElem?_eq_none (not_lt.mp h2)]
  · simp [h]

theorem bcastStep_spec (x0 x1 : Dim) (s : BcastState) (a : Nat) :
    (bcastStep x0 x1 s a).bcast_left.length = s.bcast_left.length ∧
      (bcastStep x0 x1 s a).bcast_right.length = s.bcast_right.length ∧
      (∀ i, (bcastStep x0 x1 s a).bcast_left.getD i 1 =
        if a = i ∧ x0.get i < x1.get i ∧ i < s.bcast_left.length then x1.get i
        else s.bcast_left.getD i 1) ∧
      (∀ i, (bcastStep x0 x1 s a).bcast_right.getD i 1 =
        if a = i ∧ x1.get i < x0.get i ∧ i < s.bcast_right.length then x0.get i
        else s.bcast_right.getD i 1) ∧
      (bcastStep x0 x1 s a).has_left = (s.has_left || decide (x0.get a < x1.get a)) ∧
      (bcastStep x0 x1 s a).has_right = (s.has_right || decide (x1.get a < x0.get a)) := by
  simp only [bcastStep]
  by_cases h1 : x0.get a > x1.get a
  · rw [if_pos h1]
    refine ⟨rfl, by simp, fun i => ?_, fun i => ?_, ?_, ?_⟩
    · rw [if_neg]; rintro ⟨rfl, h, _⟩; omega
    · simp only [getD_set]
      by_cases hai : a = i
      · subst hai; simp [h1]
      · simp [hai]
    · have : ¬ x0.get a < x1.get a := by omega
      simp [this]
    · simp [h1]
  · rw [if_neg h1]
    by_cases h2 : x0.get a < x1.get a
    · rw [if_pos h2]
      refine ⟨by simp, rfl, fun i => ?_, fun i => ?_, ?_, ?_⟩
      · simp only [getD_set]
        by_cases hai : a = i
        · subst hai; simp [h2]
        · simp [hai]
      · rw [if_neg]; rintro ⟨rfl, h, _⟩; omega
      · simp [h2]
      · have : ¬ x1.get a < x0.get a := by omega
        simp [this]
    · rw [if_neg h2]
      refine ⟨rfl, rfl, fun i => ?_, fun i => ?_, ?_, ?_⟩
      · rw [if_neg]; rintro ⟨rfl, h, _⟩; exact h2 h
      · rw [if_neg]; rintro ⟨rfl, h, _⟩; exact h1 h
      · simp [h2]
      · have : ¬ x1.get a < x0.get a := by omega
        simp [this]

theorem bcastFold_spec (x0 x1 : Dim) (L : List Nat) (s : BcastState) :
    (L.foldl (bcastStep x0 x1) s).bcast_left.length = s.bcast_left.length ∧
      (L.foldl (bcastStep x0 x1) s).bcast_right.length = s.bcast_right.length ∧
      (∀ i, (L.foldl (bcastStep x0 x1) s).bcast_left.getD i 1 =
        if i ∈ L ∧ x0.get i < x1.get i ∧ i < s.bcast_left.length then x1.get i
        else s.bcast_left.getD i 1) ∧
      (∀ i, (L.foldl (bcastStep x0 x1) s).bcast_right.getD i 1 =
        if i ∈ L ∧ x1.get i < x0.get i ∧ i < s.bcast_right.length then x0.get i
        else s.bcast_right.getD i 1) ∧
      ((L.foldl (bcastStep x0 x1) s).has_left = true ↔
        (s.has_left = true ∨ ∃ i ∈ L, x0.get i < x1.get i)) ∧
      ((L.foldl (bcastStep x0 x1) s).has_right = true ↔
        (s.has_right = true ∨ ∃ i ∈ L, x1.get i < x0.get i)) := by
  induction L generalizing s with
  | nil => simp
  | cons a L ih =>
    obtain ⟨l1, l2, g1, g2, f1, f2⟩ := ih (bcastStep x0 x1 s a)
    obtain ⟨sl1, sl2, sg1, sg2, sf1, sf2⟩ := bcastStep_spec x0 x1 s a
    simp only [List.foldl_cons]
    refine ⟨by rw [l1, sl1], by rw [l2, sl2], fun i => ?_, fun i => ?_, ?_, ?_⟩
    · rw [g1 i, sg1 i, sl1]
      by_cases hm : i ∈ L ∧ x0.get i < x1.get i ∧ i < s.bcast_left.length
      · rw [if_pos hm, if_pos ⟨List.mem_cons_of_mem _ hm.1, hm.2⟩]
      · rw [if_neg hm]
        by_cases ha : a = i ∧ x0.get i < x1.get i ∧ i < s.bcast_left.length
        · rw [if_pos ha, if_pos ⟨by rw [ha.1]; exact List.mem_cons_self _ _, ha.2⟩]
        · rw [if_neg ha, if_neg]
          rintro ⟨hmem, h2⟩
          rcases List.mem_cons.mp hmem with h | h
          · exact ha ⟨h.symm, h2⟩
          · exact hm ⟨h, h2⟩
    · rw [g2 i, sg2 i, sl2]
      by_cases hm : i ∈ L ∧ x1.get i < x0.get i ∧ i < s.bcast_right.length
      · rw [if_pos hm, if_pos ⟨List.mem_cons_of_mem _ hm.1, hm.2⟩]
      · rw [if_neg hm]
        by_cases ha : a = i ∧ x1.get i < x0.get i ∧ i < s.bcast_right.length
        · rw [if_pos ha, if_pos ⟨by rw [ha.1]; exact List.mem_cons_self _ _, ha.2⟩]
        · rw [if_neg ha, if_neg]
          rintro ⟨hmem, h2⟩
          rcases List.mem_cons.mp hmem with h | h
          · exact ha ⟨h.symm, h2⟩
          · exact hm ⟨h, h2⟩
    · rw [f1, sf1]; simp [or_assoc]
    · rw [f2, sf2]; simp [or_assoc]

theorem bcastBatch_spec (x0 x1 : Dim) (s : BcastState) :
    (bcastBatch x0 x1 s).bcast_left.length = s.bcast_left.length ∧
      (bcastBatch x0 x1 s).bcast_right.length = s.bcast_right.length ∧
      (∀ i, (bcastBatch x0 x1 s).bcast_left.getD i 1 =
        if 4 = i ∧ x0.bd < x1.bd ∧ i < s.bcast_left.length then x1.bd
        else s.bcast_left.getD i 1) ∧
      (∀ i, (bcastBatch x0 x1 s).bcast_right.getD i 1 =
        if 4 = i ∧ x1.bd < x0.bd ∧ i < s.bcast_right.length then x0.bd
        else s.bcast_right.getD i 1) ∧
      ((bcastBatch x0 x1 s).has_left = true ↔ (s.has_left = true ∨ x0.bd < x1.bd)) ∧
      ((bcastBatch x0 x1 s).has_right = true ↔ (s.has_right = true ∨ x1.bd < x0.bd)) := by
  simp only [bcastBatch]
  by_cases h1 : x0.bd > x1.bd
  · rw [if_pos h1]
    refine ⟨rfl, by simp, fun i => ?_, fun i => ?_, ?_, ?_⟩
    · rw [if_neg]; rintro ⟨_, h, _⟩; omega
    · simp only [getD_set]
      by_cases hai : 4 = i
      · subst hai; simp [h1]
      · simp [hai]
    · have : ¬ x0.bd < x1.bd := by omega
      simp [this]
    · simp [h1]
  · rw [if_neg h1]
    by_cases h2 : x0.bd < x1.bd
    · rw [if_pos h2]
      refine ⟨by simp, rfl, fun i => ?_, fun i => ?_, ?_, ?_⟩
      · simp only [getD_set]
        by_cases hai : 4 = i
        · subst hai; simp [h2]
        · simp [hai]
      · rw [if_neg]; rintro ⟨_, h, _⟩; omega
      · simp [h2]
      · have : ¬ x1.bd < x0.bd := by omega
        simp [this]
    · rw [if_neg h2]
      refine ⟨rfl, rfl, fun i => ?_, fun i => ?_, ?_, ?_⟩
      · rw [if_neg]; rintro ⟨_, h, _⟩; exact h2 h
      · rw [if_neg]; rintro ⟨_, h, _⟩; exact h1 h
      · simp [h2]
      · have : ¬ x1.bd < x0.bd := by omega
        simp [this]

theorem list5_eq (l : List Nat) (h : l.length = 5) :
    l = [l.getD 0 1, l.getD 1 1, l.getD 2 1, l.getD 3 1, l.getD 4 1] := by
  match l, h with
  | [_, _, _, _, _], _ => rfl

theorem bcastFactors_spec (x0 x1 : Dim) (i0 nd : Nat) (hnd : nd ≤ 4)
    (hlo : ∀ t, t < i0 → x0.get t = x1.get t)
    (hhi : ∀ t, nd ≤ t → x0.get t = x1.get t) :
    (bcastFactors x0 x1 i0 nd).bcast_left =
        [if x0.get 0 < x1.get 0 then x1.get 0 else 1,
          if x0.get 1 < x1.get 1 then x1.get 1 else 1,
          if x0.get 2 < x1.get 2 then x1.get 2 else 1,
          if x0.get 3 < x1.get 3 then x1.get 3 else 1,
          if x0.bd < x1.bd then x1.bd else 1] ∧
      (bcastFactors x0 x1 i0 nd).bcast_right =
        [if x1.get 0 < x0.get 0 then x0.get 0 else 1,
          if x1.get 1 < x0.get 1 then x0.get 1 else 1,
          if x1.get 2 < x0.get 2 then x0.get 2 else 1,
          if x1.get 3 < x0.get 3 then x0.get 3 else 1,
          if x1.bd < x0.bd then x0.bd else 1] ∧
      ((bcastFactors x0 x1 i0 nd).has_left = true ↔
        ((∃ i, x0.get i < x1.get i) ∨ x0.bd < x1.bd)) ∧
      ((bcastFactors x0 x1 i0 nd).has_right = true ↔
        ((∃ i, x1.get i < x0.get i) ∨ x1.bd < x0.bd)) := by
  obtain ⟨fl1, fl2, fg1, fg2, ff1, ff2⟩ :=
    bcastFold_spec x0 x1 (List.range' i0 (nd - i0)) BcastState.init
  obtain ⟨bl1, bl2, bg1, bg2, bf1, bf2⟩ :=
    bcastBatch_spec x0 x1 ((List.range' i0 (nd - i0)).foldl (bcastStep x0 x1) BcastState.init)
  have hmemL : ∀ i, x0.get i < x1.get i → i ∈ List.range' i0 (nd - i0) := by
    intro i h
    rw [List.mem_range'_1]
    constructor
    · by_contra hc
      have := hlo i (not_le.mp hc); omega
    · by_contra hc
      have := hhi i (by omega); omega
  have hmemR : ∀ i, x1.get i < x0.get i → i ∈ List.range' i0 (nd - i0) := by
    intro i h
    rw [List.mem_range'_1]
    constructor
    · by_contra hc
      have := hlo i (not_le.mp hc); omega
    · by_contra hc
      have := hhi i (by omega); omega
  have hnot4 : (4 : Nat) ∉ List.range' i0 (nd - i0) := by
    rw [List.mem_range'_1]; omega
  have hlenL : (bcastFactors x0 x1 i0 nd).bcast_left.length = 5 := by
    simp only [bcastFactors]; rw [bl1, fl1]; rfl
  have hlenR : (bcastFactors x0 x1 i0 nd).bcast_right.length = 5 := by
    simp only [bcastFactors]; rw [bl2, fl2]; rfl
  have hL : ∀ i, i < 4 → (bcastFactors x0 x1 i0 nd).bcast_left.getD i 1 =
      if x0.get i < x1.get i then x1.get i else 1 := by
    intro i hi
    simp only [bcastFactors]
    rw [bg1 i, if_neg (by omega), fg1 i]
    by_cases h : x0.get i < x1.get i
    · rw [if_pos ⟨hmemL i h, h, by simp [BcastState.init]; omega⟩, if_pos h]
    · rw [if_neg (fun hc => h hc.2.1), if_neg h]
      have : i < 5 := by omega
      interval_cases i <;> rfl
  have hR : ∀ i, i < 4 → (bcastFactors x0 x1 i0 nd).bcast_right.getD i 1 =
      if x1.get i < x0.get i then x0.get i else 1 := by
    intro i hi
    simp only [bcastFactors]
    rw [bg2 i, if_neg (by omega), fg2 i]
    by_cases h : x1.get i < x0.get i
    · rw [if_pos ⟨hmemR i h, h, by simp [BcastState.init]; omega⟩, if_pos h]
    · rw [if_neg (fun hc => h hc.2.1), if_neg h]
      have : i < 5 := by omega
      interval_cases i <;> rfl
  have hL4 : (bcastFactors x0 x1 i0 nd).bcast_left.getD 4 1 =
      if x0.bd < x1.bd then x1.bd else 1 := by
    simp only [bcastFactors]
    by_cases h : x0.bd < x1.bd
    · rw [bg1 4, if_pos ⟨rfl, h, by rw [fl1]; decide⟩, if_pos h]
    · rw [bg1 4, if_neg (fun hc => h hc.2.1), fg1 4, if_neg (fun hc => hnot4 hc.1), if_neg h]
      rfl
  have hR4 : (bcastFactors x0 x1 i0 nd).bcast_right.getD 4 1 =
      if x1.bd < x0.bd then x0.bd else 1 := by
    simp only [bcastFactors]
    by_cases h : x1.bd < x0.bd
    · rw [bg2 4, if_pos ⟨rfl, h, by rw [fl2]; decide⟩, if_pos h]
    · rw [bg2 4, if_neg (fun hc => h hc.2.1), fg2 4, if_neg (fun hc => hnot4 hc.1), if_neg h]
      rfl
  refine ⟨?_, ?_, ?_, ?_⟩
  · rw [list5_eq _ hlenL, hL 0 (by omega), hL 1 (by omega), hL 2 (by omega),
      hL 3 (by omega), hL4]
  · rw [list5_eq _ hlenR, hR 0 (by omega), hR 1 (by omega), hR 2 (by omega),
      hR 3 (by omega), hR4]
  · simp only [bcastFactors]
    rw [bf1, ff1]
    constructor
    · rintro (h | h)
      · rcases h with h | ⟨i, _, h⟩
        · simp [BcastState.init] at h
        · exact Or.inl ⟨i, h⟩
      · exact Or.inr h
    · rintro (⟨i, h⟩ | h)
      · exact Or.inl (Or.inr ⟨i, hmemL i h, h⟩)
      · exact Or.inr h
  · simp only [bcastFactors]
    rw [bf2, ff2]
    constructor
    · rintro (h | h)
      · rcases h with h | ⟨i, _, h⟩
        · simp [BcastState.init] at h
        · exact Or.inl ⟨i, h⟩
      · exact Or.inr h
    · rintro (⟨i, h⟩ | h)
      · exact Or.inl (Or.inr ⟨i, hmemR i h, h⟩)
      · exact Or.inr h

/-! ## The broadcasting branch of forward -/

theorem axis_ok {x0 x1 fx : Dim} (hleg : SumLegal x0 x1)
    (hfx : fx = Dim.ofVector (outDims x0 x1) (max x0.bd x1.bd)) (i : Nat)
    (hpos : 0 < fx.get i) :
    fx.get i = max (x0.get i) (x1.get i) ∧ (x0.get i = fx.get i ∨ x0.get i = 1) ∧
      (x1.get i = fx.get i ∨ x1.get i = 1) := by
  have hg := outDims_get x0 x1 (max x0.bd x1.bd) i
  rw [← hfx] at hg
  by_cases hm : i < min x0.nd x1.nd
  · rw [if_pos hm] at hg
    have hl := hleg.1 i hm
    rw [Dim.getD_eq_get x0 i (lt_of_lt_of_le hm (min_le_left _ _)),
      Dim.getD_eq_get x1 i (lt_of_lt_of_le hm (min_le_right _ _))] at hl
    refine ⟨hg, ?_, ?_⟩ <;> rcases hl with hl | hl <;> omega
  · rw [if_neg hm] at hg
    by_cases h0 : i < x0.nd
    · rw [if_pos h0] at hg
      have h1 : x1.get i = 1 := Dim.get_of_le x1 i (by
        rcases le_total x0.nd x1.nd with h | h
        · rw [min_eq_left h] at hm; omega
        · rw [min_eq_right h] at hm; omega)
      refine ⟨?_, ?_, ?_⟩ <;> omega
    · rw [if_neg h0] at hg
      have h1 : x0.get i = 1 := Dim.get_of_le x0 i (not_lt.mp h0)
      refine ⟨?_, ?_, ?_⟩ <;> omega

theorem batch_ok {x0 x1 fx : Dim} (hleg : SumLegal x0 x1)
    (hfx : fx = Dim.ofVector (outDims x0 x1) (max x0.bd x1.bd)) (hpos : 0 < fx.bd) :
    fx.bd = max x0.bd x1.bd ∧ (x0.bd = fx.bd ∨ x0.bd = 1) ∧ (x1.bd = fx.bd ∨ x1.bd = 1) := by
  have hg : fx.bd = max x0.bd x1.bd := by rw [hfx]; rfl
  have hl := hleg.2
  refine ⟨hg, ?_, ?_⟩ <;> rcases hl with hl | hl <;> omega

theorem mod_eq_bcoord (a f j : Nat) (h : a = f ∨ a = 1) (hj : j < f) :
    j % a = bcoord a f j := by
  simp only [bcoord]
  rcases h with h | h
  · subst h
    rw [Nat.mod_eq_of_lt hj, if_neg (by omega)]
  · subst h
    rw [Nat.mod_one]
    split_ifs <;> omega

theorem bcoord_self (f j : Nat) : bcoord f f j = j := by
  simp only [bcoord]
  rw [if_neg (by omega)]

theorem mul_factor (a b f : Nat) (hf : f = max a b) (h : a = f ∨ a = 1) :
    (a * if a < b then b else 1) = f := by
  split_ifs with hlt
  · rcases h with h | h <;> simp [h] <;> omega
  · rw [Nat.mul_one]; omega

theorem broadcast_coeff {α : Type} (x : Tensor α) (bc F j : List Nat)
    (hdims : List.zipWith (fun a b => a * b) x.d.tb4 bc = F)
    (hj : List.Forall₂ (fun j D => j < D) j F) :
    (x.tb4.broadcast bc).coeff (lin F j) =
      x.v (lin x.d.tb4 (List.zipWith (fun j a => j % a) j x.d.tb4)) := by
  simp only [Expr.broadcast, Tensor.tb4, hdims, delin_lin F j hj]

theorem bindex_eq_mod (x fx : Dim) (j0 j1 j2 j3 b : Nat)
    (c0 : x.get 0 = fx.get 0 ∨ x.get 0 = 1) (c1 : x.get 1 = fx.get 1 ∨ x.get 1 = 1)
    (c2 : x.get 2 = fx.get 2 ∨ x.get 2 = 1) (c3 : x.get 3 = fx.get 3 ∨ x.get 3 = 1)
    (cb : x.bd = fx.bd ∨ x.bd = 1)
    (h0 : j0 < fx.get 0) (h1 : j1 < fx.get 1) (h2 : j2 < fx.get 2) (h3 : j3 < fx.get 3)
    (hb : b < fx.bd) :
    List.zipWith (fun j a => j % a) [j0, j1, j2, j3, b] x.tb4 = bindex x fx j0 j1 j2 j3 b := by
  simp only [Dim.tb4, bindex, List.zipWith_cons_cons, List.zipWith_nil_right]
  rw [mod_eq_bcoord _ _ _ c0 h0, mod_eq_bcoord _ _ _ c1 h1, mod_eq_bcoord _ _ _ c2 h2,
    mod_eq_bcoord _ _ _ c3 h3, mod_eq_bcoord _ _ _ cb hb]

theorem plain_coeff {α : Type} (x : Tensor α) (fx : Dim) (j0 j1 j2 j3 b : Nat)
    (hA : x.d.tb4 = fx.tb4) :
    x.tb4.coeff (lin fx.tb4 [j0, j1, j2, j3, b]) = x.at4 (bindex x.d fx j0 j1 j2 j3 b) := by
  have h := hA
  simp only [Dim.tb4, List.cons.injEq, and_true] at h
  obtain ⟨e0, e1, e2, e3, eb⟩ := h
  simp only [Tensor.tb4, Tensor.at4, bindex, Dim.tb4, e0, e1, e2, e3, eb, bcoord_self]

theorem forward_axis_facts {x0 x1 fx : Dim} (hleg : SumLegal x0 x1)
    (hfx : fx = Dim.ofVector (outDims x0 x1) (max x0.bd x1.bd))
    (j0 j1 j2 j3 b : Nat) (h0 : j0 < fx.get 0) (h1 : j1 < fx.get 1)
    (h2 : j2 < fx.get 2) (h3 : j3 < fx.get 3) (hb : b < fx.bd) :
    List.zipWith (fun a b => a * b) x0.tb4
        [if x0.get 0 < x1.get 0 then x1.get 0 else 1,
          if x0.get 1 < x1.get 1 then x1.get 1 else 1,
          if x0.get 2 < x1.get 2 then x1.get 2 else 1,
          if x0.get 3 < x1.get 3 then x1.get 3 else 1,
          if x0.bd < x1.bd then x1.bd else 1] = fx.tb4 ∧
      List.zipWith (fun a b => a * b) x1.tb4
        [if x1.get 0 < x0.get 0 then x0.get 0 else 1,
          if x1.get 1 < x0.get 1 then x0.get 1 else 1,
          if x1.get 2 < x0.get 2 then x0.get 2 else 1,
          if x1.get 3 < x0.get 3 then x0.get 3 else 1,
          if x1.bd < x0.bd then x0.bd else 1] = fx.tb4 ∧
      List.zipWith (fun j a => j % a) [j0, j1, j2, j3, b] x0.tb4 =
        bindex x0 fx j0 j1 j2 j3 b ∧
      List.zipWith (fun j a => j % a) [j0, j1, j2, j3, b] x1.tb4 =
        bindex x1 fx j0 j1 j2 j3 b := by
  obtain ⟨a0, a0l, a0r⟩ := axis_ok hleg hfx 0 (Nat.lt_of_le_of_lt (Nat.zero_le _) h0)
  obtain ⟨a1, a1l, a1r⟩ := axis_ok hleg hfx 1 (Nat.lt_of_le_of_lt (Nat.zero_le _) h1)
  obtain ⟨a2, a2l, a2r⟩ := axis_ok hleg hfx 2 (Nat.lt_of_le_of_lt (Nat.zero_le _) h2)
  obtain ⟨a3, a3l, a3r⟩ := axis_ok hleg hfx 3 (Nat.lt_of_le_of_lt (Nat.zero_le _) h3)
  obtain ⟨ab, abl, abr⟩ := batch_ok hleg hfx (Nat.lt_of_le_of_lt (Nat.zero_le _) hb)
  refine ⟨?_, ?_, bindex_eq_mod x0 fx j0 j1 j2 j3 b a0l a1l a2l a3l abl h0 h1 h2 h3 hb,
    bindex_eq_mod x1 fx j0 j1 j2 j3 b a0r a1r a2r a3r abr h0 h1 h2 h3 hb⟩
  · simp only [Dim.tb4, List.zipWith_cons_cons, List.zipWith_nil_right]
    rw [mul_factor _ _ _ a0 a0l, mul_factor _ _ _ a1 a1l, mul_factor _ _ _ a2 a2l,
      mul_factor _ _ _ a3 a3l, mul_factor _ _ _ ab abl]
  · simp only [Dim.tb4, List.zipWith_cons_cons, List.zipWith_nil_right]
    rw [mul_factor _ _ _ (a0.trans (max_comm _ _)) a0r,
      mul_factor _ _ _ (a1.trans (max_comm _ _)) a1r,
      mul_factor _ _ _ (a2.trans (max_comm _ _)) a2r,
      mul_factor _ _ _ (a3.trans (max_comm _ _)) a3r,
      mul_factor _ _ _ (ab.trans (max_comm _ _)) abr]

theorem zipWith_no_factor (A F : List Nat) (x0 x1 : Dim)
    (hno : ¬ ((∃ i, x0.get i < x1.get i) ∨ x0.bd < x1.bd))
    (h : List.zipWith (fun a b => a * b) A
        [if x0.get 0 < x1.get 0 then x1.get 0 else 1,
          if x0.get 1 < x1.get 1 then x1.get 1 else 1,
          if x0.get 2 < x1.get 2 then x1.get 2 else 1,
          if x0.get 3 < x1.get 3 then x1.get 3 else 1,
          if x0.bd < x1.bd then x1.bd else 1] = F) (hA : A.length = 5) : A = F := by
  have hall : ∀ i, ¬ x0.get i < x1.get i := fun i hc => hno (Or.inl ⟨i, hc⟩)
  have hbd : ¬ x0.bd < x1.bd := fun hc => hno (Or.inr hc)
  rw [if_neg (hall 0), if_neg (hall 1), if_neg (hall 2), if_neg (hall 3), if_neg hbd] at h
  match A, hA with
  | [_, _, _, _, _], _ => simpa using h

/-- The broadcasting branch of the common forward body, for any element
operation. -/
theorem cwise_forward_broadcast {α : Type} (op : α → α → α) (cuda : Bool)
    (x0 x1 fx : Tensor α) (hr0 : x0.d.nd ≤ 4) (hr1 : x1.d.nd ≤ 4)
    (hleg : SumLegal x0.d x1.d)
    (hfx : fx.d = Dim.ofVector (outDims x0.d x1.d) (max x0.d.bd x1.d.bd))
    (hdiff : ∃ i, i < fx.d.nd ∧ x0.d.get i ≠ x1.d.get i)
    (j0 j1 j2 j3 b : Nat) (h0 : j0 < fx.d.get 0) (h1 : j1 < fx.d.get 1)
    (h2 : j2 < fx.d.get 2) (h3 : j3 < fx.d.get 3) (hb : b < fx.d.bd) :
    (cwise_forward_dev_impl op cuda x0 x1 fx).at4 [j0, j1, j2, j3, b] =
      op (x0.at4 (bindex x0.d fx.d j0 j1 j2 j3 b)) (x1.at4 (bindex x1.d fx.d j0 j1 j2 j3 b)) := by
  have hnd : fx.d.nd = max x0.d.nd x1.d.nd := by rw [hfx]; exact outDims_length _ _
  have hnd4 : fx.d.nd ≤ 4 := by rw [hnd]; exact max_le hr0 hr1
  obtain ⟨_, _, s3, _⟩ := scanEqual_spec x0.d x1.d fx.d.nd 0
  have hne : scanEqual x0.d x1.d fx.d.nd 0 ≠ fx.d.nd := by
    intro hc
    obtain ⟨i, hi, hd⟩ := hdiff
    exact hd (s3 i (Nat.zero_le _) (by rw [hc]; exact hi))
  obtain ⟨fL, fR, fhl, fhr⟩ := bcastFactors_spec x0.d x1.d (scanEqual x0.d x1.d fx.d.nd 0)
    fx.d.nd hnd4 (fun t ht => s3 t (Nat.zero_le _) ht)
    (fun t ht => by
      rw [Dim.get_of_le x0.d t (le_trans (le_trans (le_max_left _ _) (le_of_eq hnd.symm)) ht),
        Dim.get_of_le x1.d t (le_trans (le_trans (le_max_right _ _) (le_of_eq hnd.symm)) ht)])
  obtain ⟨hdimL, hdimR, hidx0, hidx1⟩ := forward_axis_facts hleg hfx j0 j1 j2 j3 b h0 h1 h2 h3 hb
  have hj : List.Forall₂ (fun j D => j < D) [j0, j1, j2, j3, b] fx.d.tb4 :=
    .cons h0 (.cons h1 (.cons h2 (.cons h3 (.cons hb .nil))))
  have hlt := lin_lt fx.d.tb4 [j0, j1, j2, j3, b] hj
  have hB0 := broadcast_coeff x0 _ _ _ hdimL hj
  have hB1 := broadcast_coeff x1 _ _ _ hdimR hj
  rw [hidx0] at hB0
  rw [hidx1] at hB1
  rw [← fL] at hdimL hB0
  rw [← fR] at hdimR hB1
  simp only [cwise_forward_dev_impl, beq_iff_eq, hne, if_false]
  by_cases hR : (bcastFactors x0.d x1.d (scanEqual x0.d x1.d fx.d.nd 0) fx.d.nd).has_right = true
  · by_cases hL : (bcastFactors x0.d x1.d (scanEqual x0.d x1.d fx.d.nd 0) fx.d.nd).has_left = true
    · simp only [hR, hL, Bool.and_self, if_true, Tensor.at4, Tensor.assign_d]
      rw [Tensor.assign_v_in _ _ _ _ (Nat.zero_le _)
        (by simp only [Expr.cwise, Expr.broadcast, Tensor.tb4, hdimL, Nat.zero_add]; exact hlt)]
      simp only [Expr.cwise, Nat.sub_zero]
      rw [hB0, hB1]
    · have hL' : (bcastFactors x0.d x1.d (scanEqual x0.d x1.d fx.d.nd 0) fx.d.nd).has_left =
          false := by simpa using hL
      have hno : ¬ ((∃ i, x0.d.get i < x1.d.get i) ∨ x0.d.bd < x1.d.bd) :=
        fun hc => hL (fhl.2 hc)
      have hA : x0.d.tb4 = fx.d.tb4 :=
        zipWith_no_factor _ _ x0.d x1.d hno (by rw [← fL]; exact hdimL) rfl
      simp only [hR, hL', Bool.and_false, Bool.false_eq_true, if_false, if_true, Tensor.at4,
        Tensor.assign_d]
      rw [Tensor.assign_v_in _ _ _ _ (Nat.zero_le _)
        (by simp only [Expr.cwise, Tensor.tb4, hA, Nat.zero_add]; exact hlt)]
      simp only [Expr.cwise, Nat.sub_zero]
      rw [plain_coeff x0 fx.d j0 j1 j2 j3 b hA, hB1]; rfl
  · have hR' : (bcastFactors x0.d x1.d (scanEqual x0.d x1.d fx.d.nd 0) fx.d.nd).has_right =
        false := by simpa using hR
    have hno : ¬ ((∃ i, x1.d.get i < x0.d.get i) ∨ x1.d.bd < x0.d.bd) :=
      fun hc => hR (fhr.2 hc)
    have hA : x1.d.tb4 = fx.d.tb4 :=
      zipWith_no_factor _ _ x1.d x0.d hno (by rw [← fR]; exact hdimR) rfl
    simp only [hR', Bool.false_and, Bool.false_eq_true, if_false, Tensor.at4, Tensor.assign_d]
    rw [Tensor.assign_v_in _ _ _ _ (Nat.zero_le _)
      (by simp only [Expr.cwise, Expr.broadcast, Tensor.tb4, hdimL, Nat.zero_add]; exact hlt)]
    simp only [Expr.cwise, Nat.sub_zero]
    rw [hB0, plain_coeff x1 fx.d j0 j1 j2 j3 b hA]; rfl

/-! ## Shape inference and forward: the specified properties -/

/-- C1. `CwiseSum::dim_forward` and `CwiseMultiply::dim_forward` accept a list
of operand shapes if and only if the list has exactly two shapes, on every
shared axis `i < min(nd0, nd1)` the extents are equal or their minimum is 1,
and the batch extents are equal or their minimum is 1; every other input is
rejected with an argument error. -/
theorem C1_sum_multiply_accept_iff (xs : List Dim) :
    (Accepted (CwiseSum.dim_forward xs) ↔
        ∃ x0 x1, xs = [x0, x1] ∧
          (∀ i, i < min x0.nd x1.nd →
            x0.d.getD i 0 = x1.d.getD i 0 ∨ min (x0.d.getD i 0) (x1.d.getD i 0) = 1) ∧
          (x0.bd = x1.bd ∨ min x0.bd x1.bd = 1)) ∧
      (Accepted (CwiseMultiply.dim_forward xs) ↔
        ∃ x0 x1, xs = [x0, x1] ∧
          (∀ i, i < min x0.nd x1.nd →
            x0.d.getD i 0 = x1.d.getD i 0 ∨ min (x0.d.getD i 0) (x1.d.getD i 0) = 1) ∧
          (x0.bd = x1.bd ∨ min x0.bd x1.bd = 1)) ∧
      (Rejected (CwiseSum.dim_forward xs) ↔ ¬ Accepted (CwiseSum.dim_forward xs)) ∧
      (Rejected (CwiseMultiply.dim_forward xs) ↔
        ¬ Accepted (CwiseMultiply.dim_forward xs)) := by
  refine ⟨?_, ?_, rejected_iff_not_accepted _, rejected_iff_not_accepted _⟩
  · rw [accepted_iff_exists_ok]
    constructor
    · rintro ⟨out, h⟩
      match xs, h with
      | [x0, x1], h =>
        exact ⟨x0, x1, rfl, ((sum_dim_forward_eq_ok x0 x1 out).1 h).1⟩
    · rintro ⟨x0, x1, rfl, h⟩
      exact ⟨_, (sum_dim_forward_eq_ok x0 x1 _).2 ⟨h, rfl⟩⟩
  · rw [accepted_iff_exists_ok]
    constructor
    · rintro ⟨out, h⟩
      match xs, h with
      | [x0, x1], h =>
        exact ⟨x0, x1, rfl, ((multiply_dim_forward_eq_ok x0 x1 out).1 h).1⟩
    · rintro ⟨x0, x1, rfl, h⟩
      exact ⟨_, (multiply_dim_forward_eq_ok x0 x1 _).2 ⟨h, rfl⟩⟩

/-- C2. For every operand pair accepted by `CwiseSum::dim_forward` (and
likewise `CwiseMultiply::dim_forward`), the returned shape has rank
`max(nd0, nd1)`, extent `max(d0[i], d1[i])` on every shared axis
`i < min(nd0, nd1)`, the extent of the higher-rank operand on every other
axis, and batch extent `max(bd0, bd1)`. -/
theorem C2_sum_multiply_output_shape (x0 x1 out : Dim)
    (h : CwiseSum.dim_forward [x0, x1] = .ok out ∨
      CwiseMultiply.dim_forward [x0, x1] = .ok out) :
    out.nd = max x0.nd x1.nd ∧
      (∀ i, i < min x0.nd x1.nd →
        out.d.getD i 0 = max (x0.d.getD i 0) (x1.d.getD i 0)) ∧
      (∀ i, min x0.nd x1.nd ≤ i → i < max x0.nd x1.nd →
        out.d.getD i 0 = if x1.nd ≤ x0.nd then x0.d.getD i 0 else x1.d.getD i 0) ∧
      out.bd = max x0.bd x1.bd := by
  have hout : out = Dim.ofVector (outDims x0 x1) (max x0.bd x1.bd) := by
    rcases h with h | h
    · exact ((sum_dim_forward_eq_ok x0 x1 out).1 h).2
    · exact ((multiply_dim_forward_eq_ok x0 x1 out).1 h).2
  subst hout
  refine ⟨outDims_length x0 x1, ?_, ?_, rfl⟩
  · intro i hi
    have hi2 : i < max x0.nd x1.nd := lt_of_lt_of_le hi (min_le_max)
    simp only [Dim.ofVector]
    rw [outDims_getD x0 x1 i hi2, if_pos hi]
  · intro i hlo hhi
    simp only [Dim.ofVector]
    rw [outDims_getD x0 x1 i hhi, if_neg (not_lt.mpr hlo)]
    by_cases hle : x1.nd ≤ x0.nd
    · rw [if_pos hle, if_pos (by rwa [max_eq_left hle] at hhi)]
    · rw [if_neg hle, if_neg]
      rw [min_eq_left (le_of_lt (not_le.mp hle))] at hlo
      exact not_lt.mpr hlo

/-- A legal pair for C2: shapes `[3,1]` (batch 2) and `[1,4,5]` (batch 1) give
`[3,4,5]` (batch 2). -/
theorem C2_sum_multiply_output_shape_witness :
    (CwiseSum.dim_forward [⟨[3, 1], 2⟩, ⟨[1, 4, 5], 1⟩] = .ok ⟨[3, 4, 5], 2⟩ ∨
        CwiseMultiply.dim_forward [⟨[3, 1], 2⟩, ⟨[1, 4, 5], 1⟩] = .ok ⟨[3, 4, 5], 2⟩) ∧
      (Dim.nd ⟨[3, 4, 5], 2⟩ = max (Dim.nd ⟨[3, 1], 2⟩) (Dim.nd ⟨[1, 4, 5], 1⟩) ∧
        (∀ i, i < min (Dim.nd ⟨[3, 1], 2⟩) (Dim.nd ⟨[1, 4, 5], 1⟩) →
          [3, 4, 5].getD i 0 = max ([3, 1].getD i 0) ([1, 4, 5].getD i 0)) ∧
        (∀ i, min (Dim.nd ⟨[3, 1], 2⟩) (Dim.nd ⟨[1, 4, 5], 1⟩) ≤ i →
          i < max (Dim.nd ⟨[3, 1], 2⟩) (Dim.nd ⟨[1, 4, 5], 1⟩) →
          [3, 4, 5].getD i 0 =
            if Dim.nd ⟨[1, 4, 5], 1⟩ ≤ Dim.nd ⟨[3, 1], 2⟩ then [3, 1].getD i 0
            else [1, 4, 5].getD i 0) ∧
        (2 : Nat) = max 2 1) :=
  ⟨Or.inl rfl, C2_sum_multiply_output_shape ⟨[3, 1], 2⟩ ⟨[1, 4, 5], 1⟩ ⟨[3, 4, 5], 2⟩ (Or.inl rfl)⟩

/-- C3. `CwiseQuotient::dim_forward` accepts a two-shape input if and only if
on every shared axis `i < min(nd0, nd1)` either `d0[i] == d1[i]` or
`d1[i] == 1`, and either `bd0 == bd1` or `bd1 == 1`; in particular a pair
whose left operand has extent 1 and whose right operand has extent greater
than 1 on a shared axis (or on batch) is rejected. -/
theorem C3_quotient_accept_iff (x0 x1 : Dim) :
    (Accepted (CwiseQuotient.dim_forward [x0, x1]) ↔
        (∀ i, i < min x0.nd x1.nd → x0.d.getD i 0 = x1.d.getD i 0 ∨ x1.d.getD i 0 = 1) ∧
          (x0.bd = x1.bd ∨ x1.bd = 1)) ∧
      (((∃ i, i < min x0.nd x1.nd ∧ x0.d.getD i 0 = 1 ∧ 1 < x1.d.getD i 0) ∨
          (x0.bd = 1 ∧ 1 < x1.bd)) →
        Rejected (CwiseQuotient.dim_forward [x0, x1])) := by
  have hiff : Accepted (CwiseQuotient.dim_forward [x0, x1]) ↔ QuotientLegal x0 x1 := by
    rw [accepted_iff_exists_ok]
    constructor
    · rintro ⟨out, h⟩
      exact ((quotient_dim_forward_eq_ok x0 x1 out).1 h).1
    · intro h
      exact ⟨_, (quotient_dim_forward_eq_ok x0 x1 _).2 ⟨h, rfl⟩⟩
  refine ⟨hiff, ?_⟩
  intro h
  rw [rejected_iff_not_accepted, hiff]
  rintro ⟨hax, hb⟩
  rcases h with ⟨i, hi, h0, h1⟩ | ⟨h0, h1⟩
  · rcases hax i hi with h | h <;> omega
  · rcases hb with h | h <;> omega

/-- C4 (the code at the failing input). For the numerator shape `[2]` and the
denominator shape `[2,3]`, `CwiseQuotient::dim_forward` accepts and returns
`[2,3]`, which is not the numerator's shape: its rank is 2, not 1. -/
theorem C4_quotient_output_not_left :
    CwiseQuotient.dim_forward [⟨[2], 1⟩, ⟨[2, 3], 1⟩] = .ok ⟨[2, 3], 1⟩ ∧
      (⟨[2, 3], 1⟩ : Dim) ≠ ⟨[2], 1⟩ ∧ Dim.nd ⟨[2, 3], 1⟩ ≠ Dim.nd ⟨[2], 1⟩ :=
  ⟨rfl, by decide, by decide⟩

/-- C5. For every operand pair accepted by `CwiseQuotient::dim_forward` whose
batch extents are at least 1, the batch extent of the returned shape (computed
as `max(bd0, bd1)`) equals `bd0`, the left operand's batch extent. -/
theorem C5_quotient_output_batch (x0 x1 out : Dim)
    (h : CwiseQuotient.dim_forward [x0, x1] = .ok out)
    (h0 : 1 ≤ x0.bd) : out.bd = x0.bd := by
  obtain ⟨⟨_, hb⟩, rfl⟩ := (quotient_dim_forward_eq_ok x0 x1 out).1 h
  simp only [Dim.ofVector]
  rcases hb with hb | hb
  · rw [hb, max_self]
  · rw [hb]; exact max_eq_left h0

/-- A legal quotient pair for C5: numerator `[2,3]` with batch 4, denominator
`[1,3]` with batch 1. -/
theorem C5_quotient_output_batch_witness :
    CwiseQuotient.dim_forward [⟨[2, 3], 4⟩, ⟨[1, 3], 1⟩] = .ok ⟨[2, 3], 4⟩ ∧
      1 ≤ (4 : Nat) ∧ Dim.bd ⟨[2, 3], 4⟩ = Dim.bd ⟨[2, 3], 4⟩ :=
  ⟨rfl, by decide,
    C5_quotient_output_batch ⟨[2, 3], 4⟩ ⟨[1, 3], 1⟩ ⟨[2, 3], 4⟩ rfl (by decide)⟩

theorem pow_dim_forward_pair (x0 x1 : Dim) :
    Pow.dim_forward [x0, x1] =
      if (x1.truncate.single_batch.size == 1) = true then .ok x0.truncate
      else .error (.invalid_argument "Bad input dimensions in Pow: ") := by
  simp only [Pow.dim_forward, DYNET_ARG_CHECK]
  split_ifs <;> rfl

theorem pow_check_iff (x1 : Dim) :
    (x1.truncate.single_batch.size == 1) = true ↔ x1.batch_size = 1 := by
  have h := Dim.truncate_batch_size x1
  simp only [Dim.batch_size] at h
  simp [Dim.size, Dim.single_batch, Dim.batch_size, h]

theorem pow_accepted_iff (x0 x1 : Dim) :
    Accepted (Pow.dim_forward [x0, x1]) ↔ x1.batch_size = 1 := by
  rw [pow_dim_forward_pair, ← pow_check_iff]
  split_ifs with h <;> simp [Accepted, h]

/-- C6 (counterexample). A right operand of shape `[1,1]` with batch extent 2
holds two elements counting its batch axis, yet `Pow::dim_forward` accepts it:
acceptance is not equivalent to the right operand holding exactly one element
counting features and batch. -/
theorem C6_pow_accepts_batched_exponent :
    ¬ (Accepted (Pow.dim_forward [⟨[3], 1⟩, ⟨[1, 1], 2⟩]) ↔ Dim.size ⟨[1, 1], 2⟩ = 1) := by
  decide

/-- C6 (amended). `Pow::dim_forward` accepts a two-shape input if and only if
the right operand holds exactly one element counting its feature axes only
(its batch extent is replaced by 1 before the count is taken); in particular
a right operand with all feature extents 1 is accepted whatever its batch
extent. -/
theorem C6_pow_accept_iff (x0 x1 : Dim) :
    (Accepted (Pow.dim_forward [x0, x1]) ↔ x1.batch_size = 1) ∧
      ((∀ e ∈ x1.d, e = 1) → Accepted (Pow.dim_forward [x0, x1])) := by
  refine ⟨pow_accepted_iff x0 x1, fun h => (pow_accepted_iff x0 x1).2 ?_⟩
  exact List.prod_eq_one h

/-- C7 (counterexample). For the left shape `[3,1]`, `Pow::dim_forward`
accepts and returns `[3]`, which is not the left operand's shape. -/
theorem C7_pow_output_truncated :
    Pow.dim_forward [⟨[3, 1], 1⟩, ⟨[1], 1⟩] = .ok ⟨[3], 1⟩ ∧ (⟨[3], 1⟩ : Dim) ≠ ⟨[3, 1], 1⟩ :=
  ⟨rfl, by decide⟩

/-- C7 (amended). For every input accepted by `Pow::dim_forward`, the returned
shape is the left operand's shape with its trailing feature axes of extent 1
dropped, at least one axis being kept: it has the left operand's batch extent
and the left operand's extent on every axis (an absent axis read as extent 1),
its rank is at least 1 and at most `max(1, nd0)`, and its last axis has extent
other than 1 unless its rank is 1; it is the left shape unchanged when the
left shape has rank 1, or rank at least 1 and a last extent other than 1. -/
theorem C7_pow_output_shape (x0 x1 out : Dim) (h : Pow.dim_forward [x0, x1] = .ok out) :
    out.bd = x0.bd ∧ (∀ i, out.get i = x0.get i) ∧
      1 ≤ out.nd ∧ out.nd ≤ max 1 x0.nd ∧
      (1 < out.nd → out.get (out.nd - 1) ≠ 1) ∧
      (1 ≤ x0.nd → (x0.nd = 1 ∨ x0.get (x0.nd - 1) ≠ 1) → out = x0) := by
  have hout : out = x0.truncate := by
    rw [pow_dim_forward_pair] at h
    split_ifs at h
    exact (Except.ok.inj h).symm
  subst hout
  exact ⟨Dim.truncate_bd x0, Dim.truncate_get x0, (Dim.truncate_nd x0).1,
    (Dim.truncate_nd x0).2, Dim.truncate_last x0, Dim.truncate_eq_self x0⟩

/-- An accepted input for C7: left shape `[2,3,1,1]` with batch 5, scalar
exponent; the returned shape is `[2,3]` with batch 5. -/
theorem C7_pow_output_shape_witness :
    Pow.dim_forward [⟨[2, 3, 1, 1], 5⟩, ⟨[1], 1⟩] = .ok ⟨[2, 3], 5⟩ ∧
      (Dim.bd ⟨[2, 3], 5⟩ = Dim.bd ⟨[2, 3, 1, 1], 5⟩ ∧
        (∀ i, Dim.get ⟨[2, 3], 5⟩ i = Dim.get ⟨[2, 3, 1, 1], 5⟩ i) ∧
        1 ≤ Dim.nd ⟨[2, 3], 5⟩ ∧ Dim.nd ⟨[2, 3], 5⟩ ≤ max 1 (Dim.nd ⟨[2, 3, 1, 1], 5⟩) ∧
        (1 < Dim.nd ⟨[2, 3], 5⟩ → Dim.get ⟨[2, 3], 5⟩ (Dim.nd ⟨[2, 3], 5⟩ - 1) ≠ 1) ∧
        (1 ≤ Dim.nd ⟨[2, 3, 1, 1], 5⟩ →
          (Dim.nd ⟨[2, 3, 1, 1], 5⟩ = 1 ∨
            Dim.get ⟨[2, 3, 1, 1], 5⟩ (Dim.nd ⟨[2, 3, 1, 1], 5⟩ - 1) ≠ 1) →
          (⟨[2, 3], 5⟩ : Dim) = ⟨[2, 3, 1, 1], 5⟩)) :=
  ⟨rfl, C7_pow_output_shape ⟨[2, 3, 1, 1], 5⟩ ⟨[1], 1⟩ ⟨[2, 3], 5⟩ rfl⟩

/-- C8. For each of the four operators, `dim_forward` rejects every list of
operand shapes whose length is not 2 with the input-count error, whatever the
shapes in the list are (the count check is the first statement, so no operand
shape is read before it fails). -/
theorem C8_arity_rejected (xs : List Dim) (h : xs.length ≠ 2) :
    CwiseSum.dim_forward xs =
        .error (.invalid_argument "Failed input count check in CwiseSum") ∧
      CwiseMultiply.dim_forward xs =
        .error (.invalid_argument "Failed input count check in CwiseMultiply") ∧
      CwiseQuotient.dim_forward xs =
        .error (.invalid_argument "Failed input count check in CwiseQuotient") ∧
      Pow.dim_forward xs = .error (.invalid_argument "Failed input count check in Pow") := by
  match xs, h with
  | [], _ => exact ⟨rfl, rfl, rfl, rfl⟩
  | [_], _ => exact ⟨rfl, rfl, rfl, rfl⟩
  | [_, _], h => exact absurd rfl h
  | _ :: _ :: _ :: _, _ => exact ⟨rfl, rfl, rfl, rfl⟩

/-- A list of three shapes for C8; its first two shapes are incompatible, and
the result is still the input-count error. -/
theorem C8_arity_rejected_witness :
    [(⟨[2], 1⟩ : Dim), ⟨[3], 1⟩, ⟨[2], 1⟩].length ≠ 2 ∧
      (CwiseSum.dim_forward [⟨[2], 1⟩, ⟨[3], 1⟩, ⟨[2], 1⟩] =
          .error (.invalid_argument "Failed input count check in CwiseSum") ∧
        CwiseMultiply.dim_forward [⟨[2], 1⟩, ⟨[3], 1⟩, ⟨[2], 1⟩] =
          .error (.invalid_argument "Failed input count check in CwiseMultiply") ∧
        CwiseQuotient.dim_forward [⟨[2], 1⟩, ⟨[3], 1⟩, ⟨[2], 1⟩] =
          .error (.invalid_argument "Failed input count check in CwiseQuotient") ∧
        Pow.dim_forward [⟨[2], 1⟩, ⟨[3], 1⟩, ⟨[2], 1⟩] =
          .error (.invalid_argument "Failed input count check in Pow")) :=
  ⟨by decide, C8_arity_rejected [⟨[2], 1⟩, ⟨[3], 1⟩, ⟨[2], 1⟩] (by decide)⟩

/-- C9. For `CwiseSum` (`+`) and `CwiseMultiply` (`*`) and every pair of
operand tensors of rank at most 4 whose shapes `dim_forward` accepts and that
differ on at least one feature axis, `forward_dev_impl` writes, at every
output index `(j0, j1, j2, j3, b)` of the inferred output shape,
`fx[j0..j3, b] = x0[p0] op x1[p1]`, where `pk` is the output index with the
coordinate replaced by 0 on every axis (feature or batch) where operand `k`
has extent 1 and the output a larger extent. -/
theorem C9_forward_broadcast {α : Type} [Add α] [Mul α] (cuda : Bool)
    (x0 x1 fx : Tensor α) (hr0 : x0.d.nd ≤ 4) (hr1 : x1.d.nd ≤ 4)
    (hS : CwiseSum.dim_forward [x0.d, x1.d] = .ok fx.d)
    (hM : CwiseMultiply.dim_forward [x0.d, x1.d] = .ok fx.d)
    (hdiff : ∃ i, i < fx.d.nd ∧ x0.d.get i ≠ x1.d.get i)
    (j0 j1 j2 j3 b : Nat) (h0 : j0 < fx.d.get 0) (h1 : j1 < fx.d.get 1)
    (h2 : j2 < fx.d.get 2) (h3 : j3 < fx.d.get 3) (hb : b < fx.d.bd) :
    (CwiseSum.forward_dev_impl cuda x0 x1 fx).at4 [j0, j1, j2, j3, b] =
        x0.at4 (bindex x0.d fx.d j0 j1 j2 j3 b) + x1.at4 (bindex x1.d fx.d j0 j1 j2 j3 b) ∧
      (CwiseMultiply.forward_dev_impl cuda x0 x1 fx).at4 [j0, j1, j2, j3, b] =
        x0.at4 (bindex x0.d fx.d j0 j1 j2 j3 b) * x1.at4 (bindex x1.d fx.d j0 j1 j2 j3 b) := by
  obtain ⟨hlegS, hfxS⟩ := (sum_dim_forward_eq_ok x0.d x1.d fx.d).1 hS
  obtain ⟨hlegM, hfxM⟩ := (multiply_dim_forward_eq_ok x0.d x1.d fx.d).1 hM
  exact ⟨cwise_forward_broadcast (fun a b : α => a + b) cuda x0 x1 fx hr0 hr1 hlegS hfxS hdiff
      j0 j1 j2 j3 b h0 h1 h2 h3 hb,
    cwise_forward_broadcast (fun a b : α => a * b) cuda x0 x1 fx hr0 hr1 hlegM hfxM hdiff
      j0 j1 j2 j3 b h0 h1 h2 h3 hb⟩

/-- A doubly broadcast input for C9: a column `[3,1]` with batch 2 against a
row `[1,4]` with batch 1; the output element at `(2, 3, 0, 0, 1)` is
`60 + 4` for the sum and `60 * 4` for the product. -/
theorem C9_forward_broadcast_witness :
    (exCol.d.nd ≤ 4 ∧ exRow.d.nd ≤ 4 ∧
        CwiseSum.dim_forward [exCol.d, exRow.d] = .ok exOutMat.d ∧
        CwiseMultiply.dim_forward [exCol.d, exRow.d] = .ok exOutMat.d ∧
        (∃ i, i < exOutMat.d.nd ∧ exCol.d.get i ≠ exRow.d.get i) ∧
        2 < exOutMat.d.get 0 ∧ 3 < exOutMat.d.get 1 ∧ 0 < exOutMat.d.get 2 ∧
        0 < exOutMat.d.get 3 ∧ 1 < exOutMat.d.bd) ∧
      ((CwiseSum.forward_dev_impl false exCol exRow exOutMat).at4 [2, 3, 0, 0, 1] = 64 ∧
        (CwiseMultiply.forward_dev_impl false exCol exRow exOutMat).at4 [2, 3, 0, 0, 1] = 240) :=
  ⟨⟨by decide, by decide, rfl, rfl, ⟨0, by decide, by decide⟩, by decide, by decide,
      by decide, by decide, by decide⟩,
    C9_forward_broadcast false exCol exRow exOutMat (by decide) (by decide) rfl rfl
      ⟨0, by decide, by decide⟩ 2 3 0 0 1 (by decide) (by decide) (by decide) (by decide)
      (by decide)⟩

/-- C10. For `CwiseSum` and `CwiseMultiply` and operands whose feature extents
all match: if the batch extents are equal, forward writes
`fx[k] = x0[k] op x1[k]` at every flat index `k`; if one operand has batch
extent 1 and the other batch extent `k > 1`, forward writes, for every batch
slice `b < k` and every offset `r` in the slice,
`fx[r,b] = small[r,0] op big[r,b]`: the batch-1 operand is replicated across
all `k` slices. This holds for the CPU and for the CUDA variant. -/
theorem C10_forward_batch_only {α : Type} [Add α] [Mul α] (cuda : Bool)
    (x0 x1 fx : Tensor α)
    (hS : CwiseSum.dim_forward [x0.d, x1.d] = .ok fx.d)
    (hM : CwiseMultiply.dim_forward [x0.d, x1.d] = .ok fx.d)
    (hfeat : ∀ i, i < fx.d.nd → x0.d.get i = x1.d.get i) :
    (x0.d.bd = x1.d.bd → ∀ k, k < fx.d.size →
        (CwiseSum.forward_dev_impl cuda x0 x1 fx).v k = x0.v k + x1.v k ∧
          (CwiseMultiply.forward_dev_impl cuda x0 x1 fx).v k = x0.v k * x1.v k) ∧
      (x0.d.bd = 1 → 1 < x1.d.bd → ∀ b r, b < x1.d.bd → r < fx.d.batch_size →
        (CwiseSum.forward_dev_impl cuda x0 x1 fx).v (r + fx.d.batch_size * b) =
            x0.v r + x1.v (r + fx.d.batch_size * b) ∧
          (CwiseMultiply.forward_dev_impl cuda x0 x1 fx).v (r + fx.d.batch_size * b) =
            x0.v r * x1.v (r + fx.d.batch_size * b)) ∧
      (x1.d.bd = 1 → 1 < x0.d.bd → ∀ b r, b < x0.d.bd → r < fx.d.batch_size →
        (CwiseSum.forward_dev_impl cuda x0 x1 fx).v (r + fx.d.batch_size * b) =
            x1.v r + x0.v (r + fx.d.batch_size * b) ∧
          (CwiseMultiply.forward_dev_impl cuda x0 x1 fx).v (r + fx.d.batch_size * b) =
            x1.v r * x0.v (r + fx.d.batch_size * b)) := by
  have hfxS := ((sum_dim_forward_eq_ok x0.d x1.d fx.d).1 hS).2
  have hfxM := ((multiply_dim_forward_eq_ok x0.d x1.d fx.d).1 hM).2
  obtain ⟨a1, a2, a3⟩ := cwise_forward_batch_only (fun a b : α => a + b) cuda x0 x1 fx hfxS hfeat
  obtain ⟨m1, m2, m3⟩ := cwise_forward_batch_only (fun a b : α => a * b) cuda x0 x1 fx hfxM hfeat
  exact ⟨fun h k hk => ⟨a1 h k hk, m1 h k hk⟩,
    fun h0 h1 b r hb hr => ⟨a2 h0 h1 b r hb hr, m2 h0 h1 b r hb hr⟩,
    fun h0 h1 b r hb hr => ⟨a3 h0 h1 b r hb hr, m3 h0 h1 b r hb hr⟩⟩

/-- A batch-broadcast input for C10: `[3]` with batch 1 against `[3]` with
batch 4, on the CPU variant; the element of slice 2 at offset 1 is
`20 + 8` for the sum and `20 * 8` for the product. -/
theorem C10_forward_batch_only_witness :
    (CwiseSum.dim_forward [exVec3.d, exVec3Batch4.d] = .ok exOut3Batch4.d ∧
        CwiseMultiply.dim_forward [exVec3.d, exVec3Batch4.d] = .ok exOut3Batch4.d ∧
        (∀ i, i < exOut3Batch4.d.nd → exVec3.d.get i = exVec3Batch4.d.get i)) ∧
      ((CwiseSum.forward_dev_impl false exVec3 exVec3Batch4 exOut3Batch4).v 7 = 28 ∧
        (CwiseMultiply.forward_dev_impl false exVec3 exVec3Batch4 exOut3Batch4).v 7 = 160) :=
  ⟨⟨rfl, rfl, by decide⟩,
    (C10_forward_batch_only false exVec3 exVec3Batch4 exOut3Batch4 rfl rfl (by decide)).2.1
      rfl (by decide) 2 1 (by decide) (by decide)⟩

/-! ## Accumulation -/

theorem Tensor.accum_d {α : Type} (op : α → α → α) (t : Tensor α) (view : List Nat)
    (e : Expr α) : (t.accum op view e).d = t.d := rfl

theorem Tensor.accum_v_in {α : Type} (op : α → α → α) (t : Tensor α) (view : List Nat)
    (e : Expr α) (k : Nat) (h : k < view.prod) :
    (t.accum op view e).v k = op (t.v k) (e.coeff k) := by
  simp only [Tensor.accum]
  rw [if_pos h]

theorem Tensor.accum_v_out {α : Type} (op : α → α → α) (t : Tensor α) (view : List Nat)
    (e : Expr α) (k : Nat) (h : view.prod ≤ k) :
    (t.accum op view e).v k = t.v k := by
  simp only [Tensor.accum]
  rw [if_neg (by omega)]

theorem DYNET_ASSERT_ok (asserts : Bool) (cond : Bool) (msg : String) (h : cond = true) :
    DYNET_ASSERT asserts cond msg = .ok () := by
  simp [DYNET_ASSERT, h]

theorem DYNET_ASSERT_off (cond : Bool) (msg : String) :
    DYNET_ASSERT false cond msg = .ok () := by
  simp [DYNET_ASSERT]

/-! ## The batch-only branch of `CwiseSum` backward -/

theorem sum_backward_batch_cpu_aux {α : Type} [AddMonoid α] (dEdf dEdxi : Tensor α)
    (n : Nat) :
    ((List.range n).foldl
        (fun dEdxi b =>
          dEdxi.accum (fun a b => a + b) dEdxi.tvec.dims (dEdf.tbvec.chip1 b)) dEdxi).d =
        dEdxi.d ∧
      (∀ r, r < dEdxi.d.size →
        ((List.range n).foldl
            (fun dEdxi b =>
              dEdxi.accum (fun a b => a + b) dEdxi.tvec.dims (dEdf.tbvec.chip1 b)) dEdxi).v r =
          dEdxi.v r + ((List.range n).map fun b => dEdf.v (r + dEdf.d.batch_size * b)).sum) ∧
      (∀ r, dEdxi.d.size ≤ r →
        ((List.range n).foldl
            (fun dEdxi b =>
              dEdxi.accum (fun a b => a + b) dEdxi.tvec.dims (dEdf.tbvec.chip1 b)) dEdxi).v r =
          dEdxi.v r) := by
  induction n with
  | zero => exact ⟨rfl, fun r _ => by simp, fun r _ => rfl⟩
  | succ n ih =>
    obtain ⟨ihd, ihv, iho⟩ := ih
    rw [List.range_succ, List.foldl_append]
    simp only [List.foldl_cons, List.foldl_nil]
    have ihd' := ihd
    simp only [Tensor.tvec] at ihd'
    refine ⟨by rw [Tensor.accum_d, ihd], fun r hr => ?_, fun r hr => ?_⟩
    · rw [Tensor.accum_v_in _ _ _ _ _ (by simpa [Tensor.tvec, ihd'] using hr), ihv r hr]
      simp only [Expr.chip1, Tensor.tbvec, List.getD_cons_zero, List.map_append, List.map_cons,
        List.map_nil, List.sum_append, List.sum_cons, List.sum_nil, add_zero, add_assoc]
    · rw [Tensor.accum_v_out _ _ _ _ _ (by simpa [Tensor.tvec, ihd'] using hr), iho r hr]

theorem sum_backward_batch_cuda {α : Type} [AddMonoid α] (dEdf : Tensor α) (r : Nat) :
    (dEdf.tbvec.sum [1]).coeff r =
      ((List.range dEdf.d.bd).map fun b => dEdf.v (r + dEdf.d.batch_size * b)).sum := by
  simp [Expr.sum, Tensor.tbvec, redMask, keepAxes, sumOver, delin, lin, List.range_succ]

theorem operand_nd_le {α : Type} (x0 x1 : Tensor α) (fx : Dim) (i : Nat)
    (hfx : fx = Dim.ofVector (outDims x0.d x1.d) (max x0.d.bd x1.d.bd)) :
    (operand x0 x1 i).d.nd ≤ fx.nd := by
  have hnd : fx.nd = max x0.d.nd x1.d.nd := by rw [hfx]; exact outDims_length _ _
  simp only [operand]
  split_ifs
  · rw [hnd]; exact le_max_left _ _
  · rw [hnd]; exact le_max_right _ _

theorem sum_backward_n_red_zero {α : Type} [Add α] [Zero α] (asserts cuda : Bool) (junk : Nat)
    (x0 x1 fx dEdf : Tensor α) (i : Nat) (dEdxi : Tensor α) (hi : i < 2)
    (hfeat : ∀ j, j < fx.d.nd → (operand x0 x1 i).d.get j = fx.d.get j) :
    CwiseSum.backward_dev_impl asserts cuda junk x0 x1 fx dEdf i dEdxi =
      if dEdxi.d.bd == dEdf.d.bd then
        .ok (dEdxi.accum (fun a b => a + b) dEdxi.tvec.dims dEdf.tvec)
      else if cuda then
        .ok (dEdxi.accum (fun a b => a + b) dEdxi.tvec.dims (dEdf.tbvec.sum [1]))
      else
        .ok ((List.range dEdf.d.bd).foldl
          (fun dEdxi b =>
            dEdxi.accum (fun a b => a + b) dEdxi.tvec.dims (dEdf.tbvec.chip1 b))
          dEdxi) := by
  have hc : (List.range fx.d.nd).countP
      (fun j => (operand x0 x1 i).d.get j != fx.d.get j) = 0 := by
    rw [List.countP_eq_zero]
    intro j hj
    simp only [List.mem_range] at hj
    simp [hfeat j hj]
  simp only [CwiseSum.backward_dev_impl, DYNET_ASSERT_ok asserts _ _ (decide_eq_true hi), hc,
    beq_self_eq_true, if_true]
  split_ifs <;> rfl

/-- C12. In `CwiseSum::backward_dev_impl`, when the feature extents of
operand `i` all equal the output's: if its batch extent also equals the
output's, the update is the plain element-wise accumulation
`dEdxi[k] += dEdf[k]` over all elements, with no reduction; if operand `i` has
batch extent 1 and the output a different batch extent `k`, the update is
`dEdxi[r] += sum over the k batch slices b of dEdf[r, b]`. This holds for the
CPU loop and for the CUDA reduction, with assertions on or off. -/
theorem C12_sum_backward_batch_only {α : Type} [AddMonoid α] (asserts cuda : Bool)
    (junk : Nat) (x0 x1 fx dEdf : Tensor α) (i : Nat) (dEdxi : Tensor α) (hi : i < 2)
    (hS : CwiseSum.dim_forward [x0.d, x1.d] = .ok fx.d)
    (hdx : dEdxi.d = (operand x0 x1 i).d) (hdf : dEdf.d = fx.d)
    (hfeat : ∀ j, j < fx.d.nd → (operand x0 x1 i).d.get j = fx.d.get j) :
    ∃ t, CwiseSum.backward_dev_impl asserts cuda junk x0 x1 fx dEdf i dEdxi = .ok t ∧
      t.d = dEdxi.d ∧
      ((operand x0 x1 i).d.bd = fx.d.bd →
        dEdxi.d.size = dEdf.d.size ∧
          (∀ k, k < dEdxi.d.size → t.v k = dEdxi.v k + dEdf.v k) ∧
          (∀ k, dEdxi.d.size ≤ k → t.v k = dEdxi.v k)) ∧
      ((operand x0 x1 i).d.bd = 1 → fx.d.bd ≠ 1 →
        dEdxi.d.size = dEdf.d.batch_size ∧
          (∀ r, r < dEdxi.d.size →
            t.v r = dEdxi.v r +
              ((List.range fx.d.bd).map fun b => dEdf.v (r + dEdf.d.batch_size * b)).sum) ∧
          (∀ k, dEdxi.d.size ≤ k → t.v k = dEdxi.v k)) := by
  have hfx := ((sum_dim_forward_eq_ok x0.d x1.d fx.d).1 hS).2
  have hnd := operand_nd_le x0 x1 fx.d i hfx
  have hall : ∀ j, (operand x0 x1 i).d.get j = fx.d.get j := by
    intro j
    by_cases hj : j < fx.d.nd
    · exact hfeat j hj
    · rw [Dim.get_of_le _ j (by omega), Dim.get_of_le _ j (by omega)]
  have hbs : dEdxi.d.batch_size = dEdf.d.batch_size := by
    rw [hdx, hdf]; exact Dim.batch_size_eq_of_get_eq _ _ hall
  rw [sum_backward_n_red_zero asserts cuda junk x0 x1 fx dEdf i dEdxi hi hfeat]
  by_cases hb : (operand x0 x1 i).d.bd = fx.d.bd
  · have hbeq : (dEdxi.d.bd == dEdf.d.bd) = true := by rw [hdx, hdf]; simpa using hb
    rw [if_pos hbeq]
    have hsz : dEdxi.d.size = dEdf.d.size := by
      simp only [Dim.size, hbs]; rw [hdx, hdf, hb]
    refine ⟨_, rfl, rfl, fun _ => ⟨hsz, fun k hk => ?_, fun k hk => ?_⟩, fun h1 hne => ?_⟩
    · rw [Tensor.accum_v_in _ _ _ _ _ (by simpa [Tensor.tvec] using hk)]; rfl
    · rw [Tensor.accum_v_out _ _ _ _ _ (by simpa [Tensor.tvec] using hk)]
    · exact absurd (hb.symm.trans h1) hne
  · have hbne : ¬ (dEdxi.d.bd == dEdf.d.bd) = true := by rw [hdx, hdf]; simpa using hb
    rw [if_neg hbne]
    cases cuda with
    | true =>
      simp only [if_true]
      refine ⟨_, rfl, rfl, fun h => absurd h hb, fun h1 _ => ?_⟩
      have hsz : dEdxi.d.size = dEdf.d.batch_size := by
        simp only [Dim.size, hbs]; rw [hdx, h1, Nat.mul_one]
      refine ⟨hsz, fun r hr => ?_, fun k hk => ?_⟩
      · rw [Tensor.accum_v_in _ _ _ _ _ (by simpa [Tensor.tvec] using hr),
          sum_backward_batch_cuda, hdf]
      · rw [Tensor.accum_v_out _ _ _ _ _ (by simpa [Tensor.tvec] using hk)]
    | false =>
      simp only [Bool.false_eq_true, if_false]
      obtain ⟨ad, av, ao⟩ := sum_backward_batch_cpu_aux dEdf dEdxi dEdf.d.bd
      refine ⟨_, rfl, ad, fun h => absurd h hb, fun h1 _ => ?_⟩
      have hsz : dEdxi.d.size = dEdf.d.batch_size := by
        simp only [Dim.size, hbs]; rw [hdx, h1, Nat.mul_one]
      refine ⟨hsz, fun r hr => ?_, fun k hk => ao k hk⟩
      rw [av r hr, hdf]

/-- A batch-broadcast input for C12: operand 0 of shape `[3]`, batch 1, against
an output of batch 4; with the gradient `1..12` the three elements receive
`1+4+7+10`, `2+5+8+11`, `3+6+9+12`. -/
theorem C12_sum_backward_batch_only_witness :
    ((0 : Nat) < 2 ∧
        CwiseSum.dim_forward [exVec3.d, exVec3Batch4.d] = .ok exOut3Batch4.d ∧
        (zeroGrad exVec3.d).d = (operand exVec3 exVec3Batch4 0).d ∧
        exVec3Batch4.d = exOut3Batch4.d ∧
        (∀ j, j < exOut3Batch4.d.nd →
          (operand exVec3 exVec3Batch4 0).d.get j = exOut3Batch4.d.get j)) ∧
      ∃ t, CwiseSum.backward_dev_impl true false 0 exVec3 exVec3Batch4 exOut3Batch4
          exVec3Batch4 0 (zeroGrad exVec3.d) = .ok t ∧
        t.v 0 = 22 ∧ t.v 1 = 26 ∧ t.v 2 = 30 := by
  refine ⟨⟨by decide, rfl, rfl, rfl, by decide⟩, ?_⟩
  obtain ⟨t, ht, _, _, h2⟩ := C12_sum_backward_batch_only true false 0 exVec3 exVec3Batch4
    exOut3Batch4 exVec3Batch4 0 (zeroGrad exVec3.d) (by decide) rfl rfl rfl (by decide)
  obtain ⟨_, hv, _⟩ := h2 rfl (by decide)
  exact ⟨t, ht, hv 0 (by decide), hv 1 (by decide), hv 2 (by decide)⟩

/-! ## Reductions over the broadcast axes -/

theorem AxisRel.cons_of {A F : List Nat} {m : List Bool} {p : List Nat} (a f pj : Nat)
    (b : Bool)
    (h : (b = true ∧ a = 1 ∧ 1 < f ∧ pj = 0) ∨ (b = false ∧ a = f ∧ pj < f))
    (hrest : AxisRel A F m p) : AxisRel (a :: A) (f :: F) (b :: m) (pj :: p) := by
  rcases h with ⟨rfl, rfl, hf, rfl⟩ | ⟨rfl, rfl, hp⟩
  · exact AxisRel.red f hf hrest
  · exact AxisRel.keep a pj hp hrest

theorem AxisRel.lin_eq {A F : List Nat} {m : List Bool} {p : List Nat}
    (h : AxisRel A F m p) : lin A p = lin (keepAxes m F) (keepAxes m p) := by
  induction h with
  | nil => rfl
  | red f _ _ ih => simp [lin, keepAxes, ih]
  | keep f pj _ _ ih => simp [lin, keepAxes, ih]

theorem AxisRel.kept_lt {A F : List Nat} {m : List Bool} {p : List Nat}
    (h : AxisRel A F m p) :
    List.Forall₂ (fun j D => j < D) (keepAxes m p) (keepAxes m F) := by
  induction h with
  | nil => exact .nil
  | red f _ _ ih => simpa [keepAxes] using ih
  | keep f pj hp _ ih => simpa [keepAxes] using List.Forall₂.cons hp ih

theorem AxisRel.index_lt {A F : List Nat} {m : List Bool} {p : List Nat}
    (h : AxisRel A F m p) : List.Forall₂ (fun j D => j < D) p A := by
  induction h with
  | nil => exact .nil
  | red f _ _ ih => exact .cons (by omega) ih
  | keep f pj hp _ ih => exact .cons hp ih

theorem AxisRel.sumOver_eq {α : Type} [AddMonoid α] {A F : List Nat} {m : List Bool}
    {p : List Nat} (h : AxisRel A F m p) (g : List Nat → α) :
    sumOver F m g (keepAxes m p) = boxSum (axisRanges A F p) g := by
  induction h generalizing g with
  | nil => rfl
  | red f hf _ ih =>
    simp only [sumOver, keepAxes, axisRanges, boxSum, axisRange, if_true, true_and, if_pos hf]
    congr 1
    exact List.map_congr_left (fun j _ => ih _)
  | keep f pj hp _ ih =>
    have hne : ¬ (f = 1 ∧ 1 < f) := by omega
    simp only [sumOver, keepAxes, axisRanges, boxSum, axisRange, if_neg hne,
      Bool.false_eq_true, if_false, List.headD_cons, List.tail_cons, List.map_cons,
      List.map_nil, List.sum_cons, List.sum_nil, add_zero]
    exact ih _

theorem AxisRel.box_lt {A F : List Nat} {m : List Bool} {p : List Nat}
    (h : AxisRel A F m p) (js : List Nat)
    (hjs : List.Forall₂ (fun j r => j ∈ r) js (axisRanges A F p)) :
    List.Forall₂ (fun j D => j < D) js F := by
  induction h generalizing js with
  | nil =>
    simp only [axisRanges] at hjs
    cases hjs
    exact .nil
  | red f hf _ ih =>
    simp only [axisRanges, axisRange, true_and, if_pos hf] at hjs
    cases hjs with
    | cons hj hrest => exact .cons (List.mem_range.mp hj) (ih _ hrest)
  | keep f pj hp _ ih =>
    have hne : ¬ (f = 1 ∧ 1 < f) := by omega
    simp only [axisRanges, axisRange, if_neg hne] at hjs
    cases hjs with
    | cons hj hrest =>
      have : _ = pj := List.mem_singleton.mp hj
      exact .cons (by omega) (ih _ hrest)

theorem boxSum_congr {α : Type} [Add α] [Zero α] (rs : List (List Nat)) (g g' : List Nat → α)
    (h : ∀ js, List.Forall₂ (fun j r => j ∈ r) js rs → g js = g' js) :
    boxSum rs g = boxSum rs g' := by
  induction rs generalizing g g' with
  | nil => exact h [] .nil
  | cons r rs ih =>
    simp only [boxSum]
    congr 1
    exact List.map_congr_left
      (fun j hj => ih _ _ (fun js hjs => h (j :: js) (.cons hj hjs)))

theorem reduce_coeff {α : Type} [AddMonoid α] (e : Expr α) (red morph : List Nat)
    {A F : List Nat} {m : List Bool} {p : List Nat} (h : AxisRel A F m p)
    (hdims : e.dims = F) (hmask : redMask F.length red = m) :
    ((e.sum red).reshape morph).coeff (lin A p) =
      boxSum (axisRanges A F p) (fun js => e.coeff (lin F js)) := by
  simp only [Expr.reshape, Expr.sum, hdims, hmask]
  rw [h.lin_eq, delin_lin _ _ h.kept_lt, h.sumOver_eq]

/-! ## The arrays built by `backward_helper` -/

theorem set_length_append (pre rest : List Nat) (r x : Nat) :
    (pre ++ r :: rest).set pre.length x = pre ++ x :: rest := by
  induction pre with
  | nil => rfl
  | cons a pre ih => simp [List.set, ih]

theorem redAxisFold (cond : Nat → Bool) (L pre rest : List Nat)
    (h : (L.filter cond).length ≤ rest.length) :
    L.foldl (fun s di => if cond di then (s.1.set s.2 di, s.2 + 1) else s)
        (pre ++ rest, pre.length) =
      (pre ++ L.filter cond ++ rest.drop (L.filter cond).length,
        pre.length + (L.filter cond).length) := by
  induction L generalizing pre rest with
  | nil => simp
  | cons x L ih =>
    simp only [List.foldl_cons]
    by_cases hc : cond x = true
    · simp only [hc, if_true, List.filter_cons_of_pos] at h ⊢
      match rest, h with
      | r :: rest', h =>
        rw [set_length_append]
        have h' : (L.filter cond).length ≤ rest'.length := by
          simpa using h
        have := ih (pre ++ [x]) rest' h'
        simp only [List.length_append, List.length_singleton, List.append_assoc,
          List.singleton_append] at this
        rw [this]
        simp only [List.length_cons, List.drop_succ_cons, List.append_assoc, List.cons_append]
        congr 1
        omega
    · have hc' : cond x = false := by simpa using hc
      simp only [hc', Bool.false_eq_true, if_false] at h ⊢
      rw [List.filter_cons_of_neg (by simp [hc'])] at h ⊢
      exact ih pre rest h

theorem redAxisInit_drop (RO junk n : Nat) (b : Bool) (h : RO = n + (if b then 1 else 0))
    (hpos : 0 < RO) : (redAxisInit RO junk).drop n = if b then [4] else [] := by
  simp only [redAxisInit, if_pos hpos]
  cases b with
  | true =>
    simp only [if_true] at h ⊢
    subst h
    simp only [Nat.add_sub_cancel]
    rw [List.replicate_succ', List.set_append_right _ _ (by simp)]
    simp
  | false =>
    simp only [Bool.false_eq_true, if_false, Nat.add_zero] at h ⊢
    subst h
    rw [List.drop_eq_nil_iff]
    simp

/-- The array `red_axis` on exit of a helper called with
`ReductionOrder = n_red`: the reduced feature axes in increasing order,
followed by 4 when the batch axis is reduced. -/
theorem redAxisLoop_exit (cond : Nat → Bool) (nd RO junk : Nat) (b : Bool)
    (h : RO = ((List.range nd).filter cond).length + (if b then 1 else 0)) (hpos : 0 < RO) :
    (redAxisLoop cond nd (redAxisInit RO junk)).1 =
      (List.range nd).filter cond ++ (if b then [4] else []) := by
  have hlen : (redAxisInit RO junk).length = RO := by
    simp [redAxisInit, if_pos hpos]
  have hle : ((List.range nd).filter cond).length ≤ (redAxisInit RO junk).length := by
    rw [hlen, h]; omega
  have := redAxisFold cond (List.range nd) [] (redAxisInit RO junk) hle
  simp only [List.nil_append, List.length_nil, Nat.zero_add] at this
  simp only [redAxisLoop]
  rw [this, redAxisInit_drop RO junk _ b h hpos]

theorem contains_iff_mem_nat (l : List Nat) (j : Nat) : l.contains j = true ↔ j ∈ l := by
  simp

theorem redMask_five (cond : Nat → Bool) (nd : Nat) (b : Bool) (hnd : nd ≤ 4)
    (hhi : ∀ j, nd ≤ j → cond j = false) :
    redMask 5 ((List.range nd).filter cond ++ (if b then [4] else [])) =
      [cond 0, cond 1, cond 2, cond 3, b] := by
  have hmem : ∀ j, j < 4 →
      ((List.range nd).filter cond ++ (if b then [4] else [])).contains j = cond j := by
    intro j hj
    rw [Bool.eq_iff_iff, contains_iff_mem_nat]
    simp only [List.mem_append, List.mem_filter, List.mem_range]
    constructor
    · rintro (⟨_, h⟩ | h)
      · exact h
      · cases b <;> simp at h
        omega
    · intro h
      left
      refine ⟨?_, h⟩
      by_contra hc
      have := hhi j (not_lt.mp hc)
      rw [this] at h
      exact Bool.false_ne_true h
  have h4 : ((List.range nd).filter cond ++ (if b then [4] else [])).contains 4 = b := by
    rw [Bool.eq_iff_iff, contains_iff_mem_nat]
    simp only [List.mem_append, List.mem_filter, List.mem_range]
    constructor
    · rintro (⟨h, _⟩ | h)
      · omega
      · cases b <;> simp at h ⊢
    · intro h
      right
      simp [h]
  simp only [redMask, List.range_succ, List.range_zero, List.nil_append, List.map_append,
    List.map_cons, List.map_nil, List.cons_append]
  rw [hmem 0 (by omega), hmem 1 (by omega), hmem 2 (by omega), hmem 3 (by omega), h4]

theorem setLoop_spec (L : List Nat) (cond : Nat → Bool) (val : Nat → Nat) (a : List Nat) :
    (L.foldl (fun a di => if cond di then a.set di (val di) else a) a).length = a.length ∧
      ∀ i, (L.foldl (fun a di => if cond di then a.set di (val di) else a) a).getD i 1 =
        if i ∈ L ∧ cond i = true ∧ i < a.length then val i else a.getD i 1 := by
  induction L generalizing a with
  | nil => simp
  | cons x L ih =>
    simp only [List.foldl_cons]
    by_cases hc : cond x = true
    · rw [if_pos hc]
      obtain ⟨l, g⟩ := ih (a.set x (val x))
      refine ⟨by rw [l]; simp, fun i => ?_⟩
      rw [g i, getD_set]
      simp only [List.length_set, List.mem_cons]
      by_cases hm : i ∈ L ∧ cond i = true ∧ i < a.length
      · rw [if_pos hm, if_pos ⟨Or.inr hm.1, hm.2⟩]
      · rw [if_neg hm]
        by_cases hx : x = i ∧ i < a.length
        · rw [if_pos hx, if_pos ⟨Or.inl hx.1.symm, by rw [← hx.1]; exact hc, hx.2⟩, hx.1]
        · rw [if_neg hx, if_neg]
          rintro ⟨h1 | h1, h2, h3⟩
          · exact hx ⟨h1.symm, h3⟩
          · exact hm ⟨h1, h2, h3⟩
    · rw [if_neg hc]
      obtain ⟨l, g⟩ := ih a
      refine ⟨l, fun i => ?_⟩
      rw [g i]
      simp only [List.mem_cons]
      by_cases hm : i ∈ L ∧ cond i = true ∧ i < a.length
      · rw [if_pos hm, if_pos ⟨Or.inr hm.1, hm.2⟩]
      · rw [if_neg hm, if_neg]
        rintro ⟨h1 | h1, h2, h3⟩
        · rw [h1] at h2; exact hc h2
        · exact hm ⟨h1, h2, h3⟩

/-- The array `morph` on exit of a helper: the five extents of the operand. -/
theorem setLoop_morph (nd bd : Nat) (val : Nat → Nat) (hnd : nd ≤ 4)
    (hhi : ∀ j, nd ≤ j → val j = 1) :
    setLoop nd (fun _ => true) val [1, 1, 1, 1, bd] = [val 0, val 1, val 2, val 3, bd] := by
  obtain ⟨l, g⟩ := setLoop_spec (List.range nd) (fun _ => true) val [1, 1, 1, 1, bd]
  have hlen : (setLoop nd (fun _ => true) val [1, 1, 1, 1, bd]).length = 5 := l
  have hg : ∀ i, i < 4 → (setLoop nd (fun _ => true) val [1, 1, 1, 1, bd]).getD i 1 = val i := by
    intro i hi
    have gi : (setLoop nd (fun _ => true) val [1, 1, 1, 1, bd]).getD i 1 = _ := g i
    rw [gi]
    by_cases hin : i < nd
    · rw [if_pos ⟨List.mem_range.mpr hin, rfl, by simp; omega⟩]
    · rw [if_neg (fun hc => hin (List.mem_range.mp hc.1)), hhi i (not_lt.mp hin)]
      interval_cases i <;> rfl
  have h4 : (setLoop nd (fun _ => true) val [1, 1, 1, 1, bd]).getD 4 1 = bd := by
    have gi : (setLoop nd (fun _ => true) val [1, 1, 1, 1, bd]).getD 4 1 = _ := g 4
    rw [gi, if_neg (fun hc => by have := List.mem_range.mp hc.1; omega)]
    rfl
  rw [list5_eq _ hlen, hg 0 (by omega), hg 1 (by omega), hg 2 (by omega), hg 3 (by omega), h4]

/-! ## The broadcasting branch of `CwiseSum` backward -/

theorem axis_rel_case (a f pj : Nat) (h : a = f ∨ a = 1) (hf : 0 < f) (hp : pj < a) :
    ((a != f) = true ∧ a = 1 ∧ 1 < f ∧ pj = 0) ∨ ((a != f) = false ∧ a = f ∧ pj < f) := by
  by_cases he : a = f
  · right; subst he; simp [hp]
  · left
    have h1 : a = 1 := by rcases h with h | h; exact absurd h he; exact h
    refine ⟨by simpa using he, h1, by omega, by omega⟩

theorem bcast_flag_eq (a f : Nat) (h : a = f ∨ a = 1) (hf : 0 < f) :
    decide (a = 1 ∧ 1 < f) = (a != f) := by
  rw [Bool.eq_iff_iff]
  simp only [decide_eq_true_eq, bne_iff_ne, ne_eq]
  constructor
  · rintro ⟨h1, h2⟩; omega
  · intro hne
    rcases h with h | h
    · exact absurd h hne
    · exact ⟨h, by omega⟩

theorem operand_axis {α : Type} (x0 x1 : Tensor α) (fx : Dim) (i : Nat)
    (hleg : SumLegal x0.d x1.d)
    (hfx : fx = Dim.ofVector (outDims x0.d x1.d) (max x0.d.bd x1.d.bd)) (j : Nat)
    (hpos : 0 < fx.get j) :
    (operand x0 x1 i).d.get j = fx.get j ∨ (operand x0 x1 i).d.get j = 1 := by
  obtain ⟨_, h0, h1⟩ := axis_ok hleg hfx j hpos
  simp only [operand]
  split_ifs
  · exact h0
  · exact h1

theorem operand_batch {α : Type} (x0 x1 : Tensor α) (fx : Dim) (i : Nat)
    (hleg : SumLegal x0.d x1.d)
    (hfx : fx = Dim.ofVector (outDims x0.d x1.d) (max x0.d.bd x1.d.bd))
    (hpos : 0 < fx.bd) :
    (operand x0 x1 i).d.bd = fx.bd ∨ (operand x0 x1 i).d.bd = 1 := by
  obtain ⟨_, h0, h1⟩ := batch_ok hleg hfx hpos
  simp only [operand]
  split_ifs
  · exact h0
  · exact h1

theorem operand_bd_le {α : Type} (x0 x1 : Tensor α) (fx : Dim) (i : Nat)
    (hfx : fx = Dim.ofVector (outDims x0.d x1.d) (max x0.d.bd x1.d.bd)) :
    (operand x0 x1 i).d.bd ≤ fx.bd := by
  have hb : fx.bd = max x0.d.bd x1.d.bd := by rw [hfx]; rfl
  simp only [operand]
  split_ifs
  · rw [hb]; exact le_max_left _ _
  · rw [hb]; exact le_max_right _ _

/-- The axis relation between an operand of a legal sum or product and the
output, with the reduction flags "the extents differ". -/
theorem operand_axisRel {α : Type} (x0 x1 : Tensor α) (fx : Dim) (i : Nat)
    (hleg : SumLegal x0.d x1.d)
    (hfx : fx = Dim.ofVector (outDims x0.d x1.d) (max x0.d.bd x1.d.bd))
    (hpos : ∀ j, 0 < fx.get j) (p0 p1 p2 p3 pb : Nat)
    (h0 : p0 < (operand x0 x1 i).d.get 0) (h1 : p1 < (operand x0 x1 i).d.get 1)
    (h2 : p2 < (operand x0 x1 i).d.get 2) (h3 : p3 < (operand x0 x1 i).d.get 3)
    (hb : pb < (operand x0 x1 i).d.bd) :
    AxisRel (operand x0 x1 i).d.tb4 fx.tb4
      [(operand x0 x1 i).d.get 0 != fx.get 0, (operand x0 x1 i).d.get 1 != fx.get 1,
        (operand x0 x1 i).d.get 2 != fx.get 2, (operand x0 x1 i).d.get 3 != fx.get 3,
        (operand x0 x1 i).d.bd != fx.bd]
      [p0, p1, p2, p3, pb] := by
  have hbpos : 0 < fx.bd :=
    Nat.lt_of_lt_of_le (Nat.lt_of_le_of_lt (Nat.zero_le _) hb) (operand_bd_le x0 x1 fx i hfx)
  exact AxisRel.cons_of _ _ _ _
      (axis_rel_case _ _ _ (operand_axis x0 x1 fx i hleg hfx 0 (hpos 0)) (hpos 0) h0)
    (AxisRel.cons_of _ _ _ _
      (axis_rel_case _ _ _ (operand_axis x0 x1 fx i hleg hfx 1 (hpos 1)) (hpos 1) h1)
    (AxisRel.cons_of _ _ _ _
      (axis_rel_case _ _ _ (operand_axis x0 x1 fx i hleg hfx 2 (hpos 2)) (hpos 2) h2)
    (AxisRel.cons_of _ _ _ _
      (axis_rel_case _ _ _ (operand_axis x0 x1 fx i hleg hfx 3 (hpos 3)) (hpos 3) h3)
    (AxisRel.cons_of _ _ _ _
      (axis_rel_case _ _ _ (operand_batch x0 x1 fx i hleg hfx hbpos) hbpos hb)
      AxisRel.nil))))

theorem countP_range_four (c : Nat → Bool) (nd : Nat) (hnd : nd ≤ 4)
    (hhi : ∀ j, nd ≤ j → c j = false) :
    (List.range nd).countP c = ([c 0, c 1, c 2, c 3] : List Bool).count true := by
  have e : (List.range 4).countP c = ([c 0, c 1, c 2, c 3] : List Bool).count true := by
    simp only [List.range_succ, List.range_zero, List.nil_append, List.cons_append,
      List.countP_cons, List.countP_nil, List.count_cons, List.count_nil]
    simp only [beq_iff_eq]
  rw [← e]
  have hsplit : List.range 4 = List.range nd ++ List.range' nd (4 - nd) := by
    have := List.range_add nd (4 - nd)
    rw [Nat.add_sub_cancel' hnd] at this
    rw [this, List.range'_eq_map_range]
  rw [hsplit, List.countP_append]
  have hz : (List.range' nd (4 - nd)).countP c = 0 := by
    rw [List.countP_eq_zero]
    intro j hj
    rw [List.mem_range'_1] at hj
    simp [hhi j hj.1]
  rw [hz, Nat.add_zero]

/-- The count `n_red` of `backward_dev_impl` is the number of broadcast axes
of the operand. -/
theorem n_red_eq_nBroadcast {α : Type} (x0 x1 : Tensor α) (fx : Dim) (i : Nat)
    (hr0 : x0.d.nd ≤ 4) (hr1 : x1.d.nd ≤ 4) (hleg : SumLegal x0.d x1.d)
    (hfx : fx = Dim.ofVector (outDims x0.d x1.d) (max x0.d.bd x1.d.bd))
    (hpos : ∀ j, 0 < fx.get j) (hbpos : 0 < fx.bd) :
    ((List.range fx.nd).countP fun j => (operand x0 x1 i).d.get j != fx.get j) +
        (if (operand x0 x1 i).d.bd != fx.bd then 1 else 0) =
      nBroadcast (operand x0 x1 i).d fx := by
  have hnd : fx.nd = max x0.d.nd x1.d.nd := by rw [hfx]; exact outDims_length _ _
  have hnd4 : fx.nd ≤ 4 := by rw [hnd]; exact max_le hr0 hr1
  have hle := operand_nd_le x0 x1 fx i hfx
  rw [countP_range_four _ fx.nd hnd4 (fun j hj => by
    rw [Dim.get_of_le _ j (le_trans hle hj), Dim.get_of_le _ j hj]; rfl)]
  simp only [nBroadcast, Dim.tb4, List.zipWith_cons_cons, List.zipWith_nil_right]
  rw [bcast_flag_eq _ _ (operand_axis x0 x1 fx i hleg hfx 0 (hpos 0)) (hpos 0),
    bcast_flag_eq _ _ (operand_axis x0 x1 fx i hleg hfx 1 (hpos 1)) (hpos 1),
    bcast_flag_eq _ _ (operand_axis x0 x1 fx i hleg hfx 2 (hpos 2)) (hpos 2),
    bcast_flag_eq _ _ (operand_axis x0 x1 fx i hleg hfx 3 (hpos 3)) (hpos 3),
    bcast_flag_eq _ _ (operand_batch x0 x1 fx i hleg hfx hbpos) hbpos]
  simp only [List.count_cons, List.count_nil, beq_iff_eq]
  omega

theorem dispatch_helper {β : Type} (h : Nat → β) (d : β) (n : Nat) (h1 : 0 < n) (h4 : n < 5) :
    (if (n == 1) = true then h 1 else if (n == 2) = true then h 2
      else if (n == 3) = true then h 3 else if (n == 4) = true then h 4 else d) = h n := by
  interval_cases n <;> rfl

theorem sum_helper_cond {α : Type} (xi : Tensor α) (fx : Dim) :
    (fun di => (decide (di ≥ xi.d.nd) && decide (fx.get di > 1)) || xi.d.get di != fx.get di) =
      fun di => xi.d.get di != fx.get di := by
  funext di
  rw [Bool.eq_iff_iff]
  simp only [Bool.or_eq_true, Bool.and_eq_true, decide_eq_true_eq, bne_iff_ne, ne_eq]
  constructor
  · rintro (⟨h1, h2⟩ | h)
    · rw [Dim.get_of_le _ di h1]; omega
    · exact h
  · intro h; exact Or.inr h

/-- The value `CwiseSum::backward_helper<n_red>` leaves at an operand
multi-index. -/
theorem sum_backward_helper_at {α : Type} [AddMonoid α] (junk : Nat)
    (x0 x1 fx dEdf : Tensor α) (i : Nat) (dEdxi : Tensor α)
    (hr0 : x0.d.nd ≤ 4) (hr1 : x1.d.nd ≤ 4) (hleg : SumLegal x0.d x1.d)
    (hfx : fx.d = Dim.ofVector (outDims x0.d x1.d) (max x0.d.bd x1.d.bd))
    (hpos : ∀ j, 0 < fx.d.get j)
    (hdx : dEdxi.d = (operand x0 x1 i).d) (hdf : dEdf.d = fx.d)
    (RO : Nat) (hRO : RO = ((List.range fx.d.nd).countP
        fun j => (operand x0 x1 i).d.get j != fx.d.get j) +
      (if (operand x0 x1 i).d.bd != fx.d.bd then 1 else 0)) (hROpos : 0 < RO)
    (p0 p1 p2 p3 pb : Nat)
    (h0 : p0 < (operand x0 x1 i).d.get 0) (h1 : p1 < (operand x0 x1 i).d.get 1)
    (h2 : p2 < (operand x0 x1 i).d.get 2) (h3 : p3 < (operand x0 x1 i).d.get 3)
    (hb : pb < (operand x0 x1 i).d.bd) :
    (CwiseSum.backward_helper RO junk x0 x1 fx dEdf i dEdxi).at4 [p0, p1, p2, p3, pb] =
      dEdxi.at4 [p0, p1, p2, p3, pb] +
        boxSum (axisRanges (operand x0 x1 i).d.tb4 fx.d.tb4 [p0, p1, p2, p3, pb])
          (fun js => dEdf.at4 js) := by
  have hnd : fx.d.nd = max x0.d.nd x1.d.nd := by rw [hfx]; exact outDims_length _ _
  have hnd4 : fx.d.nd ≤ 4 := by rw [hnd]; exact max_le hr0 hr1
  have hle := operand_nd_le x0 x1 fx.d i hfx
  have hrel := operand_axisRel x0 x1 fx.d i hleg hfx hpos p0 p1 p2 p3 pb h0 h1 h2 h3 hb
  have hred : (redAxisLoop
      (fun di => (decide (di ≥ (operand x0 x1 i).d.nd) && decide (fx.d.get di > 1)) ||
        (operand x0 x1 i).d.get di != fx.d.get di)
      fx.d.nd (redAxisInit RO junk)).1 =
      (List.range fx.d.nd).filter (fun j => (operand x0 x1 i).d.get j != fx.d.get j) ++
        (if ((operand x0 x1 i).d.bd != fx.d.bd) = true then [4] else []) := by
    rw [sum_helper_cond]
    exact redAxisLoop_exit _ fx.d.nd RO junk _
      (by rw [hRO, List.countP_eq_length_filter]) hROpos
  have hmask := redMask_five (fun j => (operand x0 x1 i).d.get j != fx.d.get j) fx.d.nd
    ((operand x0 x1 i).d.bd != fx.d.bd) hnd4 (fun j hj => by
      show ((operand x0 x1 i).d.get j != fx.d.get j) = false
      rw [Dim.get_of_le _ j (le_trans hle hj), Dim.get_of_le _ j hj]; rfl)
  have hlt := lin_lt _ _ hrel.index_lt
  simp only [CwiseSum.backward_helper, Tensor.at4, Tensor.accum_d]
  rw [hred, hdx, Tensor.accum_v_in _ _ _ _ _ hlt,
    reduce_coeff dEdf.tb4 _ _ hrel (by simp only [Tensor.tb4, hdf]) (by
      simp only [Dim.tb4, List.length_cons, List.length_nil]; exact hmask)]
  simp only [Tensor.tb4, hdf]

/-- C11. For every legal `CwiseSum` operand pair of rank at most 4 (extents at
least 1) and either operand index `i` whose shape differs from the output on
at least one feature axis and on at most four axes in total,
`backward_dev_impl` adds to `dEdxi`, at every operand index, the output
gradient `dEdf` summed over exactly the axes (feature and batch) on which
operand `i` has extent 1 and the output a larger extent. This holds with
assertions on or off. -/
theorem C11_sum_backward_broadcast {α : Type} [AddMonoid α] (asserts cuda : Bool)
    (junk : Nat) (x0 x1 fx dEdf : Tensor α) (i : Nat) (dEdxi : Tensor α) (hi : i < 2)
    (hr0 : x0.d.nd ≤ 4) (hr1 : x1.d.nd ≤ 4)
    (hS : CwiseSum.dim_forward [x0.d, x1.d] = .ok fx.d)
    (hpos : ∀ j, 0 < fx.d.get j)
    (hdx : dEdxi.d = (operand x0 x1 i).d) (hdf : dEdf.d = fx.d)
    (hdiff : ∃ j, j < fx.d.nd ∧ (operand x0 x1 i).d.get j ≠ fx.d.get j)
    (hfour : nBroadcast (operand x0 x1 i).d fx.d ≤ 4)
    (p0 p1 p2 p3 pb : Nat)
    (h0 : p0 < (operand x0 x1 i).d.get 0) (h1 : p1 < (operand x0 x1 i).d.get 1)
    (h2 : p2 < (operand x0 x1 i).d.get 2) (h3 : p3 < (operand x0 x1 i).d.get 3)
    (hb : pb < (operand x0 x1 i).d.bd) :
    ∃ t, CwiseSum.backward_dev_impl asserts cuda junk x0 x1 fx dEdf i dEdxi = .ok t ∧
      t.at4 [p0, p1, p2, p3, pb] =
        dEdxi.at4 [p0, p1, p2, p3, pb] +
          boxSum (axisRanges (operand x0 x1 i).d.tb4 fx.d.tb4 [p0, p1, p2, p3, pb])
            (fun js => dEdf.at4 js) := by
  obtain ⟨hleg, hfx⟩ := (sum_dim_forward_eq_ok x0.d x1.d fx.d).1 hS
  have hbpos : 0 < fx.d.bd :=
    Nat.lt_of_lt_of_le (Nat.lt_of_le_of_lt (Nat.zero_le _) hb) (operand_bd_le x0 x1 fx.d i hfx)
  have hn := n_red_eq_nBroadcast x0 x1 fx.d i hr0 hr1 hleg hfx hpos hbpos
  have hcpos : 0 < (List.range fx.d.nd).countP
      (fun j => (operand x0 x1 i).d.get j != fx.d.get j) := by
    obtain ⟨j, hj, hne⟩ := hdiff
    rw [List.countP_pos_iff]
    exact ⟨j, List.mem_range.mpr hj, by simpa using hne⟩
  have hc0 : ¬ ((List.range fx.d.nd).countP
      (fun j => (operand x0 x1 i).d.get j != fx.d.get j) == 0) = true := by
    simp only [beq_iff_eq]; omega
  refine ⟨CwiseSum.backward_helper (nBroadcast (operand x0 x1 i).d fx.d) junk x0 x1 fx dEdf i
    dEdxi, ?_, ?_⟩
  · simp only [CwiseSum.backward_dev_impl, DYNET_ASSERT_ok asserts _ _ (decide_eq_true hi),
      hc0, Bool.false_eq_true, if_false, hn]
    rw [DYNET_ASSERT_ok asserts _ _ (by
      simp only [Bool.and_eq_true, decide_eq_true_eq]; omega)]
    exact dispatch_helper
      (fun n => (Except.ok (CwiseSum.backward_helper n junk x0 x1 fx dEdf i dEdxi) :
        Except DevError (Tensor α))) (Except.ok dEdxi) _ (by omega) (by omega)
  · exact sum_backward_helper_at junk x0 x1 fx dEdf i dEdxi hr0 hr1 hleg hfx hpos hdx hdf _
      hn.symm (by omega) p0 p1 p2 p3 pb h0 h1 h2 h3 hb

/-- The spec's scenario for C11: `A` of shape `[3,1]`, `B` of shape `[1,4]`
and a gradient of ones over `[3,4]`; element 1 of `dEdA` receives 4, and the
whole contributions are `[4,4,4]` for `A` and `[3,3,3,3]` for `B`. -/
theorem C11_sum_backward_broadcast_witness :
    ((0 : Nat) < 2 ∧ exA.d.nd ≤ 4 ∧ exB.d.nd ≤ 4 ∧
        CwiseSum.dim_forward [exA.d, exB.d] = .ok exAB.d ∧
        (∀ j, 0 < exAB.d.get j) ∧
        (zeroGrad exA.d).d = (operand exA exB 0).d ∧ exOnes.d = exAB.d ∧
        (∃ j, j < exAB.d.nd ∧ (operand exA exB 0).d.get j ≠ exAB.d.get j) ∧
        nBroadcast (operand exA exB 0).d exAB.d ≤ 4 ∧
        1 < (operand exA exB 0).d.get 0 ∧ 0 < (operand exA exB 0).d.get 1 ∧
        0 < (operand exA exB 0).d.get 2 ∧ 0 < (operand exA exB 0).d.get 3 ∧
        0 < (operand exA exB 0).d.bd) ∧
      (∃ t, CwiseSum.backward_dev_impl true false 0 exA exB exAB exOnes 0 (zeroGrad exA.d) =
          .ok t ∧ t.at4 [1, 0, 0, 0, 0] = 4) ∧
      resultValues (CwiseSum.backward_dev_impl true false 0 exA exB exAB exOnes 0
        (zeroGrad exA.d)) 3 = some [4, 4, 4] ∧
      resultValues (CwiseSum.backward_dev_impl true false 0 exA exB exAB exOnes 1
        (zeroGrad exB.d)) 4 = some [3, 3, 3, 3] := by
  have hpos : ∀ j, 0 < exAB.d.get j := by
    intro j
    rcases j with _ | _ | j
    · decide
    · decide
    · simp [exAB, Dim.get]
  have hdiff : ∃ j, j < exAB.d.nd ∧ (operand exA exB 0).d.get j ≠ exAB.d.get j :=
    ⟨1, by decide, by decide⟩
  refine ⟨⟨by decide, by decide, by decide, rfl, hpos, rfl, rfl, hdiff, by decide, by decide,
    by decide, by decide, by decide, by decide⟩, ?_, by decide, by decide⟩
  obtain ⟨t, ht, hv⟩ := C11_sum_backward_broadcast true false 0 exA exB exAB exOnes 0
    (zeroGrad exA.d) (by decide) (by decide) (by decide) rfl hpos rfl rfl hdiff (by decide)
    1 0 0 0 0 (by decide) (by decide) (by decide) (by decide) (by decide)
  exact ⟨t, ht, hv.trans (by decide)⟩

/-! ## The helper branch of `CwiseMultiply` backward -/

theorem redAxisLoop_exit_any (cond : Nat → Bool) (nd RO junk : Nat) (b : Bool)
    (h : RO = ((List.range nd).filter cond).length + (if b then 1 else 0)) :
    (redAxisLoop cond nd (redAxisInit RO junk)).1 =
      (List.range nd).filter cond ++ (if b then [4] else []) := by
  rcases Nat.eq_zero_or_pos RO with h0 | hpos
  · have hlen : ((List.range nd).filter cond).length = 0 := by omega
    have hb : b = false := by
      cases b
      · rfl
      · simp at h; omega
    have := redAxisFold cond (List.range nd) [] [] (by rw [hlen]; exact Nat.le_refl _)
    simp only [List.nil_append, List.length_nil, Nat.zero_add, List.drop_nil,
      List.append_nil] at this
    simp only [redAxisLoop, redAxisInit, h0, Nat.lt_irrefl, if_false, hb, Bool.false_eq_true,
      List.append_nil]
    rw [this]
  · exact redAxisLoop_exit cond nd RO junk b h hpos

theorem forall2_five (js : List Nat) (f0 f1 f2 f3 fb : Nat)
    (h : List.Forall₂ (fun j D => j < D) js [f0, f1, f2, f3, fb]) :
    ∃ j0 j1 j2 j3 b, js = [j0, j1, j2, j3, b] ∧ j0 < f0 ∧ j1 < f1 ∧ j2 < f2 ∧ j3 < f3 ∧
      b < fb := by
  cases h with
  | cons h0 h => cases h with
    | cons h1 h => cases h with
      | cons h2 h => cases h with
        | cons h3 h => cases h with
          | cons h4 h =>
            cases h
            exact ⟨_, _, _, _, _, rfl, h0, h1, h2, h3, h4⟩

theorem mul_other_factor (o f : Nat) (h : o = f ∨ o = 1) :
    (o * if (o == 1) = true then f else 1) = f := by
  by_cases h1 : o = 1
  · subst h1; simp
  · have : ¬ (o == 1) = true := by simpa using h1
    rw [if_neg this, Nat.mul_one]
    rcases h with h | h
    · exact h
    · exact absurd h h1

/-- The array `bcast_other` on exit of `CwiseMultiply::backward_helper`: on
every axis, the output extent where the other operand has extent 1. -/
theorem bcast_other_spec (xo fx : Dim) (hnd : fx.nd ≤ 4) :
    (if (xo.bd == 1) = true then
        (setLoop fx.nd (fun di => xo.get di == 1) (fun di => fx.get di) [1, 1, 1, 1, 1]).set 4
          fx.bd
      else setLoop fx.nd (fun di => xo.get di == 1) (fun di => fx.get di) [1, 1, 1, 1, 1]) =
      [if (xo.get 0 == 1) = true then fx.get 0 else 1,
        if (xo.get 1 == 1) = true then fx.get 1 else 1,
        if (xo.get 2 == 1) = true then fx.get 2 else 1,
        if (xo.get 3 == 1) = true then fx.get 3 else 1,
        if (xo.bd == 1) = true then fx.bd else 1] := by
  obtain ⟨l, g⟩ := setLoop_spec (List.range fx.nd) (fun di => xo.get di == 1)
    (fun di => fx.get di) [1, 1, 1, 1, 1]
  have hlen : (setLoop fx.nd (fun di => xo.get di == 1) (fun di => fx.get di)
      [1, 1, 1, 1, 1]).length = 5 := l
  have hg : ∀ i, i < 4 →
      (setLoop fx.nd (fun di => xo.get di == 1) (fun di => fx.get di) [1, 1, 1, 1, 1]).getD i 1 =
        if (xo.get i == 1) = true then fx.get i else 1 := by
    intro i hi
    have gi : (setLoop fx.nd (fun di => xo.get di == 1) (fun di => fx.get di)
      [1, 1, 1, 1, 1]).getD i 1 = _ := g i
    rw [gi]
    by_cases hin : i < fx.nd
    · by_cases hc : (xo.get i == 1) = true
      · rw [if_pos ⟨List.mem_range.mpr hin, hc, by simp; omega⟩, if_pos hc]
      · rw [if_neg (fun h => hc h.2.1), if_neg hc]
        interval_cases i <;> rfl
    · rw [if_neg (fun hc => hin (List.mem_range.mp hc.1))]
      have h1 : fx.get i = 1 := Dim.get_of_le _ i (not_lt.mp hin)
      rw [h1]
      have : ([1, 1, 1, 1, 1] : List Nat).getD i 1 = 1 := by interval_cases i <;> rfl
      rw [this]; split_ifs <;> rfl
  have h4 : (setLoop fx.nd (fun di => xo.get di == 1) (fun di => fx.get di)
      [1, 1, 1, 1, 1]).getD 4 1 = 1 := by
    have gi : (setLoop fx.nd (fun di => xo.get di == 1) (fun di => fx.get di)
      [1, 1, 1, 1, 1]).getD 4 1 = _ := g 4
    rw [gi, if_neg (fun hc => by have := List.mem_range.mp hc.1; omega)]
    rfl
  have hlist := list5_eq _ hlen
  rw [hg 0 (by omega), hg 1 (by omega), hg 2 (by omega), hg 3 (by omega), h4] at hlist
  rw [hlist]
  split_ifs <;> rfl

/-- The coefficient of `dEdf * other.broadcast(bcast_other)` at an output
multi-index. -/
theorem mul_other_coeff {α : Type} [Mul α] (dEdf xo : Tensor α) (fx : Dim) (bc js : List Nat)
    (hdf : dEdf.d = fx)
    (hdims : List.zipWith (fun a b => a * b) xo.d.tb4 bc = fx.tb4)
    (c0 : xo.d.get 0 = fx.get 0 ∨ xo.d.get 0 = 1)
    (c1 : xo.d.get 1 = fx.get 1 ∨ xo.d.get 1 = 1)
    (c2 : xo.d.get 2 = fx.get 2 ∨ xo.d.get 2 = 1)
    (c3 : xo.d.get 3 = fx.get 3 ∨ xo.d.get 3 = 1)
    (cb : xo.d.bd = fx.bd ∨ xo.d.bd = 1)
    (hjs : List.Forall₂ (fun j D => j < D) js fx.tb4) :
    (Expr.cwise (fun a b => a * b) dEdf.tb4 (xo.tb4.broadcast bc)).coeff (lin fx.tb4 js) =
      dEdf.at4 js * xo.at4 (bindexOf xo.d fx js) := by
  obtain ⟨j0, j1, j2, j3, b, rfl, h0, h1, h2, h3, hb⟩ := forall2_five js _ _ _ _ _ hjs
  simp only [Expr.cwise]
  rw [broadcast_coeff xo bc fx.tb4 _ hdims hjs,
    bindex_eq_mod xo.d fx j0 j1 j2 j3 b c0 c1 c2 c3 cb h0 h1 h2 h3 hb]
  simp only [Tensor.tb4, Tensor.at4, hdf, bindexOf, List.getD_cons_zero, List.getD_cons_succ]

theorem other_operand_axis {α : Type} (x0 x1 : Tensor α) (fx : Dim) (i : Nat)
    (hleg : SumLegal x0.d x1.d)
    (hfx : fx = Dim.ofVector (outDims x0.d x1.d) (max x0.d.bd x1.d.bd))
    (hpos : ∀ j, 0 < fx.get j) (hbpos : 0 < fx.bd) :
    (∀ j, (operand x0 x1 (1 - i)).d.get j = fx.get j ∨ (operand x0 x1 (1 - i)).d.get j = 1) ∧
      ((operand x0 x1 (1 - i)).d.bd = fx.bd ∨ (operand x0 x1 (1 - i)).d.bd = 1) :=
  ⟨fun j => operand_axis x0 x1 fx (1 - i) hleg hfx j (hpos j),
    operand_batch x0 x1 fx (1 - i) hleg hfx hbpos⟩

/-- The value an accumulation of a reduced and reshaped expression leaves at
an operand multi-index. -/
theorem accum_reduce_at {α : Type} [AddMonoid α] (dEdxi : Tensor α) (e : Expr α)
    (red morph : List Nat) {A F : List Nat} {m : List Bool} {p : List Nat}
    (h : AxisRel A F m p) (hA : dEdxi.d.tb4 = A) (hdims : e.dims = F)
    (hmask : redMask F.length red = m) :
    (dEdxi.accum (fun a b => a + b) dEdxi.d.tb4 ((e.sum red).reshape morph)).at4 p =
      dEdxi.at4 p + boxSum (axisRanges A F p) (fun js => e.coeff (lin F js)) := by
  have hlt := lin_lt _ _ h.index_lt
  simp only [Tensor.at4, Tensor.accum_d]
  rw [hA, Tensor.accum_v_in _ _ _ _ _ hlt, reduce_coeff e red morph h hdims hmask]

theorem operand_mask {α : Type} (x0 x1 : Tensor α) (fx : Dim) (i RO junk : Nat)
    (hnd4 : fx.nd ≤ 4) (hle : (operand x0 x1 i).d.nd ≤ fx.nd)
    (hRO : RO = ((List.range fx.nd).countP
        fun j => (operand x0 x1 i).d.get j != fx.get j) +
      (if (operand x0 x1 i).d.bd != fx.bd then 1 else 0)) :
    redMask 5 (redAxisLoop (fun di => (operand x0 x1 i).d.get di != fx.get di)
        fx.nd (redAxisInit RO junk)).1 =
      [(operand x0 x1 i).d.get 0 != fx.get 0, (operand x0 x1 i).d.get 1 != fx.get 1,
        (operand x0 x1 i).d.get 2 != fx.get 2, (operand x0 x1 i).d.get 3 != fx.get 3,
        (operand x0 x1 i).d.bd != fx.bd] := by
  rw [redAxisLoop_exit_any _ fx.nd RO junk ((operand x0 x1 i).d.bd != fx.bd)
    (by rw [hRO, List.countP_eq_length_filter])]
  exact redMask_five (fun j => (operand x0 x1 i).d.get j != fx.get j) fx.nd
    ((operand x0 x1 i).d.bd != fx.bd) hnd4 (fun j hj => by
      show ((operand x0 x1 i).d.get j != fx.get j) = false
      rw [Dim.get_of_le _ j (le_trans hle hj), Dim.get_of_le _ j hj]; rfl)

theorem other_dims {α : Type} (xo : Tensor α) (fx : Dim) (hnd4 : fx.nd ≤ 4)
    (oax : ∀ j, xo.d.get j = fx.get j ∨ xo.d.get j = 1)
    (obd : xo.d.bd = fx.bd ∨ xo.d.bd = 1) :
    List.zipWith (fun a b => a * b) xo.d.tb4
      (if (xo.d.bd == 1) = true then
        (setLoop fx.nd (fun di => xo.d.get di == 1) (fun di => fx.get di) [1, 1, 1, 1, 1]).set 4
          fx.bd
      else setLoop fx.nd (fun di => xo.d.get di == 1) (fun di => fx.get di) [1, 1, 1, 1, 1]) =
      fx.tb4 := by
  rw [bcast_other_spec xo.d fx hnd4]
  simp only [Dim.tb4, List.zipWith_cons_cons, List.zipWith_nil_right]
  rw [mul_other_factor _ _ (oax 0), mul_other_factor _ _ (oax 1), mul_other_factor _ _ (oax 2),
    mul_other_factor _ _ (oax 3), mul_other_factor _ _ obd]

/-- The value `CwiseMultiply::backward_helper<n_red>` leaves at an operand
multi-index. -/
theorem multiply_backward_helper_at {α : Type} [Semiring α] (junk : Nat)
    (x0 x1 fx dEdf : Tensor α) (i : Nat) (dEdxi : Tensor α)
    (hr0 : x0.d.nd ≤ 4) (hr1 : x1.d.nd ≤ 4) (hleg : SumLegal x0.d x1.d)
    (hfx : fx.d = Dim.ofVector (outDims x0.d x1.d) (max x0.d.bd x1.d.bd))
    (hpos : ∀ j, 0 < fx.d.get j)
    (hdx : dEdxi.d = (operand x0 x1 i).d) (hdf : dEdf.d = fx.d)
    (RO : Nat) (hRO : RO = ((List.range fx.d.nd).countP
        fun j => (operand x0 x1 i).d.get j != fx.d.get j) +
      (if (operand x0 x1 i).d.bd != fx.d.bd then 1 else 0))
    (p0 p1 p2 p3 pb : Nat)
    (h0 : p0 < (operand x0 x1 i).d.get 0) (h1 : p1 < (operand x0 x1 i).d.get 1)
    (h2 : p2 < (operand x0 x1 i).d.get 2) (h3 : p3 < (operand x0 x1 i).d.get 3)
    (hb : pb < (operand x0 x1 i).d.bd) :
    (CwiseMultiply.backward_helper RO junk x0 x1 fx dEdf i dEdxi).at4 [p0, p1, p2, p3, pb] =
      dEdxi.at4 [p0, p1, p2, p3, pb] +
        boxSum (axisRanges (operand x0 x1 i).d.tb4 fx.d.tb4 [p0, p1, p2, p3, pb])
          (fun js => dEdf.at4 js *
            (operand x0 x1 (1 - i)).at4 (bindexOf (operand x0 x1 (1 - i)).d fx.d js)) := by
  have hnd : fx.d.nd = max x0.d.nd x1.d.nd := by rw [hfx]; exact outDims_length _ _
  have hnd4 : fx.d.nd ≤ 4 := by rw [hnd]; exact max_le hr0 hr1
  have hle := operand_nd_le x0 x1 fx.d i hfx
  have hbpos : 0 < fx.d.bd :=
    Nat.lt_of_lt_of_le (Nat.lt_of_le_of_lt (Nat.zero_le _) hb) (operand_bd_le x0 x1 fx.d i hfx)
  obtain ⟨oax, obd⟩ := other_operand_axis x0 x1 fx.d i hleg hfx hpos hbpos
  have hrel := operand_axisRel x0 x1 fx.d i hleg hfx hpos p0 p1 p2 p3 pb h0 h1 h2 h3 hb
  have hmask := operand_mask x0 x1 fx.d i RO junk hnd4 hle hRO
  have hdims := other_dims (operand x0 x1 (1 - i)) fx.d hnd4 oax obd
  unfold CwiseMultiply.backward_helper
  rw [accum_reduce_at dEdxi _ _ _ hrel (by rw [hdx])
    (by simp only [Expr.cwise, Tensor.tb4, hdf]) hmask]
  exact congrArg (fun s => dEdxi.at4 [p0, p1, p2, p3, pb] + s)
    (boxSum_congr (axisRanges (operand x0 x1 i).d.tb4 fx.d.tb4 [p0, p1, p2, p3, pb]) _
      (fun js => dEdf.at4 js *
        (operand x0 x1 (1 - i)).at4 (bindexOf (operand x0 x1 (1 - i)).d fx.d js))
      (fun js hjs =>
        mul_other_coeff dEdf _ fx.d _ js hdf hdims (oax 0) (oax 1) (oax 2) (oax 3) obd
          (hrel.box_lt js hjs)))

/-! ## The fast path of `CwiseMultiply` backward -/

theorem Dim.batch_size_eq_four (x : Dim) (h : x.nd ≤ 4) :
    x.batch_size = x.get 0 * x.get 1 * x.get 2 * x.get 3 := by
  have e : x.d.prod = [x.get 0, x.get 1, x.get 2, x.get 3].prod := by
    apply prod_eq_of_getD_eq
    intro i
    rcases i with _ | _ | _ | _ | i
    · rfl
    · rfl
    · rfl
    · rfl
    · have h1 : x.d.length ≤ i + 4 := by simp only [Dim.nd] at h; omega
      simp [List.getD_eq_getElem?_getD, List.getElem?_eq_none h1]
  simp only [Dim.batch_size, e, List.prod_cons, List.prod_nil]
  ring

theorem Dim.size_eq_tb4_prod (x : Dim) (h : x.nd ≤ 4) : x.size = x.tb4.prod := by
  simp only [Dim.size, Dim.batch_size_eq_four x h, Dim.tb4, List.prod_cons, List.prod_nil]
  ring

theorem lin_five (f0 f1 f2 f3 B p0 p1 p2 p3 pb : Nat) :
    lin [f0, f1, f2, f3, B] [p0, p1, p2, p3, pb] =
      lin [f0, f1, f2, f3, 1] [p0, p1, p2, p3, 0] + f0 * f1 * f2 * f3 * pb := by
  simp only [lin]
  ring

theorem lin_five_lt (f0 f1 f2 f3 p0 p1 p2 p3 : Nat) (h0 : p0 < f0) (h1 : p1 < f1)
    (h2 : p2 < f2) (h3 : p3 < f3) :
    lin [f0, f1, f2, f3, 1] [p0, p1, p2, p3, 0] < f0 * f1 * f2 * f3 := by
  have := lin_lt [f0, f1, f2, f3, 1] [p0, p1, p2, p3, 0]
    (.cons h0 (.cons h1 (.cons h2 (.cons h3 (.cons Nat.zero_lt_one .nil)))))
  simp only [List.prod_cons, List.prod_nil] at this
  calc lin [f0, f1, f2, f3, 1] [p0, p1, p2, p3, 0] < f0 * (f1 * (f2 * (f3 * (1 * 1)))) := this
    _ = f0 * f1 * f2 * f3 := by ring

theorem axisRange_self (f p : Nat) : axisRange f f p = [p] := by
  simp only [axisRange]
  rw [if_neg (by omega)]

theorem boxSum_point {α : Type} [AddMonoid α] (g : List Nat → α) (p0 p1 p2 p3 pb : Nat) :
    boxSum [[p0], [p1], [p2], [p3], [pb]] g = g [p0, p1, p2, p3, pb] := by
  simp only [boxSum, List.map_cons, List.map_nil, List.sum_cons, List.sum_nil, add_zero]

theorem boxSum_batch {α : Type} [AddMonoid α] (g : List Nat → α) (p0 p1 p2 p3 n : Nat) :
    boxSum [[p0], [p1], [p2], [p3], List.range n] g =
      ((List.range n).map fun b => g [p0, p1, p2, p3, b]).sum := by
  simp only [boxSum, List.map_cons, List.map_nil, List.sum_cons, List.sum_nil, add_zero]

theorem tbvec_broadcast_coeff {α : Type} (xo : Tensor α) (n bs r b : Nat)
    (ho : xo.d.batch_size = bs) (hob : xo.d.bd = 1) (hr : r < bs) :
    (xo.tbvec.broadcast [1, n]).coeff (r + bs * b) = xo.v r := by
  simp only [Expr.broadcast, Tensor.tbvec, ho, hob, List.zipWith_cons_cons,
    List.zipWith_nil_right, delin, lin, Nat.mod_one, Nat.mul_one, Nat.mul_zero, Nat.add_zero,
    Nat.mod_mod]
  rw [Nat.add_mul_mod_self_left, Nat.mod_eq_of_lt hr]

theorem tbvec_mul_sum_coeff {α : Type} [Semiring α] (dEdf xo : Tensor α) (r : Nat) :
    ((Expr.cwise (fun a b => a * b) dEdf.tbvec xo.tbvec).sum [1]).coeff r =
      ((List.range dEdf.d.bd).map fun b =>
        dEdf.v (r + dEdf.d.batch_size * b) * xo.v (r + dEdf.d.batch_size * b)).sum := by
  simp [Expr.sum, Expr.cwise, Tensor.tbvec, redMask, keepAxes, sumOver, delin, lin,
    List.range_succ]

theorem tb4_of_get (x fx : Dim) (h : ∀ j, x.get j = fx.get j) :
    x.tb4 = [fx.get 0, fx.get 1, fx.get 2, fx.get 3, x.bd] := by
  simp only [Dim.tb4, h]

theorem bindexOf_same (x fx : Dim) (h : ∀ j, x.get j = fx.get j) (hb : x.bd = fx.bd)
    (p0 p1 p2 p3 pb : Nat) : bindexOf x fx [p0, p1, p2, p3, pb] = [p0, p1, p2, p3, pb] := by
  simp only [bindexOf, bindex, List.getD_cons_zero, List.getD_cons_succ, h, hb, bcoord_self]

theorem bindexOf_batch_one (x fx : Dim) (h : ∀ j, x.get j = fx.get j) (hb : x.bd = 1)
    (hf : 1 < fx.bd) (p0 p1 p2 p3 pb : Nat) :
    bindexOf x fx [p0, p1, p2, p3, pb] = [p0, p1, p2, p3, 0] := by
  simp only [bindexOf, bindex, List.getD_cons_zero, List.getD_cons_succ, h, hb, bcoord_self]
  simp only [bcoord, true_and, if_pos hf]

/-- The fast path with equal batch extents. -/
theorem multiply_fast_equal {α : Type} [Semiring α] (xi xo dEdf dEdxi : Tensor α) (fx : Dim)
    (hxi : ∀ j, xi.d.get j = fx.get j) (hxo : ∀ j, xo.d.get j = fx.get j)
    (hri : xi.d.nd ≤ 4) (hbi : xi.d.bd = fx.bd) (hbo : xo.d.bd = fx.bd)
    (hdx : dEdxi.d = xi.d) (hdf : dEdf.d = fx) (p0 p1 p2 p3 pb : Nat)
    (h0 : p0 < xi.d.get 0) (h1 : p1 < xi.d.get 1) (h2 : p2 < xi.d.get 2)
    (h3 : p3 < xi.d.get 3) (hb : pb < xi.d.bd) :
    (dEdxi.accum (fun a b => a + b) dEdxi.tvec.dims
        (Expr.cwise (fun a b => a * b) dEdf.tvec xo.tvec)).at4 [p0, p1, p2, p3, pb] =
      dEdxi.at4 [p0, p1, p2, p3, pb] +
        boxSum (axisRanges xi.d.tb4 fx.tb4 [p0, p1, p2, p3, pb])
          (fun js => dEdf.at4 js * xo.at4 (bindexOf xo.d fx js)) := by
  have hA : xi.d.tb4 = fx.tb4 := by rw [tb4_of_get xi.d fx hxi, hbi]; rfl
  have hlt : lin xi.d.tb4 [p0, p1, p2, p3, pb] < dEdxi.tvec.dims.prod := by
    have := lin_lt xi.d.tb4 [p0, p1, p2, p3, pb]
      (.cons h0 (.cons h1 (.cons h2 (.cons h3 (.cons hb .nil)))))
    simpa [Tensor.tvec, hdx, Dim.size_eq_tb4_prod xi.d hri] using this
  simp only [Tensor.at4, Tensor.accum_d]
  rw [hdx, Tensor.accum_v_in _ _ _ _ _ hlt, hA]
  simp only [Dim.tb4, axisRanges, axisRange_self, boxSum_point]
  rw [bindexOf_same xo.d fx hxo hbo]
  simp only [Expr.cwise, Tensor.tvec, Tensor.at4, hdf, Dim.tb4, hxo, hbo]

/-- The fast path where the other operand has batch extent 1. -/
theorem multiply_fast_other_one {α : Type} [Semiring α] (xi xo dEdf dEdxi : Tensor α)
    (fx : Dim) (hxi : ∀ j, xi.d.get j = fx.get j) (hxo : ∀ j, xo.d.get j = fx.get j)
    (hri : xi.d.nd ≤ 4) (hro : xo.d.nd ≤ 4) (hbi : xi.d.bd = fx.bd) (hbo : xo.d.bd = 1)
    (hne : xi.d.bd ≠ xo.d.bd)
    (hdx : dEdxi.d = xi.d) (hdf : dEdf.d = fx) (p0 p1 p2 p3 pb : Nat)
    (h0 : p0 < xi.d.get 0) (h1 : p1 < xi.d.get 1) (h2 : p2 < xi.d.get 2)
    (h3 : p3 < xi.d.get 3) (hb : pb < xi.d.bd) :
    (dEdxi.accum (fun a b => a + b) dEdxi.tbvec.dims
        (Expr.cwise (fun a b => a * b) dEdf.tbvec
          (xo.tbvec.broadcast [1, fx.bd]))).at4 [p0, p1, p2, p3, pb] =
      dEdxi.at4 [p0, p1, p2, p3, pb] +
        boxSum (axisRanges xi.d.tb4 fx.tb4 [p0, p1, p2, p3, pb])
          (fun js => dEdf.at4 js * xo.at4 (bindexOf xo.d fx js)) := by
  have hA : xi.d.tb4 = fx.tb4 := by rw [tb4_of_get xi.d fx hxi, hbi]; rfl
  have hf1 : 1 < fx.bd := by omega
  have hlt : lin xi.d.tb4 [p0, p1, p2, p3, pb] < dEdxi.tbvec.dims.prod := by
    have := lin_lt xi.d.tb4 [p0, p1, p2, p3, pb]
      (.cons h0 (.cons h1 (.cons h2 (.cons h3 (.cons hb .nil)))))
    have e : dEdxi.tbvec.dims.prod = xi.d.size := by
      simp [Tensor.tbvec, hdx, Dim.size]
    rw [e, Dim.size_eq_tb4_prod xi.d hri]; exact this
  have hbs : xo.d.batch_size = fx.get 0 * fx.get 1 * fx.get 2 * fx.get 3 := by
    rw [Dim.batch_size_eq_four xo.d hro, hxo, hxo, hxo, hxo]
  have hr := lin_five_lt (fx.get 0) (fx.get 1) (fx.get 2) (fx.get 3) p0 p1 p2 p3
    (by rw [← hxi]; exact h0) (by rw [← hxi]; exact h1) (by rw [← hxi]; exact h2)
    (by rw [← hxi]; exact h3)
  simp only [Tensor.at4, Tensor.accum_d]
  rw [hdx, Tensor.accum_v_in _ _ _ _ _ hlt, hA]
  simp only [Dim.tb4, axisRanges, axisRange_self, boxSum_point]
  rw [bindexOf_batch_one xo.d fx hxo hbo hf1]
  simp only [Expr.cwise, Tensor.at4, hdf, Dim.tb4, hxo, hbo]
  rw [lin_five, tbvec_broadcast_coeff xo fx.bd _ _ pb hbs hbo hr]
  rfl

/-- The fast path where operand `i` has batch extent 1: a sum over batch. -/
theorem multiply_fast_self_one {α : Type} [Semiring α] (xi xo dEdf dEdxi : Tensor α)
    (fx : Dim) (hxi : ∀ j, xi.d.get j = fx.get j) (hxo : ∀ j, xo.d.get j = fx.get j)
    (hri : xi.d.nd ≤ 4) (hrf : fx.nd ≤ 4) (hbi : xi.d.bd = 1) (hbo : xo.d.bd = fx.bd)
    (hne : xi.d.bd ≠ xo.d.bd) (hfpos : 0 < fx.bd)
    (hdx : dEdxi.d = xi.d) (hdf : dEdf.d = fx) (p0 p1 p2 p3 pb : Nat)
    (h0 : p0 < xi.d.get 0) (h1 : p1 < xi.d.get 1) (h2 : p2 < xi.d.get 2)
    (h3 : p3 < xi.d.get 3) (hb : pb < xi.d.bd) :
    (dEdxi.accum (fun a b => a + b) dEdxi.tvec.dims
        ((Expr.cwise (fun a b => a * b) dEdf.tbvec xo.tbvec).sum [1])).at4
        [p0, p1, p2, p3, pb] =
      dEdxi.at4 [p0, p1, p2, p3, pb] +
        boxSum (axisRanges xi.d.tb4 fx.tb4 [p0, p1, p2, p3, pb])
          (fun js => dEdf.at4 js * xo.at4 (bindexOf xo.d fx js)) := by
  have hf1 : 1 < fx.bd := by omega
  have hpb : pb = 0 := by omega
  subst hpb
  have hlt : lin xi.d.tb4 [p0, p1, p2, p3, 0] < dEdxi.tvec.dims.prod := by
    have := lin_lt xi.d.tb4 [p0, p1, p2, p3, 0]
      (.cons h0 (.cons h1 (.cons h2 (.cons h3 (.cons hb .nil)))))
    simpa [Tensor.tvec, hdx, Dim.size_eq_tb4_prod xi.d hri] using this
  have hbs : fx.batch_size = fx.get 0 * fx.get 1 * fx.get 2 * fx.get 3 :=
    Dim.batch_size_eq_four fx hrf
  simp only [Tensor.at4, Tensor.accum_d]
  rw [hdx, Tensor.accum_v_in _ _ _ _ _ hlt, tbvec_mul_sum_coeff, hdf]
  simp only [hxi, hbi, Dim.tb4, axisRanges, axisRange_self]
  simp only [axisRange, true_and, if_pos hf1, boxSum_batch]
  congr 1
  apply congrArg List.sum
  apply List.map_congr_left
  intro b _
  rw [bindexOf_same xo.d fx hxo hbo]
  simp only [Tensor.at4, hdf, Dim.tb4, hxo, hbo, hbs]
  rw [lin_five (fx.get 0) (fx.get 1) (fx.get 2) (fx.get 3) fx.bd p0 p1 p2 p3 b,
    lin_five (fx.get 0) (fx.get 1) (fx.get 2) (fx.get 3) 1 p0 p1 p2 p3 0]

/-! ## `CwiseMultiply` backward as a whole -/

theorem operand_pair {α : Type} (x0 x1 : Tensor α) (i : Nat) (hi : i < 2) :
    (operand x0 x1 i = x0 ∧ operand x0 x1 (1 - i) = x1) ∨
      (operand x0 x1 i = x1 ∧ operand x0 x1 (1 - i) = x0) := by
  interval_cases i
  · left; exact ⟨rfl, rfl⟩
  · right; exact ⟨rfl, rfl⟩

theorem dispatch_helper_zero {β : Type} (h : Nat → β) (d : β) (n : Nat) (h4 : n < 5) :
    (if (n == 0) = true then h 0 else if (n == 1) = true then h 1
      else if (n == 2) = true then h 2 else if (n == 3) = true then h 3
      else if (n == 4) = true then h 4 else d) = h n := by
  interval_cases n <;> rfl

theorem multiply_backward_fast {α : Type} [Add α] [Zero α] [Mul α] (asserts : Bool)
    (junk : Nat) (x0 x1 fx dEdf : Tensor α) (i : Nat) (dEdxi : Tensor α) (hi : i < 2)
    (hfeat : ∀ j, j < fx.d.nd → x0.d.get j = x1.d.get j) :
    CwiseMultiply.backward_dev_impl asserts junk x0 x1 fx dEdf i dEdxi =
      if (x0.d.bd == x1.d.bd) = true then
        .ok (dEdxi.accum (fun a b => a + b) dEdxi.tvec.dims
          (Expr.cwise (fun a b => a * b) dEdf.tvec (operand x0 x1 (1 - i)).tvec))
      else if ((operand x0 x1 (1 - i)).d.bd == 1) = true then
        .ok (dEdxi.accum (fun a b => a + b) dEdxi.tbvec.dims
          (Expr.cwise (fun a b => a * b) dEdf.tbvec
            ((operand x0 x1 (1 - i)).tbvec.broadcast [1, fx.d.bd])))
      else
        .ok (dEdxi.accum (fun a b => a + b) dEdxi.tvec.dims
          ((Expr.cwise (fun a b => a * b) dEdf.tbvec (operand x0 x1 (1 - i)).tbvec).sum [1])) := by
  have hm : ((List.range fx.d.nd).any fun j => x0.d.get j != x1.d.get j) = false := by
    rw [List.any_eq_false]
    intro j hj
    simp [hfeat j (List.mem_range.mp hj)]
  simp only [CwiseMultiply.backward_dev_impl, DYNET_ASSERT_ok asserts _ _ (decide_eq_true hi),
    hm, Bool.not_false, if_true]
  split_ifs <;> rfl

theorem multiply_backward_slow {α : Type} [Add α] [Zero α] [Mul α]
    (junk : Nat) (x0 x1 fx dEdf : Tensor α) (i : Nat) (dEdxi : Tensor α)
    (hdiff : ∃ j, j < fx.d.nd ∧ x0.d.get j ≠ x1.d.get j)
    (hfour : (if (operand x0 x1 i).d.bd != fx.d.bd then 1 else 0) +
      ((List.range fx.d.nd).countP fun j => (operand x0 x1 i).d.get j != fx.d.get j) < 5) :
    CwiseMultiply.backward_dev_impl false junk x0 x1 fx dEdf i dEdxi =
      .ok (CwiseMultiply.backward_helper
        ((if (operand x0 x1 i).d.bd != fx.d.bd then 1 else 0) +
          ((List.range fx.d.nd).countP fun j => (operand x0 x1 i).d.get j != fx.d.get j))
        junk x0 x1 fx dEdf i dEdxi) := by
  have hm : ((List.range fx.d.nd).any fun j => x0.d.get j != x1.d.get j) = true := by
    rw [List.any_eq_true]
    obtain ⟨j, hj, hne⟩ := hdiff
    exact ⟨j, List.mem_range.mpr hj, by simpa using hne⟩
  simp only [CwiseMultiply.backward_dev_impl, DYNET_ASSERT_off, hm, Bool.not_true,
    Bool.false_eq_true, if_false]
  exact dispatch_helper_zero
    (fun n => (Except.ok (CwiseMultiply.backward_helper n junk x0 x1 fx dEdf i dEdxi) :
      Except DevError (Tensor α))) (Except.ok dEdxi) _ hfour

/-- The fast path of `CwiseMultiply` backward at an operand multi-index. -/
theorem multiply_backward_fast_at {α : Type} [Semiring α] (asserts : Bool) (junk : Nat)
    (x0 x1 fx dEdf : Tensor α) (i : Nat) (dEdxi : Tensor α) (hi : i < 2)
    (hr0 : x0.d.nd ≤ 4) (hr1 : x1.d.nd ≤ 4) (hleg : SumLegal x0.d x1.d)
    (hfx : fx.d = Dim.ofVector (outDims x0.d x1.d) (max x0.d.bd x1.d.bd))
    (hdx : dEdxi.d = (operand x0 x1 i).d) (hdf : dEdf.d = fx.d)
    (hfeat : ∀ j, j < fx.d.nd → x0.d.get j = x1.d.get j)
    (p0 p1 p2 p3 pb : Nat)
    (h0 : p0 < (operand x0 x1 i).d.get 0) (h1 : p1 < (operand x0 x1 i).d.get 1)
    (h2 : p2 < (operand x0 x1 i).d.get 2) (h3 : p3 < (operand x0 x1 i).d.get 3)
    (hb : pb < (operand x0 x1 i).d.bd) :
    ∃ t, CwiseMultiply.backward_dev_impl asserts junk x0 x1 fx dEdf i dEdxi = .ok t ∧
      t.at4 [p0, p1, p2, p3, pb] =
        dEdxi.at4 [p0, p1, p2, p3, pb] +
          boxSum (axisRanges (operand x0 x1 i).d.tb4 fx.d.tb4 [p0, p1, p2, p3, pb])
            (fun js => dEdf.at4 js *
              (operand x0 x1 (1 - i)).at4 (bindexOf (operand x0 x1 (1 - i)).d fx.d js)) := by
  obtain ⟨hall, hfget⟩ := getD_eq_of_dims hfx hfeat
  have hnd : fx.d.nd = max x0.d.nd x1.d.nd := by rw [hfx]; exact outDims_length _ _
  have hnd4 : fx.d.nd ≤ 4 := by rw [hnd]; exact max_le hr0 hr1
  have hbpos : 0 < fx.d.bd :=
    Nat.lt_of_lt_of_le (Nat.lt_of_le_of_lt (Nat.zero_le _) hb) (operand_bd_le x0 x1 fx.d i hfx)
  have hbi := operand_batch x0 x1 fx.d i hleg hfx hbpos
  have hbo := operand_batch x0 x1 fx.d (1 - i) hleg hfx hbpos
  have hri : (operand x0 x1 i).d.nd ≤ 4 := le_trans (operand_nd_le x0 x1 fx.d i hfx) hnd4
  have hro : (operand x0 x1 (1 - i)).d.nd ≤ 4 :=
    le_trans (operand_nd_le x0 x1 fx.d (1 - i) hfx) hnd4
  have hxi : ∀ j, (operand x0 x1 i).d.get j = fx.d.get j := by
    intro j
    rcases operand_pair x0 x1 i hi with ⟨e, _⟩ | ⟨e, _⟩
    · rw [e, hfget]
    · rw [e, hfget, hall]
  have hxo : ∀ j, (operand x0 x1 (1 - i)).d.get j = fx.d.get j := by
    intro j
    rcases operand_pair x0 x1 i hi with ⟨_, e⟩ | ⟨_, e⟩
    · rw [e, hfget, hall]
    · rw [e, hfget]
  have hbeq : x0.d.bd = x1.d.bd ↔ (operand x0 x1 i).d.bd = (operand x0 x1 (1 - i)).d.bd := by
    rcases operand_pair x0 x1 i hi with ⟨e1, e2⟩ | ⟨e1, e2⟩
    · rw [e1, e2]
    · rw [e1, e2]; exact eq_comm
  have hfb : fx.d.bd = max (operand x0 x1 i).d.bd (operand x0 x1 (1 - i)).d.bd := by
    have : fx.d.bd = max x0.d.bd x1.d.bd := by rw [hfx]; rfl
    rcases operand_pair x0 x1 i hi with ⟨e1, e2⟩ | ⟨e1, e2⟩
    · rw [e1, e2]; exact this
    · rw [e1, e2, max_comm]; exact this
  rw [multiply_backward_fast asserts junk x0 x1 fx dEdf i dEdxi hi hfeat]
  by_cases hb1 : x0.d.bd = x1.d.bd
  · rw [if_pos (by simpa using hb1)]
    have e := hbeq.1 hb1
    exact ⟨_, rfl, multiply_fast_equal _ _ dEdf dEdxi fx.d hxi hxo hri
      (by rw [hfb, ← e, max_self]) (by rw [hfb, e, max_self]) hdx hdf p0 p1 p2 p3 pb
      h0 h1 h2 h3 hb⟩
  · rw [if_neg (by simpa using hb1)]
    have hne : (operand x0 x1 i).d.bd ≠ (operand x0 x1 (1 - i)).d.bd := fun h => hb1 (hbeq.2 h)
    by_cases ho1 : (operand x0 x1 (1 - i)).d.bd = 1
    · rw [if_pos (by simpa using ho1)]
      exact ⟨_, rfl, multiply_fast_other_one _ _ dEdf dEdxi fx.d hxi hxo hri hro
        (by rcases hbi with h | h; exact h; omega) ho1 hne hdx hdf p0 p1 p2 p3 pb
        h0 h1 h2 h3 hb⟩
    · rw [if_neg (by simpa using ho1)]
      have ho : (operand x0 x1 (1 - i)).d.bd = fx.d.bd := by
        rcases hbo with h | h; exact h; exact absurd h ho1
      exact ⟨_, rfl, multiply_fast_self_one _ _ dEdf dEdxi fx.d hxi hxo hri hnd4
        (by rcases hbi with h | h; omega; exact h) ho hne hbpos hdx hdf p0 p1 p2 p3 pb
        h0 h1 h2 h3 hb⟩

/-- C13 (counterexample). A scalar operand of shape `[1,1,1,1]`, batch 1,
multiplied with an operand of shape `[2,2,2,2]`, batch 2, is a legal pair; the
gradient of the scalar is the sum of `dEdf * x1` over all 32 output elements,
here 32, yet backward for operand 0 (assertions treated as no-ops) leaves
`dEdx0` unchanged at 0: with five reduced axes no helper is dispatched. -/
theorem C13_multiply_backward_five_axes :
    CwiseMultiply.dim_forward [exScalar.d, exFull.d] = .ok exFull.d ∧
      resultValues (CwiseMultiply.backward_dev_impl false 0 exScalar exFull exFull exFull 0
        (zeroGrad exScalar.d)) 1 = some [0] ∧
      (zeroGrad exScalar.d).at4 [0, 0, 0, 0, 0] +
        boxSum (axisRanges exScalar.d.tb4 exFull.d.tb4 [0, 0, 0, 0, 0])
          (fun js => exFull.at4 js * exFull.at4 (bindexOf exFull.d exFull.d js)) = 32 :=
  ⟨rfl, by decide, by decide⟩

/-- C13 (amended). For every legal `CwiseMultiply` operand pair of rank at
most 4 (extents at least 1) and each operand index `i` in `{0, 1}` that is
broadcast on at most four of the five axes, `backward_dev_impl` (assertions
treated as no-ops) adds to `dEdxi`, at every operand index, the product
`dEdf * x[1-i]` (with `x[1-i]` broadcast up to the output shape) summed over
exactly the axes (feature and batch) on which operand `i` has extent 1 and the
output a larger extent; this holds on the fast path and on the
`backward_helper` path. -/
theorem C13_multiply_backward {α : Type} [Semiring α] (junk : Nat)
    (x0 x1 fx dEdf : Tensor α) (i : Nat) (dEdxi : Tensor α) (hi : i < 2)
    (hr0 : x0.d.nd ≤ 4) (hr1 : x1.d.nd ≤ 4)
    (hM : CwiseMultiply.dim_forward [x0.d, x1.d] = .ok fx.d)
    (hpos : ∀ j, 0 < fx.d.get j)
    (hdx : dEdxi.d = (operand x0 x1 i).d) (hdf : dEdf.d = fx.d)
    (hfour : nBroadcast (operand x0 x1 i).d fx.d ≤ 4)
    (p0 p1 p2 p3 pb : Nat)
    (h0 : p0 < (operand x0 x1 i).d.get 0) (h1 : p1 < (operand x0 x1 i).d.get 1)
    (h2 : p2 < (operand x0 x1 i).d.get 2) (h3 : p3 < (operand x0 x1 i).d.get 3)
    (hb : pb < (operand x0 x1 i).d.bd) :
    ∃ t, CwiseMultiply.backward_dev_impl false junk x0 x1 fx dEdf i dEdxi = .ok t ∧
      t.at4 [p0, p1, p2, p3, pb] =
        dEdxi.at4 [p0, p1, p2, p3, pb] +
          boxSum (axisRanges (operand x0 x1 i).d.tb4 fx.d.tb4 [p0, p1, p2, p3, pb])
            (fun js => dEdf.at4 js *
              (operand x0 x1 (1 - i)).at4 (bindexOf (operand x0 x1 (1 - i)).d fx.d js)) := by
  obtain ⟨hleg, hfx⟩ := (multiply_dim_forward_eq_ok x0.d x1.d fx.d).1 hM
  by_cases hfeat : ∀ j, j < fx.d.nd → x0.d.get j = x1.d.get j
  · exact multiply_backward_fast_at false junk x0 x1 fx dEdf i dEdxi hi hr0 hr1 hleg hfx hdx hdf
      hfeat p0 p1 p2 p3 pb h0 h1 h2 h3 hb
  · have hdiff : ∃ j, j < fx.d.nd ∧ x0.d.get j ≠ x1.d.get j := by
      by_contra hc
      exact hfeat (fun j hj => by
        by_contra hne
        exact hc ⟨j, hj, hne⟩)
    have hbpos : 0 < fx.d.bd :=
      Nat.lt_of_lt_of_le (Nat.lt_of_le_of_lt (Nat.zero_le _) hb)
        (operand_bd_le x0 x1 fx.d i hfx)
    have hn := n_red_eq_nBroadcast x0 x1 fx.d i hr0 hr1 hleg hfx hpos hbpos
    rw [multiply_backward_slow junk x0 x1 fx dEdf i dEdxi hdiff (by omega)]
    exact ⟨_, rfl, multiply_backward_helper_at junk x0 x1 fx dEdf i dEdxi hr0 hr1 hleg hfx hpos
      hdx hdf _ (Nat.add_comm _ _) p0 p1 p2 p3 pb h0 h1 h2 h3 hb⟩

/-- A doubly broadcast input for C13: `A` of shape `[3,1]` and `B` of shape
`[1,4]` with the gradient of ones over `[3,4]`; the element 1 of `dEdA`
receives `10 + 20 + 30 + 40`. -/
theorem C13_multiply_backward_witness :
    ((0 : Nat) < 2 ∧ exA.d.nd ≤ 4 ∧ exB.d.nd ≤ 4 ∧
        CwiseMultiply.dim_forward [exA.d, exB.d] = .ok exAB.d ∧
        (∀ j, 0 < exAB.d.get j) ∧
        (zeroGrad exA.d).d = (operand exA exB 0).d ∧ exOnes.d = exAB.d ∧
        nBroadcast (operand exA exB 0).d exAB.d ≤ 4 ∧
        1 < (operand exA exB 0).d.get 0 ∧ 0 < (operand exA exB 0).d.get 1 ∧
        0 < (operand exA exB 0).d.get 2 ∧ 0 < (operand exA exB 0).d.get 3 ∧
        0 < (operand exA exB 0).d.bd) ∧
      ∃ t, CwiseMultiply.backward_dev_impl false 0 exA exB exAB exOnes 0 (zeroGrad exA.d) =
          .ok t ∧ t.at4 [1, 0, 0, 0, 0] = 100 := by
  have hpos : ∀ j, 0 < exAB.d.get j := by
    intro j
    rcases j with _ | _ | j
    · decide
    · decide
    · simp [exAB, Dim.get]
  refine ⟨⟨by decide, by decide, by decide, rfl, hpos, rfl, rfl, by decide, by decide,
    by decide, by decide, by decide, by decide⟩, ?_⟩
  obtain ⟨t, ht, hv⟩ := C13_multiply_backward 0 exA exB exAB exOnes 0 (zeroGrad exA.d)
    (by decide) (by decide) (by decide) rfl hpos rfl rfl (by decide) 1 0 0 0 0
    (by decide) (by decide) (by decide) (by decide) (by decide)
  exact ⟨t, ht, hv.trans (by decide)⟩

/-! ## Shapes of a legal quotient -/

/-- On every axis the denominator of a legal quotient whose rank does not
exceed the numerator's has the numerator's extent or extent 1. -/
theorem quotient_axis (x0 x1 : Dim) (hleg : QuotientLegal x0 x1) (hnd : x1.nd ≤ x0.nd) :
    (∀ j, x1.get j = x0.get j ∨ x1.get j = 1) ∧ (x1.bd = x0.bd ∨ x1.bd = 1) := by
  refine ⟨fun j => ?_, ?_⟩
  · by_cases hj : j < x1.nd
    · have h := hleg.1 j (by rw [Nat.min_eq_right hnd]; exact hj)
      rw [Dim.getD_eq_get x0 j (Nat.lt_of_lt_of_le hj hnd), Dim.getD_eq_get x1 j hj] at h
      rcases h with h | h
      · exact Or.inl h.symm
      · exact Or.inr h
    · exact Or.inr (Dim.get_of_le x1 j (not_lt.mp hj))
  · rcases hleg.2 with h | h
    · exact Or.inl h.symm
    · exact Or.inr h

theorem prod_le_of_axes (A F : List Nat)
    (h : List.Forall₂ (fun a f => (a = f ∨ a = 1) ∧ 0 < f) A F) :
    A.prod ≤ F.prod ∧ 0 < F.prod := by
  induction h with
  | nil => simp
  | @cons a f A F hax _ ih =>
    simp only [List.prod_cons]
    refine ⟨?_, Nat.mul_pos hax.2 ih.2⟩
    have haf : a ≤ f := by rcases hax.1 with h | h <;> omega
    exact Nat.mul_le_mul haf ih.1

/-- Extents that are axis by axis equal or 1 against positive extents, with
the same product, are equal. -/
theorem eq_of_prod_eq (A F : List Nat)
    (h : List.Forall₂ (fun a f => (a = f ∨ a = 1) ∧ 0 < f) A F) (hp : A.prod = F.prod) :
    A = F := by
  induction h with
  | nil => rfl
  | @cons a f A F hax hrest ih =>
    simp only [List.prod_cons] at hp
    obtain ⟨hle, hpos⟩ := prod_le_of_axes A F hrest
    by_cases haf : a = f
    · subst haf
      rw [ih (Nat.eq_of_mul_eq_mul_left hax.2 hp)]
    · exfalso
      have h1 : a = 1 := by rcases hax.1 with h | h; exact absurd h haf; exact h
      have hf : 2 ≤ f := by omega
      rw [h1, Nat.one_mul] at hp
      have : 2 * F.prod ≤ f * F.prod := Nat.mul_le_mul_right _ hf
      omega

/-- A legal denominator with as many elements as a numerator of positive
extents has the numerator's `tb<4>()` extents. -/
theorem tb4_eq_of_size (x0 x1 : Dim) (hr0 : x0.nd ≤ 4) (hr1 : x1.nd ≤ 4)
    (hax : ∀ j, x1.get j = x0.get j ∨ x1.get j = 1) (hbd : x1.bd = x0.bd ∨ x1.bd = 1)
    (hpos : ∀ j, 0 < x0.get j) (hbpos : 0 < x0.bd) (hs : x0.size = x1.size) :
    x1.tb4 = x0.tb4 := by
  apply eq_of_prod_eq
  · simp only [Dim.tb4]
    exact .cons ⟨hax 0, hpos 0⟩ (.cons ⟨hax 1, hpos 1⟩ (.cons ⟨hax 2, hpos 2⟩
      (.cons ⟨hax 3, hpos 3⟩ (.cons ⟨hbd, hbpos⟩ .nil))))
  · rw [← Dim.size_eq_tb4_prod x1 hr1, ← Dim.size_eq_tb4_prod x0 hr0, hs]

/-! ## The index at which the denominator is read -/

theorem mod_eq_zero_where_one (a f j : Nat) (h : a = f ∨ a = 1) (hj : j < f) :
    j % a = if a = 1 then 0 else j := by
  by_cases h1 : a = 1
  · rw [if_pos h1, h1, Nat.mod_one]
  · rw [if_neg h1]
    rcases h with h | h
    · rw [h]; exact Nat.mod_eq_of_lt hj
    · exact absurd h h1

theorem zipmod_eq_zeroWhereOne (x fx : Dim) (js : List Nat)
    (hax : ∀ j, x.get j = fx.get j ∨ x.get j = 1) (hbd : x.bd = fx.bd ∨ x.bd = 1)
    (hjs : List.Forall₂ (fun j D => j < D) js fx.tb4) :
    List.zipWith (fun j a => j % a) js x.tb4 = zeroWhereOne x js := by
  obtain ⟨j0, j1, j2, j3, b, rfl, h0, h1, h2, h3, hb⟩ := forall2_five js _ _ _ _ _ hjs
  simp only [zeroWhereOne, Dim.tb4, List.zipWith_cons_cons, List.zipWith_nil_right,
    List.zipWith_nil_left]
  rw [mod_eq_zero_where_one _ _ _ (hax 0) h0, mod_eq_zero_where_one _ _ _ (hax 1) h1,
    mod_eq_zero_where_one _ _ _ (hax 2) h2, mod_eq_zero_where_one _ _ _ (hax 3) h3,
    mod_eq_zero_where_one _ _ _ hbd hb]

theorem zero_where_one_lt (a f j : Nat) (h : a = f ∨ a = 1) (hj : j < f) :
    (if a = 1 then 0 else j) < a := by
  by_cases h1 : a = 1
  · rw [if_pos h1, h1]; exact Nat.zero_lt_one
  · rw [if_neg h1]
    rcases h with h | h
    · rw [h]; exact hj
    · exact absurd h h1

theorem zeroWhereOne_lt (x fx : Dim) (js : List Nat)
    (hax : ∀ j, x.get j = fx.get j ∨ x.get j = 1) (hbd : x.bd = fx.bd ∨ x.bd = 1)
    (hjs : List.Forall₂ (fun j D => j < D) js fx.tb4) :
    List.Forall₂ (fun j D => j < D) (zeroWhereOne x js) x.tb4 := by
  obtain ⟨j0, j1, j2, j3, b, rfl, h0, h1, h2, h3, hb⟩ := forall2_five js _ _ _ _ _ hjs
  simp only [zeroWhereOne, Dim.tb4, List.zipWith_cons_cons, List.zipWith_nil_right,
    List.zipWith_nil_left]
  exact .cons (zero_where_one_lt _ _ _ (hax 0) h0) (.cons (zero_where_one_lt _ _ _ (hax 1) h1)
    (.cons (zero_where_one_lt _ _ _ (hax 2) h2) (.cons (zero_where_one_lt _ _ _ (hax 3) h3)
    (.cons (zero_where_one_lt _ _ _ hbd hb) .nil))))

/-- On a multi-index within the denominator's own extents the coordinates set
to 0 are 0 already. -/
theorem zeroWhereOne_self (x : Dim) (js : List Nat)
    (hjs : List.Forall₂ (fun j D => j < D) js x.tb4) : zeroWhereOne x js = js := by
  obtain ⟨j0, j1, j2, j3, b, rfl, h0, h1, h2, h3, hb⟩ := forall2_five js _ _ _ _ _ hjs
  have g : ∀ a j : Nat, j < a → (if a = 1 then 0 else j) = j := by
    intro a j hj
    split_ifs with h
    · omega
    · rfl
  simp only [zeroWhereOne, Dim.tb4, List.zipWith_cons_cons, List.zipWith_nil_right,
    List.zipWith_nil_left]
  rw [g _ _ h0, g _ _ h1, g _ _ h2, g _ _ h3, g _ _ hb]

/-! ## The replication factors of the quotient -/

/-- Five-entry form of a factor array filled by a loop over the first `nd`
axes and a conditional write of the batch entry. -/
theorem bcast_loop_spec (cond : Nat → Bool) (val : Nat → Nat) (cb : Bool) (vb nd : Nat)
    (hnd : nd ≤ 4) (hout : ∀ i, nd ≤ i → (if cond i = true then val i else 1) = 1) :
    (if cb = true then (setLoop nd cond val [1, 1, 1, 1, 1]).set 4 vb
      else setLoop nd cond val [1, 1, 1, 1, 1]) =
      [if cond 0 = true then val 0 else 1, if cond 1 = true then val 1 else 1,
        if cond 2 = true then val 2 else 1, if cond 3 = true then val 3 else 1,
        if cb = true then vb else 1] := by
  obtain ⟨l, g⟩ := setLoop_spec (List.range nd) cond val [1, 1, 1, 1, 1]
  have hlen : (setLoop nd cond val [1, 1, 1, 1, 1]).length = 5 := l
  have hg : ∀ i, i < 4 →
      (setLoop nd cond val [1, 1, 1, 1, 1]).getD i 1 =
        if cond i = true then val i else 1 := by
    intro i hi
    have gi : (setLoop nd cond val [1, 1, 1, 1, 1]).getD i 1 = _ := g i
    rw [gi]
    by_cases hin : i < nd
    · by_cases hc : cond i = true
      · rw [if_pos ⟨List.mem_range.mpr hin, hc, by simp; omega⟩, if_pos hc]
      · rw [if_neg (fun h => hc h.2.1), if_neg hc]
        interval_cases i <;> rfl
    · rw [if_neg (fun hc => hin (List.mem_range.mp hc.1)), hout i (not_lt.mp hin)]
      interval_cases i <;> rfl
  have h4 : (setLoop nd cond val [1, 1, 1, 1, 1]).getD 4 1 = 1 := by
    have gi : (setLoop nd cond val [1, 1, 1, 1, 1]).getD 4 1 = _ := g 4
    rw [gi, if_neg (fun hc => by have := List.mem_range.mp hc.1; omega)]
    rfl
  have hlist := list5_eq _ hlen
  rw [hg 0 (by omega), hg 1 (by omega), hg 2 (by omega), hg 3 (by omega), h4] at hlist
  rw [hlist]
  split_ifs <;> rfl

theorem ne_factor (a f : Nat) (h : a = f ∨ a = 1) :
    (a * if (f != a) = true then f else 1) = f := by
  by_cases he : f = a
  · have : ¬ (f != a) = true := by simp [he]
    rw [if_neg this, Nat.mul_one, he]
  · have : (f != a) = true := by simpa using he
    rw [if_pos this]
    rcases h with h | h
    · exact absurd h.symm he
    · rw [h, Nat.one_mul]

/-- The extents of the denominator replicated by the factors that the
backward of the quotient computes are the numerator's. -/
theorem quotient_backward_dims (x0 x1 : Dim) (hr0 : x0.nd ≤ 4)
    (hax : ∀ j, x1.get j = x0.get j ∨ x1.get j = 1) (hbd : x1.bd = x0.bd ∨ x1.bd = 1) :
    List.zipWith (fun a b => a * b) x1.tb4
      (if (x0.bd != x1.bd) = true then
        (setLoop x0.nd (fun di => x0.get di != x1.get di) (fun di => x0.get di)
          [1, 1, 1, 1, 1]).set 4 x0.bd
      else setLoop x0.nd (fun di => x0.get di != x1.get di) (fun di => x0.get di)
        [1, 1, 1, 1, 1]) = x0.tb4 := by
  rw [bcast_loop_spec (fun di => x0.get di != x1.get di) (fun di => x0.get di)
    (x0.bd != x1.bd) x0.bd x0.nd hr0 (fun i hi => by
      show (if (x0.get i != x1.get i) = true then x0.get i else 1) = 1
      rw [Dim.get_of_le x0 i hi]; split_ifs <;> rfl)]
  simp only [Dim.tb4, List.zipWith_cons_cons, List.zipWith_nil_right]
  rw [ne_factor _ _ (hax 0), ne_factor _ _ (hax 1), ne_factor _ _ (hax 2),
    ne_factor _ _ (hax 3), ne_factor _ _ hbd]

/-- The coefficient of the replicated denominator at a numerator
multi-index. -/
theorem denominator_coeff {α : Type} (x1 : Tensor α) (x0 : Dim) (bc js : List Nat)
    (hdims : List.zipWith (fun a b => a * b) x1.d.tb4 bc = x0.tb4)
    (hax : ∀ j, x1.d.get j = x0.get j ∨ x1.d.get j = 1) (hbd : x1.d.bd = x0.bd ∨ x1.d.bd = 1)
    (hjs : List.Forall₂ (fun j D => j < D) js x0.tb4) :
    (x1.tb4.broadcast bc).coeff (lin x0.tb4 js) = x1.at4 (zeroWhereOne x1.d js) := by
  rw [broadcast_coeff x1 bc x0.tb4 js hdims hjs, zipmod_eq_zeroWhereOne x1.d x0 js hax hbd hjs]
  rfl

/-! ## Forward of `CwiseQuotient` -/

theorem pos_of_index (x : Dim) (hr : x.nd ≤ 4) (p0 p1 p2 p3 : Nat) (h0 : p0 < x.get 0)
    (h1 : p1 < x.get 1) (h2 : p2 < x.get 2) (h3 : p3 < x.get 3) : ∀ j, 0 < x.get j := by
  intro j
  rcases j with _ | _ | _ | _ | j
  · exact Nat.lt_of_le_of_lt (Nat.zero_le _) h0
  · exact Nat.lt_of_le_of_lt (Nat.zero_le _) h1
  · exact Nat.lt_of_le_of_lt (Nat.zero_le _) h2
  · exact Nat.lt_of_le_of_lt (Nat.zero_le _) h3
  · rw [Dim.get_of_le x (j + 4) (by omega)]; exact Nat.zero_lt_one

/-- The value `CwiseQuotient::forward_dev_impl` writes at a multi-index of the
numerator, on both of its branches. -/
theorem quotient_forward_at {α : Type} [Div α] (x0 x1 fx : Tensor α)
    (hr0 : x0.d.nd ≤ 4) (hr1 : x1.d.nd ≤ 4)
    (hax : ∀ j, x1.d.get j = x0.d.get j ∨ x1.d.get j = 1)
    (hbd : x1.d.bd = x0.d.bd ∨ x1.d.bd = 1) (hfx : fx.d = x0.d)
    (p0 p1 p2 p3 pb : Nat) (h0 : p0 < x0.d.get 0) (h1 : p1 < x0.d.get 1)
    (h2 : p2 < x0.d.get 2) (h3 : p3 < x0.d.get 3) (hb : pb < x0.d.bd) :
    (CwiseQuotient.forward_dev_impl x0 x1 fx).at4 [p0, p1, p2, p3, pb] =
      x0.at4 [p0, p1, p2, p3, pb] / x1.at4 (zeroWhereOne x1.d [p0, p1, p2, p3, pb]) := by
  have hjs : List.Forall₂ (fun j D => j < D) [p0, p1, p2, p3, pb] x0.d.tb4 :=
    .cons h0 (.cons h1 (.cons h2 (.cons h3 (.cons hb .nil))))
  have hlt := lin_lt _ _ hjs
  have hpos := pos_of_index x0.d hr0 p0 p1 p2 p3 h0 h1 h2 h3
  have hbpos : 0 < x0.d.bd := by omega
  unfold CwiseQuotient.forward_dev_impl
  by_cases hs : x0.d.size = x1.d.size
  · have hT := tb4_eq_of_size x0.d x1.d hr0 hr1 hax hbd hpos hbpos hs
    rw [if_pos (by simpa using hs)]
    simp only [Tensor.at4, Tensor.assign_d, hfx]
    rw [Tensor.assign_v_in _ _ _ _ (Nat.zero_le _)
      (by simpa only [Expr.cwise, Tensor.tb4, Nat.zero_add] using hlt),
      zeroWhereOne_self x1.d _ (by rw [hT]; exact hjs), hT]
    rfl
  · rw [if_neg (by simpa using hs)]
    have hdims := other_dims x1 x0.d hr0 hax hbd
    simp only [Tensor.at4, Tensor.assign_d, hfx]
    rw [Tensor.assign_v_in _ _ _ _ (Nat.zero_le _)
      (by simpa only [Expr.cwise, Tensor.tb4, Nat.zero_add] using hlt)]
    simp only [Nat.sub_zero, Expr.cwise]
    rw [denominator_coeff x1 x0.d _ _ hdims hax hbd hjs]
    rfl

/-- C14. For every operand pair accepted by `CwiseQuotient::dim_forward` with a
numerator of rank at most 4 (extents at least 1) and a denominator whose rank
does not exceed the numerator's, `forward_dev_impl` writes, at every index
`(j0, j1, j2, j3, b)` of the inferred output shape, the numerator's element at
that index divided by the denominator's element at the index with coordinate 0
on every axis (feature or batch) where the denominator has extent 1. -/
theorem C14_quotient_forward {α : Type} [Div α] (x0 x1 fx : Tensor α)
    (hr0 : x0.d.nd ≤ 4) (hnd : x1.d.nd ≤ x0.d.nd)
    (hQ : CwiseQuotient.dim_forward [x0.d, x1.d] = .ok fx.d)
    (hpos : ∀ j, 0 < x0.d.get j) (hbpos : 0 < x0.d.bd)
    (j0 j1 j2 j3 b : Nat) (h0 : j0 < fx.d.get 0) (h1 : j1 < fx.d.get 1)
    (h2 : j2 < fx.d.get 2) (h3 : j3 < fx.d.get 3) (hb : b < fx.d.bd) :
    (CwiseQuotient.forward_dev_impl x0 x1 fx).at4 [j0, j1, j2, j3, b] =
      x0.at4 [j0, j1, j2, j3, b] / x1.at4 (zeroWhereOne x1.d [j0, j1, j2, j3, b]) := by
  have hfx : fx.d = x0.d := quotient_dim_forward_eq_left x0.d x1.d fx.d hQ hnd
    (fun i hi => by rw [Dim.getD_eq_get x0.d i hi]; exact hpos i) hbpos
  obtain ⟨hleg, _⟩ := (quotient_dim_forward_eq_ok x0.d x1.d fx.d).1 hQ
  obtain ⟨hax, hbd⟩ := quotient_axis x0.d x1.d hleg hnd
  rw [hfx] at h0 h1 h2 h3 hb
  exact quotient_forward_at x0 x1 fx hr0 (le_trans hnd hr0) hax hbd hfx j0 j1 j2 j3 b
    h0 h1 h2 h3 hb

/-- The spec's scenario for C14: the numerator `[4, 9]` of shape `[2]` divided
by the denominator `[2]` of shape `[1]` gives `[2, 9/2]`. -/
theorem C14_quotient_forward_witness :
    (exNum.d.nd ≤ 4 ∧ exDen.d.nd ≤ exNum.d.nd ∧
        CwiseQuotient.dim_forward [exNum.d, exDen.d] = .ok (zeroRat exNum.d).d ∧
        (∀ j, 0 < exNum.d.get j) ∧ 0 < exNum.d.bd) ∧
      (CwiseQuotient.forward_dev_impl exNum exDen (zeroRat exNum.d)).at4 [0, 0, 0, 0, 0] = 2 ∧
      (CwiseQuotient.forward_dev_impl exNum exDen (zeroRat exNum.d)).at4 [1, 0, 0, 0, 0] =
        9 / 2 := by
  have hpos : ∀ j, 0 < exNum.d.get j := by
    intro j
    rcases j with _ | j
    · decide
    · simp [exNum, Dim.get]
  refine ⟨⟨by decide, by decide, rfl, hpos, by decide⟩, ?_, ?_⟩
  · rw [C14_quotient_forward exNum exDen (zeroRat exNum.d) (by decide) (by decide) rfl hpos
      (by decide) 0 0 0 0 0 (by decide) (by decide) (by decide) (by decide) (by decide)]
    simp [exNum, exDen, Tensor.at4, zeroWhereOne, Dim.tb4, Dim.get, lin]
    norm_num
  · rw [C14_quotient_forward exNum exDen (zeroRat exNum.d) (by decide) (by decide) rfl hpos
      (by decide) 1 0 0 0 0 (by decide) (by decide) (by decide) (by decide) (by decide)]
    simp [exNum, exDen, Tensor.at4, zeroWhereOne, Dim.tb4, Dim.get, lin]

/-! ## Backward of `CwiseQuotient` for the numerator -/

/-- An accepted quotient whose output shape is the numerator's: the pair is
legal and the denominator's rank does not exceed the numerator's. -/
theorem quotient_same_shape (x0 x1 : Dim)
    (hQ : CwiseQuotient.dim_forward [x0, x1] = .ok x0) :
    x1.nd ≤ x0.nd ∧ (∀ j, x1.get j = x0.get j ∨ x1.get j = 1) ∧
      (x1.bd = x0.bd ∨ x1.bd = 1) ∧ x1.bd ≤ x0.bd := by
  obtain ⟨hleg, hfx⟩ := (quotient_dim_forward_eq_ok x0 x1 x0).1 hQ
  have hnd : x1.nd ≤ x0.nd := by
    have h := congrArg Dim.nd hfx
    have hl : (Dim.ofVector (outDims x0 x1) (max x0.bd x1.bd)).nd = max x0.nd x1.nd :=
      outDims_length x0 x1
    rw [hl] at h
    omega
  have hb : x1.bd ≤ x0.bd := by
    have h := congrArg Dim.bd hfx
    have hl : (Dim.ofVector (outDims x0 x1) (max x0.bd x1.bd)).bd = max x0.bd x1.bd := rfl
    rw [hl] at h
    omega
  exact ⟨hnd, (quotient_axis x0 x1 hleg hnd).1, (quotient_axis x0 x1 hleg hnd).2, hb⟩

theorem quotient_backward_numerator {α : Type} [Add α] [Zero α] [Sub α] [Mul α] [Div α]
    (asserts : Bool) (junk : Nat) (buf : Nat → α) (x0 x1 dEdf dEdxi : Tensor α)
    (s : AlignedMemoryPool) :
    CwiseQuotient.backward_dev_impl asserts junk buf x0 x1 dEdf 0 dEdxi s =
      if (x0.d.size == x1.d.size) = true then
        .ok (dEdxi.accum (fun a b => a + b) dEdxi.d.tb4
          (Expr.cwise (fun a b => a / b) dEdf.tb4 x1.tb4), s)
      else
        .ok (dEdxi.accum (fun a b => a + b) dEdxi.d.tb4
          (Expr.cwise (fun a b => a / b) dEdf.tb4 (x1.tb4.broadcast
            (if (x0.d.bd != x1.d.bd) = true then
              (setLoop x0.d.nd (fun di => x0.d.get di != x1.d.get di) (fun di => x0.d.get di)
                [1, 1, 1, 1, 1]).set 4 x0.d.bd
            else setLoop x0.d.nd (fun di => x0.d.get di != x1.d.get di)
              (fun di => x0.d.get di) [1, 1, 1, 1, 1]))), s) := by
  simp only [CwiseQuotient.backward_dev_impl,
    DYNET_ASSERT_ok asserts _ _ (decide_eq_true (by omega : 0 < 2)), beq_self_eq_true, if_true]
  split_ifs <;> rfl

/-- C15. For every legal `CwiseQuotient` operand pair with a numerator of rank
at most 4 whose output shape equals the numerator's shape, backward for operand
0 succeeds, leaves the scratch pool untouched and adds to `dEdx0`, at every
index of the numerator, the single term `dEdf` at that index divided by the
denominator's element at the index with coordinate 0 on every axis where the
denominator has extent 1; no sum over any axis is taken. This holds with
assertions on or off. -/
theorem C15_quotient_backward_numerator {α : Type} [Field α] (asserts : Bool) (junk : Nat)
    (buf : Nat → α) (x0 x1 dEdf dEdxi : Tensor α) (s : AlignedMemoryPool)
    (hr0 : x0.d.nd ≤ 4) (hQ : CwiseQuotient.dim_forward [x0.d, x1.d] = .ok x0.d)
    (hdx : dEdxi.d = x0.d) (hdf : dEdf.d = x0.d)
    (p0 p1 p2 p3 pb : Nat) (h0 : p0 < x0.d.get 0) (h1 : p1 < x0.d.get 1)
    (h2 : p2 < x0.d.get 2) (h3 : p3 < x0.d.get 3) (hb : pb < x0.d.bd) :
    ∃ t, CwiseQuotient.backward_dev_impl asserts junk buf x0 x1 dEdf 0 dEdxi s = .ok (t, s) ∧
      t.at4 [p0, p1, p2, p3, pb] =
        dEdxi.at4 [p0, p1, p2, p3, pb] +
          dEdf.at4 [p0, p1, p2, p3, pb] / x1.at4 (zeroWhereOne x1.d [p0, p1, p2, p3, pb]) := by
  obtain ⟨hnd, hax, hbd, _⟩ := quotient_same_shape x0.d x1.d hQ
  have hr1 : x1.d.nd ≤ 4 := le_trans hnd hr0
  have hjs : List.Forall₂ (fun j D => j < D) [p0, p1, p2, p3, pb] x0.d.tb4 :=
    .cons h0 (.cons h1 (.cons h2 (.cons h3 (.cons hb .nil))))
  have hlt := lin_lt _ _ hjs
  have hpos := pos_of_index x0.d hr0 p0 p1 p2 p3 h0 h1 h2 h3
  have hbpos : 0 < x0.d.bd := by omega
  rw [quotient_backward_numerator]
  by_cases hs : x0.d.size = x1.d.size
  · have hT := tb4_eq_of_size x0.d x1.d hr0 hr1 hax hbd hpos hbpos hs
    rw [if_pos (by simpa using hs)]
    refine ⟨_, rfl, ?_⟩
    simp only [Tensor.at4, Tensor.accum_d]
    rw [hdx, Tensor.accum_v_in _ _ _ _ _ hlt, zeroWhereOne_self x1.d _ (by rw [hT]; exact hjs),
      hT]
    simp only [Expr.cwise, Tensor.tb4, hdf]
  · rw [if_neg (by simpa using hs)]
    refine ⟨_, rfl, ?_⟩
    have hdims := quotient_backward_dims x0.d x1.d hr0 hax hbd
    simp only [Tensor.at4, Tensor.accum_d]
    rw [hdx, Tensor.accum_v_in _ _ _ _ _ hlt]
    simp only [Expr.cwise]
    rw [denominator_coeff x1 x0.d _ _ hdims hax hbd hjs]
    simp only [Tensor.tb4, Tensor.at4, hdf]

/-- The spec's scenario for C15: numerator `[4, 9]`, denominator `[2]`,
`dEdf = [1, 1]`; both elements of `dEdx0` receive `1/2`. -/
theorem C15_quotient_backward_numerator_witness :
    (exNum.d.nd ≤ 4 ∧ CwiseQuotient.dim_forward [exNum.d, exDen.d] = .ok exNum.d ∧
        (zeroRat exNum.d).d = exNum.d ∧ exGrad2.d = exNum.d ∧
        1 < exNum.d.get 0 ∧ 0 < exNum.d.get 1 ∧ 0 < exNum.d.get 2 ∧ 0 < exNum.d.get 3 ∧
        0 < exNum.d.bd) ∧
      (∃ t, CwiseQuotient.backward_dev_impl true 0 (fun _ => 0) exNum exDen exGrad2 0
          (zeroRat exNum.d) ⟨0⟩ = .ok (t, ⟨0⟩) ∧ t.at4 [1, 0, 0, 0, 0] = 1 / 2) ∧
      gradValues (CwiseQuotient.backward_dev_impl true 0 (fun _ => 0) exNum exDen exGrad2 0
        (zeroRat exNum.d) ⟨0⟩) 2 = some [1 / 2, 1 / 2] := by
  refine ⟨⟨by decide, rfl, rfl, rfl, by decide, by decide, by decide, by decide, by decide⟩,
    ?_, ?_⟩
  · obtain ⟨t, ht, hv⟩ := C15_quotient_backward_numerator true 0 (fun _ => (0 : Rat)) exNum
      exDen exGrad2 (zeroRat exNum.d) ⟨0⟩ (by decide) rfl rfl rfl 1 0 0 0 0 (by decide)
      (by decide) (by decide) (by decide) (by decide)
    refine ⟨t, ht, hv.trans ?_⟩
    simp [exNum, exDen, exGrad2, zeroRat, Tensor.at4, zeroWhereOne, Dim.tb4, Dim.get, lin]
  · rw [quotient_backward_numerator]
    simp [gradValues, exNum, exDen, exGrad2, zeroRat, Tensor.accum, Expr.cwise, Expr.broadcast,
      Tensor.tb4, Dim.tb4, Dim.get, Dim.size, Dim.batch_size, Dim.nd, setLoop, lin, delin,
      List.range_succ]

/-! ## Backward of `CwiseQuotient` for the denominator -/

theorem boxSum_neg {α : Type} [AddCommGroup α] (rs : List (List Nat)) (g : List Nat → α) :
    boxSum rs (fun js => -g js) = -boxSum rs g := by
  induction rs generalizing g with
  | nil => rfl
  | cons r rs ih =>
    simp only [boxSum]
    induction r with
    | nil => simp
    | cons j r ihr =>
      simp only [List.map_cons, List.sum_cons, ihr, neg_add]
      rw [ih (fun js => g (j :: js))]

/-- The value a subtracting accumulation of a reduced and reshaped expression
leaves at an operand multi-index. -/
theorem accum_sub_reduce_at {α : Type} [Field α] (dEdxi : Tensor α) (e : Expr α)
    (red morph : List Nat) {A F : List Nat} {m : List Bool} {p : List Nat}
    (h : AxisRel A F m p) (hA : dEdxi.d.tb4 = A) (hdims : e.dims = F)
    (hmask : redMask F.length red = m) :
    (dEdxi.accum (fun a b => a - b) dEdxi.d.tb4 ((e.sum red).reshape morph)).at4 p =
      dEdxi.at4 p - boxSum (axisRanges A F p) (fun js => e.coeff (lin F js)) := by
  have hlt := lin_lt _ _ h.index_lt
  simp only [Tensor.at4, Tensor.accum_d]
  rw [hA, Tensor.accum_v_in _ _ _ _ _ hlt, reduce_coeff e red morph h hdims hmask]

theorem bne_flip (a b : Nat) : (a != b) = (b != a) := by
  rw [Bool.eq_iff_iff]
  simp only [bne_iff_ne, ne_eq]
  exact ⟨fun h e => h e.symm, fun h e => h e.symm⟩

theorem axis_rel_case_flip (a f pj : Nat) (h : a = f ∨ a = 1) (hf : 0 < f) (hp : pj < a) :
    ((f != a) = true ∧ a = 1 ∧ 1 < f ∧ pj = 0) ∨ ((f != a) = false ∧ a = f ∧ pj < f) := by
  rw [bne_flip]
  exact axis_rel_case a f pj h hf hp

/-- The axis relation between the denominator and the numerator, with the
reduction flags of `CwiseQuotient::backward_helper`. -/
theorem quotient_axisRel (x0 x1 : Dim)
    (hax : ∀ j, x1.get j = x0.get j ∨ x1.get j = 1) (hbd : x1.bd = x0.bd ∨ x1.bd = 1)
    (hpos : ∀ j, 0 < x0.get j) (hbpos : 0 < x0.bd) (p0 p1 p2 p3 pb : Nat)
    (h0 : p0 < x1.get 0) (h1 : p1 < x1.get 1) (h2 : p2 < x1.get 2) (h3 : p3 < x1.get 3)
    (hb : pb < x1.bd) :
    AxisRel x1.tb4 x0.tb4
      [x0.get 0 != x1.get 0, x0.get 1 != x1.get 1, x0.get 2 != x1.get 2,
        x0.get 3 != x1.get 3, x0.bd != x1.bd]
      [p0, p1, p2, p3, pb] :=
  AxisRel.cons_of _ _ _ _ (axis_rel_case_flip _ _ _ (hax 0) (hpos 0) h0)
    (AxisRel.cons_of _ _ _ _ (axis_rel_case_flip _ _ _ (hax 1) (hpos 1) h1)
    (AxisRel.cons_of _ _ _ _ (axis_rel_case_flip _ _ _ (hax 2) (hpos 2) h2)
    (AxisRel.cons_of _ _ _ _ (axis_rel_case_flip _ _ _ (hax 3) (hpos 3) h3)
    (AxisRel.cons_of _ _ _ _ (axis_rel_case_flip _ _ _ hbd hbpos hb) AxisRel.nil))))

theorem quotient_mask (x0 x1 : Dim) (RO junk : Nat) (hr0 : x0.nd ≤ 4) (hle : x1.nd ≤ x0.nd)
    (hRO : RO = (if x0.bd != x1.bd then 1 else 0) +
      (List.range x0.nd).countP fun di => x0.get di != x1.get di) :
    redMask 5 (redAxisLoop (fun di => x0.get di != x1.get di) x0.nd
        (redAxisInit RO junk)).1 =
      [x0.get 0 != x1.get 0, x0.get 1 != x1.get 1, x0.get 2 != x1.get 2,
        x0.get 3 != x1.get 3, x0.bd != x1.bd] := by
  rw [redAxisLoop_exit_any _ x0.nd RO junk (x0.bd != x1.bd)
    (by rw [hRO, List.countP_eq_length_filter, Nat.add_comm])]
  exact redMask_five (fun j => x0.get j != x1.get j) x0.nd (x0.bd != x1.bd) hr0
    (fun j hj => by
      show (x0.get j != x1.get j) = false
      rw [Dim.get_of_le _ j (le_trans hle hj), Dim.get_of_le _ j hj]; rfl)

/-- The count `n_red` of the quotient's backward is the number of axes on
which the denominator is broadcast. -/
theorem quotient_n_red (x0 x1 : Dim) (hr0 : x0.nd ≤ 4) (hle : x1.nd ≤ x0.nd)
    (hax : ∀ j, x1.get j = x0.get j ∨ x1.get j = 1) (hbd : x1.bd = x0.bd ∨ x1.bd = 1)
    (hpos : ∀ j, 0 < x0.get j) (hbpos : 0 < x0.bd) :
    (if x0.bd != x1.bd then 1 else 0) +
        (List.range x0.nd).countP (fun di => x0.get di != x1.get di) =
      nBroadcast x1 x0 := by
  rw [countP_range_four _ x0.nd hr0 (fun j hj => by
    show (x0.get j != x1.get j) = false
    rw [Dim.get_of_le _ j (le_trans hle hj), Dim.get_of_le _ j hj]; rfl)]
  simp only [nBroadcast, Dim.tb4, List.zipWith_cons_cons, List.zipWith_nil_right]
  rw [bcast_flag_eq _ _ (hax 0) (hpos 0), bcast_flag_eq _ _ (hax 1) (hpos 1),
    bcast_flag_eq _ _ (hax 2) (hpos 2), bcast_flag_eq _ _ (hax 3) (hpos 3),
    bcast_flag_eq _ _ hbd hbpos]
  rw [bne_flip (x1.get 0), bne_flip (x1.get 1), bne_flip (x1.get 2), bne_flip (x1.get 3),
    bne_flip x1.bd]
  simp only [List.count_cons, List.count_nil, beq_iff_eq]
  omega

/-- The coefficient of the replicated scratch tensor holding the squared
denominator, at a numerator multi-index. -/
theorem squared_coeff {α : Type} (f : α → α) (buf : Nat → α) (x1 : Tensor α) (x0 : Dim)
    (bc js : List Nat)
    (hdims : List.zipWith (fun a b => a * b) x1.d.tb4 bc = x0.tb4)
    (hax : ∀ j, x1.d.get j = x0.get j ∨ x1.d.get j = 1) (hbd : x1.d.bd = x0.bd ∨ x1.d.bd = 1)
    (hjs : List.Forall₂ (fun j D => j < D) js x0.tb4) :
    (((Tensor.mk x1.d buf).assign 0 (x1.tb4.map f)).tb4.broadcast bc).coeff (lin x0.tb4 js) =
      f (x1.at4 (zeroWhereOne x1.d js)) := by
  have hd : ((Tensor.mk x1.d buf).assign 0 (x1.tb4.map f)).d = x1.d := rfl
  rw [denominator_coeff _ x0 bc js (by rw [hd]; exact hdims) (by rw [hd]; exact hax)
    (by rw [hd]; exact hbd) hjs]
  simp only [Tensor.at4, hd]
  rw [Tensor.assign_v_in _ _ _ _ (Nat.zero_le _) (by
    simpa only [Expr.map, Tensor.tb4, Nat.zero_add] using
      lin_lt _ _ (zeroWhereOne_lt x1.d x0 js hax hbd hjs))]
  rfl

/-- The value `CwiseQuotient::backward_helper<n_red>` leaves at a multi-index
of the denominator, and the state it leaves the scratch pool in. -/
theorem quotient_backward_helper_at {α : Type} [Field α] (junk : Nat) (buf : Nat → α)
    (x0 x1 dEdf dEdxi : Tensor α) (s : AlignedMemoryPool)
    (hr0 : x0.d.nd ≤ 4) (hle : x1.d.nd ≤ x0.d.nd)
    (hax : ∀ j, x1.d.get j = x0.d.get j ∨ x1.d.get j = 1)
    (hbd : x1.d.bd = x0.d.bd ∨ x1.d.bd = 1)
    (hpos : ∀ j, 0 < x0.d.get j) (hbpos : 0 < x0.d.bd)
    (hdx : dEdxi.d = x1.d) (hdf : dEdf.d = x0.d)
    (RO : Nat) (hRO : RO = (if x0.d.bd != x1.d.bd then 1 else 0) +
      (List.range x0.d.nd).countP fun di => x0.d.get di != x1.d.get di)
    (p0 p1 p2 p3 pb : Nat) (h0 : p0 < x1.d.get 0) (h1 : p1 < x1.d.get 1)
    (h2 : p2 < x1.d.get 2) (h3 : p3 < x1.d.get 3) (hb : pb < x1.d.bd) :
    (CwiseQuotient.backward_helper RO junk buf x0 x1 dEdf 1 dEdxi s).1.at4
        [p0, p1, p2, p3, pb] =
      dEdxi.at4 [p0, p1, p2, p3, pb] -
        boxSum (axisRanges x1.d.tb4 x0.d.tb4 [p0, p1, p2, p3, pb])
          (fun js => dEdf.at4 js /
            (x1.at4 (zeroWhereOne x1.d js) * x1.at4 (zeroWhereOne x1.d js)) * x0.at4 js) := by
  have hrel := quotient_axisRel x0.d x1.d hax hbd hpos hbpos p0 p1 p2 p3 pb h0 h1 h2 h3 hb
  have hmask := quotient_mask x0.d x1.d RO junk hr0 hle hRO
  have hdims := quotient_backward_dims x0.d x1.d hr0 hax hbd
  unfold CwiseQuotient.backward_helper
  show (dEdxi.accum (fun a b => a - b) dEdxi.d.tb4 _).at4 [p0, p1, p2, p3, pb] = _
  rw [accum_sub_reduce_at dEdxi _ _ _ hrel (by rw [hdx])
    (by simp only [Expr.cwise, Tensor.tb4, hdf]) hmask]
  exact congrArg (fun t => dEdxi.at4 [p0, p1, p2, p3, pb] - t)
    (boxSum_congr (axisRanges x1.d.tb4 x0.d.tb4 [p0, p1, p2, p3, pb]) _
      (fun js => dEdf.at4 js /
        (x1.at4 (zeroWhereOne x1.d js) * x1.at4 (zeroWhereOne x1.d js)) * x0.at4 js)
      (fun js hjs => by
        have hlt := hrel.box_lt js hjs
        simp only [Expr.cwise, CwiseQuotient.backward_helper_squared]
        rw [squared_coeff (fun a => a * a) buf x1 x0.d _ js hdims hax hbd hlt]
        simp only [Tensor.tb4, Tensor.at4, hdf]))

theorem quotient_backward_equal_size {α : Type} [Add α] [Zero α] [Sub α] [Mul α] [Div α]
    (asserts : Bool) (junk : Nat) (buf : Nat → α) (x0 x1 dEdf dEdxi : Tensor α)
    (s : AlignedMemoryPool) (hs : x0.d.size = x1.d.size) :
    CwiseQuotient.backward_dev_impl asserts junk buf x0 x1 dEdf 1 dEdxi s =
      .ok (dEdxi.accum (fun a b => a - b) dEdxi.d.tb4
        (Expr.cwise (fun a b => a * b)
          (Expr.cwise (fun a b => a / b) dEdf.tb4 (x1.tb4.map fun a => a * a)) x0.tb4), s) := by
  have h1 : ¬ ((1 : Nat) == 0) = true := by decide
  simp only [CwiseQuotient.backward_dev_impl,
    DYNET_ASSERT_ok asserts _ _ (decide_eq_true (by omega : 1 < 2)), h1, if_false, hs,
    beq_self_eq_true, if_true]
  rfl

theorem quotient_backward_dispatch {α : Type} [Add α] [Zero α] [Sub α] [Mul α] [Div α]
    (asserts : Bool) (junk : Nat) (buf : Nat → α) (x0 x1 dEdf dEdxi : Tensor α)
    (s : AlignedMemoryPool) (hs : x0.d.size ≠ x1.d.size)
    (hfour : (if x0.d.bd != x1.d.bd then 1 else 0) +
      (List.range x0.d.nd).countP (fun di => x0.d.get di != x1.d.get di) < 5) :
    CwiseQuotient.backward_dev_impl asserts junk buf x0 x1 dEdf 1 dEdxi s =
      .ok (CwiseQuotient.backward_helper
        ((if x0.d.bd != x1.d.bd then 1 else 0) +
          (List.range x0.d.nd).countP (fun di => x0.d.get di != x1.d.get di))
        junk buf x0 x1 dEdf 1 dEdxi s) := by
  have h1 : ¬ ((1 : Nat) == 0) = true := by decide
  have h2 : ¬ (x0.d.size == x1.d.size) = true := by simpa using hs
  simp only [CwiseQuotient.backward_dev_impl,
    DYNET_ASSERT_ok asserts _ _ (decide_eq_true (by omega : 1 < 2)), h1, if_false, h2]
  rw [DYNET_ASSERT_ok asserts _ _ (decide_eq_true hfour)]
  exact dispatch_helper_zero
    (fun n => (Except.ok (CwiseQuotient.backward_helper n junk buf x0 x1 dEdf 1 dEdxi s) :
      Except DevError (Tensor α × AlignedMemoryPool))) (Except.ok (dEdxi, s)) _ hfour

/-- The equal-size branch of the quotient's backward for the denominator. -/
theorem quotient_backward_equal_at {α : Type} [Field α] (x0 x1 dEdf dEdxi : Tensor α)
    (hT : x1.d.tb4 = x0.d.tb4) (hdx : dEdxi.d = x1.d) (hdf : dEdf.d = x0.d)
    (p0 p1 p2 p3 pb : Nat) (h0 : p0 < x1.d.get 0) (h1 : p1 < x1.d.get 1)
    (h2 : p2 < x1.d.get 2) (h3 : p3 < x1.d.get 3) (hb : pb < x1.d.bd) :
    (dEdxi.accum (fun a b => a - b) dEdxi.d.tb4
        (Expr.cwise (fun a b => a * b)
          (Expr.cwise (fun a b => a / b) dEdf.tb4 (x1.tb4.map fun a => a * a))
          x0.tb4)).at4 [p0, p1, p2, p3, pb] =
      dEdxi.at4 [p0, p1, p2, p3, pb] -
        boxSum (axisRanges x1.d.tb4 x0.d.tb4 [p0, p1, p2, p3, pb])
          (fun js => dEdf.at4 js /
            (x1.at4 (zeroWhereOne x1.d js) * x1.at4 (zeroWhereOne x1.d js)) * x0.at4 js) := by
  have hjs : List.Forall₂ (fun j D => j < D) [p0, p1, p2, p3, pb] x1.d.tb4 :=
    .cons h0 (.cons h1 (.cons h2 (.cons h3 (.cons hb .nil))))
  have hlt := lin_lt _ _ hjs
  have hbox : boxSum (axisRanges x1.d.tb4 x0.d.tb4 [p0, p1, p2, p3, pb])
      (fun js => dEdf.at4 js /
        (x1.at4 (zeroWhereOne x1.d js) * x1.at4 (zeroWhereOne x1.d js)) * x0.at4 js) =
      dEdf.at4 [p0, p1, p2, p3, pb] /
        (x1.at4 (zeroWhereOne x1.d [p0, p1, p2, p3, pb]) *
          x1.at4 (zeroWhereOne x1.d [p0, p1, p2, p3, pb])) * x0.at4 [p0, p1, p2, p3, pb] := by
    rw [hT]
    simp only [Dim.tb4, axisRanges, axisRange_self, boxSum_point]
  rw [hbox, zeroWhereOne_self x1.d _ hjs]
  simp only [Tensor.at4, Tensor.accum_d]
  rw [hdx, Tensor.accum_v_in _ _ _ _ _ hlt]
  simp only [Expr.cwise, Expr.map, Tensor.tb4, hdf, hT]

/-- C16. For every legal `CwiseQuotient` operand pair with a numerator of rank
at most 4 (extents at least 1) whose output shape equals the numerator's shape
and in which the denominator is smaller on at most four axes, backward for
operand 1 succeeds and adds to `dEdx1`, at every index of the denominator, the
term `-(dEdf / x1^2) * x0` (with `x1` read at the index with coordinate 0 on
every axis where it has extent 1) summed over exactly the axes, batch
included, on which the denominator has extent 1 and the numerator a larger
extent. This holds with assertions on or off and whatever the scratch block
held before. -/
theorem C16_quotient_backward_denominator {α : Type} [Field α] (asserts : Bool) (junk : Nat)
    (buf : Nat → α) (x0 x1 dEdf dEdxi : Tensor α) (s : AlignedMemoryPool)
    (hr0 : x0.d.nd ≤ 4) (hQ : CwiseQuotient.dim_forward [x0.d, x1.d] = .ok x0.d)
    (hpos : ∀ j, 0 < x0.d.get j)
    (hdx : dEdxi.d = x1.d) (hdf : dEdf.d = x0.d)
    (hfour : nBroadcast x1.d x0.d ≤ 4)
    (p0 p1 p2 p3 pb : Nat) (h0 : p0 < x1.d.get 0) (h1 : p1 < x1.d.get 1)
    (h2 : p2 < x1.d.get 2) (h3 : p3 < x1.d.get 3) (hb : pb < x1.d.bd) :
    ∃ t, (∃ s1, CwiseQuotient.backward_dev_impl asserts junk buf x0 x1 dEdf 1 dEdxi s =
        .ok (t, s1)) ∧
      t.at4 [p0, p1, p2, p3, pb] =
        dEdxi.at4 [p0, p1, p2, p3, pb] +
          boxSum (axisRanges x1.d.tb4 x0.d.tb4 [p0, p1, p2, p3, pb])
            (fun js => -(dEdf.at4 js / x1.at4 (zeroWhereOne x1.d js) ^ 2) * x0.at4 js) := by
  obtain ⟨hnd, hax, hbd, hble⟩ := quotient_same_shape x0.d x1.d hQ
  have hr1 : x1.d.nd ≤ 4 := le_trans hnd hr0
  have hbpos : 0 < x0.d.bd := by omega
  have hfin : ∀ a S : α, ∀ g g1 : List Nat → α, (∀ js, g1 js = -g js) →
      S = boxSum (axisRanges x1.d.tb4 x0.d.tb4 [p0, p1, p2, p3, pb]) g →
      a - S = a + boxSum (axisRanges x1.d.tb4 x0.d.tb4 [p0, p1, p2, p3, pb]) g1 := by
    intro a S g g1 hg hS
    have e : g1 = fun js => -g js := funext hg
    rw [e, boxSum_neg, hS, sub_eq_add_neg]
  have hterm : ∀ js, -(dEdf.at4 js / x1.at4 (zeroWhereOne x1.d js) ^ 2) * x0.at4 js =
      -(dEdf.at4 js / (x1.at4 (zeroWhereOne x1.d js) * x1.at4 (zeroWhereOne x1.d js)) *
        x0.at4 js) := by
    intro js
    rw [neg_mul, sq]
  by_cases hs : x0.d.size = x1.d.size
  · have hT := tb4_eq_of_size x0.d x1.d hr0 hr1 hax hbd hpos hbpos hs
    refine ⟨_, ⟨s, quotient_backward_equal_size asserts junk buf x0 x1 dEdf dEdxi s hs⟩, ?_⟩
    rw [quotient_backward_equal_at x0 x1 dEdf dEdxi hT hdx hdf p0 p1 p2 p3 pb h0 h1 h2 h3 hb]
    exact hfin _ _ _ _ hterm rfl
  · have hn := quotient_n_red x0.d x1.d hr0 hnd hax hbd hpos hbpos
    refine ⟨_, ⟨_, by
      rw [quotient_backward_dispatch asserts junk buf x0 x1 dEdf dEdxi s hs (by omega)]⟩, ?_⟩
    rw [quotient_backward_helper_at junk buf x0 x1 dEdf dEdxi s hr0 hnd hax hbd hpos hbpos hdx
      hdf _ rfl p0 p1 p2 p3 pb h0 h1 h2 h3 hb]
    exact hfin _ _ _ _ hterm rfl

/-- The spec's scenario for C16: numerator `[4, 9]`, denominator `[2]`,
`dEdf = [1, 1]`; the single element of `dEdx1` receives
`-(1/4) * 4 + -(1/4) * 9 = -13/4`. -/
theorem C16_quotient_backward_denominator_witness :
    (exNum.d.nd ≤ 4 ∧ CwiseQuotient.dim_forward [exNum.d, exDen.d] = .ok exNum.d ∧
        (∀ j, 0 < exNum.d.get j) ∧
        (zeroRat exDen.d).d = exDen.d ∧ exGrad2.d = exNum.d ∧
        nBroadcast exDen.d exNum.d ≤ 4 ∧
        0 < exDen.d.get 0 ∧ 0 < exDen.d.get 1 ∧ 0 < exDen.d.get 2 ∧ 0 < exDen.d.get 3 ∧
        0 < exDen.d.bd) ∧
      ∃ t, (∃ s1, CwiseQuotient.backward_dev_impl true 0 (fun _ => 0) exNum exDen exGrad2 1
          (zeroRat exDen.d) ⟨0⟩ = .ok (t, s1)) ∧ t.at4 [0, 0, 0, 0, 0] = -13 / 4 := by
  have hpos : ∀ j, 0 < exNum.d.get j := by
    intro j
    rcases j with _ | j
    · decide
    · simp [exNum, Dim.get]
  refine ⟨⟨by decide, rfl, hpos, rfl, rfl, by decide, by decide, by decide, by decide,
    by decide, by decide⟩, ?_⟩
  obtain ⟨t, ht, hv⟩ := C16_quotient_backward_denominator true 0 (fun _ => (0 : Rat)) exNum
    exDen exGrad2 (zeroRat exDen.d) ⟨0⟩ (by decide) rfl hpos rfl rfl (by decide) 0 0 0 0 0
    (by decide) (by decide) (by decide) (by decide) (by decide)
  refine ⟨t, ht, hv.trans ?_⟩
  simp [exNum, exDen, exGrad2, zeroRat, Tensor.at4, zeroWhereOne, Dim.tb4, Dim.get, lin,
    axisRanges, axisRange, boxSum, List.range_succ]
  norm_num

/-! ## Five reduced axes -/

theorem countP_four_true (c : Nat → Bool) (h : ∀ j, j < 4 → c j = true) :
    (List.range 4).countP c = 4 := by
  simp only [List.range_succ, List.range_zero, List.nil_append, List.cons_append,
    List.countP_cons, List.countP_nil, h 0 (by omega), h 1 (by omega), h 2 (by omega),
    h 3 (by omega), if_true]

theorem bne_of_lt (a f : Nat) (ha : a = 1) (hf : 1 < f) : (a != f) = true := by
  simp only [bne_iff_ne, ne_eq]
  omega

/-- With an operand broadcast on all four feature axes and on the batch axis
`CwiseSum::backward_dev_impl` computes `n_red = 5`: the assertion on the
number of reductions fails when compiled in, and no helper is dispatched when
it is compiled out. -/
theorem sum_backward_five {α : Type} [Add α] [Zero α] (cuda : Bool) (junk : Nat)
    (x0 x1 fx dEdf : Tensor α) (i : Nat) (dEdxi : Tensor α) (hi : i < 2)
    (hnd : fx.d.nd = 4)
    (hx : ∀ j, j < 4 → (operand x0 x1 i).d.get j = 1) (hxb : (operand x0 x1 i).d.bd = 1)
    (hf : ∀ j, j < 4 → 1 < fx.d.get j) (hfb : 1 < fx.d.bd) :
    CwiseSum.backward_dev_impl true cuda junk x0 x1 fx dEdf i dEdxi =
        .error (.assertion_failed
          "Unsupported number of reductions check in CwiseSum::backward (+)") ∧
      CwiseSum.backward_dev_impl false cuda junk x0 x1 fx dEdf i dEdxi = .ok dEdxi := by
  have hc : (List.range 4).countP
      (fun j => (operand x0 x1 i).d.get j != fx.d.get j) = 4 :=
    countP_four_true _ (fun j hj => bne_of_lt _ _ (hx j hj) (hf j hj))
  have hb : ((operand x0 x1 i).d.bd != fx.d.bd) = true := bne_of_lt _ _ hxb hfb
  constructor
  · simp only [CwiseSum.backward_dev_impl, DYNET_ASSERT_ok true _ _ (decide_eq_true hi), hnd,
      hc, hb]
    rfl
  · simp only [CwiseSum.backward_dev_impl, DYNET_ASSERT_off, hnd, hc, hb]
    rfl

/-- The same for `CwiseMultiply::backward_dev_impl` on a legal pair. -/
theorem multiply_backward_five {α : Type} [Add α] [Zero α] [Mul α] (junk : Nat)
    (x0 x1 fx dEdf : Tensor α) (i : Nat) (dEdxi : Tensor α) (hi : i < 2)
    (hfx : fx.d = Dim.ofVector (outDims x0.d x1.d) (max x0.d.bd x1.d.bd))
    (hnd : fx.d.nd = 4)
    (hx : ∀ j, j < 4 → (operand x0 x1 i).d.get j = 1) (hxb : (operand x0 x1 i).d.bd = 1)
    (hf : ∀ j, j < 4 → 1 < fx.d.get j) (hfb : 1 < fx.d.bd) :
    CwiseMultiply.backward_dev_impl true junk x0 x1 fx dEdf i dEdxi =
        .error (.assertion_failed
          "Unsupported number of reductions check in CwiseMultiply::backward (cmult)") ∧
      CwiseMultiply.backward_dev_impl false junk x0 x1 fx dEdf i dEdxi = .ok dEdxi := by
  have hc : (List.range 4).countP
      (fun j => (operand x0 x1 i).d.get j != fx.d.get j) = 4 :=
    countP_four_true _ (fun j hj => bne_of_lt _ _ (hx j hj) (hf j hj))
  have hb : ((operand x0 x1 i).d.bd != fx.d.bd) = true := bne_of_lt _ _ hxb hfb
  have hm : ((List.range 4).any fun j => x0.d.get j != x1.d.get j) = true := by
    rw [List.any_eq_true]
    refine ⟨0, by simp, ?_⟩
    simp only [bne_iff_ne, ne_eq]
    intro he
    have hg := outDims_get x0.d x1.d (max x0.d.bd x1.d.bd) 0
    rw [← hfx, ← he] at hg
    have h0 := hx 0 (by omega)
    have h1 := hf 0 (by omega)
    have hx0 : x0.d.get 0 = 1 := by
      rcases operand_pair x0 x1 i hi with ⟨e, _⟩ | ⟨e, _⟩
      · rw [e] at h0; exact h0
      · rw [e, ← he] at h0; exact h0
    rw [max_self] at hg
    split_ifs at hg <;> omega
  constructor
  · simp only [CwiseMultiply.backward_dev_impl,
      DYNET_ASSERT_ok true _ _ (decide_eq_true hi), hnd, hc, hb, hm]
    rfl
  · simp only [CwiseMultiply.backward_dev_impl, DYNET_ASSERT_off, hnd, hc, hb, hm]
    rfl

/-- The same for the denominator of `CwiseQuotient::backward_dev_impl`. -/
theorem quotient_backward_five {α : Type} [Add α] [Zero α] [Sub α] [Mul α] [Div α]
    (junk : Nat) (buf : Nat → α) (x0 x1 dEdf dEdxi : Tensor α) (s : AlignedMemoryPool)
    (hnd : x0.d.nd = 4) (hr1 : x1.d.nd ≤ 4)
    (hx : ∀ j, j < 4 → x1.d.get j = 1) (hxb : x1.d.bd = 1)
    (hf : ∀ j, j < 4 → 1 < x0.d.get j) (hfb : 1 < x0.d.bd) :
    CwiseQuotient.backward_dev_impl true junk buf x0 x1 dEdf 1 dEdxi s =
        .error (.assertion_failed
          "Unsupported number of reductions check in CwiseQuotient::backward (cdiv)") ∧
      CwiseQuotient.backward_dev_impl false junk buf x0 x1 dEdf 1 dEdxi s = .ok (dEdxi, s) := by
  have hc : (List.range 4).countP (fun j => x0.d.get j != x1.d.get j) = 4 :=
    countP_four_true _ (fun j hj => by
      rw [bne_flip]; exact bne_of_lt _ _ (hx j hj) (hf j hj))
  have hb : (x0.d.bd != x1.d.bd) = true := by rw [bne_flip]; exact bne_of_lt _ _ hxb hfb
  have hs : ¬ (x0.d.size == x1.d.size) = true := by
    simp only [beq_iff_eq]
    intro he
    have h := tb4_eq_of_size x0.d x1.d (by omega) hr1
      (fun j => by
        by_cases hj : j < 4
        · exact Or.inr (hx j hj)
        · exact Or.inr (Dim.get_of_le _ j (by omega)))
      (Or.inr hxb)
      (fun j => by
        by_cases hj : j < 4
        · have := hf j hj; omega
        · rw [Dim.get_of_le _ j (by omega)]; exact Nat.zero_lt_one)
      (by omega) he
    have hb4 := congrArg (fun l => l.getD 4 0) h
    simp only [Dim.tb4, List.getD_cons_succ, List.getD_cons_zero] at hb4
    omega
  have h1 : ¬ ((1 : Nat) == 0) = true := by decide
  constructor
  · simp only [CwiseQuotient.backward_dev_impl,
      DYNET_ASSERT_ok true _ _ (decide_eq_true (by omega : 1 < 2)), h1, if_false, hs, hnd, hc,
      hb]
    rfl
  · simp only [CwiseQuotient.backward_dev_impl, DYNET_ASSERT_off, h1, if_false, hs, hnd, hc, hb]
    rfl

/-- The other operand of a legal pair in which operand `i` is broadcast on all
four feature axes and on the batch axis has the output's extents. -/
theorem other_of_five {α : Type} (x0 x1 : Tensor α) (fx : Dim) (i : Nat) (hi : i < 2)
    (hleg : SumLegal x0.d x1.d)
    (hfx : fx = Dim.ofVector (outDims x0.d x1.d) (max x0.d.bd x1.d.bd))
    (hnd : fx.nd = 4)
    (hx : ∀ j, j < 4 → (operand x0 x1 i).d.get j = 1) (hxb : (operand x0 x1 i).d.bd = 1)
    (hf : ∀ j, j < 4 → 1 < fx.get j) (hfb : 1 < fx.bd) :
    (operand x0 x1 (1 - i)).d.nd = 4 ∧
      (∀ j, j < 4 → 1 < (operand x0 x1 (1 - i)).d.get j) ∧
      1 < (operand x0 x1 (1 - i)).d.bd := by
  have hget : ∀ j, j < 4 → (operand x0 x1 (1 - i)).d.get j = fx.get j := by
    intro j hj
    obtain ⟨hm, _, _⟩ := axis_ok hleg hfx j (by have := hf j hj; omega)
    have h1 := hx j hj
    have h2 := hf j hj
    rcases operand_pair x0 x1 i hi with ⟨e, e1⟩ | ⟨e, e1⟩
    · rw [e] at h1; rw [e1]; omega
    · rw [e] at h1; rw [e1]; omega
  have hbd : (operand x0 x1 (1 - i)).d.bd = fx.bd := by
    obtain ⟨hm, _, _⟩ := batch_ok hleg hfx (by omega)
    rcases operand_pair x0 x1 i hi with ⟨e, e1⟩ | ⟨e, e1⟩
    · rw [e] at hxb; rw [e1]; omega
    · rw [e] at hxb; rw [e1]; omega
  refine ⟨?_, fun j hj => by rw [hget j hj]; exact hf j hj, by rw [hbd]; exact hfb⟩
  have hle := operand_nd_le x0 x1 fx (1 - i) hfx
  by_contra hne
  have h3 := hget 3 (by omega)
  rw [Dim.get_of_le _ 3 (by omega)] at h3
  have := hf 3 (by omega)
  omega

/-- C17 (counterexample). The scalar operand of shape `[1,1,1,1]`, batch 1,
added to an operand of shape `[2,2,2,2]`, batch 2, is a legal `CwiseSum` pair
with `n_red = 5` for operand 0. With assertions compiled in, backward fails;
with assertions compiled out it returns `dEdx0` unchanged at 0, whereas the
gradient of ones summed over all five axes is 32. -/
theorem C17_sum_five_axes_fails :
    CwiseSum.dim_forward [exScalar.d, exFull.d] = .ok exFull.d ∧
      CwiseSum.backward_dev_impl true false 0 exScalar exFull exFull exFull 0
          (zeroGrad exScalar.d) =
        .error (.assertion_failed
          "Unsupported number of reductions check in CwiseSum::backward (+)") ∧
      resultValues (CwiseSum.backward_dev_impl false false 0 exScalar exFull exFull exFull 0
        (zeroGrad exScalar.d)) 1 = some [0] ∧
      (zeroGrad exScalar.d).at4 [0, 0, 0, 0, 0] +
        boxSum (axisRanges exScalar.d.tb4 exFull.d.tb4 [0, 0, 0, 0, 0])
          (fun js => exFull.at4 js) = 32 :=
  ⟨rfl, rfl, by decide, by decide⟩

/-- C17 (amended). The shared reduction supports at most four reduced axes:
for a legal `CwiseSum` or `CwiseMultiply` pair with an output of rank 4 in
which operand `i` is broadcast on all four feature axes and on the batch axis
(`n_red = 5`), and for the quotient of the other operand by operand `i`
(denominator, `i = 1`), backward fails with the unsupported-reduction
assertion when assertions are compiled in, and when they are compiled out it
returns without accumulating anything: `dEdxi` (and the scratch pool) are
unchanged. -/
theorem C17_five_axes_unsupported {α : Type} [Add α] [Zero α] [Sub α] [Mul α] [Div α]
    (cuda : Bool) (junk : Nat) (buf : Nat → α) (x0 x1 fx dEdf dEdxi : Tensor α)
    (s : AlignedMemoryPool) (i : Nat) (hi : i < 2)
    (hS : CwiseSum.dim_forward [x0.d, x1.d] = .ok fx.d) (hnd : fx.d.nd = 4)
    (hx : ∀ j, j < 4 → (operand x0 x1 i).d.get j = 1) (hxb : (operand x0 x1 i).d.bd = 1)
    (hf : ∀ j, j < 4 → 1 < fx.d.get j) (hfb : 1 < fx.d.bd) :
    (CwiseSum.backward_dev_impl true cuda junk x0 x1 fx dEdf i dEdxi =
          .error (.assertion_failed
            "Unsupported number of reductions check in CwiseSum::backward (+)") ∧
        CwiseSum.backward_dev_impl false cuda junk x0 x1 fx dEdf i dEdxi = .ok dEdxi) ∧
      (CwiseMultiply.backward_dev_impl true junk x0 x1 fx dEdf i dEdxi =
          .error (.assertion_failed
            "Unsupported number of reductions check in CwiseMultiply::backward (cmult)") ∧
        CwiseMultiply.backward_dev_impl false junk x0 x1 fx dEdf i dEdxi = .ok dEdxi) ∧
      (CwiseQuotient.backward_dev_impl true junk buf (operand x0 x1 (1 - i)) (operand x0 x1 i)
            dEdf 1 dEdxi s =
          .error (.assertion_failed
            "Unsupported number of reductions check in CwiseQuotient::backward (cdiv)") ∧
        CwiseQuotient.backward_dev_impl false junk buf (operand x0 x1 (1 - i))
          (operand x0 x1 i) dEdf 1 dEdxi s = .ok (dEdxi, s)) := by
  obtain ⟨hleg, hfx⟩ := (sum_dim_forward_eq_ok x0.d x1.d fx.d).1 hS
  obtain ⟨hond, hof, hob⟩ := other_of_five x0 x1 fx.d i hi hleg hfx hnd hx hxb hf hfb
  have hle : (operand x0 x1 i).d.nd ≤ 4 := by
    rw [← hnd]; exact operand_nd_le x0 x1 fx.d i hfx
  exact ⟨sum_backward_five cuda junk x0 x1 fx dEdf i dEdxi hi hnd hx hxb hf hfb,
    multiply_backward_five junk x0 x1 fx dEdf i dEdxi hi hfx hnd hx hxb hf hfb,
    quotient_backward_five junk buf _ _ dEdf dEdxi s hond hle hx hxb hof hob⟩

/-- The scalar operand `[1,1,1,1]`, batch 1, against `[2,2,2,2]`, batch 2: for
operand 0 all three backward functions fail with assertions compiled in and
leave the gradient unchanged with assertions compiled out. -/
theorem C17_five_axes_unsupported_witness :
    ((0 : Nat) < 2 ∧ CwiseSum.dim_forward [exScalar.d, exFull.d] = .ok exFull.d ∧
        exFull.d.nd = 4 ∧ (∀ j, j < 4 → (operand exScalar exFull 0).d.get j = 1) ∧
        (operand exScalar exFull 0).d.bd = 1 ∧ (∀ j, j < 4 → 1 < exFull.d.get j) ∧
        1 < exFull.d.bd) ∧
      CwiseMultiply.backward_dev_impl true 0 exScalar exFull exFull exFull 0
          (zeroGrad exScalar.d) =
        .error (.assertion_failed
          "Unsupported number of reductions check in CwiseMultiply::backward (cmult)") ∧
      CwiseQuotient.backward_dev_impl false 0 (fun _ => 0) (operand exScalar exFull (1 - 0))
          (operand exScalar exFull 0) exFull 1 (zeroGrad exScalar.d) ⟨0⟩ =
        .ok (zeroGrad exScalar.d, ⟨0⟩) := by
  have hx : ∀ j, j < 4 → (operand exScalar exFull 0).d.get j = 1 := by
    intro j hj
    interval_cases j <;> rfl
  have hf : ∀ j, j < 4 → 1 < exFull.d.get j := by
    intro j hj
    interval_cases j <;> decide
  have h := C17_five_axes_unsupported false 0 (fun _ => (0 : Int)) exScalar exFull exFull exFull
    (zeroGrad exScalar.d) ⟨0⟩ 0 (by decide) rfl rfl hx rfl hf (by decide)
  exact ⟨⟨by decide, rfl, rfl, hx, rfl, hf, by decide⟩, h.2.1.1, h.2.2.2⟩

/-! ## `Pow` -/

/-- C18. For every operand pair whose shapes `Pow::dim_forward` accepts with
output shape `fx.d`, `Pow::forward_dev_impl` succeeds and writes
`fx[k] = x0[k] ^ e` at every flat index `k` of the base, where `e` is the
value `as_scalar` reads from the exponent operand; the output has as many
elements as the base. -/
theorem C18_pow_forward {α : Type} (pow : α → α → α) (x0 x1 fx : Tensor α)
    (hP : Pow.dim_forward [x0.d, x1.d] = .ok fx.d) :
    ∃ t, Pow.forward_dev_impl pow [x0, x1] fx = .ok t ∧ t.d.size = x0.d.size ∧
      ∀ k, k < x0.d.size → t.v k = pow (x0.v k) (as_scalar x1) := by
  have hout : fx.d = x0.d.truncate := by
    rw [pow_dim_forward_pair] at hP
    split_ifs at hP
    exact (Except.ok.inj hP).symm
  refine ⟨_, rfl, ?_, fun k hk => ?_⟩
  · rw [Tensor.assign_d, hout]
    simp only [Dim.size, Dim.truncate_batch_size, Dim.truncate_bd]
  · rw [Tensor.assign_v_in _ _ _ _ (Nat.zero_le _)
      (by simpa [Expr.map, Tensor.tvec] using hk)]
    rfl

/-- The spec's scenario for C18 over the reals: the base `[1, 2, 3]` with the
exponent 2 gives `[1, 4, 9]`. -/
theorem C18_pow_forward_witness :
    Pow.dim_forward [(exBase : Tensor ℝ).d, (exTwo : Tensor ℝ).d] =
        .ok (constTensor ⟨[3], 1⟩ 0 : Tensor ℝ).d ∧
      ∃ t, Pow.forward_dev_impl (fun a b : ℝ => a ^ b) [exBase, exTwo]
          (constTensor ⟨[3], 1⟩ 0) = .ok t ∧
        t.v 0 = 1 ∧ t.v 1 = 4 ∧ t.v 2 = 9 := by
  refine ⟨rfl, ?_⟩
  obtain ⟨t, ht, _, hv⟩ := C18_pow_forward (fun a b : ℝ => a ^ b) exBase exTwo
    (constTensor ⟨[3], 1⟩ 0) rfl
  have hs : (exBase : Tensor ℝ).d.size = 3 := by decide
  refine ⟨t, ht, ?_, ?_, ?_⟩
  · rw [hv 0 (by rw [hs]; omega)]
    simp [exBase, exTwo, as_scalar]
  · rw [hv 1 (by rw [hs]; omega)]
    simp only [exBase, exTwo, as_scalar]
    norm_num
  · rw [hv 2 (by rw [hs]; omega)]
    simp only [exBase, exTwo, as_scalar]
    norm_num

/-- C19. `Pow::backward_dev_impl` for operand 0 succeeds and adds to `dEdx0`,
at every flat index `k`, the single term `dEdf[k] * e * x0[k] ^ (e - 1)`, where
`e` is the value `as_scalar` reads from the exponent operand; no sum is taken
and the elements beyond the last index are unchanged. This holds in every
build. -/
theorem C19_pow_backward_base {α : Type} [CommRing α] (pow : α → α → α) (log : α → α)
    (cuda eigen_no_malloc : Bool) (x0 x1 fx dEdf dEdxi : Tensor α) :
    ∃ t, Pow.backward_dev_impl pow log cuda eigen_no_malloc [x0, x1] fx dEdf 0 dEdxi = .ok t ∧
      (∀ k, k < dEdxi.d.size →
        t.v k = dEdxi.v k + dEdf.v k * as_scalar x1 * pow (x0.v k) (as_scalar x1 - 1)) ∧
      ∀ k, dEdxi.d.size ≤ k → t.v k = dEdxi.v k := by
  refine ⟨_, rfl, fun k hk => ?_, fun k hk => ?_⟩
  · rw [Tensor.accum_v_in _ _ _ _ _ (by simpa [Tensor.tvec] using hk)]
    simp only [Expr.map, Expr.cwise, Tensor.tvec]
    ring
  · rw [Tensor.accum_v_out _ _ _ _ _ (by simpa [Tensor.tvec] using hk)]

/-- C20 (counterexample). In a build with `__CUDACC__` and `EIGEN_NO_MALLOC`
defined, backward for the exponent of the spec's scenario (base `[1, 2, 3]`,
exponent 2) raises a runtime error and adds nothing to `dEdx1`. -/
theorem C20_pow_backward_exponent_no_malloc :
    Pow.backward_dev_impl (fun a b : ℝ => a ^ b) Real.log true true [exBase, exTwo] exSquares
        (constTensor ⟨[3], 1⟩ 1) 1 (constTensor ⟨[1], 1⟩ 0) =
      .error (.runtime_error "CUDA memory allocation in Pow") := rfl

/-- C20 (amended). Unless the build defines both `__CUDACC__` and
`EIGEN_NO_MALLOC`, `Pow::backward_dev_impl` for operand 1 succeeds and adds to
element 0 of `dEdx1` the sum over all flat indices `k` of the output of
`dEdf[k] * fx[k] * ln(x0[k])`, leaving every other element unchanged; in a
build that defines both it raises the runtime error "CUDA memory allocation in
Pow" instead. -/
theorem C20_pow_backward_exponent {α : Type} [CommRing α] (pow : α → α → α) (log : α → α)
    (cuda eigen_no_malloc : Bool) (x0 x1 fx dEdf dEdxi : Tensor α) :
    ((cuda && eigen_no_malloc) = false →
        ∃ t, Pow.backward_dev_impl pow log cuda eigen_no_malloc [x0, x1] fx dEdf 1 dEdxi =
            .ok t ∧
          t.v 0 = dEdxi.v 0 +
            ((List.range fx.d.size).map fun k => dEdf.v k * fx.v k * log (x0.v k)).sum ∧
          ∀ k, 0 < k → t.v k = dEdxi.v k) ∧
      ((cuda && eigen_no_malloc) = true →
        Pow.backward_dev_impl pow log cuda eigen_no_malloc [x0, x1] fx dEdf 1 dEdxi =
          .error (.runtime_error "CUDA memory allocation in Pow")) := by
  have h1 : ¬ ((1 : Nat) == 0) = true := by decide
  constructor
  · intro hb
    refine ⟨dEdxi.accum (fun a b => a + b) dEdxi.t0.dims
        (Expr.cwise (fun a b => a * b)
          (Expr.cwise (fun a b => a * b) fx.tvec (x0.tvec.map log)) dEdf.tvec).sumAll,
      ?_, ?_, fun k hk => ?_⟩
    · simp only [Pow.backward_dev_impl, h1, if_false, hb, Bool.false_eq_true]
      rfl
    · rw [Tensor.accum_v_in _ _ _ _ _ (by simp [Tensor.t0])]
      simp only [Expr.sumAll, Expr.cwise, Expr.map, Tensor.tvec, List.prod_cons, List.prod_nil,
        Nat.mul_one]
      congr 1
      exact congrArg List.sum (List.map_congr_left (fun k _ => by ring))
    · rw [Tensor.accum_v_out _ _ _ _ _ (by simpa [Tensor.t0] using hk)]
  · intro hb
    simp only [Pow.backward_dev_impl, h1, if_false, hb, if_true, Bool.false_eq_true]

/-- The spec's scenario for C19 over the reals: base `[1, 2, 3]`, exponent 2
and `dEdf = [1, 1, 1]` give the contribution `[2, 4, 6]`. -/
theorem C19_pow_backward_base_witness :
    ∃ t, Pow.backward_dev_impl (fun a b : ℝ => a ^ b) Real.log false false [exBase, exTwo]
        exSquares (constTensor ⟨[3], 1⟩ 1) 0 (constTensor ⟨[3], 1⟩ 0) = .ok t ∧
      t.v 0 = 2 ∧ t.v 1 = 4 ∧ t.v 2 = 6 := by
  obtain ⟨t, ht, hv, _⟩ := C19_pow_backward_base (fun a b : ℝ => a ^ b) Real.log false false
    exBase exTwo exSquares (constTensor ⟨[3], 1⟩ 1) (constTensor ⟨[3], 1⟩ 0)
  have hs : (constTensor ⟨[3], 1⟩ 0 : Tensor ℝ).d.size = 3 := by decide
  refine ⟨t, ht, ?_, ?_, ?_⟩
  · rw [hv 0 (by rw [hs]; omega)]
    simp only [exBase, exTwo, as_scalar, constTensor]
    norm_num
  · rw [hv 1 (by rw [hs]; omega)]
    simp only [exBase, exTwo, as_scalar, constTensor]
    norm_num
  · rw [hv 2 (by rw [hs]; omega)]
    simp only [exBase, exTwo, as_scalar, constTensor]
    norm_num

/-- The spec's scenario for C20 over the reals in a build without
`EIGEN_NO_MALLOC`: base `[1, 2, 3]`, output `[1, 4, 9]` and `dEdf = [1, 1, 1]`
add `1 * 1 * ln 1 + 1 * 4 * ln 2 + 1 * 9 * ln 3 = 4 ln 2 + 9 ln 3` to `dEdx1`. -/
theorem C20_pow_backward_exponent_witness :
    ∃ t, Pow.backward_dev_impl (fun a b : ℝ => a ^ b) Real.log true false [exBase, exTwo]
        exSquares (constTensor ⟨[3], 1⟩ 1) 1 (constTensor ⟨[1], 1⟩ 0) = .ok t ∧
      t.v 0 = 4 * Real.log 2 + 9 * Real.log 3 := by
  obtain ⟨t, ht, hv, _⟩ := (C20_pow_backward_exponent (fun a b : ℝ => a ^ b) Real.log true false
    exBase exTwo exSquares (constTensor ⟨[3], 1⟩ 1) (constTensor ⟨[1], 1⟩ 0)).1 rfl
  refine ⟨t, ht, hv.trans ?_⟩
  have hs : (exSquares : Tensor ℝ).d.size = 3 := by decide
  rw [hs]
  simp only [exBase, exSquares, constTensor, List.range_succ, List.range_zero, List.nil_append,
    List.cons_append, List.map_cons, List.map_nil, List.sum_cons, List.sum_nil]
  norm_num

/-! ## The exponent gradient of the power scenario -/

/-- The exponent branch of `Pow::backward_dev_impl` in a build that does not
define both `__CUDACC__` and `EIGEN_NO_MALLOC`. -/
theorem pow_backward_exponent_at {α : Type} [CommRing α] (pow : α → α → α) (log : α → α)
    (cuda eigen_no_malloc : Bool) (x0 x1 fx dEdf dEdxi : Tensor α)
    (hb : (cuda && eigen_no_malloc) = false) :
    ∃ t, Pow.backward_dev_impl pow log cuda eigen_no_malloc [x0, x1] fx dEdf 1 dEdxi = .ok t ∧
      t.v 0 = dEdxi.v 0 +
        ((List.range fx.d.size).map fun k => dEdf.v k * fx.v k * log (x0.v k)).sum := by
  have h1 : ¬ ((1 : Nat) == 0) = true := by decide
  refine ⟨dEdxi.accum (fun a b => a + b) dEdxi.t0.dims
      (Expr.cwise (fun a b => a * b)
        (Expr.cwise (fun a b => a * b) fx.tvec (x0.tvec.map log)) dEdf.tvec).sumAll, ?_, ?_⟩
  · simp only [Pow.backward_dev_impl, h1, if_false, hb, Bool.false_eq_true]
    rfl
  · rw [Tensor.accum_v_in _ _ _ _ _ (by simp [Tensor.t0])]
    simp only [Expr.sumAll, Expr.cwise, Expr.map, Tensor.tvec, List.prod_cons, List.prod_nil,
      Nat.mul_one]
    congr 1
    exact congrArg List.sum (List.map_congr_left (fun k _ => by ring))

theorem pow_scenario_sum :
    ((List.range (exSquares : Tensor ℝ).d.size).map fun k =>
        (constTensor ⟨[3], 1⟩ 1 : Tensor ℝ).v k * (exSquares : Tensor ℝ).v k *
          Real.log ((exBase : Tensor ℝ).v k)).sum =
      4 * Real.log 2 + 9 * Real.log 3 := by
  have hs : (exSquares : Tensor ℝ).d.size = 3 := by decide
  rw [hs]
  simp only [exBase, exSquares, constTensor, List.range_succ, List.range_zero, List.nil_append,
    List.cons_append, List.map_cons, List.map_nil, List.sum_cons, List.sum_nil]
  norm_num

/-- C21 (counterexample). For base `[1, 2, 3]`, exponent 2, output `[1, 4, 9]`
and `dEdf = [1, 1, 1]`, what `Pow::backward_dev_impl` adds to the exponent's
gradient (here from a zero buffer) is not `1*1*ln 1 + 4*2*ln 2 + 9*3*ln 3`. -/
theorem C21_exponent_gradient_not_spec_value :
    ∃ t, Pow.backward_dev_impl (fun a b : ℝ => a ^ b) Real.log false false [exBase, exTwo]
        exSquares (constTensor ⟨[3], 1⟩ 1) 1 (constTensor ⟨[1], 1⟩ 0) = .ok t ∧
      t.v 0 - (constTensor ⟨[1], 1⟩ 0 : Tensor ℝ).v 0 ≠
        1 * 1 * Real.log 1 + 4 * 2 * Real.log 2 + 9 * 3 * Real.log 3 := by
  obtain ⟨t, ht, hv⟩ := pow_backward_exponent_at (fun a b : ℝ => a ^ b) Real.log false false
    exBase exTwo exSquares (constTensor ⟨[3], 1⟩ 1) (constTensor ⟨[1], 1⟩ 0) rfl
  refine ⟨t, ht, ?_⟩
  rw [hv, pow_scenario_sum]
  have h2 : 0 < Real.log 2 := Real.log_pos (by norm_num)
  have h3 : 0 < Real.log 3 := Real.log_pos (by norm_num)
  intro h
  simp only [constTensor, Real.log_one] at h
  norm_num at h
  linarith

/-- C21 (amended). For base `[1, 2, 3]`, exponent 2, output `[1, 4, 9]` and
`dEdf = [1, 1, 1]`, whatever the exponent's gradient buffer held before,
`Pow::backward_dev_impl` adds to it the sum of `grad * output * ln(base)`,
that is `1*1*ln 1 + 1*4*ln 2 + 1*9*ln 3 = 4 ln 2 + 9 ln 3`, over the reals. -/
theorem C21_exponent_gradient_value (dEdxi : Tensor ℝ) :
    ∃ t, Pow.backward_dev_impl (fun a b : ℝ => a ^ b) Real.log false false [exBase, exTwo]
        exSquares (constTensor ⟨[3], 1⟩ 1) 1 dEdxi = .ok t ∧
      t.v 0 - dEdxi.v 0 = 1 * 1 * Real.log 1 + 1 * 4 * Real.log 2 + 1 * 9 * Real.log 3 ∧
      t.v 0 - dEdxi.v 0 = 4 * Real.log 2 + 9 * Real.log 3 := by
  obtain ⟨t, ht, hv⟩ := pow_backward_exponent_at (fun a b : ℝ => a ^ b) Real.log false false
    exBase exTwo exSquares (constTensor ⟨[3], 1⟩ 1) dEdxi rfl
  refine ⟨t, ht, ?_, ?_⟩
  · rw [hv, pow_scenario_sum, Real.log_one]; ring
  · rw [hv, pow_scenario_sum]; ring

/-! ## Textual rendering -/

theorem intercalate_go_eq (sep acc : String) (rest : List String) :
    String.intercalate.go acc sep rest = rest.foldl (fun s n => s ++ sep ++ n) acc := by
  induction rest generalizing acc with
  | nil => rfl
  | cons a rest ih => simp only [String.intercalate.go, List.foldl_cons, ih]

/-- C23. For every pair of operand names `a` and `b`, `as_string` renders the
node with the operand names in order around the operator sign: `CwiseSum`
gives `a ++ " + " ++ b` (and for any non-empty list of names, all names joined
by `" + "`), `CwiseMultiply` gives `a ++ " \cdot " ++ b`, `CwiseQuotient`
gives `a ++ " / " ++ b` and `Pow` gives `a ++ " ** " ++ b`. -/
theorem C23_as_string (a b : String) (names : List String) :
    CwiseSum.as_string [a, b] = some (a ++ " + " ++ b) ∧
      (names ≠ [] → CwiseSum.as_string names = some (" + ".intercalate names)) ∧
      CwiseMultiply.as_string [a, b] = some (a ++ " \\cdot " ++ b) ∧
      CwiseQuotient.as_string [a, b] = some (a ++ " / " ++ b) ∧
      Pow.as_string [a, b] = some (a ++ " ** " ++ b) := by
  refine ⟨rfl, fun h => ?_, rfl, rfl, rfl⟩
  cases names with
  | nil => exact absurd rfl h
  | cons x rest =>
    simp only [CwiseSum.as_string, String.intercalate, intercalate_go_eq]

/-- The rendering of the names `x`, `y` (and `z`) by the four nodes. -/
theorem C23_as_string_witness :
    CwiseSum.as_string ["x", "y"] = some "x + y" ∧
      CwiseSum.as_string ["x", "y", "z"] = some "x + y + z" ∧
      CwiseMultiply.as_string ["x", "y"] = some "x \\cdot y" ∧
      CwiseQuotient.as_string ["x", "y"] = some "x / y" ∧
      Pow.as_string ["x", "y"] = some "x ** y" := by
  obtain ⟨h1, h2, h3, h4, h5⟩ := C23_as_string "x" "y" ["x", "y", "z"]
  exact ⟨h1.trans (by decide), (h2 (by decide)).trans (by decide), h3.trans (by decide),
    h4.trans (by decide), h5.trans (by decide)⟩

/-! ## Invariants of the inferred shapes -/

theorem outDims_pos (x0 x1 : Dim) (hp0 : ∀ i, i < x0.nd → 1 ≤ x0.d.getD i 0)
    (hp1 : ∀ i, i < x1.nd → 1 ≤ x1.d.getD i 0) (i : Nat) (hi : i < max x0.nd x1.nd) :
    1 ≤ (outDims x0 x1).getD i 0 := by
  rw [outDims_getD x0 x1 i hi]
  split_ifs with h1 h2
  · have := hp0 i (by omega)
    exact le_trans this (le_max_left _ _)
  · exact hp0 i h2
  · exact hp1 i (by omega)

/-- C25. If both operand shapes have rank at most 4 and every feature extent
and batch extent at least 1 (of the batch extents, that of the left operand
suffices), then every shape returned by `dim_forward` of
`CwiseSum`, `CwiseMultiply` and `CwiseQuotient` has rank exactly
`max(nd0, nd1)`, hence at most 4, and every feature extent and batch extent at
least 1. -/
theorem C25_output_shape_invariant (x0 x1 out : Dim) (hr0 : x0.nd ≤ 4) (hr1 : x1.nd ≤ 4)
    (hp0 : ∀ i, i < x0.nd → 1 ≤ x0.d.getD i 0) (hb0 : 1 ≤ x0.bd)
    (hp1 : ∀ i, i < x1.nd → 1 ≤ x1.d.getD i 0)
    (h : CwiseSum.dim_forward [x0, x1] = .ok out ∨ CwiseMultiply.dim_forward [x0, x1] = .ok out ∨
      CwiseQuotient.dim_forward [x0, x1] = .ok out) :
    out.nd = max x0.nd x1.nd ∧ out.nd ≤ 4 ∧ (∀ i, i < out.nd → 1 ≤ out.d.getD i 0) ∧
      1 ≤ out.bd := by
  have hout : out = Dim.ofVector (outDims x0 x1) (max x0.bd x1.bd) := by
    rcases h with h | h | h
    · exact ((sum_dim_forward_eq_ok x0 x1 out).1 h).2
    · exact ((multiply_dim_forward_eq_ok x0 x1 out).1 h).2
    · exact ((quotient_dim_forward_eq_ok x0 x1 out).1 h).2
  have hnd : out.nd = max x0.nd x1.nd := by rw [hout]; exact outDims_length x0 x1
  refine ⟨hnd, by rw [hnd]; exact max_le hr0 hr1, fun i hi => ?_, ?_⟩
  · rw [hnd] at hi
    rw [hout]
    exact outDims_pos x0 x1 hp0 hp1 i hi
  · rw [hout]
    exact le_trans hb0 (le_max_left _ _)

/-- The shapes `[3,1]` with batch 2 and `[1,4]` with batch 1 for C25: the sum
has shape `[3,4]` with batch 2, of rank 2 and with all extents at least 1. -/
theorem C25_output_shape_invariant_witness :
    ((⟨[3, 1], 2⟩ : Dim).nd ≤ 4 ∧ (⟨[1, 4], 1⟩ : Dim).nd ≤ 4 ∧
        (∀ i, i < (⟨[3, 1], 2⟩ : Dim).nd → 1 ≤ (⟨[3, 1], 2⟩ : Dim).d.getD i 0) ∧
        1 ≤ (⟨[3, 1], 2⟩ : Dim).bd ∧
        (∀ i, i < (⟨[1, 4], 1⟩ : Dim).nd → 1 ≤ (⟨[1, 4], 1⟩ : Dim).d.getD i 0) ∧
        CwiseSum.dim_forward [⟨[3, 1], 2⟩, ⟨[1, 4], 1⟩] = .ok ⟨[3, 4], 2⟩) ∧
      (⟨[3, 4], 2⟩ : Dim).nd = max (⟨[3, 1], 2⟩ : Dim).nd (⟨[1, 4], 1⟩ : Dim).nd ∧
      (⟨[3, 4], 2⟩ : Dim).nd ≤ 4 ∧
      (∀ i, i < (⟨[3, 4], 2⟩ : Dim).nd → 1 ≤ (⟨[3, 4], 2⟩ : Dim).d.getD i 0) ∧
      1 ≤ (⟨[3, 4], 2⟩ : Dim).bd := by
  have hp0 : ∀ i, i < (⟨[3, 1], 2⟩ : Dim).nd → 1 ≤ (⟨[3, 1], 2⟩ : Dim).d.getD i 0 := by
    intro i hi
    have : i < 2 := hi
    interval_cases i <;> decide
  have hp1 : ∀ i, i < (⟨[1, 4], 1⟩ : Dim).nd → 1 ≤ (⟨[1, 4], 1⟩ : Dim).d.getD i 0 := by
    intro i hi
    have : i < 2 := hi
    interval_cases i <;> decide
  exact ⟨⟨by decide, by decide, hp0, by decide, hp1, rfl⟩,
    C25_output_shape_invariant ⟨[3, 1], 2⟩ ⟨[1, 4], 1⟩ ⟨[3, 4], 2⟩ (by decide) (by decide) hp0
      (by decide) hp1 (Or.inl rfl)⟩

/-! ## The quotient's rule against the symmetric rule -/

theorem quotientLegal_sumLegal (x0 x1 : Dim) (hp0 : ∀ i, i < x0.nd → 1 ≤ x0.d.getD i 0)
    (hb0 : 1 ≤ x0.bd) (h : QuotientLegal x0 x1) : SumLegal x0 x1 := by
  refine ⟨fun i hi => ?_, ?_⟩
  · rcases h.1 i hi with e | e
    · exact Or.inl e
    · right
      have := hp0 i (by omega)
      rw [e]; omega
  · rcases h.2 with e | e
    · exact Or.inl e
    · right; rw [e]; omega

/-- C26 (counterexample). A numerator with a zero extent: `[0]` over `[1]`
passes the quotient's check (`d1[0] == 1`) and fails the check of the sum and
of the product (`0 != 1` and `min(0, 1) != 1`); likewise a numerator of batch
extent 0 over a denominator of batch extent 1. -/
theorem C26_zero_extent_quotient_only :
    (Accepted (CwiseQuotient.dim_forward [⟨[0], 1⟩, ⟨[1], 1⟩]) ∧
        Rejected (CwiseSum.dim_forward [⟨[0], 1⟩, ⟨[1], 1⟩]) ∧
        Rejected (CwiseMultiply.dim_forward [⟨[0], 1⟩, ⟨[1], 1⟩])) ∧
      (Accepted (CwiseQuotient.dim_forward [⟨[2], 0⟩, ⟨[2], 1⟩]) ∧
        Rejected (CwiseSum.dim_forward [⟨[2], 0⟩, ⟨[2], 1⟩]) ∧
        Rejected (CwiseMultiply.dim_forward [⟨[2], 0⟩, ⟨[2], 1⟩])) := by
  decide

/-- C26 (amended). The quotient's legality rule strengthens the rule of
`CwiseSum` and `CwiseMultiply` on numerators whose feature extents and batch
extent are at least 1: every such operand pair accepted by
`CwiseQuotient::dim_forward` is accepted by `CwiseSum::dim_forward` and
`CwiseMultiply::dim_forward` with the identical output shape; and strictly
so: left `[1]`, right `[3]` is accepted by `CwiseSum::dim_forward` and
rejected by `CwiseQuotient::dim_forward`. -/
theorem C26_quotient_rule_stricter (x0 x1 out : Dim)
    (hp0 : ∀ i, i < x0.nd → 1 ≤ x0.d.getD i 0) (hb0 : 1 ≤ x0.bd) :
    (CwiseQuotient.dim_forward [x0, x1] = .ok out →
        CwiseSum.dim_forward [x0, x1] = .ok out ∧
          CwiseMultiply.dim_forward [x0, x1] = .ok out) ∧
      (Accepted (CwiseSum.dim_forward [⟨[1], 1⟩, ⟨[3], 1⟩]) ∧
        Rejected (CwiseQuotient.dim_forward [⟨[1], 1⟩, ⟨[3], 1⟩])) := by
  refine ⟨fun h => ?_, by decide, by decide⟩
  obtain ⟨hleg, hout⟩ := (quotient_dim_forward_eq_ok x0 x1 out).1 h
  have hs := quotientLegal_sumLegal x0 x1 hp0 hb0 hleg
  exact ⟨(sum_dim_forward_eq_ok x0 x1 out).2 ⟨hs, hout⟩,
    (multiply_dim_forward_eq_ok x0 x1 out).2 ⟨hs, hout⟩⟩

/-- The pair `[2,3]` with batch 4 over `[1,3]` with batch 1 for C26: accepted
by the quotient, hence by the sum and the product, with output `[2,3]`,
batch 4. -/
theorem C26_quotient_rule_stricter_witness :
    ((∀ i, i < (⟨[2, 3], 4⟩ : Dim).nd → 1 ≤ (⟨[2, 3], 4⟩ : Dim).d.getD i 0) ∧
        1 ≤ (⟨[2, 3], 4⟩ : Dim).bd ∧
        CwiseQuotient.dim_forward [⟨[2, 3], 4⟩, ⟨[1, 3], 1⟩] = .ok ⟨[2, 3], 4⟩) ∧
      CwiseSum.dim_forward [⟨[2, 3], 4⟩, ⟨[1, 3], 1⟩] = .ok ⟨[2, 3], 4⟩ ∧
      CwiseMultiply.dim_forward [⟨[2, 3], 4⟩, ⟨[1, 3], 1⟩] = .ok ⟨[2, 3], 4⟩ := by
  have hp0 : ∀ i, i < (⟨[2, 3], 4⟩ : Dim).nd → 1 ≤ (⟨[2, 3], 4⟩ : Dim).d.getD i 0 := by
    intro i hi
    have : i < 2 := hi
    interval_cases i <;> decide
  exact ⟨⟨hp0, by decide, rfl⟩,
    (C26_quotient_rule_stricter ⟨[2, 3], 4⟩ ⟨[1, 3], 1⟩ ⟨[2, 3], 4⟩ hp0 (by decide)).1 rfl⟩

/-! ## Batching signatures -/

theorem sum_autobatch_sig_pair {σ : Type} (cg : ComputationGraph)
    (get_idx : σ → Sig → Nat × σ) (sm : σ) (a0 a1 : Nat) (n0 n1 : Node)
    (h0 : cg.nodes[a0]? = some n0) (h1 : cg.nodes[a1]? = some n1) :
    CwiseSum.autobatch_sig [a0, a1] cg get_idx sm =
      if n0.dim = n1.dim then some (get_idx sm ⟨nt.csum⟩) else some (0, sm) := by
  simp only [CwiseSum.autobatch_sig, List.getElem?_cons_zero, List.getElem?_cons_succ, h0, h1,
    Option.bind_eq_bind, Option.some_bind, beq_iff_eq]
  split_ifs <;> rfl

theorem multiply_autobatch_sig_pair {σ : Type} (cg : ComputationGraph)
    (get_idx : σ → Sig → Nat × σ) (sm : σ) (a0 a1 : Nat) (n0 n1 : Node)
    (h0 : cg.nodes[a0]? = some n0) (h1 : cg.nodes[a1]? = some n1) :
    CwiseMultiply.autobatch_sig [a0, a1] cg get_idx sm =
      if n0.dim = n1.dim then some (get_idx sm ⟨nt.cmult⟩) else some (0, sm) := by
  simp only [CwiseMultiply.autobatch_sig, List.getElem?_cons_zero, List.getElem?_cons_succ, h0,
    h1, Option.bind_eq_bind, Option.some_bind, beq_iff_eq]
  split_ifs <;> rfl

/-- C24. For a `CwiseSum` or `CwiseMultiply` node whose two operands are the
nodes `n0`, `n1` of the graph, `autobatch_sig` returns the catch-all signature
0 (and leaves the signature map alone) whenever the two operand shapes are not
identical, in rank, in a feature extent or in the batch extent; otherwise it
returns the index the signature map assigns to the signature of the node's op
kind. Hence two nodes of the same kind, each with identical operand shapes,
queried against the same signature map, receive the same signature. -/
theorem C24_autobatch_sig {σ : Type} (cg : ComputationGraph) (get_idx : σ → Sig → Nat × σ)
    (sm : σ) (a0 a1 : Nat) (n0 n1 : Node)
    (h0 : cg.nodes[a0]? = some n0) (h1 : cg.nodes[a1]? = some n1) :
    ((n0.dim.nd ≠ n1.dim.nd ∨ (∃ j, n0.dim.d.getD j 0 ≠ n1.dim.d.getD j 0) ∨
          n0.dim.bd ≠ n1.dim.bd ↔ n0.dim ≠ n1.dim) ∧
        (n0.dim ≠ n1.dim →
          CwiseSum.autobatch_sig [a0, a1] cg get_idx sm = some (0, sm) ∧
            CwiseMultiply.autobatch_sig [a0, a1] cg get_idx sm = some (0, sm))) ∧
      (n0.dim = n1.dim →
        CwiseSum.autobatch_sig [a0, a1] cg get_idx sm = some (get_idx sm ⟨nt.csum⟩) ∧
          CwiseMultiply.autobatch_sig [a0, a1] cg get_idx sm = some (get_idx sm ⟨nt.cmult⟩)) ∧
      (∀ b0 b1 m0 m1, cg.nodes[b0]? = some m0 → cg.nodes[b1]? = some m1 →
        n0.dim = n1.dim → m0.dim = m1.dim →
        CwiseSum.autobatch_sig [a0, a1] cg get_idx sm =
            CwiseSum.autobatch_sig [b0, b1] cg get_idx sm ∧
          CwiseMultiply.autobatch_sig [a0, a1] cg get_idx sm =
            CwiseMultiply.autobatch_sig [b0, b1] cg get_idx sm) := by
  refine ⟨⟨?_, fun hne => ?_⟩, fun he => ?_, fun b0 b1 m0 m1 g0 g1 he hm => ?_⟩
  · constructor
    · rintro (h | ⟨j, h⟩ | h) he
      · exact h (by rw [he])
      · exact h (by rw [he])
      · exact h (by rw [he])
    · intro hne
      by_contra hc
      push_neg at hc
      obtain ⟨_, hd, hb⟩ := hc
      apply hne
      have hdd : n0.dim.d = n1.dim.d := by
        apply List.ext_getElem?
        intro j
        have := hd j
        by_cases hj0 : j < n0.dim.d.length
        · by_cases hj1 : j < n1.dim.d.length
          · simp only [List.getD_eq_getElem?_getD, List.getElem?_eq_getElem hj0,
              List.getElem?_eq_getElem hj1, Option.getD_some] at this
            rw [List.getElem?_eq_getElem hj0, List.getElem?_eq_getElem hj1, this]
          · exfalso
            have e : n0.dim.nd = n1.dim.nd := by
              by_contra hx
              exact absurd (Or.inl hx : _ ∨ False) (by tauto)
            simp only [Dim.nd] at e
            omega
        · have hj1 : ¬ j < n1.dim.d.length := by
            have e : n0.dim.nd = n1.dim.nd := by
              by_contra hx
              exact absurd (Or.inl hx : _ ∨ False) (by tauto)
            simp only [Dim.nd] at e
            omega
          rw [List.getElem?_eq_none (by omega), List.getElem?_eq_none (by omega)]
      cases hx : n0.dim
      cases hy : n1.dim
      rw [hx] at hdd hb
      rw [hy] at hdd hb
      simp only at hdd hb
      rw [hdd, hb]
  · rw [sum_autobatch_sig_pair cg get_idx sm a0 a1 n0 n1 h0 h1,
      multiply_autobatch_sig_pair cg get_idx sm a0 a1 n0 n1 h0 h1]
    exact ⟨by rw [if_neg hne], by rw [if_neg hne]⟩
  · rw [sum_autobatch_sig_pair cg get_idx sm a0 a1 n0 n1 h0 h1,
      multiply_autobatch_sig_pair cg get_idx sm a0 a1 n0 n1 h0 h1]
    exact ⟨by rw [if_pos he], by rw [if_pos he]⟩
  · rw [sum_autobatch_sig_pair cg get_idx sm a0 a1 n0 n1 h0 h1,
      multiply_autobatch_sig_pair cg get_idx sm a0 a1 n0 n1 h0 h1,
      sum_autobatch_sig_pair cg get_idx sm b0 b1 m0 m1 g0 g1,
      multiply_autobatch_sig_pair cg get_idx sm b0 b1 m0 m1 g0 g1]
    exact ⟨by rw [if_pos he, if_pos hm], by rw [if_pos he, if_pos hm]⟩

/-- The graph with nodes of shapes `[3]`, `[3]`, `[3,1]`, `[5]` batch 2 for
C24: a sum of nodes 0 and 1 (identical shapes) receives the index the map
assigns to the sum signature, a product of nodes 0 and 2 (ranks differ)
receives 0; a sum of nodes 3 and 3 receives the same signature as the sum of
nodes 0 and 1. -/
theorem C24_autobatch_sig_witness :
    (exGraph.nodes[0]? = some ⟨⟨[3], 1⟩⟩ ∧ exGraph.nodes[1]? = some ⟨⟨[3], 1⟩⟩) ∧
      CwiseSum.autobatch_sig [0, 1] exGraph exSigMap [] = some (1, [⟨nt.csum⟩]) ∧
      CwiseMultiply.autobatch_sig [0, 2] exGraph exSigMap [] = some (0, []) ∧
      CwiseSum.autobatch_sig [0, 1] exGraph exSigMap [] =
        CwiseSum.autobatch_sig [3, 3] exGraph exSigMap [] := by
  have h := C24_autobatch_sig exGraph exSigMap [] 0 1 ⟨⟨[3], 1⟩⟩ ⟨⟨[3], 1⟩⟩ rfl rfl
  exact ⟨⟨rfl, rfl⟩, (h.2.1 rfl).1.trans (by decide), by decide,
    (h.2.2 3 3 ⟨⟨[5], 2⟩⟩ ⟨⟨[5], 2⟩⟩ rfl rfl rfl rfl).1⟩

/-! ## The scratch pool of the quotient's backward -/

theorem Tensor.ext_of {α : Type} (t u : Tensor α) (hd : t.d = u.d) (hv : ∀ k, t.v k = u.v k) :
    t = u := by
  cases t
  cases u
  simp only at hd hv
  rw [hd, funext hv]

theorem batch_broadcast_cpu_out {α : Type} (op : α → α → α) (fx other greater : Tensor α)
    (bs : Nat) (hf : fx.d.batch_size = bs) (ho : other.d.size = bs)
    (hg : greater.d.batch_size = bs) (n : Nat) :
    ∀ k, bs * n ≤ k →
      ((List.range n).foldl
          (fun fx b =>
            fx.assign (fx.d.batch_size * b) (Expr.cwise op other.tvec (greater.tbvec.chip1 b)))
          fx).v k = fx.v k := by
  induction n with
  | zero => intro k _; rfl
  | succ n ih =>
    intro k hk
    have hd := (batch_broadcast_cpu_aux op fx other greater bs hf ho hg n).1
    rw [List.range_succ, List.foldl_append]
    simp only [List.foldl_cons, List.foldl_nil]
    have hle : bs * n ≤ k := le_trans (Nat.mul_le_mul_left bs (Nat.le_succ n)) hk
    rw [Tensor.assign_v_out _ _ _ _ (Or.inr (by
      rw [hd, hf]
      simp only [Expr.cwise, Tensor.tvec, List.prod_cons, List.prod_nil, Nat.mul_one, ho]
      calc bs * n + bs = bs * (n + 1) := by ring
        _ ≤ k := hk))]
    exact ih k hle

/-- The per-slice loop of the CPU build and the broadcast expression of the
CUDA build leave the same output tensor. -/
theorem batch_cpu_eq_cuda {α : Type} (op : α → α → α) (fx other greater : Tensor α)
    (bs : Nat) (hf : fx.d.batch_size = bs) (ho : other.d.batch_size = bs)
    (hob : other.d.bd = 1) (hg : greater.d.batch_size = bs) :
    (List.range greater.d.bd).foldl
        (fun fx b =>
          fx.assign (fx.d.batch_size * b) (Expr.cwise op other.tvec (greater.tbvec.chip1 b)))
        fx =
      fx.assign 0 (Expr.cwise op (other.tbvec.broadcast [1, greater.d.bd]) greater.tbvec) := by
  have hos : other.d.size = bs := by simp [Dim.size, ho, hob]
  obtain ⟨hd, hv⟩ := batch_broadcast_cpu_aux op fx other greater bs hf hos hg greater.d.bd
  apply Tensor.ext_of
  · rw [hd, Tensor.assign_d]
  · intro k
    by_cases hk : k < bs * greater.d.bd
    · have hbs : 0 < bs := by
        rcases Nat.eq_zero_or_pos bs with h | h
        · rw [h, Nat.zero_mul] at hk; exact absurd hk (Nat.not_lt_zero k)
        · exact h
      have hr : k % bs < bs := Nat.mod_lt k hbs
      have hb : k / bs < greater.d.bd := Nat.div_lt_of_lt_mul hk
      have hkk : k % bs + bs * (k / bs) = k := Nat.mod_add_div k bs
      have e1 := hv (k / bs) (k % bs) hb hr
      have e2 := batch_broadcast_cuda op fx other greater bs greater.d.bd ho hob rfl
        (k / bs) (k % bs) hb hr
      rw [hkk] at e1 e2
      rw [e1, e2]
    · rw [batch_broadcast_cpu_out op fx other greater bs hf hos hg greater.d.bd k (by omega),
        Tensor.assign_v_out _ _ _ _ (Or.inr (by
          simp only [Expr.cwise, Expr.broadcast, Tensor.tbvec, ho, hob,
            List.zipWith_cons_cons, List.zipWith_nil_right, List.prod_cons, List.prod_nil,
            Nat.mul_one, Nat.one_mul, Nat.zero_add]
          omega))]

/-- On the batch-only path of the common forward body the CPU and the CUDA
builds compute the same output tensor. -/
theorem cwise_forward_cpu_eq_cuda {α : Type} (op : α → α → α) (x0 x1 fx : Tensor α)
    (hleg : SumLegal x0.d x1.d)
    (hfx : fx.d = Dim.ofVector (outDims x0.d x1.d) (max x0.d.bd x1.d.bd))
    (hfeat : ∀ i, i < fx.d.nd → x0.d.get i = x1.d.get i) :
    cwise_forward_dev_impl op false x0 x1 fx = cwise_forward_dev_impl op true x0 x1 fx := by
  obtain ⟨hall, hfget⟩ := getD_eq_of_dims hfx hfeat
  have hb0 : fx.d.batch_size = x0.d.batch_size := Dim.batch_size_eq_of_get_eq _ _ hfget
  have hb1 : fx.d.batch_size = x1.d.batch_size :=
    Dim.batch_size_eq_of_get_eq _ _ (fun i => (hfget i).trans (hall i))
  have hbd : fx.d.bd = max x0.d.bd x1.d.bd := by rw [hfx]; rfl
  have hscan : scanEqual x0.d x1.d fx.d.nd 0 = fx.d.nd := by
    rw [scanEqual_all x0.d x1.d fx.d.nd 0 (fun t _ h => hfeat t (by omega))]; omega
  by_cases hbeq : x0.d.bd = x1.d.bd
  · simp only [cwise_forward_dev_impl, hscan, beq_self_eq_true, if_true, hbeq]
  · have hmin : min x0.d.bd x1.d.bd = 1 := by
      rcases hleg.2 with h | h
      · exact absurd h hbeq
      · exact h
    by_cases hgt : x0.d.bd > x1.d.bd
    · have hfb : fx.d.bd = x0.d.bd := by rw [hbd]; exact max_eq_left (by omega)
      have h1 : x1.d.bd = 1 := by omega
      simp only [cwise_forward_dev_impl, hscan, beq_self_eq_true, if_true, beq_iff_eq, hbeq,
        hgt, if_false, Bool.false_eq_true, hfb]
      exact batch_cpu_eq_cuda op fx x1 x0 fx.d.batch_size rfl hb1.symm h1 hb0.symm
    · have hfb : fx.d.bd = x1.d.bd := by rw [hbd]; exact max_eq_right (by omega)
      have h0 : x0.d.bd = 1 := by omega
      simp only [cwise_forward_dev_impl, hscan, beq_self_eq_true, if_true, beq_iff_eq, hbeq,
        hgt, if_false, Bool.false_eq_true, hfb]
      exact batch_cpu_eq_cuda op fx x0 x1 fx.d.batch_size rfl hb0.symm h0 hb1.symm

/-- In every branch of `CwiseSum::backward_dev_impl` the CPU and the CUDA
builds leave the same gradient buffer. -/
theorem sum_backward_cpu_eq_cuda {α : Type} [AddMonoid α] (asserts : Bool) (junk : Nat)
    (x0 x1 fx dEdf : Tensor α) (i : Nat) (dEdxi : Tensor α) :
    CwiseSum.backward_dev_impl asserts false junk x0 x1 fx dEdf i dEdxi =
      CwiseSum.backward_dev_impl asserts true junk x0 x1 fx dEdf i dEdxi := by
  have hloop : (List.range dEdf.d.bd).foldl
      (fun dEdxi b => dEdxi.accum (fun a b => a + b) dEdxi.tvec.dims (dEdf.tbvec.chip1 b))
      dEdxi = dEdxi.accum (fun a b => a + b) dEdxi.tvec.dims (dEdf.tbvec.sum [1]) := by
    obtain ⟨ad, av, ao⟩ := sum_backward_batch_cpu_aux dEdf dEdxi dEdf.d.bd
    apply Tensor.ext_of
    · rw [ad, Tensor.accum_d]
    · intro k
      by_cases hk : k < dEdxi.d.size
      · rw [av k hk, Tensor.accum_v_in _ _ _ _ _ (by simpa [Tensor.tvec] using hk),
          sum_backward_batch_cuda]
      · rw [ao k (by omega), Tensor.accum_v_out _ _ _ _ _ (by simpa [Tensor.tvec] using hk)]
  simp only [CwiseSum.backward_dev_impl, hloop, Bool.false_eq_true, if_false, if_true]

/-- C28. In the batch-only paths of `CwiseSum` (a legal operand pair whose
feature extents all agree) the CPU and CUDA variants are equal over exact
arithmetic. Forward: the output tensor left by the per-slice loop
`fx[., b] = small + big[., b]` is the one left by the expression
`small.broadcast({1, k}) + big`. Backward: the gradient buffer left by
accumulating the batch slices of `dEdf` one by one is the one left by adding
`dEdf` summed over the batch axis; this holds for every call of backward, with
assertions on or off. -/
theorem C28_cpu_cuda_equal {α : Type} [AddMonoid α] (asserts : Bool) (junk : Nat)
    (x0 x1 fx dEdf : Tensor α) (i : Nat) (dEdxi : Tensor α)
    (hS : CwiseSum.dim_forward [x0.d, x1.d] = .ok fx.d)
    (hfeat : ∀ j, j < fx.d.nd → x0.d.get j = x1.d.get j) :
    CwiseSum.forward_dev_impl false x0 x1 fx = CwiseSum.forward_dev_impl true x0 x1 fx ∧
      CwiseSum.backward_dev_impl asserts false junk x0 x1 fx dEdf i dEdxi =
        CwiseSum.backward_dev_impl asserts true junk x0 x1 fx dEdf i dEdxi := by
  obtain ⟨hleg, hfx⟩ := (sum_dim_forward_eq_ok x0.d x1.d fx.d).1 hS
  exact ⟨cwise_forward_cpu_eq_cuda (fun a b : α => a + b) x0 x1 fx hleg hfx hfeat,
    sum_backward_cpu_eq_cuda asserts junk x0 x1 fx dEdf i dEdxi⟩

/-- A batch-broadcast input for C28: `[3]` with batch 1 against `[3]` with
batch 4. Both builds compute the same output and, for operand 0 with the
gradient `1..12`, the same gradient `[22, 26, 30]`. -/
theorem C28_cpu_cuda_equal_witness :
    (CwiseSum.dim_forward [exVec3.d, exVec3Batch4.d] = .ok exOut3Batch4.d ∧
        (∀ j, j < exOut3Batch4.d.nd → exVec3.d.get j = exVec3Batch4.d.get j)) ∧
      CwiseSum.forward_dev_impl false exVec3 exVec3Batch4 exOut3Batch4 =
        CwiseSum.forward_dev_impl true exVec3 exVec3Batch4 exOut3Batch4 ∧
      resultValues (CwiseSum.backward_dev_impl true false 0 exVec3 exVec3Batch4 exOut3Batch4
        exVec3Batch4 0 (zeroGrad exVec3.d)) 3 = some [22, 26, 30] ∧
      resultValues (CwiseSum.backward_dev_impl true true 0 exVec3 exVec3Batch4 exOut3Batch4
        exVec3Batch4 0 (zeroGrad exVec3.d)) 3 = some [22, 26, 30] := by
  have hfeat : ∀ j, j < exOut3Batch4.d.nd → exVec3.d.get j = exVec3Batch4.d.get j := by
    intro j hj
    have : j < 1 := hj
    interval_cases j
    rfl
  have h := C28_cpu_cuda_equal true 0 exVec3 exVec3Batch4 exOut3Batch4 exVec3Batch4 0
    (zeroGrad exVec3.d) rfl hfeat
  refine ⟨⟨rfl, hfeat⟩, h.1, by decide, ?_⟩
  rw [← h.2]
  decide

/-! ## The assertion on the number of reductions -/

/-- The broadcasting branch of `CwiseMultiply::backward_dev_impl` when its
assertion `0 < n_red < 5` holds, with assertions compiled in or out. -/
theorem multiply_backward_slow_asserts {α : Type} [Add α] [Zero α] [Mul α] (asserts : Bool)
    (junk : Nat) (x0 x1 fx dEdf : Tensor α) (i : Nat) (dEdxi : Tensor α) (hi : i < 2)
    (hdiff : ∃ j, j < fx.d.nd ∧ x0.d.get j ≠ x1.d.get j)
    (hpos : 0 < (if (operand x0 x1 i).d.bd != fx.d.bd then 1 else 0) +
      ((List.range fx.d.nd).countP fun j => (operand x0 x1 i).d.get j != fx.d.get j))
    (hfour : (if (operand x0 x1 i).d.bd != fx.d.bd then 1 else 0) +
      ((List.range fx.d.nd).countP fun j => (operand x0 x1 i).d.get j != fx.d.get j) < 5) :
    CwiseMultiply.backward_dev_impl asserts junk x0 x1 fx dEdf i dEdxi =
      .ok (CwiseMultiply.backward_helper
        ((if (operand x0 x1 i).d.bd != fx.d.bd then 1 else 0) +
          ((List.range fx.d.nd).countP fun j => (operand x0 x1 i).d.get j != fx.d.get j))
        junk x0 x1 fx dEdf i dEdxi) := by
  have hm : ((List.range fx.d.nd).any fun j => x0.d.get j != x1.d.get j) = true := by
    rw [List.any_eq_true]
    obtain ⟨j, hj, hne⟩ := hdiff
    exact ⟨j, List.mem_range.mpr hj, by simpa using hne⟩
  simp only [CwiseMultiply.backward_dev_impl, DYNET_ASSERT_ok asserts _ _ (decide_eq_true hi),
    hm, Bool.not_true, Bool.false_eq_true, if_false]
  rw [DYNET_ASSERT_ok asserts _ _ (by
    simp only [Bool.and_eq_true, decide_eq_true_eq]; exact ⟨hfour, hpos⟩)]
  exact dispatch_helper_zero
    (fun n => (Except.ok (CwiseMultiply.backward_helper n junk x0 x1 fx dEdf i dEdxi) :
      Except DevError (Tensor α))) (Except.ok dEdxi) _ hfour

/-- C29 (counterexample). Two legal `CwiseMultiply` pairs whose backward takes
the broadcasting branch with the assertion `0 < n_red < 5` failing. For the
scalar `[1,1,1,1]`, batch 1, against `[2,2,2,2]`, batch 2, operand 0 differs
from the output on five axes. For `[3,1]` against `[3,4]`, operand 1 has the
output's shape and differs on no axis. With assertions compiled in both calls
end in the assertion failure. -/
theorem C29_multiply_assertion_fails :
    (CwiseMultiply.dim_forward [exScalar.d, exFull.d] = .ok exFull.d ∧
        (∃ j, j < exFull.d.nd ∧ exScalar.d.get j ≠ exFull.d.get j) ∧
        nBroadcast exScalar.d exFull.d = 5 ∧
        CwiseMultiply.backward_dev_impl true 0 exScalar exFull exFull exFull 0
            (zeroGrad exScalar.d) =
          .error (.assertion_failed
            "Unsupported number of reductions check in CwiseMultiply::backward (cmult)")) ∧
      (CwiseMultiply.dim_forward [exA.d, exOnes.d] = .ok exAB.d ∧
        (∃ j, j < exAB.d.nd ∧ exA.d.get j ≠ exOnes.d.get j) ∧
        nBroadcast exOnes.d exAB.d = 0 ∧
        CwiseMultiply.backward_dev_impl true 0 exA exOnes exAB exOnes 1 (zeroGrad exOnes.d) =
          .error (.assertion_failed
            "Unsupported number of reductions check in CwiseMultiply::backward (cmult)")) :=
  ⟨⟨rfl, ⟨0, by decide, by decide⟩, by decide, rfl⟩,
    ⟨rfl, ⟨1, by decide, by decide⟩, by decide, rfl⟩⟩

/-- C29 (amended). For every legal `CwiseMultiply` operand pair of rank at
most 4 (extents at least 1) and each operand index `i` in `{0, 1}`, whenever
`backward_dev_impl` takes the broadcasting branch (some feature axis differs
between the two operands) and operand `i` is smaller than the output on at
least one and at most four of the five axes, the count `n_red` the code
computes is that number of axes and its assertion `0 < n_red < 5` holds: with
assertions compiled in, the call does not fail and returns what it returns
with assertions compiled out. -/
theorem C29_multiply_assertion {α : Type} [Add α] [Zero α] [Mul α] (junk : Nat)
    (x0 x1 fx dEdf : Tensor α) (i : Nat) (dEdxi : Tensor α) (hi : i < 2)
    (hr0 : x0.d.nd ≤ 4) (hr1 : x1.d.nd ≤ 4)
    (hM : CwiseMultiply.dim_forward [x0.d, x1.d] = .ok fx.d)
    (hpos : ∀ j, 0 < fx.d.get j) (hbpos : 0 < fx.d.bd)
    (hdiff : ∃ j, j < fx.d.nd ∧ x0.d.get j ≠ x1.d.get j)
    (hone : 1 ≤ nBroadcast (operand x0 x1 i).d fx.d)
    (hfour : nBroadcast (operand x0 x1 i).d fx.d ≤ 4) :
    (if (operand x0 x1 i).d.bd != fx.d.bd then 1 else 0) +
        ((List.range fx.d.nd).countP fun j => (operand x0 x1 i).d.get j != fx.d.get j) =
        nBroadcast (operand x0 x1 i).d fx.d ∧
      (0 < (if (operand x0 x1 i).d.bd != fx.d.bd then 1 else 0) +
          ((List.range fx.d.nd).countP fun j => (operand x0 x1 i).d.get j != fx.d.get j) ∧
        (if (operand x0 x1 i).d.bd != fx.d.bd then 1 else 0) +
          ((List.range fx.d.nd).countP fun j => (operand x0 x1 i).d.get j != fx.d.get j) <
            5) ∧
      (∃ t, CwiseMultiply.backward_dev_impl true junk x0 x1 fx dEdf i dEdxi = .ok t) ∧
      CwiseMultiply.backward_dev_impl true junk x0 x1 fx dEdf i dEdxi =
        CwiseMultiply.backward_dev_impl false junk x0 x1 fx dEdf i dEdxi := by
  obtain ⟨hleg, hfx⟩ := (multiply_dim_forward_eq_ok x0.d x1.d fx.d).1 hM
  have hn := n_red_eq_nBroadcast x0 x1 fx.d i hr0 hr1 hleg hfx hpos hbpos
  have hn2 : (if (operand x0 x1 i).d.bd != fx.d.bd then 1 else 0) +
      ((List.range fx.d.nd).countP fun j => (operand x0 x1 i).d.get j != fx.d.get j) =
      nBroadcast (operand x0 x1 i).d fx.d := by rw [Nat.add_comm]; exact hn
  have e1 := multiply_backward_slow_asserts true junk x0 x1 fx dEdf i dEdxi hi hdiff
    (by omega) (by omega)
  have e2 := multiply_backward_slow_asserts false junk x0 x1 fx dEdf i dEdxi hi hdiff
    (by omega) (by omega)
  exact ⟨hn2, ⟨by omega, by omega⟩, ⟨_, e1⟩, by rw [e1, e2]⟩

/-- The spec's scenario shapes for C29: `A` of shape `[3,1]` times `B` of
shape `[1,4]`; operand 0 is smaller than the output `[3,4]` on one axis, and
backward with assertions compiled in returns the gradient `[100, 100, 100]`. -/
theorem C29_multiply_assertion_witness :
    ((0 : Nat) < 2 ∧ exA.d.nd ≤ 4 ∧ exB.d.nd ≤ 4 ∧
        CwiseMultiply.dim_forward [exA.d, exB.d] = .ok exAB.d ∧
        (∀ j, 0 < exAB.d.get j) ∧ 0 < exAB.d.bd ∧
        (∃ j, j < exAB.d.nd ∧ exA.d.get j ≠ exB.d.get j) ∧
        1 ≤ nBroadcast (operand exA exB 0).d exAB.d ∧
        nBroadcast (operand exA exB 0).d exAB.d ≤ 4) ∧
      (∃ t, CwiseMultiply.backward_dev_impl true 0 exA exB exAB exOnes 0 (zeroGrad exA.d) =
        .ok t) ∧
      resultValues (CwiseMultiply.backward_dev_impl true 0 exA exB exAB exOnes 0
        (zeroGrad exA.d)) 3 = some [100, 100, 100] := by
  have hpos : ∀ j, 0 < exAB.d.get j := by
    intro j
    rcases j with _ | _ | j
    · decide
    · decide
    · simp [exAB, Dim.get]
  have hdiff : ∃ j, j < exAB.d.nd ∧ exA.d.get j ≠ exB.d.get j := ⟨0, by decide, by decide⟩
  have h := C29_multiply_assertion 0 exA exB exAB exOnes 0 (zeroGrad exA.d) (by decide)
    (by decide) (by decide) rfl hpos (by decide) hdiff (by decide) (by decide)
  exact ⟨⟨by decide, by decide, by decide, rfl, hpos, by decide, hdiff, by decide, by decide⟩,
    h.2.2.1, by decide⟩

/-! ## The array `red_axis` of the helpers -/

/-- An accumulation with `+=` adds to the buffer what it leaves in a zeroed
buffer of the same shape. -/
theorem accum_add_zeroLike {α : Type} [AddMonoid α] (d : Dim) (v : Nat → α) (view : List Nat)
    (e : Expr α) :
    (Tensor.mk d v).accum (fun a b => a + b) view e =
      ⟨d, fun k => v k + ((Tensor.mk d fun _ => (0 : α)).accum (fun a b => a + b) view e).v k⟩ := by
  apply Tensor.ext_of
  · rfl
  · intro k
    by_cases hk : k < view.prod
    · simp only [Tensor.accum, if_pos hk, zero_add]
    · simp only [Tensor.accum, if_neg hk, add_zero]

theorem accum_sub_zeroLike {α : Type} [AddGroup α] (d : Dim) (v : Nat → α) (view : List Nat)
    (e : Expr α) :
    (Tensor.mk d v).accum (fun a b => a - b) view e =
      ⟨d, fun k => v k + ((Tensor.mk d fun _ => (0 : α)).accum (fun a b => a - b) view e).v k⟩ := by
  apply Tensor.ext_of
  · rfl
  · intro k
    by_cases hk : k < view.prod
    · simp only [Tensor.accum, if_pos hk, zero_sub]
      exact sub_eq_add_neg _ _
    · simp only [Tensor.accum, if_neg hk, add_zero]

theorem tensor_add_zero {α : Type} [AddMonoid α] (d : Dim) (v : Nat → α) :
    Tensor.mk d v = ⟨d, fun k => v k + (Tensor.mk d fun _ => (0 : α)).v k⟩ := by
  apply Tensor.ext_of
  · rfl
  · intro k
    exact (add_zero _).symm

theorem map_ite_congr {ε β : Type} (F : β → β) (c : Prop) [Decidable c]
    (a b a' b' : Except ε β) (ha : a = a'.map F) (hb : b = b'.map F) :
    (if c then a else b) = (if c then a' else b').map F := by
  split_ifs <;> assumption

theorem map_bind_congr {ε β : Type} (F : β → β) (r : Except ε Unit) (a a' : Except ε β)
    (h : a = a'.map F) : (r >>= fun _ => a) = (r >>= fun _ => a').map F := by
  rcases r with e | u
  · rfl
  · exact h

theorem map_fst_ite_congr {ε β γ : Type} (F : β → β) (c : Prop) [Decidable c]
    (a b a' b' : Except ε (β × γ)) (ha : a.map Prod.fst = (a'.map Prod.fst).map F)
    (hb : b.map Prod.fst = (b'.map Prod.fst).map F) :
    (if c then a else b).map Prod.fst = ((if c then a' else b').map Prod.fst).map F := by
  split_ifs <;> assumption

theorem map_fst_bind_congr {ε β γ : Type} (F : β → β) (r : Except ε Unit)
    (a a' : Except ε (β × γ)) (h : a.map Prod.fst = (a'.map Prod.fst).map F) :
    (r >>= fun _ => a).map Prod.fst = ((r >>= fun _ => a').map Prod.fst).map F := by
  rcases r with e | u
  · rfl
  · exact h

/-- `CwiseSum::backward_dev_impl` adds to the buffer what it leaves in a
zeroed buffer of the same shape. -/
theorem sum_backward_additive {α : Type} [AddMonoid α] (asserts cuda : Bool) (junk : Nat)
    (x0 x1 fx dEdf : Tensor α) (i : Nat) (d : Dim) (v : Nat → α) :
    CwiseSum.backward_dev_impl asserts cuda junk x0 x1 fx dEdf i ⟨d, v⟩ =
      (CwiseSum.backward_dev_impl asserts cuda junk x0 x1 fx dEdf i ⟨d, fun _ => 0⟩).map
        fun z => ⟨d, fun k => v k + z.v k⟩ := by
  have hc : ∀ t : Tensor α, CwiseSum.backward_dev_impl asserts cuda junk x0 x1 fx dEdf i t =
      CwiseSum.backward_dev_impl asserts true junk x0 x1 fx dEdf i t := by
    intro t
    cases cuda
    · exact sum_backward_cpu_eq_cuda asserts junk x0 x1 fx dEdf i t
    · rfl
  rw [hc, hc]
  unfold CwiseSum.backward_dev_impl
  dsimp only
  simp only [eq_self_iff_true, if_true]
  repeat' first
    | exact congrArg Except.ok (accum_add_zeroLike d v _ _)
    | exact congrArg Except.ok (tensor_add_zero d v)
    | apply map_bind_congr
    | apply map_ite_congr

/-- `CwiseMultiply::backward_dev_impl` adds to the buffer what it leaves in a
zeroed buffer of the same shape. -/
theorem multiply_backward_additive {α : Type} [Semiring α] (asserts : Bool) (junk : Nat)
    (x0 x1 fx dEdf : Tensor α) (i : Nat) (d : Dim) (v : Nat → α) :
    CwiseMultiply.backward_dev_impl asserts junk x0 x1 fx dEdf i ⟨d, v⟩ =
      (CwiseMultiply.backward_dev_impl asserts junk x0 x1 fx dEdf i ⟨d, fun _ => 0⟩).map
        fun z => ⟨d, fun k => v k + z.v k⟩ := by
  unfold CwiseMultiply.backward_dev_impl
  dsimp only
  repeat' first
    | exact congrArg Except.ok (accum_add_zeroLike d v _ _)
    | exact congrArg Except.ok (tensor_add_zero d v)
    | apply map_bind_congr
    | apply map_ite_congr

/-- `CwiseQuotient::backward_dev_impl` adds to the buffer what it leaves in a
zeroed buffer of the same shape. -/
theorem quotient_backward_additive {α : Type} [Field α] (asserts : Bool) (junk : Nat)
    (buf : Nat → α) (x0 x1 dEdf : Tensor α) (i : Nat) (d : Dim) (v : Nat → α)
    (s : AlignedMemoryPool) :
    (CwiseQuotient.backward_dev_impl asserts junk buf x0 x1 dEdf i ⟨d, v⟩ s).map Prod.fst =
      ((CwiseQuotient.backward_dev_impl asserts junk buf x0 x1 dEdf i ⟨d, fun _ => 0⟩ s).map
        Prod.fst).map fun z => ⟨d, fun k => v k + z.v k⟩ := by
  unfold CwiseQuotient.backward_dev_impl
  dsimp only
  repeat' first
    | exact congrArg Except.ok (accum_add_zeroLike d v _ _)
    | exact congrArg Except.ok (accum_sub_zeroLike d v _ _)
    | exact congrArg Except.ok (tensor_add_zero d v)
    | apply map_fst_bind_congr
    | apply map_fst_ite_congr

/-- `Pow::backward_dev_impl` adds to the buffer what it leaves in a zeroed
buffer of the same shape. -/
theorem pow_backward_additive {α : Type} [Ring α] (pow : α → α → α) (log : α → α)
    (cuda eigen_no_malloc : Bool) (xs : List (Tensor α)) (fx dEdf : Tensor α) (i : Nat)
    (d : Dim) (v : Nat → α) :
    Pow.backward_dev_impl pow log cuda eigen_no_malloc xs fx dEdf i ⟨d, v⟩ =
      (Pow.backward_dev_impl pow log cuda eigen_no_malloc xs fx dEdf i ⟨d, fun _ => 0⟩).map
        fun z => ⟨d, fun k => v k + z.v k⟩ := by
  rcases xs with _ | ⟨x0, _ | ⟨x1, _ | ⟨x2, rest⟩⟩⟩
  · rfl
  · rfl
  · unfold Pow.backward_dev_impl
    dsimp only
    split_ifs <;>
      first
      | rfl
      | exact congrArg Except.ok (accum_add_zeroLike d v _ _)
  · rfl

/-- Every backward call adds to the buffer what it leaves in the zeroed
buffer of the same shape, and fails on the one exactly when it fails on the
other. -/
theorem run_additive {α : Type} [Field α] (c : BackwardCall α) (d : Dim) (v : Nat → α) :
    c.run ⟨d, v⟩ = (c.run ⟨d, fun _ => 0⟩).map fun z => ⟨d, fun k => v k + z.v k⟩ := by
  cases c with
  | ofSum asserts cuda junk x0 x1 fx dEdf i =>
    exact sum_backward_additive asserts cuda junk x0 x1 fx dEdf i d v
  | ofMultiply asserts junk x0 x1 fx dEdf i =>
    exact multiply_backward_additive asserts junk x0 x1 fx dEdf i d v
  | ofQuotient asserts junk buf x0 x1 dEdf i s =>
    exact quotient_backward_additive asserts junk buf x0 x1 dEdf i d v s
  | ofPow pow log cuda eigen_no_malloc xs fx dEdf i =>
    exact pow_backward_additive pow log cuda eigen_no_malloc xs fx dEdf i d v

/-- The outcome of a backward call on a buffer, from its outcome on the
zeroed buffer. -/
theorem run_of_zero {α : Type} [Field α] (c : BackwardCall α) (d : Dim) (v : Nat → α)
    (z : Tensor α) (hz : c.run ⟨d, fun _ => 0⟩ = .ok z) :
    c.run ⟨d, v⟩ = .ok ⟨d, fun k => v k + z.v k⟩ := by
  rw [run_additive c d v, hz]
  rfl

/-- A backward call that succeeds on some buffer succeeds on the zeroed
buffer of the same shape. -/
theorem zero_of_run {α : Type} [Field α] (c : BackwardCall α) (d : Dim) (v : Nat → α)
    (t : Tensor α) (ht : c.run ⟨d, v⟩ = .ok t) :
    ∃ z, c.run ⟨d, fun _ => 0⟩ = .ok z ∧ t = ⟨d, fun k => v k + z.v k⟩ := by
  rw [run_additive c d v] at ht
  rcases hz : c.run ⟨d, fun _ => 0⟩ with e | z
  · rw [hz] at ht
    cases ht
  · rw [hz] at ht
    exact ⟨z, rfl, (Except.ok.inj ht).symm⟩

theorem error_of_run {α : Type} [Field α] (c : BackwardCall α) (d : Dim) (v w : Nat → α)
    (e : DevError) (ht : c.run ⟨d, v⟩ = .error e) : c.run ⟨d, w⟩ = .error e := by
  rw [run_additive c d v] at ht
  rw [run_additive c d w]
  rcases hz : c.run ⟨d, fun _ => 0⟩ with e1 | z
  · rw [hz] at ht
    exact ht
  · rw [hz] at ht
    cases ht

/-- C22. Every `backward_dev_impl` of the four operators (`CwiseSum`,
`CwiseMultiply`, `CwiseQuotient`, `Pow`) is an additive update of the
destination buffer, over exact arithmetic (a field). For every call `c1` and
every buffer `dEdxi`: on any other buffer of the same shape the call fails
with the same error, or succeeds with the same difference between the buffer
after and before the call. For every second call `c2` run on the buffer the
first one left: both calls also succeed in the other order and leave the same
buffer, which holds, element by element, the initial contents plus what each
call leaves in a zeroed buffer. -/
theorem C22_backward_additive {α : Type} [Field α] (c1 c2 : BackwardCall α) (dEdxi : Tensor α) :
    (∀ other : Tensor α, other.d = dEdxi.d →
      (∀ e, c1.run dEdxi = .error e → c1.run other = .error e) ∧
      (∀ t, c1.run dEdxi = .ok t → ∃ u, c1.run other = .ok u ∧ u.d = other.d ∧
        t.d = dEdxi.d ∧ ∀ k, u.v k - other.v k = t.v k - dEdxi.v k)) ∧
    (∀ t1 t12, c1.run dEdxi = .ok t1 → c2.run t1 = .ok t12 →
      ∃ z1 z2 t2, c1.run (zeroLike dEdxi) = .ok z1 ∧ c2.run (zeroLike dEdxi) = .ok z2 ∧
        c2.run dEdxi = .ok t2 ∧ c1.run t2 = .ok t12 ∧ t12.d = dEdxi.d ∧
        ∀ k, t12.v k = dEdxi.v k + z1.v k + z2.v k) := by
  obtain ⟨d, v⟩ := dEdxi
  refine ⟨?_, ?_⟩
  · rintro ⟨d2, w⟩ hd
    have hd2 : d2 = d := hd
    subst hd2
    refine ⟨fun e he => error_of_run c1 d2 v w e he, fun t ht => ?_⟩
    obtain ⟨z, hz, rfl⟩ := zero_of_run c1 d2 v t ht
    refine ⟨_, run_of_zero c1 d2 w z hz, rfl, rfl, fun k => ?_⟩
    show w k + z.v k - w k = v k + z.v k - v k
    rw [add_sub_cancel_left, add_sub_cancel_left]
  · intro t1 t12 h1 h12
    obtain ⟨z1, hz1, rfl⟩ := zero_of_run c1 d v t1 h1
    obtain ⟨z2, hz2, rfl⟩ := zero_of_run c2 d _ t12 h12
    refine ⟨z1, z2, _, hz1, hz2, run_of_zero c2 d v z2 hz2, ?_, rfl, fun k => rfl⟩
    rw [run_of_zero c1 d _ z1 hz1]
    exact congrArg Except.ok (Tensor.ext_of _ _ rfl fun k => add_right_comm _ _ _)

/-- A scenario for C22: the gradient buffer of the operand `[2]`, holding 10,
receives the contribution `-13/4` of the quotient `[4, 9] / [2]` and the
contribution `2` of the sum `[4, 9] + [2]`, both with the gradient `[1, 1]`.
In either order both calls succeed and the buffer ends at
`10 - 13/4 + 2 = 35/4`. -/
theorem C22_backward_additive_witness :
    ∃ t1 t12 t2, exQuotientCall.run exBuffer = .ok t1 ∧ exSumCall.run t1 = .ok t12 ∧
      exSumCall.run exBuffer = .ok t2 ∧ exQuotientCall.run t2 = .ok t12 ∧
      t12.v 0 = 35 / 4 := by
  have h1 : ∃ t1, exQuotientCall.run exBuffer = .ok t1 := ⟨_, rfl⟩
  obtain ⟨t1, h1⟩ := h1
  have h12 : ∃ t12, exSumCall.run t1 = .ok t12 := by
    obtain ⟨z, -, rfl⟩ := zero_of_run exQuotientCall exBuffer.d exBuffer.v t1 h1
    exact ⟨_, run_of_zero exSumCall exBuffer.d _ _ rfl⟩
  obtain ⟨t12, h12⟩ := h12
  obtain ⟨z1, z2, t2, hz1, hz2, h2, h21, -, hv⟩ :=
    (C22_backward_additive exQuotientCall exSumCall exBuffer).2 t1 t12 h1 h12
  have e1 : ∃ Z, exQuotientCall.run (zeroLike exBuffer) = .ok Z ∧ Z.v 0 = -13 / 4 := by
    refine ⟨_, rfl, ?_⟩
    simp [exNum, exDen, exGrad2, exBuffer, zeroLike, CwiseQuotient.backward_helper,
      CwiseQuotient.backward_helper_squared, CwiseSum.backward_helper, operand, redAxisLoop, redAxisInit, setLoop, redMask, keepAxes,
      sumOver, Tensor.accum, Tensor.assign, Tensor.tb4, Expr.cwise, Expr.broadcast, Expr.map,
      Expr.sum, Expr.reshape, Dim.tb4, Dim.get, Dim.nd, lin, delin, List.range_succ]
    norm_num
  have e2 : ∃ Z, exSumCall.run (zeroLike exBuffer) = .ok Z ∧ Z.v 0 = 2 := by
    refine ⟨_, rfl, ?_⟩
    simp [exNum, exDen, exGrad2, exBuffer, zeroLike, CwiseQuotient.backward_helper,
      CwiseQuotient.backward_helper_squared, CwiseSum.backward_helper, operand, redAxisLoop, redAxisInit, setLoop, redMask, keepAxes,
      sumOver, Tensor.accum, Tensor.assign, Tensor.tb4, Expr.cwise, Expr.broadcast, Expr.map,
      Expr.sum, Expr.reshape, Dim.tb4, Dim.get, Dim.nd, lin, delin, List.range_succ]
    norm_num
  obtain ⟨Z1, hZ1, hZ1v⟩ := e1
  obtain ⟨Z2, hZ2, hZ2v⟩ := e2
  have q1 : z1 = Z1 := Except.ok.inj (hz1.symm.trans hZ1)
  have q2 : z2 = Z2 := Except.ok.inj (hz2.symm.trans hZ2)
  refine ⟨t1, t12, t2, h1, h12, h2, h21, ?_⟩
  rw [hv 0, q1, q2, hZ1v, hZ2v]
  show (10 : Rat) + -13 / 4 + 2 = 35 / 4
  norm_num

/-! ## Symmetry of the shape inference of `CwiseSum` and `CwiseMultiply` -/

theorem outDims_comm (a b : Dim) : outDims a b = outDims b a := by
  simp only [outDims]
  rw [max_comm b.nd a.nd]
  apply List.map_congr_left
  intro i hi
  have hi2 : i < max a.nd b.nd := List.mem_range.mp hi
  rw [min_comm b.nd a.nd, max_comm (b.d.getD i 0) (a.d.getD i 0)]
  by_cases hm : i < min a.nd b.nd
  · rw [if_pos hm, if_pos hm]
  · rw [if_neg hm, if_neg hm]
    have h1 := lt_max_iff.mp hi2
    have h2 : ¬ (i < a.nd ∧ i < b.nd) := fun h => hm (lt_min h.1 h.2)
    by_cases ha : i < a.nd
    · rw [if_pos ha, if_neg (fun hb => h2 ⟨ha, hb⟩)]
    · rw [if_neg ha, if_pos (h1.resolve_left ha)]

theorem sumLegal_comm (a b : Dim) : SumLegal a b → SumLegal b a := by
  rintro ⟨h1, h2⟩
  refine ⟨fun i hi => ?_, ?_⟩
  · rcases h1 i (by rw [min_comm]; exact hi) with h | h
    · exact Or.inl h.symm
    · exact Or.inr (by rw [min_comm]; exact h)
  · rcases h2 with h | h
    · exact Or.inl h.symm
    · exact Or.inr (by rw [min_comm]; exact h)

theorem beq_flip (a b : Nat) : (a == b) = (b == a) := by
  rw [Bool.eq_iff_iff, beq_iff_eq, beq_iff_eq]
  exact eq_comm

theorem sumCheck_comm (a b : Dim) :
    (List.range (min a.nd b.nd)).all (fun i =>
        a.d.getD i 0 == b.d.getD i 0 || min (a.d.getD i 0) (b.d.getD i 0) == 1) =
      (List.range (min b.nd a.nd)).all (fun i =>
        b.d.getD i 0 == a.d.getD i 0 || min (b.d.getD i 0) (a.d.getD i 0) == 1) := by
  rw [min_comm b.nd a.nd]
  congr 1
  funext i
  rw [min_comm (b.d.getD i 0), beq_flip]

/-- C32. Shape inference of `CwiseSum` and of `CwiseMultiply` is symmetric in
its operands. For all shapes `a` and `b`: `dim_forward([a, b])` is accepted if
and only if `dim_forward([b, a])` is accepted, and when both are accepted the
two output shapes are equal. More is true: the two calls return the same
result, the same output shape or the same error. -/
theorem C32_dim_forward_symmetric (a b : Dim) :
    ((Accepted (CwiseSum.dim_forward [a, b]) ↔ Accepted (CwiseSum.dim_forward [b, a])) ∧
        (∀ o1 o2, CwiseSum.dim_forward [a, b] = .ok o1 → CwiseSum.dim_forward [b, a] = .ok o2 →
          o1 = o2) ∧
        CwiseSum.dim_forward [a, b] = CwiseSum.dim_forward [b, a]) ∧
      ((Accepted (CwiseMultiply.dim_forward [a, b]) ↔
          Accepted (CwiseMultiply.dim_forward [b, a])) ∧
        (∀ o1 o2, CwiseMultiply.dim_forward [a, b] = .ok o1 →
          CwiseMultiply.dim_forward [b, a] = .ok o2 → o1 = o2) ∧
        CwiseMultiply.dim_forward [a, b] = CwiseMultiply.dim_forward [b, a]) := by
  have hb : (a.bd == b.bd || min a.bd b.bd == 1) = (b.bd == a.bd || min b.bd a.bd == 1) := by
    rw [min_comm b.bd, beq_flip]
  have hS : CwiseSum.dim_forward [a, b] = CwiseSum.dim_forward [b, a] := by
    rw [sum_dim_forward_pair, sum_dim_forward_pair, sumCheck_comm a b, hb, outDims_comm a b,
      max_comm a.bd b.bd]
  have hM : CwiseMultiply.dim_forward [a, b] = CwiseMultiply.dim_forward [b, a] := by
    rw [multiply_dim_forward_pair, multiply_dim_forward_pair, sumCheck_comm a b, hb,
      outDims_comm a b, max_comm a.bd b.bd]
  refine ⟨⟨by rw [hS], fun o1 o2 h1 h2 => ?_, hS⟩, ⟨by rw [hM], fun o1 o2 h1 h2 => ?_, hM⟩⟩
  · rw [hS, h2] at h1
    exact (Except.ok.inj h1).symm
  · rw [hM, h2] at h1
    exact (Except.ok.inj h1).symm

/-- The scenario-1 shapes `[3,1]` and `[1,4]` for C32: in both orders the sum
and the product are accepted with output `[3,4]`; the shapes `[2]` and `[3]`
are rejected in both orders. -/
theorem C32_dim_forward_symmetric_witness :
    CwiseSum.dim_forward [exA.d, exB.d] = .ok ⟨[3, 4], 1⟩ ∧
      CwiseSum.dim_forward [exB.d, exA.d] = .ok ⟨[3, 4], 1⟩ ∧
      CwiseMultiply.dim_forward [exB.d, exA.d] = .ok ⟨[3, 4], 1⟩ ∧
      Rejected (CwiseSum.dim_forward [⟨[2], 1⟩, ⟨[3], 1⟩]) ∧
      Rejected (CwiseSum.dim_forward [⟨[3], 1⟩, ⟨[2], 1⟩]) := by
  have h := C32_dim_forward_symmetric exA.d exB.d
  have g := C32_dim_forward_symmetric ⟨[2], 1⟩ ⟨[3], 1⟩
  have e : CwiseSum.dim_forward [exA.d, exB.d] = .ok ⟨[3, 4], 1⟩ := rfl
  have m : CwiseMultiply.dim_forward [exA.d, exB.d] = .ok ⟨[3, 4], 1⟩ := rfl
  have r : Rejected (CwiseSum.dim_forward [⟨[2], 1⟩, ⟨[3], 1⟩]) := by decide
  refine ⟨e, h.1.2.2 ▸ e, h.2.2.2 ▸ m, r, g.1.2.2 ▸ r⟩

/-! ## Operand extents against output extents -/

theorem range_map_getD (l : List Nat) : (List.range l.length).map (fun i => l.getD i 1) = l := by
  apply List.ext_getElem
  · simp
  · intro i h1 h2
    simp [List.getD_eq_getElem?_getD, List.getElem?_eq_getElem h2]

/-- Over a list of axes on each of which the operand's extent is the output's
or 1, the product of the output's extents is the product of the operand's
extents times the product of the output's extents on the axes where the two
differ. -/
theorem prod_split_reduced (L : List Nat) (xg og : Nat → Nat)
    (h : ∀ j ∈ L, xg j = og j ∨ xg j = 1) :
    (L.map og).prod =
      (L.map xg).prod * ((L.filter fun j => xg j != og j).map og).prod := by
  induction L with
  | nil => simp
  | cons a L ih =>
    have iha := ih (fun j hj => h j (List.mem_cons_of_mem a hj))
    by_cases hc : xg a = og a
    · have hf : (xg a != og a) = false := by simp [hc]
      rw [List.filter_cons_of_neg (by simp [hf])]
      simp only [List.map_cons, List.prod_cons]
      rw [iha, hc, Nat.mul_assoc]
    · have hf : (xg a != og a) = true := by simp [hc]
      simp only [List.filter_cons, hf, if_true, List.map_cons, List.prod_cons]
      have h1 : xg a = 1 := (h a (List.mem_cons_self a L)).resolve_left hc
      rw [iha, h1]
      ring

/-- The element count of the output is the element count of the operand times
the product of the extents of the reduced axes. -/
theorem size_split (x out : Dim) (hnd : x.nd ≤ out.nd)
    (hax : ∀ j, x.get j = out.get j ∨ x.get j = 1) (hbd : x.bd = out.bd ∨ x.bd = 1) :
    out.size = x.size * (reducedExtents x out).prod := by
  have ho : out.d.prod = ((List.range out.nd).map out.get).prod := by
    show out.d.prod = ((List.range out.d.length).map fun i => out.d.getD i 1).prod
    rw [range_map_getD]
  have hx : x.d.prod = ((List.range out.nd).map x.get).prod := by
    apply prod_eq_of_getD_eq
    intro i
    by_cases hi : i < out.nd
    · simp [List.getD_eq_getElem?_getD, List.getElem?_map, List.getElem?_range hi, Dim.get]
    · have h1 : x.d.getD i 1 = 1 := Dim.get_of_le x i (by omega)
      rw [h1, List.getD_eq_getElem?_getD, List.getElem?_eq_none (by simpa using hi)]
      rfl
  have hf := prod_split_reduced (List.range out.nd) x.get out.get (fun j _ => hax j)
  have hb : out.bd = x.bd * (if x.bd != out.bd then [out.bd] else []).prod := by
    by_cases hc : x.bd = out.bd
    · simp [hc]
    · have h1 : x.bd = 1 := hbd.resolve_left hc
      have hf : (x.bd != out.bd) = true := by simp [hc]
      rw [hf, if_pos rfl, h1]
      simp
  simp only [Dim.size, Dim.batch_size, reducedExtents, List.prod_append]
  rw [ho, hx, hf]
  generalize ((List.range out.nd).map x.get).prod = A
  generalize (((List.range out.nd).filter fun j => x.get j != out.get j).map out.get).prod = R
  generalize hB : (if x.bd != out.bd then [out.bd] else []).prod = B at hb ⊢
  rw [hb]
  ring

/-- Extents read with `Dim::operator[]` are positive when the stored extents
are. -/
theorem get_pos_of_raw (x : Dim) (hp : ∀ i, i < x.nd → 1 ≤ x.d.getD i 0) (j : Nat) :
    0 < x.get j := by
  by_cases hj : j < x.nd
  · rw [← Dim.getD_eq_get x j hj]
    exact hp j hj
  · rw [Dim.get_of_le x j (not_lt.mp hj)]
    exact Nat.one_pos

theorem reducedExtents_pos (x out : Dim) (hp : ∀ j, 0 < out.get j) (hb : 0 < out.bd) :
    0 < (reducedExtents x out).prod := by
  apply List.prod_pos
  intro a ha
  simp only [reducedExtents, List.mem_append, List.mem_map] at ha
  rcases ha with ⟨j, _, rfl⟩ | ha
  · exact hp j
  · split_ifs at ha
    · rw [List.mem_singleton] at ha
      rw [ha]
      exact hb
    · exact absurd ha (List.not_mem_nil a)

/-- The left operand of a pair legal for `CwiseSum` has, on every axis and on
batch, the output's extent or extent 1. -/
theorem sum_left_fits (x0 x1 : Dim) (hleg : SumLegal x0 x1) :
    (∀ j, x0.get j = (Dim.ofVector (outDims x0 x1) (max x0.bd x1.bd)).get j ∨ x0.get j = 1) ∧
      (x0.bd = (Dim.ofVector (outDims x0 x1) (max x0.bd x1.bd)).bd ∨ x0.bd = 1) := by
  refine ⟨fun j => ?_, ?_⟩
  · rw [outDims_get]
    by_cases hm : j < min x0.nd x1.nd
    · rw [if_pos hm]
      have h := hleg.1 j hm
      rw [Dim.getD_eq_get x0 j (lt_of_lt_of_le hm (min_le_left _ _)),
        Dim.getD_eq_get x1 j (lt_of_lt_of_le hm (min_le_right _ _))] at h
      omega
    · rw [if_neg hm]
      by_cases h0 : j < x0.nd
      · rw [if_pos h0]
        exact Or.inl rfl
      · exact Or.inr (Dim.get_of_le x0 j (not_lt.mp h0))
  · show x0.bd = max x0.bd x1.bd ∨ x0.bd = 1
    have h := hleg.2
    omega

/-- Both operands of a pair legal for `CwiseSum` have, on every axis and on
batch, the output's extent or extent 1, and no more axes than the output. -/
theorem sum_operands_fit (x0 x1 out : Dim) (hleg : SumLegal x0 x1)
    (hout : out = Dim.ofVector (outDims x0 x1) (max x0.bd x1.bd)) (x : Dim)
    (hx : x = x0 ∨ x = x1) :
    x.nd ≤ out.nd ∧ (∀ j, x.get j = out.get j ∨ x.get j = 1) ∧
      (x.bd = out.bd ∨ x.bd = 1) := by
  have hnd : out.nd = max x0.nd x1.nd := by rw [hout]; exact outDims_length x0 x1
  rcases hx with rfl | rfl
  · rw [hout]
    exact ⟨by rw [← hout, hnd]; exact le_max_left _ _, sum_left_fits x x1 hleg⟩
  · rw [hout, outDims_comm x0 x, max_comm x0.bd x.bd]
    refine ⟨?_, sum_left_fits x x0 (sumLegal_comm x0 x hleg)⟩
    rw [← outDims_comm x0 x, ← max_comm x0.bd x.bd, ← hout, hnd]
    exact le_max_right _ _

/-- On the `tb<4>()` view the extents of the reduced axes are the output's
extents at the axes listed by `reducedAxes`. -/
theorem reducedExtents_eq_map (x out : Dim) (h4 : out.nd ≤ 4) :
    reducedExtents x out = (reducedAxes x out).map fun a => out.tb4.getD a 1 := by
  simp only [reducedExtents, reducedAxes, List.map_append]
  congr 1
  · apply List.map_congr_left
    intro j hj
    have hj4 : j < 4 := by
      have := List.mem_range.mp (List.mem_filter.mp hj).1
      omega
    rcases j with _ | _ | _ | _ | j
    · rfl
    · rfl
    · rfl
    · rfl
    · omega
  · split_ifs <;> rfl

/-- Dropping from the output's extents the axes on which the operand's extent
differs leaves extents whose product is the product of the operand's extents. -/
theorem keepAxes_prod (A F : List Nat) (h : List.Forall₂ (fun a f => a = f ∨ a = 1) A F) :
    (keepAxes (List.zipWith (fun a f => a != f) A F) F).prod = A.prod := by
  induction h with
  | nil => rfl
  | @cons a f A F hax _ ih =>
    by_cases hc : a = f
    · have hf : (a != f) = false := by simp [hc]
      simp only [List.zipWith_cons_cons, keepAxes]
      rw [if_neg (by rw [hf]; exact Bool.false_ne_true), List.prod_cons, List.prod_cons, ih, hc]
    · have hf : (a != f) = true := by simp [hc]
      have h1 : a = 1 := hax.resolve_left hc
      simp only [List.zipWith_cons_cons, keepAxes]
      rw [if_pos hf, List.prod_cons, ih, h1, Nat.one_mul]

/-- The axis-reduction of an expression over the output's `tb<4>()` extents by
the reduced axes of an operand has as many coefficients as the operand's
`tb<4>()` view. -/
theorem sum_reduced_dims {α : Type} [Add α] [Zero α] (x : Dim) (dEdf : Tensor α)
    (h4 : dEdf.d.nd ≤ 4) (hnd : x.nd ≤ dEdf.d.nd)
    (hax : ∀ j, x.get j = dEdf.d.get j ∨ x.get j = 1) (hbd : x.bd = dEdf.d.bd ∨ x.bd = 1) :
    (dEdf.tb4.sum (reducedAxes x dEdf.d)).dims.prod = x.tb4.prod := by
  have hm := redMask_five (fun j => x.get j != dEdf.d.get j) dEdf.d.nd (x.bd != dEdf.d.bd) h4
    (fun j hj => by
      show (x.get j != dEdf.d.get j) = false
      rw [Dim.get_of_le _ j (le_trans hnd hj), Dim.get_of_le _ j hj]; rfl)
  show (keepAxes (redMask 5 (reducedAxes x dEdf.d)) dEdf.d.tb4).prod = x.tb4.prod
  rw [show reducedAxes x dEdf.d =
    (List.range dEdf.d.nd).filter (fun j => x.get j != dEdf.d.get j) ++
      (if (x.bd != dEdf.d.bd) = true then [4] else []) from rfl, hm]
  exact keepAxes_prod x.tb4 dEdf.d.tb4
    (.cons (hax 0) (.cons (hax 1) (.cons (hax 2) (.cons (hax 3) (.cons hbd .nil)))))

/-- C33 (counterexample). Accepted pairs with a zero extent. The quotient
`[0] / [1]` has output `[1]`: the numerator's extent 0 is neither the output's
extent 1 nor 1. The quotient of batch extent 0 over batch extent 1 has output
batch 1: the numerator's batch extent 0 is neither. The sum `[2] + [2,0]` has
output `[2,0]` with 0 elements: the operand `[2]` is reduced on axis 1 of
extent 0, the product of the reduced extents is 0, and no quotient of 0 by it
is the operand's element count 2. -/
theorem C33_zero_extent_operand :
    (CwiseQuotient.dim_forward [⟨[0], 1⟩, ⟨[1], 1⟩] = .ok ⟨[1], 1⟩ ∧
        (⟨[0], 1⟩ : Dim).get 0 ≠ (⟨[1], 1⟩ : Dim).get 0 ∧ (⟨[0], 1⟩ : Dim).get 0 ≠ 1) ∧
      (CwiseQuotient.dim_forward [⟨[2], 0⟩, ⟨[2], 1⟩] = .ok ⟨[2], 1⟩ ∧
        (⟨[2], 0⟩ : Dim).bd ≠ (⟨[2], 1⟩ : Dim).bd ∧ (⟨[2], 0⟩ : Dim).bd ≠ 1) ∧
      (CwiseSum.dim_forward [⟨[2], 1⟩, ⟨[2, 0], 1⟩] = .ok ⟨[2, 0], 1⟩ ∧
        reducedExtents ⟨[2], 1⟩ ⟨[2, 0], 1⟩ = [0] ∧
        (⟨[2, 0], 1⟩ : Dim).size = 0 ∧ (⟨[2], 1⟩ : Dim).size = 2 ∧
        (⟨[2, 0], 1⟩ : Dim).size / (reducedExtents ⟨[2], 1⟩ ⟨[2, 0], 1⟩).prod ≠
          (⟨[2], 1⟩ : Dim).size) :=
  ⟨⟨rfl, by decide, by decide⟩, ⟨rfl, by decide, by decide⟩,
    ⟨rfl, by decide, by decide, by decide, by decide⟩⟩

/-- C33 (amended). For every operand pair of shapes with every feature extent
at least 1 and, for the left operand, batch extent at least 1, accepted by
`dim_forward` of `CwiseSum`, `CwiseMultiply` or `CwiseQuotient`, and each of
the two operands `x`: on every axis, the operand's extent read as 1 beyond its
rank, the operand's extent is the output's extent or 1, and likewise for the
batch extent; the product of the output's extents on the reduced axes (those
where the operand differs from the output) is positive and the output's
element count divided by it is the operand's element count. On the `tb<4>()`
view (output rank at most 4) these are the extents at the axes of
`reducedAxes`, and the reduction of a gradient of the output's shape over
these axes has exactly as many coefficients as the operand's `tb<4>()` view,
the operand's element count: the reshape to the operand's shape preserves the
size. -/
theorem C33_operand_extent (α : Type) [Add α] [Zero α] (x0 x1 out : Dim)
    (hp0 : ∀ i, i < x0.nd → 1 ≤ x0.d.getD i 0) (hb0 : 1 ≤ x0.bd)
    (hp1 : ∀ i, i < x1.nd → 1 ≤ x1.d.getD i 0)
    (h : CwiseSum.dim_forward [x0, x1] = .ok out ∨ CwiseMultiply.dim_forward [x0, x1] = .ok out ∨
      CwiseQuotient.dim_forward [x0, x1] = .ok out) :
    ∀ x, x = x0 ∨ x = x1 →
      (∀ j, x.get j = out.get j ∨ x.get j = 1) ∧ (x.bd = out.bd ∨ x.bd = 1) ∧
        0 < (reducedExtents x out).prod ∧
        out.size / (reducedExtents x out).prod = x.size ∧
        (out.nd ≤ 4 →
          reducedExtents x out = (reducedAxes x out).map (fun a => out.tb4.getD a 1) ∧
            ∀ dEdf : Tensor α, dEdf.d = out →
              (dEdf.tb4.sum (reducedAxes x out)).dims.prod = x.tb4.prod ∧
                x.tb4.prod = x.size) := by
  have hleg : SumLegal x0 x1 ∧ out = Dim.ofVector (outDims x0 x1) (max x0.bd x1.bd) := by
    rcases h with h | h | h
    · exact (sum_dim_forward_eq_ok x0 x1 out).1 h
    · exact (multiply_dim_forward_eq_ok x0 x1 out).1 h
    · obtain ⟨hq, ho⟩ := (quotient_dim_forward_eq_ok x0 x1 out).1 h
      exact ⟨quotientLegal_sumLegal x0 x1 hp0 hb0 hq, ho⟩
  obtain ⟨hleg, hout⟩ := hleg
  have hopos : ∀ j, 0 < out.get j := by
    apply get_pos_of_raw
    intro i hi
    have hi2 : i < max x0.nd x1.nd := by
      have : out.nd = max x0.nd x1.nd := by rw [hout]; exact outDims_length x0 x1
      omega
    rw [hout]
    exact outDims_pos x0 x1 hp0 hp1 i hi2
  intro x hx
  obtain ⟨hnd, hax, hbd⟩ := sum_operands_fit x0 x1 out hleg hout x hx
  have hobd : 0 < out.bd := by
    have : out.bd = max x0.bd x1.bd := by rw [hout]; rfl
    omega
  have hR := reducedExtents_pos x out hopos hobd
  refine ⟨hax, hbd, hR, ?_, fun h4 => ⟨reducedExtents_eq_map x out h4, ?_⟩⟩
  · rw [size_split x out hnd hax hbd]
    exact Nat.mul_div_cancel _ hR
  · intro dEdf hd
    subst hd
    exact ⟨sum_reduced_dims x dEdf h4 hnd hax hbd,
      (Dim.size_eq_tb4_prod x (le_trans hnd h4)).symm⟩

/-- The scenario-1 shapes for C33: `[3,1] + [1,4]` has output `[3,4]` with 12
elements. The operand `[3,1]` is reduced on axis 1 of extent 4 and has
`12 / 4 = 3` elements; the operand `[1,4]` is reduced on axis 0 of extent 3
and has `12 / 3 = 4` elements. -/
theorem C33_operand_extent_witness :
    CwiseSum.dim_forward [exA.d, exB.d] = .ok exAB.d ∧
      (reducedExtents exA.d exAB.d = [4] ∧ exAB.d.size / 4 = exA.d.size ∧ exA.d.size = 3) ∧
      (reducedExtents exB.d exAB.d = [3] ∧ exAB.d.size / 3 = exB.d.size ∧ exB.d.size = 4) := by
  have h := C33_operand_extent Int exA.d exB.d exAB.d (by decide) (by decide) (by decide)
    (Or.inl rfl)
  have hA := (h exA.d (Or.inl rfl)).2.2.2.1
  have hB := (h exB.d (Or.inr rfl)).2.2.2.1
  have eA : reducedExtents exA.d exAB.d = [4] := by decide
  have eB : reducedExtents exB.d exAB.d = [3] := by decide
  rw [eA] at hA
  rw [eB] at hB
  exact ⟨rfl, ⟨eA, hA, by decide⟩, ⟨eB, hB, by decide⟩⟩

/-! ## The element-count test of `CwiseQuotient` -/

theorem prod_eq_one_nil (R : List Nat) (h : ∀ a ∈ R, 2 ≤ a) (hp : R.prod = 1) : R = [] := by
  cases R with
  | nil => rfl
  | cons a R =>
    exfalso
    rw [List.prod_cons] at hp
    have h2 := h a (List.mem_cons_self a R)
    have h1 : a = 1 := Nat.eq_one_of_mul_eq_one_right hp
    omega

/-- Every extent of a reduced axis is at least 2 when the output's extents are
positive. -/
theorem reducedExtents_two_le (x out : Dim) (hax : ∀ j, x.get j = out.get j ∨ x.get j = 1)
    (hbd : x.bd = out.bd ∨ x.bd = 1) (hp : ∀ j, 0 < out.get j) (hb : 0 < out.bd) :
    ∀ a ∈ reducedExtents x out, 2 ≤ a := by
  intro a ha
  simp only [reducedExtents, List.mem_append, List.mem_map, List.mem_filter] at ha
  rcases ha with ⟨j, ⟨_, hne⟩, rfl⟩ | ha
  · have h1 : x.get j ≠ out.get j := by simpa using hne
    have h2 := hax j
    have h3 := hp j
    omega
  · split_ifs at ha with hne
    · rw [List.mem_singleton] at ha
      have h1 : x.bd ≠ out.bd := by simpa using hne
      omega
    · exact absurd ha (List.not_mem_nil a)

/-- A denominator legal against a numerator of positive extents and of rank
not below its own has the numerator's element count exactly when it agrees
with the numerator on every axis and on batch. -/
theorem quotient_size_eq_iff (x0 x1 : Dim) (hleg : QuotientLegal x0 x1)
    (hp0 : ∀ i, i < x0.nd → 1 ≤ x0.d.getD i 0) (hb0 : 1 ≤ x0.bd) (hnd : x1.nd ≤ x0.nd) :
    x0.size = x1.size ↔ (∀ j, x0.get j = x1.get j) ∧ x0.bd = x1.bd := by
  obtain ⟨hax, hbd⟩ := quotient_axis x0 x1 hleg hnd
  have hpos := get_pos_of_raw x0 hp0
  constructor
  · intro hs
    have hsplit := size_split x1 x0 hnd hax hbd
    have hx0 : 0 < x0.size := by
      simp only [Dim.size, Dim.batch_size]
      refine Nat.mul_pos (List.prod_pos fun a ha => ?_) hb0
      obtain ⟨i, hi, rfl⟩ := List.getElem_of_mem ha
      have := hp0 i hi
      rw [List.getD_eq_getElem?_getD, List.getElem?_eq_getElem hi] at this
      exact this
    have hR : (reducedExtents x1 x0).prod = 1 := by
      rw [← hs] at hsplit
      have h1 : x0.size * 1 = x0.size * (reducedExtents x1 x0).prod := by
        rw [Nat.mul_one]; exact hsplit
      exact (Nat.eq_of_mul_eq_mul_left hx0 h1).symm
    have hnil := prod_eq_one_nil _ (reducedExtents_two_le x1 x0 hax hbd hpos hb0) hR
    simp only [reducedExtents, List.append_eq_nil, List.map_eq_nil_iff,
      List.filter_eq_nil_iff, List.mem_range] at hnil
    refine ⟨fun j => ?_, ?_⟩
    · by_cases hj : j < x0.nd
      · have e : x1.get j = x0.get j := by simpa using hnil.1 j hj
        exact e.symm
      · rw [Dim.get_of_le x0 j (not_lt.mp hj), Dim.get_of_le x1 j (by omega)]
    · by_contra hc
      have hne : (x1.bd != x0.bd) = true := by
        simp only [bne_iff_ne, ne_eq]
        exact fun e => hc e.symm
      have := hnil.2
      rw [if_pos hne] at this
      exact List.cons_ne_nil _ _ this
  · rintro ⟨hj, hb⟩
    simp only [Dim.size]
    rw [Dim.batch_size_eq_of_get_eq x0 x1 hj, hb]

/-- With element counts that differ, the count `n_red` of
`CwiseQuotient::backward_dev_impl` is at least 1. -/
theorem quotient_n_red_pos (x0 x1 : Dim) (hnd : x1.nd ≤ x0.nd) (hs : x0.size ≠ x1.size) :
    1 ≤ (if x0.bd != x1.bd then 1 else 0) +
      (List.range x0.nd).countP fun di => x0.get di != x1.get di := by
  by_contra hc
  have h0 : (if x0.bd != x1.bd then 1 else 0) +
      (List.range x0.nd).countP (fun di => x0.get di != x1.get di) = 0 := by omega
  have hb : x0.bd = x1.bd := by
    by_contra hne
    have : (x0.bd != x1.bd) = true := by simpa using hne
    rw [if_pos this] at h0
    omega
  have hcnt : (List.range x0.nd).countP (fun di => x0.get di != x1.get di) = 0 := by omega
  rw [List.countP_eq_zero] at hcnt
  apply hs
  simp only [Dim.size]
  rw [Dim.batch_size_eq_of_get_eq x0 x1 (fun j => ?_), hb]
  by_cases hj : j < x0.nd
  · have := hcnt j (List.mem_range.mpr hj)
    simpa using this
  · rw [Dim.get_of_le x0 j (not_lt.mp hj), Dim.get_of_le x1 j (by omega)]

/-- C31. `CwiseQuotient`'s forward and backward choose the path without
broadcasting by the test `xs[0]->d.size() == xs[1]->d.size()`. For every
operand pair accepted by `CwiseQuotient::dim_forward` whose numerator has
every feature extent and the batch extent at least 1 (the denominator's are
then at least 1 as well) and whose denominator has no higher rank than the
numerator: the element counts are equal if and only if the operands agree on
every feature axis (an axis beyond the rank read as 1) and on batch. When they
agree, forward takes the quotient of the plain `tb<4>()` views and backward
for the denominator (`i = 1`) subtracts without a reduction. When the element
counts differ, the `n_red` computed by backward for `i = 1` is at least 1, and
when it is below 5 backward runs `backward_helper<n_red>`. -/
theorem C31_quotient_size_test {α : Type} [Add α] [Zero α] [Sub α] [Mul α] [Div α]
    (asserts : Bool) (junk : Nat) (buf : Nat → α) (x0 x1 fx dEdf dEdxi : Tensor α)
    (s : AlignedMemoryPool)
    (hQ : Accepted (CwiseQuotient.dim_forward [x0.d, x1.d]))
    (hp0 : ∀ i, i < x0.d.nd → 1 ≤ x0.d.d.getD i 0) (hb0 : 1 ≤ x0.d.bd)
    (hnd : x1.d.nd ≤ x0.d.nd) :
    (x0.d.size = x1.d.size ↔ (∀ j, x0.d.get j = x1.d.get j) ∧ x0.d.bd = x1.d.bd) ∧
      ((∀ j, x0.d.get j = x1.d.get j) ∧ x0.d.bd = x1.d.bd →
        CwiseQuotient.forward_dev_impl x0 x1 fx =
            fx.assign 0 (Expr.cwise (fun a b => a / b) x0.tb4 x1.tb4) ∧
          CwiseQuotient.backward_dev_impl asserts junk buf x0 x1 dEdf 1 dEdxi s =
            .ok (dEdxi.accum (fun a b => a - b) dEdxi.d.tb4
              (Expr.cwise (fun a b => a * b)
                (Expr.cwise (fun a b => a / b) dEdf.tb4 (x1.tb4.map fun a => a * a)) x0.tb4),
              s)) ∧
      (x0.d.size ≠ x1.d.size →
        1 ≤ (if x0.d.bd != x1.d.bd then 1 else 0) +
            (List.range x0.d.nd).countP (fun di => x0.d.get di != x1.d.get di) ∧
          ((if x0.d.bd != x1.d.bd then 1 else 0) +
              (List.range x0.d.nd).countP (fun di => x0.d.get di != x1.d.get di) < 5 →
            CwiseQuotient.backward_dev_impl asserts junk buf x0 x1 dEdf 1 dEdxi s =
              .ok (CwiseQuotient.backward_helper
                ((if x0.d.bd != x1.d.bd then 1 else 0) +
                  (List.range x0.d.nd).countP (fun di => x0.d.get di != x1.d.get di))
                junk buf x0 x1 dEdf 1 dEdxi s))) := by
  obtain ⟨out, hout⟩ := (accepted_iff_exists_ok _).1 hQ
  obtain ⟨hleg, -⟩ := (quotient_dim_forward_eq_ok x0.d x1.d out).1 hout
  have hiff := quotient_size_eq_iff x0.d x1.d hleg hp0 hb0 hnd
  refine ⟨hiff, fun hag => ?_, fun hs => ?_⟩
  · have hs := hiff.2 hag
    refine ⟨?_, quotient_backward_equal_size asserts junk buf x0 x1 dEdf dEdxi s hs⟩
    simp only [CwiseQuotient.forward_dev_impl, hs, beq_self_eq_true, if_true]
  · exact ⟨quotient_n_red_pos x0.d x1.d hnd hs,
      fun hfour => quotient_backward_dispatch asserts junk buf x0 x1 dEdf dEdxi s hs hfour⟩

/-- The spec's quotient scenario for C31: numerator `[4, 9]` of shape `[2]`,
denominator `[2]` of shape `[1]`. The element counts 2 and 1 differ, the
operands disagree on axis 0, `n_red` is 1 and backward for the denominator
runs `backward_helper<1>`. -/
theorem C31_quotient_size_test_witness :
    Accepted (CwiseQuotient.dim_forward [exNum.d, exDen.d]) ∧
      exNum.d.size ≠ exDen.d.size ∧ exNum.d.get 0 ≠ exDen.d.get 0 ∧
      CwiseQuotient.backward_dev_impl true 0 (fun _ => 0) exNum exDen exGrad2 1
          (zeroRat exDen.d) ⟨0⟩ =
        .ok (CwiseQuotient.backward_helper 1 0 (fun _ => 0) exNum exDen exGrad2 1
          (zeroRat exDen.d) ⟨0⟩) := by
  have hacc : Accepted (CwiseQuotient.dim_forward [exNum.d, exDen.d]) := by decide
  have hs : exNum.d.size ≠ exDen.d.size := by decide
  have h := C31_quotient_size_test true 0 (fun _ => (0 : Rat)) exNum exDen exNum exGrad2
    (zeroRat exDen.d) ⟨0⟩ hacc (by decide) (by decide) (by decide)
  have hne : exNum.d.get 0 ≠ exDen.d.get 0 := fun e =>
    hs (h.1.2 ⟨fun j => by
      rcases j with _ | j
      · exact e
      · rfl, rfl⟩)
  exact ⟨hacc, hs, hne, (h.2.2 hs).2 (by decide)⟩

end Dynet
